import Mathlib

/-!
# Page cache of `buffer_cache/alt`: acquirer queue, eviction, flush ordering

A shallow embedding of `src/buffer_cache/alt/page.cc` and
`src/buffer_cache/alt/evicter.cc` (namespace `alt`), followed by the time zone
sanitization of `src/rdb_protocol/pseudo_time.cc` (namespace `pseudo`) and the
map of `src/concurrency/watchable_map.tcc` (namespace `watchable_map`).

* Pointers to heap objects become natural numbers (`page_t *` is the index
  of the page in the table of allocated pages; `page_txn_t *` is the
  index of the transaction in the table of transactions).
* The intrusive list `acquirers_` becomes a `List`; an acquirer is named by its
  position in the queue, `acquirers_.prev` / `acquirers_.next` are the
  neighbouring positions.
* `cond_t` one-shot signals become `Bool` (pulsed or not).
-/

namespace alt

/-! ## Data model of `current_page_t` and `current_page_acq_t` -/

/-- The access mode `alt_access_t` of an acquirer. -/
inductive alt_access_t where
  | read
  | write
  deriving DecidableEq, Repr

abbrev block_id_t := Nat

/-- The fields of `current_page_acq_t` that the queue protocol reads and writes.
`read_cond_` and `write_cond_` hold whether the signal has been pulsed;
`snapshotted_page_` is the `page_ptr_t` (`none` when it is empty). The field
`current_page_` is not stored: it is non-null exactly for the acquirers in
`acquirers_`, and null for those in `detached_` below. -/
structure current_page_acq_t where
  access_ : alt_access_t
  declared_snapshotted_ : Bool
  read_cond_ : Bool
  write_cond_ : Bool
  dirtied_page_ : Bool
  snapshotted_page_ : Option Nat
  deriving DecidableEq, Repr

/-- The constructor of `page_t` that a `new page_t(...)` expression calls:
`page_t(block_id, page_cache)`, which loads the block from the serializer;
`page_t(block_size, buf, page_cache)`, which every caller in `page.cc` gives
`serializer->get_block_size()` and the fresh buffer `serializer->malloc()`; and
`page_t(copyee, page_cache)`, which copies the buffer of the page `copyee`. -/
inductive page_ctor_t where
  | with_block_id (block_id : block_id_t)
  | with_block_size_and_buf
  | with_copyee (copyee : Nat)
  deriving DecidableEq, Repr

/-- One `current_page_t` together with the parts of the cache it touches:
the snapshot reference counts of the allocated pages (`snapshot_refcount_` of
page `p` is entry `p`; allocating a page appends an entry), the `page_ptr_t`
held by running `load_from_copyee` coroutines, the acquirers that were detached
from the queue (their `current_page_` is null), and `free_list_t::free_ids_`.
`page_ctors_` is a history variable, not a field of the source: entry `p` is the
constructor that created page `p`. -/
structure current_page_t where
  block_id : block_id_t
  page_ : Option Nat
  is_deleted_ : Bool
  acquirers_ : List current_page_acq_t
  detached_ : List current_page_acq_t
  snapshot_refcount_ : List Nat
  copyee_ptrs_ : List Nat
  free_ids_ : List block_id_t
  page_ctors_ : List page_ctor_t
  deriving DecidableEq, Repr

/-- State after `current_page_t::current_page_t()` for block `b` (used by
`page_for_block_id`): no page yet, not deleted, no acquirers. -/
def current_page_t.init (b : block_id_t) : current_page_t :=
  { block_id := b, page_ := none, is_deleted_ := false, acquirers_ := [],
    detached_ := [], snapshot_refcount_ := [], copyee_ptrs_ := [], free_ids_ := [],
    page_ctors_ := [] }

/-- A freshly initialised acquirer (`current_page_acq_t::init`): signals not
pulsed, not snapshotted, page not dirtied, no snapshotted page. -/
def current_page_acq_t.fresh (access : alt_access_t) : current_page_acq_t :=
  { access_ := access, declared_snapshotted_ := false, read_cond_ := false,
    write_cond_ := false, dirtied_page_ := false, snapshotted_page_ := none }

/-! ## Pages and `page_ptr_t` -/

/-- The call `new page_t(...)` through the constructor `ctor`: the new page has
`snapshot_refcount_ = 0`; its reference is the next unused index. -/
def new_page_t (ctor : page_ctor_t) (s : current_page_t) : Nat × current_page_t :=
  (s.snapshot_refcount_.length,
   { s with snapshot_refcount_ := s.snapshot_refcount_ ++ [0],
            page_ctors_ := s.page_ctors_ ++ [ctor] })

/-- Implements `page_t::add_snapshotter`: `++snapshot_refcount_`. -/
def add_snapshotter (p : Nat) (s : current_page_t) : current_page_t :=
  { s with snapshot_refcount_ := s.snapshot_refcount_.modify (fun n => n + 1) p }

/-- Implements `page_t::remove_snapshotter`: `--snapshot_refcount_` (the page is
destroyed when the count reaches zero; its entry then stays at zero). -/
def remove_snapshotter (p : Nat) (s : current_page_t) : current_page_t :=
  { s with snapshot_refcount_ := s.snapshot_refcount_.modify (fun n => n - 1) p }

/-- Implements `page_t::num_snapshot_references`. -/
def num_snapshot_references (p : Nat) (s : current_page_t) : Nat :=
  s.snapshot_refcount_.getD p 0

/-- Implements `page_ptr_t::init(page, cache)` for a pointer that is not the
`page_` field: a null page is stored as is, otherwise the page gains a
snapshotter. -/
def page_ptr_init (p : Option Nat) (s : current_page_t) : current_page_t :=
  match p with
  | none => s
  | some q => add_snapshotter q s

/-- Implements `page_ptr_t::reset()` for a pointer holding `p`. -/
def page_ptr_reset (p : Option Nat) (s : current_page_t) : current_page_t :=
  match p with
  | none => s
  | some q => remove_snapshotter q s

/-- Implements `current_page_t::convert_from_serializer_if_necessary`: when
`page_` is empty a page loading block `block_id` is created and `page_` is
initialised with it. -/
def convert_from_serializer_if_necessary (s : current_page_t) : current_page_t :=
  match s.page_ with
  | some _ => s
  | none =>
    let (p, s1) := new_page_t (page_ctor_t.with_block_id s.block_id) s
    add_snapshotter p { s1 with page_ := some p }

/-- Implements `current_page_t::the_page_for_read`: returns `page_` after
`convert_from_serializer_if_necessary`. -/
def the_page_for_read (s : current_page_t) : Option Nat × current_page_t :=
  let s1 := convert_from_serializer_if_necessary s
  (s1.page_, s1)

/-- Implements `current_page_t::the_page_for_read_or_deleted`. -/
def the_page_for_read_or_deleted (s : current_page_t) : Option Nat × current_page_t :=
  if s.is_deleted_ then (none, s) else the_page_for_read s

/-- Implements `page_ptr_t::get_page_for_write` on the `page_` field: when the
page has more than one snapshot reference, `make_copy` allocates a new page
whose `load_from_copyee` coroutine takes a `page_ptr_t` to the copyee, the
temporary `page_ptr_t tmp` takes the copy, and the move assignment releases the
old page from `page_`. -/
def get_page_for_write (s : current_page_t) : Option Nat × current_page_t :=
  match s.page_ with
  | none => (none, s)
  | some p =>
    if num_snapshot_references p s > 1 then
      let (c, s1) := new_page_t (page_ctor_t.with_copyee p) s
      let s2 := add_snapshotter p { s1 with copyee_ptrs_ := s1.copyee_ptrs_ ++ [p] }
      let s3 := add_snapshotter c s2
      let s4 := remove_snapshotter p { s3 with page_ := some c }
      (some c, s4)
    else (some p, s)

/-- Implements `current_page_t::the_page_for_write`. -/
def the_page_for_write (s : current_page_t) : Option Nat × current_page_t :=
  get_page_for_write (convert_from_serializer_if_necessary s)

/-- The end of a `load_from_copyee` coroutine: its `copyee_ptr`, entry `k` of
`copyee_ptrs_`, is destroyed. -/
def load_from_copyee_done (s : current_page_t) (k : Nat) : current_page_t :=
  match s.copyee_ptrs_.get? k with
  | none => s
  | some p => remove_snapshotter p { s with copyee_ptrs_ := s.copyee_ptrs_.eraseIdx k }

/-- Implements `free_list_t::release_block_id`. -/
def release_block_id (b : block_id_t) (s : current_page_t) : current_page_t :=
  { s with free_ids_ := s.free_ids_ ++ [b] }

/-! ## The pulsing algorithm -/

/-- The test `prev == NULL || (prev->access_ == read && prev->read_cond_.is_pulsed())`
of `pulse_pulsables`, where `before` is the part of the queue in front of the
acquirer. -/
def prev_allows_pulse (before : List current_page_acq_t) : Bool :=
  match before.getLast? with
  | none => true
  | some prev => decide (prev.access_ = alt_access_t.read) && prev.read_cond_

/-- The statement `page_.init(new page_t(block_size, malloc(), cache), cache);
is_deleted_ = false;` shared by `pulse_pulsables` (resurrecting a deleted block
for a write acquirer) and `make_non_deleted`. -/
def init_fresh_page (s : current_page_t) : current_page_t :=
  let (p, s0) := new_page_t page_ctor_t.with_block_size_and_buf s
  add_snapshotter p { s0 with page_ := some p, is_deleted_ := false }

/-- The body of `if (cur->declared_snapshotted_)` in `pulse_pulsables`: the
acquirer `cur` (already read-pulsed) gets `snapshotted_page_` initialised with
`the_page_for_read_or_deleted`, its `current_page_` becomes null (it moves to
`detached_`; the caller drops it from the queue), and the block id is released
when `is_deleted_` is set. -/
def detach_snapshotter (s : current_page_t) (cur : current_page_acq_t) : current_page_t :=
  let (p, s1) := the_page_for_read_or_deleted s
  let s2 := page_ptr_init p s1
  let s3 := { s2 with detached_ := s2.detached_ ++ [{ cur with snapshotted_page_ := p }] }
  if s3.is_deleted_ then release_block_id s3.block_id s3 else s3

/-- The `while (cur != NULL)` loop of `current_page_t::pulse_pulsables`.
`before` is the part of the queue in front of `cur` (so `acquirers_.prev(cur)`
is null exactly when `before` is empty), the list argument is `cur` followed by
the rest of the queue. The field `acquirers_` of the state is written back when
the loop ends. -/
def pulse_loop (s : current_page_t) (before : List current_page_acq_t) :
    List current_page_acq_t → current_page_t
  | [] => { s with acquirers_ := before }
  | cur :: rest =>
    let cur1 := { cur with read_cond_ := true }
    match cur.access_ with
    | alt_access_t.read =>
      if cur.declared_snapshotted_ then
        pulse_loop (detach_snapshotter s cur1) before rest
      else
        pulse_loop s (before ++ [cur1]) rest
    | alt_access_t.write =>
      if before.isEmpty then
        let s1 := if s.is_deleted_ then init_fresh_page s else s
        { s1 with acquirers_ := { cur1 with write_cond_ := true } :: rest }
      else
        { s with acquirers_ := before ++ cur1 :: rest }

/-- Implements `current_page_t::pulse_pulsables(acq)` where `acq` is the
acquirer at position `i` of the queue. -/
def pulse_pulsables (s : current_page_t) (i : Nat) : current_page_t :=
  match s.acquirers_.drop i with
  | [] => s
  | acq :: rest =>
    if !prev_allows_pulse (s.acquirers_.take i) then s
    else if decide (acq.access_ = alt_access_t.read) && acq.read_cond_
        && !acq.declared_snapshotted_ then s
    else pulse_loop s (s.acquirers_.take i) (acq :: rest)

/-- Implements `current_page_t::add_acquirer` for a freshly initialised
acquirer with the given access. -/
def add_acquirer (s : current_page_t) (access : alt_access_t) : current_page_t :=
  pulse_pulsables { s with acquirers_ := s.acquirers_ ++ [current_page_acq_t.fresh access] }
    s.acquirers_.length

/-- Implements `current_page_t::remove_acquirer(acq)` for the acquirer at
position `i`: after the removal its successor, if any, is at position `i`. -/
def remove_acquirer (s : current_page_t) (i : Nat) : current_page_t :=
  let s1 := { s with acquirers_ := s.acquirers_.eraseIdx i }
  if i + 1 < s.acquirers_.length then pulse_pulsables s1 i
  else if s.is_deleted_ then release_block_id s.block_id s1
  else s1

/-- Implements `current_page_acq_t::declare_readonly` for the queued acquirer
at position `i`. -/
def declare_readonly (s : current_page_t) (i : Nat) : current_page_t :=
  pulse_pulsables
    { s with acquirers_ := s.acquirers_.modify (fun a => { a with access_ := alt_access_t.read }) i } i

/-- Implements `current_page_acq_t::declare_snapshotted` for the queued acquirer
at position `i`. -/
def declare_snapshotted (s : current_page_t) (i : Nat) : current_page_t :=
  match s.acquirers_.get? i with
  | none => s
  | some a =>
    if a.declared_snapshotted_ then s
    else
      pulse_pulsables
        { s with acquirers_ :=
            s.acquirers_.modify (fun a => { a with declared_snapshotted_ := true }) i } i

/-- Implements `current_page_t::mark_deleted`. -/
def current_page_t.mark_deleted (s : current_page_t) : current_page_t :=
  page_ptr_reset s.page_ { s with is_deleted_ := true, page_ := none }

/-- Implements `current_page_acq_t::mark_deleted` for the queued acquirer at
position `i`, once `write_cond_.wait()` has returned. -/
def mark_deleted (s : current_page_t) (i : Nat) : current_page_t :=
  current_page_t.mark_deleted
    { s with acquirers_ := s.acquirers_.modify (fun a => { a with dirtied_page_ := true }) i }

/-- Implements `current_page_acq_t::current_page_for_write` for the queued
acquirer at position `i`, once `write_cond_.wait()` has returned. -/
def current_page_for_write (s : current_page_t) (i : Nat) : Option Nat × current_page_t :=
  the_page_for_write
    { s with acquirers_ := s.acquirers_.modify (fun a => { a with dirtied_page_ := true }) i }

/-- Implements `current_page_t::make_non_deleted`. -/
def make_non_deleted (s : current_page_t) : current_page_t :=
  init_fresh_page s

/-- Destruction of the `snapshotted_page_` of the detached acquirer at position
`k` of `detached_` (`page_ptr_t::~page_ptr_t`, wherever the pointer was moved). -/
def reset_snapshotted_page (s : current_page_t) (k : Nat) : current_page_t :=
  match s.detached_.get? k with
  | none => s
  | some d =>
    page_ptr_reset d.snapshotted_page_
      { s with detached_ := s.detached_.modify (fun a => { a with snapshotted_page_ := none }) k }

/-! ## Operations on a current page and reachable states -/

/-- The operations a caller can perform on one current page. Acquirers in the
queue are named by their position, detached acquirers and running copy
coroutines by their position in `detached_` and `copyee_ptrs_`. -/
inductive Op where
  | add_acquirer (access : alt_access_t)
  | remove_acquirer (i : Nat)
  | declare_readonly (i : Nat)
  | declare_snapshotted (i : Nat)
  | mark_deleted (i : Nat)
  | current_page_for_read (i : Nat)
  | current_page_for_write (i : Nat)
  | page_for_new_block_id
  | load_from_copyee_done (k : Nat)
  | reset_snapshotted_page (k : Nat)
  deriving DecidableEq, Repr

/-- Whether the operation can run to completion in state `s`: the acquirer it
names exists, the `wait()` on the signal it blocks on returns
(`current_page_for_read` waits for `read_cond_`, `current_page_for_write` and
`mark_deleted` wait for `write_cond_`), and `page_for_new_block_id` reaches this
current page only when `free_list_t::acquire_block_id` returns its block id,
the last entry of `free_ids_`. -/
def Op.enabled (s : current_page_t) : Op → Bool
  | Op.add_acquirer _ => true
  | Op.remove_acquirer i => decide (i < s.acquirers_.length)
  | Op.declare_readonly i => decide (i < s.acquirers_.length)
  | Op.declare_snapshotted i => decide (i < s.acquirers_.length)
  | Op.mark_deleted i =>
    match s.acquirers_.get? i with
    | none => false
    | some a => a.write_cond_
  | Op.current_page_for_read i =>
    match s.acquirers_.get? i with
    | none => false
    | some a => a.read_cond_
  | Op.current_page_for_write i =>
    match s.acquirers_.get? i with
    | none => false
    | some a => a.write_cond_
  | Op.page_for_new_block_id => decide (s.free_ids_.getLast? = some s.block_id)
  | Op.load_from_copyee_done k => decide (k < s.copyee_ptrs_.length)
  | Op.reset_snapshotted_page k => decide (k < s.detached_.length)

/-- The `rassert` conditions the source states for the operation (debug builds
abort when one fails). -/
def Op.asserts_hold (s : current_page_t) : Op → Bool
  | Op.add_acquirer _ => !s.is_deleted_
  | Op.declare_snapshotted i =>
    match s.acquirers_.get? i with
    | none => false
    | some a => decide (a.access_ = alt_access_t.read)
  | Op.mark_deleted i =>
    match s.acquirers_.get? i with
    | none => false
    | some a => decide (a.access_ = alt_access_t.write) && !s.is_deleted_
  | Op.current_page_for_read _ => !s.is_deleted_
  | Op.current_page_for_write i =>
    match s.acquirers_.get? i with
    | none => false
    | some a => decide (a.access_ = alt_access_t.write) && !s.is_deleted_
  | Op.page_for_new_block_id => s.is_deleted_ && s.page_.isNone
  | _ => true

/-- The state after the operation. -/
def Op.apply (s : current_page_t) : Op → current_page_t
  | Op.add_acquirer access => alt.add_acquirer s access
  | Op.remove_acquirer i => alt.remove_acquirer s i
  | Op.declare_readonly i => alt.declare_readonly s i
  | Op.declare_snapshotted i => alt.declare_snapshotted s i
  | Op.mark_deleted i => alt.mark_deleted s i
  | Op.current_page_for_read _ => (the_page_for_read s).2
  | Op.current_page_for_write i => (alt.current_page_for_write s i).2
  | Op.page_for_new_block_id => make_non_deleted { s with free_ids_ := s.free_ids_.dropLast }
  | Op.load_from_copyee_done k => alt.load_from_copyee_done s k
  | Op.reset_snapshotted_page k => alt.reset_snapshotted_page s k

/-- Runs a sequence of operations; `none` when one of them is not enabled. -/
def run (s : current_page_t) : List Op → Option current_page_t
  | [] => some s
  | op :: ops => if op.enabled s then run (op.apply s) ops else none

/-- Whether every `rassert` holds along a sequence of operations. -/
def run_asserts_hold (s : current_page_t) : List Op → Bool
  | [] => true
  | op :: ops => op.asserts_hold s && run_asserts_hold (op.apply s) ops

/-- State after `current_page_t::current_page_t(block_size, buf, page_cache)`
for block `b` (used by `page_for_new_block_id` for a block id that has no
current page yet): a fresh page, not deleted, no acquirers. -/
def current_page_t.init_new (b : block_id_t) : current_page_t :=
  init_fresh_page (current_page_t.init b)

/-- The states of a current page reachable from its construction (by either
constructor) by enabled operations. -/
inductive Reachable : current_page_t → Prop where
  | init (b : block_id_t) : Reachable (current_page_t.init b)
  | init_new (b : block_id_t) : Reachable (current_page_t.init_new b)
  | step (s : current_page_t) (op : Op) :
      Reachable s → op.enabled s = true → Reachable (op.apply s)

/-! ## Invariants of the acquirer queue -/

/-- A reader whose read signal is pulsed. -/
def read_pulsed_reader (a : current_page_acq_t) : Bool :=
  decide (a.access_ = alt_access_t.read) && a.read_cond_

/-- The queue starts with read-pulsed readers; the first acquirer that is not
one is followed only by acquirers whose read signal is not pulsed. -/
def arrival_ordered : List current_page_acq_t → Bool
  | [] => true
  | a :: rest =>
    if read_pulsed_reader a then arrival_ordered rest
    else rest.all (fun b => !b.read_cond_)

/-- No acquirer of the list has its write signal pulsed. -/
def write_free (l : List current_page_acq_t) : Bool :=
  l.all (fun b => !b.write_cond_)

/-- The invariant of the queue: arrival order of read signals, and no write
signal pulsed behind the head. -/
def queue_inv (q : List current_page_acq_t) : Prop :=
  arrival_ordered q = true ∧ write_free q.tail = true

/-! ## Sample traces -/

/-- A write acquirer arrives, then a read acquirer, then another write
acquirer. -/
def trace_writer_reader_writer : List Op :=
  [Op.add_acquirer alt_access_t.write, Op.add_acquirer alt_access_t.read,
   Op.add_acquirer alt_access_t.write]

/-- A write acquirer arrives, a read acquirer queues behind it, and the writer
calls `declare_readonly`. -/
def trace_downgrade : List Op :=
  [Op.add_acquirer alt_access_t.write, Op.add_acquirer alt_access_t.read,
   Op.declare_readonly 0]

/-- A write acquirer arrives, a read acquirer queues behind it, the writer
marks the block deleted and is destroyed: `page_txn_t::remove_acquirer` makes it
call `declare_readonly` and `declare_snapshotted`. -/
def trace_delete_with_follower : List Op :=
  [Op.add_acquirer alt_access_t.write, Op.add_acquirer alt_access_t.read,
   Op.mark_deleted 0, Op.declare_readonly 0, Op.declare_snapshotted 0]

/-- A read acquirer arrives, then a write acquirer. -/
def trace_reader_writer : List Op :=
  [Op.add_acquirer alt_access_t.read, Op.add_acquirer alt_access_t.write]

/-- The final state of a sequence of operations (the argument itself when an
operation is not enabled). -/
def run_from (s : current_page_t) (ops : List Op) : current_page_t :=
  (run s ops).getD s

/-! ## Snapshot reference counts -/

/-- The number of `page_ptr_t` objects holding page `P`: the `page_` field of
the current page, the `snapshotted_page_` of the detached acquirers, and the
`copyee_ptr` of the running `load_from_copyee` coroutines. -/
def holders (P : Nat) (s : current_page_t) : Nat :=
  (if s.page_ = some P then 1 else 0)
    + s.detached_.countP (fun d => decide (d.snapshotted_page_ = some P))
    + s.copyee_ptrs_.count P

/-- Every page has at least as many snapshot references as `page_ptr_t`
objects holding it. -/
def refcount_inv (s : current_page_t) : Prop :=
  ∀ P, holders P s ≤ num_snapshot_references P s

/-- A write acquirer obtains the page for writing and is destroyed
(`declare_readonly`, `declare_snapshotted`: it is detached holding the page),
then a second write acquirer arrives. -/
def trace_snapshot_then_writer : List Op :=
  [Op.add_acquirer alt_access_t.write, Op.current_page_for_write 0,
   Op.declare_readonly 0, Op.declare_snapshotted 0, Op.add_acquirer alt_access_t.write]

/-! ## Pages, eviction bags and the evicter (`evicter.cc`) -/

/-- The fields of `page_t` the evicter reads: whether `destroy_ptr_` is
non-null, `ser_buf_size_`, the buffer `buf_` and the block token `block_token_`
(`none` when absent), the waiters, and the access time. -/
structure page_t where
  destroy_ptr_ : Bool
  ser_buf_size_ : Nat
  buf_ : Option Nat
  block_token_ : Option Nat
  waiters_ : List Nat
  access_time_ : Nat
  deriving DecidableEq, Repr

/-- An `eviction_bag_t`: the pages in the bag (as page references) and the
64-bit total `size_`. -/
structure eviction_bag_t where
  bag_ : List Nat
  size_ : Nat
  deriving DecidableEq, Repr

/-- The four bags of `evicter_t`. -/
inductive bag_name where
  | unevictable
  | evictable_disk_backed
  | evictable_unbacked
  | evicted
  deriving DecidableEq, Repr

/-- The state of an `evicter_t` together with the table of pages its bags
refer to (page reference `p` is entry `p` of `pages`). -/
structure evicter_t where
  pages : List page_t
  unevictable_ : eviction_bag_t
  evictable_disk_backed_ : eviction_bag_t
  evictable_unbacked_ : eviction_bag_t
  evicted_ : eviction_bag_t
  memory_limit_ : Nat
  bytes_loaded_counter_ : Nat
  access_time_counter_ : Nat
  deriving DecidableEq, Repr

/-- The modulus of `uint64_t` arithmetic. -/
def UINT64 : Nat := 2 ^ 64

/-- Implements `eviction_bag_t::add`: `bag_.add(page); size_ += ser_buf_size;`. -/
def eviction_bag_t.add (b : eviction_bag_t) (page : Nat) (ser_buf_size : Nat) :
    eviction_bag_t :=
  { bag_ := b.bag_ ++ [page], size_ := (b.size_ + ser_buf_size) % UINT64 }

/-- Implements `eviction_bag_t::remove`: `bag_.remove(page); size_ -= value;` in
64-bit arithmetic. -/
def eviction_bag_t.remove (b : eviction_bag_t) (page : Nat) (ser_buf_size : Nat) :
    eviction_bag_t :=
  { bag_ := b.bag_.erase page,
    size_ := (b.size_ + (UINT64 - ser_buf_size % UINT64)) % UINT64 }

/-- The value `page->ser_buf_size_` of the page with reference `p`. -/
def ser_buf_size_of (pages : List page_t) (p : Nat) : Nat :=
  match pages.get? p with
  | none => 0
  | some pg => pg.ser_buf_size_

/-- Modelled from the spec: `eviction_bag_t::remove_oldish` is called by
`evict_if_necessary` but its definition is not among the sources. The spec says
the "oldish" page is selected from the bag by an approximate-LRU discipline
parameterized by the access-time counter, and that eviction stops if no such
page exists. The selection is the parameter `oldish` (a position in the bag,
taken modulo its length); the call returns `none` (C++ `false`) exactly when the
bag is empty, and otherwise removes the selected page from the bag with
`eviction_bag_t::remove` and returns it. -/
def eviction_bag_t.remove_oldish (oldish : List Nat → Nat → Nat) (pages : List page_t)
    (b : eviction_bag_t) (access_time_offset : Nat) : Option (Nat × eviction_bag_t) :=
  match b.bag_.get? (oldish b.bag_ access_time_offset % b.bag_.length) with
  | none => none
  | some page => some (page, b.remove page (ser_buf_size_of pages page))

/-- Modelled from the spec: `page_t::evict_self` is called by
`evict_if_necessary` but its definition is not among the sources. The spec says
evicting a page releases its buffer while retaining its block token. -/
def page_t.evict_self (pg : page_t) : page_t :=
  { pg with buf_ := none }

/-- Implements `evicter_t::in_memory_size` (64-bit sum). -/
def evicter_t.in_memory_size (e : evicter_t) : Nat :=
  (e.unevictable_.size_ + e.evictable_disk_backed_.size_ + e.evictable_unbacked_.size_) % UINT64

/-- Implements `evicter_t::correct_eviction_category`. -/
def correct_eviction_category (pg : page_t) : bag_name :=
  if pg.destroy_ptr_ || !pg.waiters_.isEmpty then bag_name.unevictable
  else if !pg.buf_.isSome then bag_name.evicted
  else if pg.block_token_.isSome then bag_name.evictable_disk_backed
  else bag_name.evictable_unbacked

/-- One evaluation of the loop condition of `evicter_t::evict_if_necessary`
followed, when it holds, by the loop body: `none` when the loop exits
(`in_memory_size() <= memory_limit_`, or `remove_oldish` returned false),
otherwise the state after `evicted_.add(page, page->ser_buf_size_);
page->evict_self();`. -/
def evict_iteration (oldish : List Nat → Nat → Nat) (e : evicter_t) : Option evicter_t :=
  if e.in_memory_size > e.memory_limit_ then
    match e.evictable_disk_backed_.remove_oldish oldish e.pages e.access_time_counter_ with
    | none => none
    | some (page, bag) =>
      some { e with
        evictable_disk_backed_ := bag,
        evicted_ := e.evicted_.add page (ser_buf_size_of e.pages page),
        pages := e.pages.modify page_t.evict_self page }
  else none

/-- The `while` loop of `evict_if_necessary`, run for at most `fuel + 1`
evaluations of its condition: `none` when the loop has not exited by then. -/
def evict_loop (oldish : List Nat → Nat → Nat) : Nat → evicter_t → Option evicter_t
  | 0, e =>
    match evict_iteration oldish e with
    | none => some e
    | some _ => none
  | fuel + 1, e =>
    match evict_iteration oldish e with
    | none => some e
    | some e1 => evict_loop oldish fuel e1

/-- Implements `evicter_t::evict_if_necessary`: the loop is given as many
iterations as the evictable-disk-backed bag has pages (each iteration removes
one). -/
def evicter_t.evict_if_necessary (oldish : List Nat → Nat → Nat) (e : evicter_t) :
    Option evicter_t :=
  evict_loop oldish e.evictable_disk_backed_.bag_.length e

/-- Implements `evicter_t::update_memory_limit`. -/
def evicter_t.update_memory_limit (oldish : List Nat → Nat → Nat) (e : evicter_t)
    (new_memory_limit : Nat) : Option evicter_t :=
  evicter_t.evict_if_necessary oldish
    { e with bytes_loaded_counter_ := 0, memory_limit_ := new_memory_limit }

/-- The pages whose buffer is present in `e` and absent in `e1`. -/
def buffer_released (e e1 : evicter_t) (p : Nat) : Prop :=
  ∃ pg pg1, e.pages.get? p = some pg ∧ e1.pages.get? p = some pg1 ∧
    pg.buf_.isSome = true ∧ pg1.buf_ = none

/-- An evicter with three loaded pages of 4096 bytes: page 0 has a waiter and
is unevictable, pages 1 and 2 are clean and evictable-disk-backed; the limit is
4096 bytes. -/
def sample_evicter : evicter_t :=
  { pages :=
      [{ destroy_ptr_ := false, ser_buf_size_ := 4096, buf_ := some 10, block_token_ := some 20,
         waiters_ := [1], access_time_ := 3 },
       { destroy_ptr_ := false, ser_buf_size_ := 4096, buf_ := some 11, block_token_ := some 21,
         waiters_ := [], access_time_ := 1 },
       { destroy_ptr_ := false, ser_buf_size_ := 4096, buf_ := some 12, block_token_ := some 22,
         waiters_ := [], access_time_ := 2 }],
    unevictable_ := { bag_ := [0], size_ := 4096 },
    evictable_disk_backed_ := { bag_ := [1, 2], size_ := 8192 },
    evictable_unbacked_ := { bag_ := [], size_ := 0 },
    evicted_ := { bag_ := [], size_ := 0 },
    memory_limit_ := 4096,
    bytes_loaded_counter_ := 0,
    access_time_counter_ := 4 }

/-- A selection function for `remove_oldish`: always the first page of the bag. -/
def oldish_first (_bag : List Nat) (_access_time_offset : Nat) : Nat := 0

/-- The state of `sample_evicter` after `evict_if_necessary`: pages 1 and 2 have
been moved to the evicted bag and have no buffer. -/
def sample_evicter_after : evicter_t :=
  { sample_evicter with
    pages := (sample_evicter.pages.modify page_t.evict_self 1).modify page_t.evict_self 2,
    evictable_disk_backed_ := { bag_ := [], size_ := 0 },
    evicted_ := { bag_ := [1, 2], size_ := 8192 } }

/-! ## Transactions and the flush graph (`page_txn_t`, `page_cache_t`) -/

/-- Modelled from the spec: `repli_timestamp_t` is declared in
`repli_timestamp.hpp`, which is not among the sources; `timestamps.hpp` assigns
a `uint64_t` to its field `longtime`. The spec describes the recency as an
opaque timestamp that the cache passes on without interpreting it. -/
structure repli_timestamp_t where
  longtime : Nat
  deriving DecidableEq, Repr

/-- Modelled from the spec: the constant `repli_timestamp_t::invalid` that
`page.cc` passes as the recency (the spec: recency is passed as an invalid
sentinel). Its value is not among the sources; the largest `uint64_t` stands for
it, and no result depends on the value. -/
def repli_timestamp_t.invalid : repli_timestamp_t :=
  { longtime := UINT64 - 1 }

/-- The entry type `page_txn_t::dirtied_page_t` of `snapshotted_dirtied_pages_`:
the block id, the `page_ptr_t` (`none` when it is empty), and the recency. -/
structure dirtied_page_t where
  block_id : block_id_t
  ptr : Option Nat
  tstamp : repli_timestamp_t
  deriving DecidableEq, Repr

/-- The fields of `page_txn_t`. Transactions and acquirers are named by natural
numbers (a `page_txn_t *` is the index of the transaction in
`page_cache_t.txns`), current pages by their block id, pages by their page
reference. `ever_preceders` is a history variable, not a field of the source:
every transaction that `connect_preceder` ever added to `preceders_`. -/
structure page_txn_t where
  live_acqs_ : List Nat
  preceders_ : List Nat
  subseqers_ : List Nat
  pages_modified_last_ : List block_id_t
  snapshotted_dirtied_pages_ : List dirtied_page_t
  touched_pages_ : List (block_id_t × repli_timestamp_t)
  began_waiting_for_flush_ : Bool
  flush_complete_cond_ : Bool
  ever_preceders : List Nat
  deriving DecidableEq, Repr

/-- The transactions of a `page_cache_t`, the `last_modifier_` field of each
current page (entry `b` for block `b`, `none` for `NULL`), and the
`do_flush_txn` coroutines: `spawned_` lists the transactions whose coroutine
was started by `spawn_later_ordered` and has not run yet, `flushing_` those
whose coroutine is running and has not yet returned from `index_write`. -/
structure page_cache_t where
  txns : List page_txn_t
  last_modifier_ : List (Option Nat)
  spawned_ : List Nat
  flushing_ : List Nat
  deriving DecidableEq, Repr

/-- A cache with no transactions. -/
def page_cache_t.init : page_cache_t :=
  { txns := [], last_modifier_ := [], spawned_ := [], flushing_ := [] }

/-- The state of a transaction after the initialisers of the constructor of
`page_txn_t`. -/
def page_txn_t.fresh : page_txn_t :=
  { live_acqs_ := [], preceders_ := [], subseqers_ := [], pages_modified_last_ := [],
    snapshotted_dirtied_pages_ := [], touched_pages_ := [],
    began_waiting_for_flush_ := false, flush_complete_cond_ := false, ever_preceders := [] }

/-- The field `last_modifier_` of the current page of block `b`. -/
def get_last_modifier (c : page_cache_t) (b : block_id_t) : Option Nat :=
  (c.last_modifier_.get? b).join

/-- Assignment to the field `last_modifier_` of the current page of block `b`
(the table grows like `current_pages_` in `page_for_block_id`). -/
def set_last_modifier (c : page_cache_t) (b : block_id_t) (v : Option Nat) : page_cache_t :=
  { c with last_modifier_ :=
      (c.last_modifier_ ++ List.replicate (b + 1 - c.last_modifier_.length) none).set b v }

/-- Implements `page_txn_t::connect_preceder` called on transaction `t`. -/
def connect_preceder (c : page_cache_t) (t preceder : Nat) : page_cache_t :=
  match c.txns.get? preceder, c.txns.get? t with
  | some p, some tx =>
    if !p.flush_complete_cond_ then
      if preceder ∉ tx.preceders_ then
        let txns1 : List page_txn_t := c.txns.modify
          (fun x => { x with preceders_ := x.preceders_ ++ [preceder],
                             ever_preceders := x.ever_preceders ++ [preceder] }) t
        { c with txns :=
            txns1.modify (fun x => { x with subseqers_ := x.subseqers_ ++ [t] }) preceder }
      else c
    else c
  | _, _ => c

/-- Implements `page_txn_t::remove_preceder` called on transaction `t`. -/
def remove_preceder (c : page_cache_t) (t preceder : Nat) : page_cache_t :=
  { c with txns := c.txns.modify (fun x => { x with preceders_ := x.preceders_.erase preceder }) t }

/-- Implements `page_cache_t::im_waiting_for_flush`: when the transaction has no
preceders, `do_flush_txn` is spawned for it. -/
def im_waiting_for_flush (c : page_cache_t) (t : Nat) : page_cache_t :=
  match c.txns.get? t with
  | none => c
  | some tx => if tx.preceders_.isEmpty then { c with spawned_ := c.spawned_ ++ [t] } else c

/-- Implements the constructor `page_txn_t::page_txn_t(page_cache,
preceding_txn_or_null)`; the new transaction gets the next index. -/
def new_page_txn_t (c : page_cache_t) (preceding_txn_or_null : Option Nat) : page_cache_t :=
  let t := c.txns.length
  let c1 := { c with txns := c.txns ++ [page_txn_t.fresh] }
  match preceding_txn_or_null with
  | none => c1
  | some preceder => connect_preceder c1 t preceder

/-- Implements `page_txn_t::add_acquirer`. -/
def page_txn_t.add_acquirer (c : page_cache_t) (t acq : Nat) : page_cache_t :=
  { c with txns := c.txns.modify (fun x => { x with live_acqs_ := x.live_acqs_ ++ [acq] }) t }

/-- Implements `page_txn_t::remove_acquirer` called on transaction `t` for an
acquirer `acq` of block `block_id` whose read signal state, access and
`dirtied_page_` flag are given. The calls `acq->declare_readonly()` and
`acq->declare_snapshotted()` act on the current page (see `declare_readonly`,
`declare_snapshotted` above, and `txn_remove_acquirer` below);
`snapshotted_page_` is the pointer that `std::move(acq->snapshotted_page_)`
yields after them. -/
def page_txn_t.remove_acquirer (c : page_cache_t) (t acq : Nat) (read_cond_ : Bool)
    (access_ : alt_access_t) (dirtied_page_ : Bool) (block_id : block_id_t)
    (snapshotted_page_ : Option Nat) : page_cache_t :=
  let c1 :=
    { c with txns := c.txns.modify (fun x => { x with live_acqs_ := x.live_acqs_.erase acq }) t }
  if read_cond_ && decide (access_ = alt_access_t.write) then
    if dirtied_page_ then
      let previous_modifier := get_last_modifier c1 block_id
      let c2 := set_last_modifier c1 block_id (some t)
      let txns3 : List page_txn_t := c2.txns.modify
        (fun x => { x with pages_modified_last_ := x.pages_modified_last_ ++ [block_id] }) t
      let c3 := { c2 with txns := txns3 }
      let c4 :=
        match previous_modifier with
        | none => c3
        | some p =>
          let txns4 : List page_txn_t := c3.txns.modify
            (fun x => { x with pages_modified_last_ := x.pages_modified_last_.erase block_id }) p
          connect_preceder { c3 with txns := txns4 } t p
      let txns5 : List page_txn_t := c4.txns.modify
        (fun x => { x with snapshotted_dirtied_pages_ :=
                             x.snapshotted_dirtied_pages_ ++
                               [{ block_id := block_id, ptr := snapshotted_page_,
                                  tstamp := repli_timestamp_t.invalid }] }) t
      { c4 with txns := txns5 }
    else
      let txns2 : List page_txn_t := c1.txns.modify
        (fun x => { x with touched_pages_ :=
                             x.touched_pages_ ++ [(block_id, repli_timestamp_t.invalid)] }) t
      { c1 with txns := txns2 }
  else c1

/-- Implements `page_txn_t::announce_waiting_for_flush_if_we_should`, the part
of the destructor of `page_txn_t` before it waits for `flush_complete_cond_`. -/
def announce_waiting_for_flush_if_we_should (c : page_cache_t) (t : Nat) : page_cache_t :=
  match c.txns.get? t with
  | none => c
  | some tx =>
    if tx.live_acqs_.isEmpty then
      im_waiting_for_flush
        { c with txns := c.txns.modify (fun x => { x with began_waiting_for_flush_ := true }) t } t
    else c

/-- The body of the loop over `subseqers` at the end of `do_flush_txn(txn)`:
`(*it)->remove_preceder(txn)`, then `im_waiting_for_flush(*it)` when the
subseqer began waiting for flush. -/
def flush_notify_subseqer (txn : Nat) (c : page_cache_t) (u : Nat) : page_cache_t :=
  let c1 := remove_preceder c u txn
  match c1.txns.get? u with
  | none => c1
  | some ux => if ux.began_waiting_for_flush_ then im_waiting_for_flush c1 u else c1

/-- The part of `page_cache_t::do_flush_txn(txn)` after `index_write` has
returned (it runs without suspension): the subseqers are detached and notified,
the `last_modifier_` of the pages in `pages_modified_last_` is cleared, and
`flush_complete_cond_` is pulsed; the coroutine ends. -/
def do_flush_txn_finish (c : page_cache_t) (txn : Nat) : page_cache_t :=
  match c.txns.get? txn with
  | none => c
  | some tx =>
    let c1 := { c with txns := c.txns.modify (fun x => { x with subseqers_ := [] }) txn }
    let c2 := tx.subseqers_.foldl (flush_notify_subseqer txn) c1
    let c3 := tx.pages_modified_last_.foldl (fun c b => set_last_modifier c b none) c2
    let txns4 : List page_txn_t := c3.txns.modify
      (fun x => { x with pages_modified_last_ := [], flush_complete_cond_ := true }) txn
    { c3 with txns := txns4, flushing_ := c3.flushing_.erase txn }

/-- The start of a spawned `do_flush_txn(txn)` coroutine: it runs up to the
call of `index_write`, where it waits. -/
def do_flush_txn_start (c : page_cache_t) (txn : Nat) : page_cache_t :=
  { c with spawned_ := c.spawned_.erase txn, flushing_ := c.flushing_ ++ [txn] }

/-- The events that change the flush graph. -/
inductive TxnOp where
  | new_txn (preceding_txn_or_null : Option Nat)
  | add_acquirer (t acq : Nat)
  | remove_acquirer (t acq : Nat) (read_cond_ : Bool) (access_ : alt_access_t)
      (dirtied_page_ : Bool) (block_id : block_id_t) (snapshotted_page_ : Option Nat)
  | destroy_txn (t : Nat)
  | flush_start (t : Nat)
  | flush_finish (t : Nat)
  deriving DecidableEq, Repr

/-- Whether the event can happen in state `c`. A preceder given to the
constructor is an existing transaction; acquirers are added to a transaction
before its destructor runs; `remove_acquirer` is called by the destructor of a
live acquirer of the transaction; the destructor of a transaction runs once,
when it has no live acquirers; a flush coroutine starts after it was spawned and
finishes after it started. -/
def TxnOp.enabled (c : page_cache_t) : TxnOp → Bool
  | TxnOp.new_txn none => true
  | TxnOp.new_txn (some p) => decide (p < c.txns.length)
  | TxnOp.add_acquirer t _ =>
    match c.txns.get? t with
    | none => false
    | some tx => !tx.began_waiting_for_flush_
  | TxnOp.remove_acquirer t acq _ _ _ _ _ =>
    match c.txns.get? t with
    | none => false
    | some tx => decide (acq ∈ tx.live_acqs_)
  | TxnOp.destroy_txn t =>
    match c.txns.get? t with
    | none => false
    | some tx => !tx.began_waiting_for_flush_ && tx.live_acqs_.isEmpty
  | TxnOp.flush_start t => decide (t ∈ c.spawned_)
  | TxnOp.flush_finish t => decide (t ∈ c.flushing_)

/-- The state after the event. -/
def TxnOp.apply (c : page_cache_t) : TxnOp → page_cache_t
  | TxnOp.new_txn p => new_page_txn_t c p
  | TxnOp.add_acquirer t acq => page_txn_t.add_acquirer c t acq
  | TxnOp.remove_acquirer t acq r a d b sp => page_txn_t.remove_acquirer c t acq r a d b sp
  | TxnOp.destroy_txn t => announce_waiting_for_flush_if_we_should c t
  | TxnOp.flush_start t => do_flush_txn_start c t
  | TxnOp.flush_finish t => do_flush_txn_finish c t

/-- The `rassert` conditions of `page_txn_t::remove_acquirer` for a dirtying
write acquirer: the current page is not yet in `pages_modified_last_` of this
transaction, and it is in that of the previous modifier. (The other events have
no assertion beyond `TxnOp.enabled`.) -/
def TxnOp.asserts_hold (c : page_cache_t) : TxnOp → Bool
  | TxnOp.remove_acquirer t _ r a d b _ =>
    if r && decide (a = alt_access_t.write) && d then
      match c.txns.get? t with
      | none => false
      | some tx =>
        decide (b ∉ tx.pages_modified_last_) &&
          (match get_last_modifier c b with
           | none => true
           | some p =>
             match c.txns.get? p with
             | none => false
             | some px => decide (b ∈ px.pages_modified_last_))
    else true
  | _ => true

/-- The states reachable from the empty cache by enabled events that satisfy
the discipline `ok`. -/
inductive TxnReachableBy (ok : page_cache_t → TxnOp → Bool) : page_cache_t → Prop where
  | init : TxnReachableBy ok page_cache_t.init
  | step (c : page_cache_t) (op : TxnOp) :
      TxnReachableBy ok c → op.enabled c = true → ok c op = true →
      TxnReachableBy ok (op.apply c)

/-- The states reachable from the empty cache by enabled events. -/
def TxnReachable (c : page_cache_t) : Prop :=
  TxnReachableBy (fun _ _ => true) c

/-- Runs a sequence of events under the discipline `ok`; `none` when one of
them is not enabled or does not satisfy the discipline. -/
def txn_run_by (ok : page_cache_t → TxnOp → Bool) (c : page_cache_t) :
    List TxnOp → Option page_cache_t
  | [] => some c
  | op :: ops => if op.enabled c && ok c op then txn_run_by ok (op.apply c) ops else none

/-- Runs a sequence of events; `none` when one of them is not enabled. -/
def txn_run (c : page_cache_t) (ops : List TxnOp) : Option page_cache_t :=
  txn_run_by (fun _ _ => true) c ops

/-- Whether every `rassert` holds along a sequence of events. -/
def txn_run_asserts_hold (c : page_cache_t) : List TxnOp → Bool
  | [] => true
  | op :: ops => op.asserts_hold c && txn_run_asserts_hold (op.apply c) ops

/-- The preceder relation: `p` is in `preceders_` of transaction `t`. -/
def preceder_edge (c : page_cache_t) (t p : Nat) : Prop :=
  ∃ tx, c.txns.get? t = some tx ∧ p ∈ tx.preceders_

/-- The `flush_complete_cond_` of transaction `p` is pulsed. -/
def flush_complete (c : page_cache_t) (p : Nat) : Prop :=
  ∃ px, c.txns.get? p = some px ∧ px.flush_complete_cond_ = true

/-- The coroutine `do_flush_txn(t)` has been spawned, is running, or has
finished. -/
def flush_started (c : page_cache_t) (t : Nat) : Prop :=
  t ∈ c.spawned_ ∨ t ∈ c.flushing_ ∨ flush_complete c t

/-- The conditions the flush protocol maintains for one transaction, where
`D p` says that the flush of `p` is complete and `started` that the flush
coroutine of the transaction is spawned or running: a transaction that began
waiting for flush has no live acquirers; one whose flush is complete, spawned or
running began waiting and has no preceders; and every transaction that was ever
connected as a preceder is still in `preceders_` or has completed its flush. -/
def txn_ok (D : Nat → Prop) (started : Prop) (tx : page_txn_t) : Prop :=
  (tx.began_waiting_for_flush_ = true → tx.live_acqs_ = []) ∧
  (tx.flush_complete_cond_ = true →
    tx.began_waiting_for_flush_ = true ∧ tx.preceders_ = []) ∧
  (started → tx.began_waiting_for_flush_ = true ∧ tx.preceders_ = []) ∧
  (∀ p ∈ tx.ever_preceders, p ∈ tx.preceders_ ∨ D p)

/-- The invariant of the flush protocol, relative to the set `D` of completed
flushes: the spawned and running flush coroutines belong to existing
transactions, and every transaction satisfies `txn_ok`. -/
def flush_inv_gen (D : Nat → Prop) (c : page_cache_t) : Prop :=
  (∀ t ∈ c.spawned_ ++ c.flushing_, t < c.txns.length) ∧
  ∀ t tx, c.txns.get? t = some tx → txn_ok D (t ∈ c.spawned_ ++ c.flushing_) tx

/-- The invariant of the flush protocol. -/
def flush_inv (c : page_cache_t) : Prop :=
  flush_inv_gen (flush_complete c) c

/-- Transaction 0 dirties block 10 and its acquirer is destroyed; transaction 1
is created, dirties block 10 as well (transaction 0 becomes its preceder) and
its acquirer is destroyed; both transactions are destroyed (transaction 1
first); the flush of transaction 0 starts and finishes, which spawns the flush
of transaction 1. -/
def trace_causal_chain : List TxnOp :=
  [TxnOp.new_txn none, TxnOp.add_acquirer 0 100,
   TxnOp.remove_acquirer 0 100 true alt_access_t.write true 10 (some 0),
   TxnOp.new_txn none, TxnOp.add_acquirer 1 101,
   TxnOp.remove_acquirer 1 101 true alt_access_t.write true 10 (some 1),
   TxnOp.destroy_txn 1, TxnOp.destroy_txn 0, TxnOp.flush_start 0, TxnOp.flush_finish 0]

/-- The final state of a sequence of events (the argument itself when an event
is not enabled). -/
def txn_run_from (c : page_cache_t) (ops : List TxnOp) : page_cache_t :=
  (txn_run c ops).getD c

/-- The preceder relation has no cycle: no transaction reaches itself through
one or more preceder edges. -/
def preceders_acyclic (c : page_cache_t) : Prop :=
  ∀ t, ¬ Relation.TransGen (preceder_edge c) t t

/-- Every preceder of a transaction was created before it. -/
def edges_decrease (l : List page_txn_t) : Prop :=
  ∀ t tx, l.get? t = some tx → ∀ p ∈ tx.preceders_, p < t

/-- The discipline under which blocks are dirtied in creation order: when a
dirtying write acquirer of transaction `t` is destroyed, the previous last
modifier of its block, if any, is a transaction created before `t`. -/
def dirty_after_earlier (c : page_cache_t) : TxnOp → Bool
  | TxnOp.remove_acquirer t _ r a d b _ =>
    if r && decide (a = alt_access_t.write) && d then
      match get_last_modifier c b with
      | none => true
      | some p => decide (p < t)
    else true
  | _ => true

/-- Two transactions are created; transaction 0 dirties block 10, transaction 1
dirties block 11, then transaction 0 dirties block 11 and transaction 1 dirties
block 10 (each time through a write acquirer that is added and destroyed). -/
def trace_cross_dirty : List TxnOp :=
  [TxnOp.new_txn none, TxnOp.new_txn none,
   TxnOp.add_acquirer 0 100, TxnOp.remove_acquirer 0 100 true alt_access_t.write true 10 (some 0),
   TxnOp.add_acquirer 1 101, TxnOp.remove_acquirer 1 101 true alt_access_t.write true 11 (some 1),
   TxnOp.add_acquirer 0 102, TxnOp.remove_acquirer 0 102 true alt_access_t.write true 11 (some 2),
   TxnOp.add_acquirer 1 103, TxnOp.remove_acquirer 1 103 true alt_access_t.write true 10 (some 3)]

/-- Transaction 0 is created, then transaction 1 with transaction 0 as its
explicit preceder; transaction 0 dirties block 10, then transaction 1 dirties
block 10. -/
def trace_ordered_dirty : List TxnOp :=
  [TxnOp.new_txn none, TxnOp.new_txn (some 0),
   TxnOp.add_acquirer 0 100, TxnOp.remove_acquirer 0 100 true alt_access_t.write true 10 (some 0),
   TxnOp.add_acquirer 1 101, TxnOp.remove_acquirer 1 101 true alt_access_t.write true 10 (some 1)]

/-- An evicted page: no destroy-in-progress pointer, no waiters, a block token,
and no buffer. -/
def sample_evicted_page : page_t :=
  { destroy_ptr_ := false, ser_buf_size_ := 4096, buf_ := none, block_token_ := some 20,
    waiters_ := [], access_time_ := 0 }

/-! ## Preceder and subseqer edges -/

/-- The list `preceders_` of transaction `t` (empty when there is no such
transaction). -/
def preceders_of (l : List page_txn_t) (t : Nat) : List Nat :=
  ((l.get? t).map (fun x => x.preceders_)).getD []

/-- The list `subseqers_` of transaction `p` (empty when there is no such
transaction). -/
def subseqers_of (l : List page_txn_t) (p : Nat) : List Nat :=
  ((l.get? p).map (fun x => x.subseqers_)).getD []

/-- Preceders and subseqers are symmetric: `p` is a preceder of `t` exactly
when `t` is a subseqer of `p`. -/
def edge_sym (l : List page_txn_t) : Prop :=
  ∀ t p, p ∈ preceders_of l t ↔ t ∈ subseqers_of l p

/-- No transaction lists the same preceder or the same subseqer twice. -/
def edges_nodup (l : List page_txn_t) : Prop :=
  ∀ t, (preceders_of l t).Nodup ∧ (subseqers_of l t).Nodup

/-- The flag `began_waiting_for_flush_` of transaction `t` (`false` when there
is no such transaction). -/
def began_of (l : List page_txn_t) (t : Nat) : Bool :=
  ((l.get? t).map (fun x => x.began_waiting_for_flush_)).getD false

/-- The events of `trace_causal_chain` up to the start of the flush of
transaction 0: its `do_flush_txn` is waiting in `index_write`, and transaction 1
has announced readiness and has transaction 0 as its only preceder. -/
def trace_flush_running : List TxnOp :=
  trace_causal_chain.dropLast

/-! ## Resurrection of a deleted block -/

/-- The state after `pulse_pulsables` has resurrected the deleted block of `s`
for the write acquirer `w` at the head of the queue, followed by `rest`: a new
page (the next unused page reference, created by the constructor
`page_t(block_size, buf, page_cache)` and held once, by `page_`) is installed,
`is_deleted_` is cleared, and both signals of `w` are pulsed. -/
def resurrected (s : current_page_t) (w : current_page_acq_t)
    (rest : List current_page_acq_t) : current_page_t :=
  { s with
    page_ := some s.snapshot_refcount_.length,
    is_deleted_ := false,
    snapshot_refcount_ := s.snapshot_refcount_ ++ [1],
    page_ctors_ := s.page_ctors_ ++ [page_ctor_t.with_block_size_and_buf],
    acquirers_ := { w with read_cond_ := true, write_cond_ := true } :: rest }

/-- A write acquirer marks the block deleted and is destroyed
(`declare_readonly`, `declare_snapshotted`: it is detached), then a write
acquirer arrives at the empty queue of the deleted block. -/
def trace_delete_then_writer : List Op :=
  [Op.add_acquirer alt_access_t.write, Op.mark_deleted 0, Op.declare_readonly 0,
   Op.declare_snapshotted 0, Op.add_acquirer alt_access_t.write]

/-! ## Page operations and the eviction bags (`page.cc`)

The functions of `evicter_t` in this section are those at the end of `page.cc`.
`evicter.cc` has the same functions, each followed by a call of
`evict_if_necessary` (and `notify_access`); that call is the operation
`PageOp.evict_if_necessary` below, which can follow any other operation. -/

/-- Implements `eviction_bag_t::add_without_size`. -/
def eviction_bag_t.add_without_size (b : eviction_bag_t) (page : Nat) : eviction_bag_t :=
  { b with bag_ := b.bag_ ++ [page] }

/-- Implements `eviction_bag_t::add_size`. -/
def eviction_bag_t.add_size (b : eviction_bag_t) (ser_buf_size : Nat) : eviction_bag_t :=
  { b with size_ := (b.size_ + ser_buf_size) % UINT64 }

/-- Implements `eviction_bag_t::has_page`. -/
def eviction_bag_t.has_page (b : eviction_bag_t) (page : Nat) : Bool :=
  decide (page ∈ b.bag_)

/-- The bag of the evicter that a returned `eviction_bag_t *` points to. -/
def evicter_t.bag (e : evicter_t) : bag_name → eviction_bag_t
  | bag_name.unevictable => e.unevictable_
  | bag_name.evictable_disk_backed => e.evictable_disk_backed_
  | bag_name.evictable_unbacked => e.evictable_unbacked_
  | bag_name.evicted => e.evicted_

/-- Assignment through an `eviction_bag_t *`. -/
def evicter_t.set_bag (e : evicter_t) (n : bag_name) (b : eviction_bag_t) : evicter_t :=
  match n with
  | bag_name.unevictable => { e with unevictable_ := b }
  | bag_name.evictable_disk_backed => { e with evictable_disk_backed_ := b }
  | bag_name.evictable_unbacked => { e with evictable_unbacked_ := b }
  | bag_name.evicted => { e with evicted_ := b }

/-- The fields of a `page_t` after the initialisers of the constructors
`page_t(block_id, page_cache)` and `page_t(copyee, page_cache)`: no
`destroy_ptr_`, size zero, no buffer, no block token, no waiters. (`page.cc`
does not set `access_time_`.) -/
def page_t.unloaded : page_t :=
  { destroy_ptr_ := false, ser_buf_size_ := 0, buf_ := none, block_token_ := none,
    waiters_ := [], access_time_ := 0 }

/-- The page that the page reference `p` points to. -/
def page_at (pages : List page_t) (p : Nat) : page_t :=
  pages.getD p page_t.unloaded

/-- Implements `evicter_t::add_not_yet_loaded` of `page.cc`. -/
def evicter_t.add_not_yet_loaded (e : evicter_t) (page : Nat) : evicter_t :=
  { e with unevictable_ := e.unevictable_.add_without_size page }

/-- Implements `evicter_t::add_now_loaded_size` of `page.cc`. -/
def evicter_t.add_now_loaded_size (e : evicter_t) (ser_buf_size : Nat) : evicter_t :=
  { e with unevictable_ := e.unevictable_.add_size ser_buf_size }

/-- Implements `evicter_t::page_is_in_unevictable_bag`. -/
def evicter_t.page_is_in_unevictable_bag (e : evicter_t) (page : Nat) : Bool :=
  e.unevictable_.has_page page

/-- Implements `evicter_t::add_to_evictable_unbacked` of `page.cc`. -/
def evicter_t.add_to_evictable_unbacked (e : evicter_t) (page : Nat) : evicter_t :=
  { e with evictable_unbacked_ :=
      e.evictable_unbacked_.add page (ser_buf_size_of e.pages page) }

/-- Implements `evicter_t::change_eviction_bag` of `page.cc` (named
`change_to_correct_eviction_bag` in `evicter.cc`): the page is removed from
`current_bag` and added to the bag that `correct_eviction_category` returns. -/
def evicter_t.change_eviction_bag (e : evicter_t) (current_bag : bag_name) (page : Nat) :
    evicter_t :=
  let e1 := e.set_bag current_bag
    ((e.bag current_bag).remove page (ser_buf_size_of e.pages page))
  let new_bag := correct_eviction_category (page_at e1.pages page)
  e1.set_bag new_bag ((e1.bag new_bag).add page (ser_buf_size_of e1.pages page))

/-- Implements `evicter_t::move_unevictable_to_evictable` of `page.cc`, as a
build without assertions executes it: the page is removed from the unevictable
bag and added to the bag that `correct_eviction_category` returns. -/
def evicter_t.move_unevictable_to_evictable (e : evicter_t) (page : Nat) : evicter_t :=
  let e1 := { e with unevictable_ := e.unevictable_.remove page (ser_buf_size_of e.pages page) }
  let new_bag := correct_eviction_category (page_at e1.pages page)
  e1.set_bag new_bag ((e1.bag new_bag).add page (ser_buf_size_of e1.pages page))

/-- The two `rassert` conditions of `evicter_t::move_unevictable_to_evictable`:
the page is in the unevictable bag, and the new bag is the
evictable-disk-backed or the evictable-unbacked bag. -/
def evicter_t.move_unevictable_to_evictable_asserts (e : evicter_t) (page : Nat) : Bool :=
  e.unevictable_.has_page page &&
    (decide (correct_eviction_category (page_at e.pages page) =
        bag_name.evictable_disk_backed) ||
      decide (correct_eviction_category (page_at e.pages page) =
        bag_name.evictable_unbacked))

/-- Implements `evicter_t::remove_page` of `page.cc`. -/
def evicter_t.remove_page (e : evicter_t) (page : Nat) : evicter_t :=
  let bag := correct_eviction_category (page_at e.pages page)
  e.set_bag bag ((e.bag bag).remove page (ser_buf_size_of e.pages page))

/-- A load coroutine spawned by a constructor of `page_t`, suspended in a
blocking call: `load_with_block_id` in the serializer read, `load_from_copyee`
in `acq.buf_ready_signal()->wait()` with its `page_acq_t acq` on `copyee`. -/
inductive page_loader_t where
  | load_with_block_id (block_id : block_id_t)
  | load_from_copyee (copyee : Nat) (acq : Nat)
  deriving DecidableEq, Repr

/-- The pages of a cache: the evicter with the table of pages, the page
references whose page was destroyed (`delete this`), the suspended load
coroutines with the page they load, and the `page_acq_t` (named by numbers, as
in `waiters_`) whose `buf_ready_signal_` is pulsed. -/
structure page_heap_t where
  evicter : evicter_t
  deleted_ : List Nat
  loaders_ : List (Nat × page_loader_t)
  pulsed_ : List Nat
  deriving DecidableEq, Repr

/-- Assignment to fields of the page with reference `page`. -/
def page_heap_t.modify_page (h : page_heap_t) (page : Nat) (f : page_t → page_t) :
    page_heap_t :=
  { h with evicter := { h.evicter with pages := h.evicter.pages.modify f page } }

/-- Implements `page_t::pulse_waiters_or_make_evictable`. -/
def pulse_waiters_or_make_evictable (h : page_heap_t) (page : Nat) : page_heap_t :=
  let e1 := h.evicter.add_now_loaded_size (ser_buf_size_of h.evicter.pages page)
  if (page_at e1.pages page).waiters_.isEmpty then
    { h with evicter := e1.move_unevictable_to_evictable page }
  else
    { h with evicter := e1, pulsed_ := h.pulsed_ ++ (page_at e1.pages page).waiters_ }

/-- The `rassert` conditions met by `pulse_waiters_or_make_evictable`: the page
is in the unevictable bag, and, when there are no waiters, the conditions of
`move_unevictable_to_evictable`. -/
def pulse_waiters_or_make_evictable_asserts (h : page_heap_t) (page : Nat) : Bool :=
  h.evicter.page_is_in_unevictable_bag page &&
    (if (page_at h.evicter.pages page).waiters_.isEmpty then
      (h.evicter.add_now_loaded_size
        (ser_buf_size_of h.evicter.pages page)).move_unevictable_to_evictable_asserts page
     else true)

/-- Implements `page_t::add_waiter`. -/
def add_waiter (h : page_heap_t) (page acq : Nat) : page_heap_t :=
  let old_bag := correct_eviction_category (page_at h.evicter.pages page)
  let h1 := h.modify_page page (fun pg => { pg with waiters_ := pg.waiters_ ++ [acq] })
  let h2 := { h1 with evicter := h1.evicter.change_eviction_bag old_bag page }
  if (page_at h2.evicter.pages page).buf_.isSome then
    { h2 with pulsed_ := h2.pulsed_ ++ [acq] }
  else h2

/-- Implements `page_t::remove_waiter`. -/
def remove_waiter (h : page_heap_t) (page acq : Nat) : page_heap_t :=
  let old_bag := correct_eviction_category (page_at h.evicter.pages page)
  let h1 := h.modify_page page (fun pg => { pg with waiters_ := pg.waiters_.erase acq })
  { h1 with evicter := h1.evicter.change_eviction_bag old_bag page }

/-- Implements `page_acq_t::~page_acq_t` for an acquirer of `page`:
`remove_waiter`, after which the acquirer and its signal no longer exist. -/
def page_acq_t_destroy (h : page_heap_t) (page acq : Nat) : page_heap_t :=
  let h1 := remove_waiter h page acq
  { h1 with pulsed_ := h1.pulsed_.erase acq }

/-- Implements `page_t::reset_block_token`. -/
def reset_block_token (h : page_heap_t) (page : Nat) : page_heap_t :=
  h.modify_page page (fun pg => { pg with block_token_ := none })

/-- Implements `page_acq_t::get_buf_write` for an acquirer of `page`, once
`buf_ready_signal_.wait()` has returned: the block token is reset and the buffer
of the page is returned. -/
def get_buf_write (h : page_heap_t) (page : Nat) : Option Nat × page_heap_t :=
  let h1 := reset_block_token h page
  ((page_at h1.evicter.pages page).buf_, h1)

/-- The statements shared by the constructors `page_t(block_id, page_cache)`
and `page_t(copyee, page_cache)`: the initialisers, `add_not_yet_loaded(this)`,
and the first statements of the load coroutine spawned with
`spawn_now_dangerously`, which set `destroy_ptr_`. The new page gets the next
unused page reference. -/
def new_page_not_yet_loaded (h : page_heap_t) : page_heap_t :=
  let page := h.evicter.pages.length
  let e1 := { h.evicter with pages := h.evicter.pages ++ [page_t.unloaded] }
  let e2 := e1.add_not_yet_loaded page
  let e3 := { e2 with pages := e2.pages.modify (fun pg => { pg with destroy_ptr_ := true }) page }
  { h with evicter := e3 }

/-- Implements the constructor `page_t(block_id, page_cache)` up to the point
where the constructor returns: the page is added to the unevictable bag, and the
spawned `load_with_block_id` sets `destroy_ptr_` and suspends in the serializer
read. -/
def new_page_with_block_id (h : page_heap_t) (block_id : block_id_t) : page_heap_t :=
  let page := h.evicter.pages.length
  let h1 := new_page_not_yet_loaded h
  { h1 with
    loaders_ := h1.loaders_ ++ [(page, page_loader_t.load_with_block_id block_id)] }

/-- Implements the constructor `page_t(block_size, buf, page_cache)`: the page
has the given size and buffer and no block token, and is added to the
evictable-unbacked bag. -/
def new_page_with_buf (h : page_heap_t) (block_size buf : Nat) : page_heap_t :=
  let page := h.evicter.pages.length
  let e1 := { h.evicter with
    pages := h.evicter.pages ++
      [{ page_t.unloaded with ser_buf_size_ := block_size, buf_ := some buf }] }
  { h with evicter := e1.add_to_evictable_unbacked page }

/-- The part of `page_t::load_from_copyee` after `acq.buf_ready_signal()->wait()`
has returned, where `buf` is the buffer from `serializer_->malloc()`: unless the
page was destroyed, the page gets the size of the copyee and the buffer,
`destroy_ptr_` is reset and `pulse_waiters_or_make_evictable` is called; then
`acq` is destroyed. (The `page_ptr_t copyee_ptr` destroyed last is part of the
reference counts of `current_page_t` above.) -/
def load_from_copyee_finish (h : page_heap_t) (page copyee acq buf : Nat) : page_heap_t :=
  let h1 :=
    if decide (page ∈ h.deleted_) then h
    else
      let ser_buf_size := (page_at h.evicter.pages copyee).ser_buf_size_
      pulse_waiters_or_make_evictable
        (h.modify_page page (fun pg =>
          { pg with ser_buf_size_ := ser_buf_size, buf_ := some buf, destroy_ptr_ := false }))
        page
  page_acq_t_destroy h1 copyee acq

/-- Implements the constructor `page_t(copyee, page_cache)` up to the point
where the constructor returns: the page is added to the unevictable bag, and the
spawned `load_from_copyee` sets `destroy_ptr_` and acquires the copyee with the
`page_acq_t acq`; when the buffer of the copyee is ready the coroutine runs to
its end at once, otherwise it suspends. -/
def new_page_with_copyee (h : page_heap_t) (copyee acq buf : Nat) : page_heap_t :=
  let page := h.evicter.pages.length
  let h1 := add_waiter (new_page_not_yet_loaded h) copyee acq
  if decide (acq ∈ h1.pulsed_) then load_from_copyee_finish h1 page copyee acq buf
  else { h1 with loaders_ := h1.loaders_ ++ [(page, page_loader_t.load_from_copyee copyee acq)] }

/-- The part of `page_t::load_with_block_id` after the serializer read, which
gave the buffer `buf` and the block token `block_token` whose
`block_size().ser_value()` is `token_block_size`: unless the page was
destroyed, the page gets the size, the buffer and the token, and
`pulse_waiters_or_make_evictable` is called. -/
def load_with_block_id_finish (h : page_heap_t) (page buf block_token token_block_size : Nat) :
    page_heap_t :=
  if decide (page ∈ h.deleted_) then h
  else
    pulse_waiters_or_make_evictable
      (h.modify_page page (fun pg =>
        { pg with ser_buf_size_ := token_block_size, buf_ := some buf,
                  block_token_ := some block_token }))
      page

/-- The `rassert` conditions met by the part of `load_with_block_id` after the
serializer read, for a page that was not destroyed: the page has no block token
and no buffer, and the conditions of `pulse_waiters_or_make_evictable`. -/
def load_with_block_id_finish_asserts (h : page_heap_t)
    (page buf block_token token_block_size : Nat) : Bool :=
  !(page_at h.evicter.pages page).block_token_.isSome &&
    !(page_at h.evicter.pages page).buf_.isSome &&
    pulse_waiters_or_make_evictable_asserts
      (h.modify_page page (fun pg =>
        { pg with ser_buf_size_ := token_block_size, buf_ := some buf,
                  block_token_ := some block_token }))
      page

/-- The destruction of a page by `page_t::remove_snapshotter` when
`snapshot_refcount_` reaches zero: `evicter().remove_page(this)` and
`delete this`, whose destructor reports the destruction through `destroy_ptr_`
to a suspended load coroutine. -/
def page_t_destroy (h : page_heap_t) (page : Nat) : page_heap_t :=
  { h with evicter := h.evicter.remove_page page, deleted_ := h.deleted_ ++ [page] }

/-- The page exists and was not destroyed. -/
def page_heap_t.live (h : page_heap_t) (page : Nat) : Bool :=
  decide (page < h.evicter.pages.length) && !decide (page ∈ h.deleted_)

/-- No `page_acq_t` with this name exists: it waits for no page and its signal
is not pulsed. -/
def page_heap_t.acq_unused (h : page_heap_t) (acq : Nat) : Bool :=
  h.evicter.pages.all (fun pg => !decide (acq ∈ pg.waiters_)) && !decide (acq ∈ h.pulsed_)

/-- The `page_acq_t acq` is the local variable of a suspended `load_from_copyee`
coroutine. -/
def page_heap_t.loader_acq (h : page_heap_t) (acq : Nat) : Bool :=
  h.loaders_.any (fun l =>
    match l.2 with
    | page_loader_t.load_from_copyee _ a => decide (a = acq)
    | page_loader_t.load_with_block_id _ => false)

/-- The page operations: the three constructors of `page_t`, the completion of
the two load coroutines, `add_waiter` and `remove_waiter` (through the
constructor and destructor of a `page_acq_t`), `reset_block_token` (through
`page_acq_t::get_buf_write`), the destruction of a page, and eviction. -/
inductive PageOp where
  | new_page_with_block_id (block_id : block_id_t)
  | new_page_with_buf (block_size buf : Nat)
  | new_page_with_copyee (copyee acq buf : Nat)
  | load_with_block_id_finish (page buf block_token token_block_size : Nat)
  | load_from_copyee_finish (page buf : Nat)
  | add_waiter (page acq : Nat)
  | remove_waiter (page acq : Nat)
  | get_buf_write (page acq : Nat)
  | destroy (page : Nat)
  | evict_if_necessary
  deriving DecidableEq, Repr

/-- Whether the operation can happen in state `h`. A page is copied, acquired,
released, written or destroyed while it is live; a new `page_acq_t` is unused;
a load coroutine finishes when it is suspended and the call it blocks on
returns (for `load_from_copyee`, when the signal of its `page_acq_t` is pulsed;
its `page_ptr_t copyee_ptr` keeps the copyee live); `get_buf_write` returns when
the signal of the acquirer is pulsed; the acquirer of a suspended coroutine is
used by that coroutine only; a page is destroyed when it has no waiters (every
`page_acq_t` is bounded by the lifetime of some `page_ptr_t`). -/
def PageOp.enabled (h : page_heap_t) : PageOp → Bool
  | PageOp.new_page_with_block_id _ => true
  | PageOp.new_page_with_buf _ _ => true
  | PageOp.new_page_with_copyee copyee acq _ => h.live copyee && h.acq_unused acq
  | PageOp.load_with_block_id_finish page _ _ _ =>
    match h.loaders_.lookup page with
    | some (page_loader_t.load_with_block_id _) => true
    | _ => false
  | PageOp.load_from_copyee_finish page _ =>
    match h.loaders_.lookup page with
    | some (page_loader_t.load_from_copyee copyee acq) =>
      h.live copyee && decide (acq ∈ h.pulsed_)
    | _ => false
  | PageOp.add_waiter page acq => h.live page && h.acq_unused acq
  | PageOp.remove_waiter page acq =>
    h.live page && decide (acq ∈ (page_at h.evicter.pages page).waiters_) && !h.loader_acq acq
  | PageOp.get_buf_write page acq =>
    h.live page && decide (acq ∈ (page_at h.evicter.pages page).waiters_) &&
      decide (acq ∈ h.pulsed_) && !h.loader_acq acq
  | PageOp.destroy page =>
    h.live page && (page_at h.evicter.pages page).waiters_.isEmpty
  | PageOp.evict_if_necessary => true

/-- The state after the operation; `oldish` is the selection function of
`remove_oldish`. -/
def PageOp.apply (oldish : List Nat → Nat → Nat) (h : page_heap_t) : PageOp → page_heap_t
  | PageOp.new_page_with_block_id block_id => alt.new_page_with_block_id h block_id
  | PageOp.new_page_with_buf block_size buf => alt.new_page_with_buf h block_size buf
  | PageOp.new_page_with_copyee copyee acq buf => alt.new_page_with_copyee h copyee acq buf
  | PageOp.load_with_block_id_finish page buf block_token token_block_size =>
    alt.load_with_block_id_finish
      { h with loaders_ := h.loaders_.filter (fun l => !decide (l.1 = page)) }
      page buf block_token token_block_size
  | PageOp.load_from_copyee_finish page buf =>
    match h.loaders_.lookup page with
    | some (page_loader_t.load_from_copyee copyee acq) =>
      alt.load_from_copyee_finish
        { h with loaders_ := h.loaders_.filter (fun l => !decide (l.1 = page)) }
        page copyee acq buf
    | _ => h
  | PageOp.add_waiter page acq => alt.add_waiter h page acq
  | PageOp.remove_waiter page acq => page_acq_t_destroy h page acq
  | PageOp.get_buf_write page _ => (alt.get_buf_write h page).2
  | PageOp.destroy page => page_t_destroy h page
  | PageOp.evict_if_necessary =>
    match h.evicter.evict_if_necessary oldish with
    | some e1 => { h with evicter := e1 }
    | none => h

/-- The cache before any page exists; `memory_limit` is the limit of the
evicter. -/
def page_heap_t.init (memory_limit : Nat) : page_heap_t :=
  { evicter :=
      { pages := [],
        unevictable_ := { bag_ := [], size_ := 0 },
        evictable_disk_backed_ := { bag_ := [], size_ := 0 },
        evictable_unbacked_ := { bag_ := [], size_ := 0 },
        evicted_ := { bag_ := [], size_ := 0 },
        memory_limit_ := memory_limit,
        bytes_loaded_counter_ := 0,
        access_time_counter_ := 0 },
    deleted_ := [], loaders_ := [], pulsed_ := [] }

/-- The states of the pages reachable from the empty cache by enabled page
operations. -/
inductive PageReachable (oldish : List Nat → Nat → Nat) : page_heap_t → Prop where
  | init (memory_limit : Nat) : PageReachable oldish (page_heap_t.init memory_limit)
  | step (h : page_heap_t) (op : PageOp) :
      PageReachable oldish h → op.enabled h = true → PageReachable oldish (op.apply oldish h)

/-- Runs a sequence of page operations; `none` when one of them is not enabled. -/
def page_run (oldish : List Nat → Nat → Nat) (h : page_heap_t) :
    List PageOp → Option page_heap_t
  | [] => some h
  | op :: ops => if op.enabled h then page_run oldish (op.apply oldish h) ops else none

/-- The final state of a sequence of page operations (the argument itself when
an operation is not enabled). -/
def page_run_from (oldish : List Nat → Nat → Nat) (h : page_heap_t) (ops : List PageOp) :
    page_heap_t :=
  (page_run oldish h ops).getD h

/-- The number of times the page reference `p` occurs in the bag `n`. -/
def bag_count (e : evicter_t) (n : bag_name) (p : Nat) : Nat :=
  (e.bag n).bag_.count p

/-- The bag membership invariant: a live page occurs once in the bag that
`correct_eviction_category` returns for it and in no other bag; a page
reference that is not live occurs in no bag. -/
def bag_inv (h : page_heap_t) : Prop :=
  ∀ p n, bag_count h.evicter n p =
    if h.live p = true ∧ n = correct_eviction_category (page_at h.evicter.pages p) then 1 else 0

/-- A page is constructed for block 7 and the serializer read completes while
the page has no waiter. -/
def trace_disk_load : List PageOp :=
  [PageOp.new_page_with_block_id 7, PageOp.load_with_block_id_finish 0 30 40 4096]

/-- A page is constructed for block 7, the `page_acq_t` 50 acquires it, the
serializer read completes, the acquirer calls `get_buf_write` and is
destroyed. -/
def trace_disk_load_write : List PageOp :=
  [PageOp.new_page_with_block_id 7, PageOp.add_waiter 0 50,
   PageOp.load_with_block_id_finish 0 30 40 4096, PageOp.get_buf_write 0 50,
   PageOp.remove_waiter 0 50]

/-- A page is constructed with a fresh buffer, the `page_acq_t` 50 acquires it,
calls `get_buf_write` and is destroyed. -/
def trace_fresh_write : List PageOp :=
  [PageOp.new_page_with_buf 4096 30, PageOp.add_waiter 0 50, PageOp.get_buf_write 0 50,
   PageOp.remove_waiter 0 50]

/-- The suspended load coroutines and the destroyed pages refer to pages of the
table, and a live page whose load coroutine is suspended has `destroy_ptr_`
set. -/
def loader_inv (h : page_heap_t) : Prop :=
  (∀ p ∈ h.deleted_, p < h.evicter.pages.length) ∧
  (∀ l ∈ h.loaders_, l.1 < h.evicter.pages.length) ∧
  (∀ p l, h.loaders_.lookup p = some l → h.live p = true →
    (page_at h.evicter.pages p).destroy_ptr_ = true)

/-- A page is constructed with a fresh buffer and copied; a page is constructed
for block 7, acquired by the `page_acq_t` 50 and loaded; the acquirer is
destroyed, eviction runs, and the first page is destroyed. -/
def trace_pages_mixed : List PageOp :=
  [PageOp.new_page_with_buf 4096 30, PageOp.new_page_with_copyee 0 60 31,
   PageOp.new_page_with_block_id 7, PageOp.add_waiter 2 50,
   PageOp.load_with_block_id_finish 2 32 40 4096, PageOp.remove_waiter 2 50,
   PageOp.evict_if_necessary, PageOp.destroy 0]

/-! ## The index operations of a flush (`do_flush_txn`) -/

/-- The struct `block_token_tstamp_t` of `page.cc`; `block_token` is `none` for
an empty `counted_t<standard_block_token_t>`. -/
structure block_token_tstamp_t where
  block_id : block_id_t
  is_deleted : Bool
  block_token : Option Nat
  tstamp : repli_timestamp_t
  deriving DecidableEq, Repr

/-- Modelled from the spec: `index_write_op_t` is declared in the serializer
headers, which are not among the sources. The record keeps the three arguments
of the constructor calls in `do_flush_txn`: the block id, the optional token
(`none` for `boost::none`, `some none` for an empty token, `some (some t)` for
the token `t`) and the recency. The spec names the three kinds `Delete`,
`InstallToken` and `TouchRecency`. -/
structure index_write_op_t where
  block_id : block_id_t
  token : Option (Option Nat)
  recency : repli_timestamp_t
  deriving DecidableEq, Repr

/-- The body of the loop of `do_flush_txn` that fills `write_ops`. -/
def index_write_op_of (b : block_token_tstamp_t) : index_write_op_t :=
  if b.is_deleted then
    { block_id := b.block_id, token := some none, recency := repli_timestamp_t.invalid }
  else if b.block_token.isSome then
    { block_id := b.block_id, token := some b.block_token, recency := b.tstamp }
  else
    { block_id := b.block_id, token := none, recency := b.tstamp }

/-- Every queued acquirer that dirtied the page has its write signal pulsed
(`dirtied_page_` is set after `write_cond_.wait()` only). -/
def dirtied_inv (q : List current_page_acq_t) : Prop :=
  ∀ a ∈ q, a.dirtied_page_ = true → a.write_cond_ = true

/-! ## The commit of an acquirer (`page_txn_t::remove_acquirer`) -/

/-- Implements `page_txn_t::remove_acquirer(acq)` together with the calls it
makes on the acquirer: `acq` is the acquirer at position `i` of the queue of the
current page `s`, and belongs to transaction `t` of the cache `c`. For a
read-pulsed write acquirer that dirtied the page, `acq->declare_readonly()` and
`acq->declare_snapshotted()` run on the current page (the second changes nothing
when the acquirer was declared snapshotted before); the acquirer is the first
one that the call which detaches it appends to `detached_`, and
`std::move(acq->snapshotted_page_)` is the pointer it holds there (an empty
pointer when it was not detached). The block id of the acquirer is the one of
its current page. -/
def txn_remove_acquirer (c : page_cache_t) (s : current_page_t) (t acq i : Nat) :
    page_cache_t × current_page_t :=
  match s.acquirers_.get? i with
  | none => (c, s)
  | some a =>
    if a.read_cond_ && decide (a.access_ = alt_access_t.write) && a.dirtied_page_ then
      let s1 := declare_readonly s i
      let s2 := if a.declared_snapshotted_ then s1 else declare_snapshotted s1 i
      let k := if a.declared_snapshotted_ then s.detached_.length else s1.detached_.length
      let snapshotted_page_ := (s2.detached_.get? k).bind (fun d => d.snapshotted_page_)
      (page_txn_t.remove_acquirer c t acq a.read_cond_ a.access_ a.dirtied_page_ s.block_id
        snapshotted_page_, s2)
    else
      (page_txn_t.remove_acquirer c t acq a.read_cond_ a.access_ a.dirtied_page_ s.block_id
        none, s)

/-- The lists `live_acqs_`, `snapshotted_dirtied_pages_` and `touched_pages_`
of transaction `t` (`none` when there is no such transaction). -/
def txn_lists (c : page_cache_t) (t : Nat) :
    Option (List Nat × List dirtied_page_t × List (block_id_t × repli_timestamp_t)) :=
  (c.txns.get? t).map
    (fun x => (x.live_acqs_, x.snapshotted_dirtied_pages_, x.touched_pages_))

/-- The page that a snapshotter detached from the current page `s` gets:
none when the block is marked deleted, else the current page. -/
def snapshot_of (s : current_page_t) : Option Nat :=
  if s.is_deleted_ then none else (convert_from_serializer_if_necessary s).page_

/-- A write acquirer arrives at block 7 and obtains the page for writing. -/
def trace_writer_dirties : List Op :=
  [Op.add_acquirer alt_access_t.write, Op.current_page_for_write 0]

/-- A write acquirer arrives at block 7 and marks the block deleted. -/
def trace_writer_deletes : List Op :=
  [Op.add_acquirer alt_access_t.write, Op.mark_deleted 0]

/-- A transaction is created and gets the acquirer 100. -/
def trace_txn_with_acquirer : List TxnOp :=
  [TxnOp.new_txn none, TxnOp.add_acquirer 0 100]

/-! ## The free list of block ids (`free_list_t`) -/

/-- The fields of `free_list_t`. `free_ids_` is the `segmented_vector_t` used as
a stack: `push_back` appends, `back` and `pop_back` take the last entry. Block
ids are natural numbers, as everywhere in this development. -/
structure free_list_t where
  next_new_block_id_ : block_id_t
  free_ids_ : List block_id_t
  deriving DecidableEq, Repr

/-- Implements the constructor `free_list_t::free_list_t(serializer)`;
`max_block_id` and `get_delete_bit` are what `serializer->max_block_id()` and
`serializer->get_delete_bit(i)` return. -/
def free_list_t.init (max_block_id : block_id_t) (get_delete_bit : block_id_t → Bool) :
    free_list_t :=
  { next_new_block_id_ := max_block_id,
    free_ids_ := (List.range max_block_id).filter get_delete_bit }

/-- Implements `free_list_t::acquire_block_id`: the returned id and the state
after the call. -/
def free_list_t.acquire_block_id (f : free_list_t) : block_id_t × free_list_t :=
  match f.free_ids_.getLast? with
  | none => (f.next_new_block_id_, { f with next_new_block_id_ := f.next_new_block_id_ + 1 })
  | some ret => (ret, { f with free_ids_ := f.free_ids_.dropLast })

/-- Implements `free_list_t::release_block_id`. -/
def free_list_t.release_block_id (f : free_list_t) (block_id : block_id_t) : free_list_t :=
  { f with free_ids_ := f.free_ids_ ++ [block_id] }

/-- The ids returned by `n` successive calls of `acquire_block_id`, and the
state after them. -/
def free_list_t.acquire_block_ids : Nat → free_list_t → List block_id_t × free_list_t
  | 0, f => ([], f)
  | n + 1, f =>
    let r := f.acquire_block_id
    let rs := free_list_t.acquire_block_ids n r.2
    (r.1 :: rs.1, rs.2)

/-- Successive calls of `release_block_id` with the ids of the list, in order. -/
def free_list_t.release_block_ids (f : free_list_t) (block_ids : List block_id_t) :
    free_list_t :=
  block_ids.foldl free_list_t.release_block_id f

/-- A free list together with the block ids that are in use (a history
variable): the ids that `acquire_block_id` returned and that were not released
since, and at the start the ids below `max_block_id` whose delete bit is not
set. -/
structure free_list_use_t where
  free_list : free_list_t
  held_ : List block_id_t
  deriving DecidableEq, Repr

/-- The two operations of the free list. -/
inductive FreeListOp where
  | acquire_block_id
  | release_block_id (block_id : block_id_t)
  deriving DecidableEq, Repr

/-- The release discipline: `release_block_id` is called only with an id that is
in use. -/
def FreeListOp.enabled (s : free_list_use_t) : FreeListOp → Bool
  | FreeListOp.acquire_block_id => true
  | FreeListOp.release_block_id block_id => decide (block_id ∈ s.held_)

/-- The state after the operation: an acquired id becomes in use, a released id
is no longer in use. -/
def FreeListOp.apply (s : free_list_use_t) : FreeListOp → free_list_use_t
  | FreeListOp.acquire_block_id =>
    { free_list := s.free_list.acquire_block_id.2,
      held_ := s.held_ ++ [s.free_list.acquire_block_id.1] }
  | FreeListOp.release_block_id block_id =>
    { free_list := s.free_list.release_block_id block_id,
      held_ := s.held_.erase block_id }

/-- The initial free list with the ids in use at the start. -/
def free_list_use_t.init (max_block_id : block_id_t) (get_delete_bit : block_id_t → Bool) :
    free_list_use_t :=
  { free_list := free_list_t.init max_block_id get_delete_bit,
    held_ := (List.range max_block_id).filter (fun i => !get_delete_bit i) }

/-- The states reachable from the initial free list under the release
discipline. -/
inductive FreeListReachable (max_block_id : block_id_t) (get_delete_bit : block_id_t → Bool) :
    free_list_use_t → Prop where
  | init : FreeListReachable max_block_id get_delete_bit
      (free_list_use_t.init max_block_id get_delete_bit)
  | step (s : free_list_use_t) (op : FreeListOp) :
      FreeListReachable max_block_id get_delete_bit s → op.enabled s = true →
      FreeListReachable max_block_id get_delete_bit (op.apply s)

/-- Runs a sequence of free-list operations; `none` when a release breaks the
discipline. -/
def free_list_run (s : free_list_use_t) : List FreeListOp → Option free_list_use_t
  | [] => some s
  | op :: ops => if op.enabled s then free_list_run (op.apply s) ops else none

/-- The final state of a sequence of free-list operations (the argument itself
when a release breaks the discipline). -/
def free_list_run_from (s : free_list_use_t) (ops : List FreeListOp) : free_list_use_t :=
  (free_list_run s ops).getD s

/-- The invariant of the free list under the release discipline. -/
def free_list_inv (s : free_list_use_t) : Prop :=
  s.free_list.free_ids_.Nodup ∧
  (∀ x ∈ s.free_list.free_ids_, x < s.free_list.next_new_block_id_) ∧
  (∀ x ∈ s.held_, x < s.free_list.next_new_block_id_) ∧
  s.held_.Nodup ∧
  (∀ x ∈ s.held_, x ∉ s.free_list.free_ids_)

/-- A serializer with six blocks of which blocks 1 and 4 are deleted. -/
def sample_delete_bit (i : block_id_t) : Bool :=
  decide (i = 1) || decide (i = 4)

/-- Two ids are acquired, blocks 2 and 0 are released, and one more id is
acquired. -/
def trace_free_list : List FreeListOp :=
  [FreeListOp.acquire_block_id, FreeListOp.acquire_block_id, FreeListOp.release_block_id 2,
   FreeListOp.release_block_id 0, FreeListOp.acquire_block_id]

/-! ## Detaching a snapshotter -/

/-- The acquirer `b1` is the acquirer `b` up to its signals: all fields other
than `read_cond_` and `write_cond_` agree. -/
def same_acquirer (b b1 : current_page_acq_t) : Prop :=
  b1 = { b with read_cond_ := b1.read_cond_, write_cond_ := b1.write_cond_ }

/-- A write acquirer arrives, marks the block deleted and calls
`declare_readonly`. -/
def trace_deleter_downgrades : List Op :=
  [Op.add_acquirer alt_access_t.write, Op.mark_deleted 0, Op.declare_readonly 0]

/-- A write acquirer and a read acquirer arrive; the reader declares itself
snapshotted while it waits behind the writer, then the writer calls
`declare_readonly`. -/
def trace_snapshotter_behind_downgraded : List Op :=
  [Op.add_acquirer alt_access_t.write, Op.add_acquirer alt_access_t.read,
   Op.declare_snapshotted 1, Op.declare_readonly 0]

/-! ## Dirtied pages and last modifiers at the commit of an acquirer -/

/-- A write acquirer arrives at block 7, obtains the page for writing and calls
`declare_readonly`. -/
def trace_writer_dirties_downgrades : List Op :=
  [Op.add_acquirer alt_access_t.write, Op.current_page_for_write 0, Op.declare_readonly 0]

/-- A transaction dirties block 10 through two successive write acquirers: the
acquirer 100 is created and destroyed after it dirtied the page, then the
acquirer 101 likewise. -/
def trace_dirty_twice : List TxnOp :=
  [TxnOp.new_txn none, TxnOp.add_acquirer 0 100,
   TxnOp.remove_acquirer 0 100 true alt_access_t.write true 10 (some 0),
   TxnOp.add_acquirer 0 101,
   TxnOp.remove_acquirer 0 101 true alt_access_t.write true 10 (some 0)]

/-- The list `pages_modified_last_` of transaction `t` (empty when there is no
such transaction). -/
def modified_last_of (l : List page_txn_t) (t : Nat) : List block_id_t :=
  ((l.get? t).map (fun x => x.pages_modified_last_)).getD []

/-- The current page of a block that has a last modifier is in
`pages_modified_last_` of that transaction. -/
def last_modifier_inv (c : page_cache_t) : Prop :=
  ∀ b t, get_last_modifier c b = some t → b ∈ modified_last_of c.txns t

/-! ## Size accounting of the eviction bags -/

/-- The sum of `ser_buf_size_` over the pages in bag `n`. -/
def bag_size_sum (e : evicter_t) (n : bag_name) : Nat :=
  ((e.bag n).bag_.map (ser_buf_size_of e.pages)).sum

/-- The field `size_` of every bag is the sum of `ser_buf_size_` over its
pages, in 64-bit arithmetic. -/
def bag_sizes_ok (e : evicter_t) : Prop :=
  ∀ n, (e.bag n).size_ = bag_size_sum e n % UINT64

/-- The `rassert(value <= size_)` of `eviction_bag_t::remove` for the removal
of `page` from bag `n`. -/
def eviction_bag_remove_assert (e : evicter_t) (n : bag_name) (page : Nat) : Bool :=
  decide (ser_buf_size_of e.pages page ≤ (e.bag n).size_)

/-- The size invariant of the cache: the bag sizes are the sums, and a page
whose load coroutine is suspended has `ser_buf_size_` zero. -/
def size_inv (h : page_heap_t) : Prop :=
  bag_sizes_ok h.evicter ∧
  ∀ p l, h.loaders_.lookup p = some l → ser_buf_size_of h.evicter.pages p = 0

/-! ## Snapshot references and page acquirers (`page_ptr_t`, `page_acq_t`)

The table of pages is extended by the snapshot reference counts, the
`page_ptr_t` objects and, as a history variable, the `page_ptr_t` in whose
lifetime each `page_acq_t` was created. A `page_ptr_t` is named by its position
in `ptrs_`. The `page_ptr_t copyee_ptr` and the `page_acq_t acq` of a
`load_from_copyee` coroutine are a pointer and an acquirer like the others: the
construction of the pointer, the construction of the copy and the destruction
of the pointer are separate operations here. -/

/-- The waiters of the page with reference `q`. -/
def waiters_of (h : page_heap_t) (q : Nat) : List Nat :=
  (page_at h.evicter.pages q).waiters_

/-- Between `h` and `h1` no page was destroyed and no page reference was lost,
and every waiter of a page in `h1` is a waiter of that page in `h` or is the
new waiter `new_waiter` (a page and a `page_acq_t`). -/
def heap_frame (h h1 : page_heap_t) (new_waiter : Option (Nat × Nat)) : Prop :=
  h1.deleted_ = h.deleted_ ∧ h.evicter.pages.length ≤ h1.evicter.pages.length ∧
  ∀ q a, a ∈ waiters_of h1 q → a ∈ waiters_of h q ∨ new_waiter = some (q, a)

/-- The page and the `page_acq_t` that the operation makes a waiter of it. -/
def PageOp.new_waiter : PageOp → Option (Nat × Nat)
  | PageOp.add_waiter page acq => some (page, acq)
  | PageOp.new_page_with_copyee copyee acq _ => some (copyee, acq)
  | _ => none

/-- The pages with their snapshot reference counts (`snapshot_refcount_` of page
`p` is `snapshot_refcount_ p`), the `page_ptr_t` objects (`ptrs_` holds the field
`page_` of each, `none` for a null pointer) and, for every `page_acq_t` created
so far, the `page_ptr_t` in whose lifetime it was created. -/
structure page_refs_t where
  heap : page_heap_t
  snapshot_refcount_ : Nat → Nat
  ptrs_ : List (Option Nat)
  acq_ptr_ : List (Nat × Nat)

/-- The cache before any page or pointer exists. -/
def page_refs_t.init (memory_limit : Nat) : page_refs_t :=
  { heap := page_heap_t.init memory_limit, snapshot_refcount_ := fun _ => 0, ptrs_ := [],
    acq_ptr_ := [] }

/-- The field `page_` of the pointer `ptr` (`none` for a null pointer). -/
def page_refs_t.page_of (s : page_refs_t) (ptr : Nat) : Option Nat :=
  (s.ptrs_.get? ptr).join

/-- Implements `page_t::add_snapshotter` on the page `page`. -/
def page_t.add_snapshotter (s : page_refs_t) (page : Nat) : page_refs_t :=
  { s with snapshot_refcount_ :=
      fun q => if q = page then s.snapshot_refcount_ page + 1 else s.snapshot_refcount_ q }

/-- Implements `page_t::remove_snapshotter` on the page `page`: the count is
decremented, and when it is zero the page is removed from the evicter and
deleted (`page_t_destroy`). -/
def page_t.remove_snapshotter (s : page_refs_t) (page : Nat) : page_refs_t :=
  let s1 := { s with snapshot_refcount_ :=
      fun q => if q = page then s.snapshot_refcount_ page - 1 else s.snapshot_refcount_ q }
  if s1.snapshot_refcount_ page = 0 then { s1 with heap := page_t_destroy s1.heap page }
  else s1

/-- The `rassert` conditions of `page_t::remove_snapshotter`: the count is
positive, and the page has no waiters when the count becomes zero. -/
def page_t.remove_snapshotter_asserts (s : page_refs_t) (page : Nat) : Bool :=
  decide (0 < s.snapshot_refcount_ page) &&
    (if s.snapshot_refcount_ page - 1 = 0 then (waiters_of s.heap page).isEmpty else true)

/-- Implements `page_ptr_t::init(page, page_cache)` on the pointer `ptr`. -/
def page_ptr_t.init (s : page_refs_t) (ptr : Nat) (page : Option Nat) : page_refs_t :=
  let s1 := { s with ptrs_ := s.ptrs_.set ptr page }
  match page with
  | none => s1
  | some p => page_t.add_snapshotter s1 p

/-- Implements `page_ptr_t::reset` on the pointer `ptr`. -/
def page_ptr_t.reset (s : page_refs_t) (ptr : Nat) : page_refs_t :=
  match s.page_of ptr with
  | none => s
  | some p => page_t.remove_snapshotter { s with ptrs_ := s.ptrs_.set ptr none } p

/-- The operations on pages, pointers and page acquirers: a page operation that
involves no pointer and no acquirer; the default constructor of `page_ptr_t`;
`page_ptr_t::init` and `page_ptr_t::reset`; the construction of a `page_acq_t`
on the page of a pointer and its destruction; the construction of a copy of the
page of a pointer (the pointer is the `copyee_ptr` of `load_from_copyee`) and
the completion of `load_from_copyee`. -/
inductive RefOp where
  | page (op : PageOp)
  | new_ptr
  | ptr_init (ptr page : Nat)
  | ptr_reset (ptr : Nat)
  | acq_init (acq ptr : Nat)
  | acq_destroy (acq : Nat)
  | copy (ptr acq buf : Nat)
  | copy_finish (page buf : Nat)
  deriving DecidableEq, Repr

/-- The page operations that involve no pointer and no `page_acq_t` of a
caller. -/
def PageOp.heap_only : PageOp → Bool
  | PageOp.new_page_with_block_id _ => true
  | PageOp.new_page_with_buf _ _ => true
  | PageOp.load_with_block_id_finish _ _ _ _ => true
  | PageOp.get_buf_write _ _ => true
  | PageOp.evict_if_necessary => true
  | _ => false

/-- Whether the operation can happen in state `s`. `page_ptr_t::init` is called
on a null pointer with a live page. The lifetime of every `page_acq_t` is nested
in that of a `page_ptr_t` on the same page: an acquirer is constructed on the
page of a pointer, under a name not used before, and a pointer is reset only
when no acquirer created in its lifetime is still a waiter of its page. -/
def RefOp.enabled (s : page_refs_t) : RefOp → Bool
  | RefOp.page op => op.heap_only && op.enabled s.heap
  | RefOp.new_ptr => true
  | RefOp.ptr_init ptr p => decide (s.ptrs_.get? ptr = some none) && s.heap.live p
  | RefOp.ptr_reset ptr =>
    match s.page_of ptr with
    | none => decide (ptr < s.ptrs_.length)
    | some p =>
      s.acq_ptr_.all (fun r => !decide (r.2 = ptr) || !decide (r.1 ∈ waiters_of s.heap p))
  | RefOp.acq_init acq ptr =>
    match s.page_of ptr with
    | none => false
    | some p =>
      (PageOp.add_waiter p acq).enabled s.heap && !decide (acq ∈ s.acq_ptr_.map Prod.fst)
  | RefOp.acq_destroy acq =>
    match s.acq_ptr_.lookup acq with
    | none => false
    | some ptr =>
      match s.page_of ptr with
      | none => false
      | some p => (PageOp.remove_waiter p acq).enabled s.heap
  | RefOp.copy ptr acq buf =>
    match s.page_of ptr with
    | none => false
    | some copyee =>
      (PageOp.new_page_with_copyee copyee acq buf).enabled s.heap &&
        !decide (acq ∈ s.acq_ptr_.map Prod.fst)
  | RefOp.copy_finish p buf => (PageOp.load_from_copyee_finish p buf).enabled s.heap

/-- The page operation on the table of pages that the operation performs
(`none` for the operations on pointers). -/
def RefOp.page_op (s : page_refs_t) : RefOp → Option PageOp
  | RefOp.page op => some op
  | RefOp.acq_init acq ptr => (s.page_of ptr).map (fun p => PageOp.add_waiter p acq)
  | RefOp.acq_destroy acq =>
    ((s.acq_ptr_.lookup acq).bind s.page_of).map (fun p => PageOp.remove_waiter p acq)
  | RefOp.copy ptr acq buf =>
    (s.page_of ptr).map (fun copyee => PageOp.new_page_with_copyee copyee acq buf)
  | RefOp.copy_finish p buf => some (PageOp.load_from_copyee_finish p buf)
  | _ => none

/-- The entry that the operation adds to the history `acq_ptr_`. -/
def RefOp.new_acq_ptr : RefOp → List (Nat × Nat)
  | RefOp.acq_init acq ptr => [(acq, ptr)]
  | RefOp.copy ptr acq _ => [(acq, ptr)]
  | _ => []

/-- The state after the operation; `oldish` is the selection function of
`remove_oldish`. -/
def RefOp.apply (oldish : List Nat → Nat → Nat) (s : page_refs_t) (op : RefOp) : page_refs_t :=
  match op with
  | RefOp.new_ptr => { s with ptrs_ := s.ptrs_ ++ [none] }
  | RefOp.ptr_init ptr p => page_ptr_t.init s ptr (some p)
  | RefOp.ptr_reset ptr => page_ptr_t.reset s ptr
  | _ =>
    match op.page_op s with
    | none => s
    | some pop =>
      { s with heap := pop.apply oldish s.heap, acq_ptr_ := s.acq_ptr_ ++ op.new_acq_ptr }

/-- The states reachable from the empty cache by enabled operations. -/
inductive RefReachable (oldish : List Nat → Nat → Nat) : page_refs_t → Prop where
  | init (memory_limit : Nat) : RefReachable oldish (page_refs_t.init memory_limit)
  | step (s : page_refs_t) (op : RefOp) :
      RefReachable oldish s → op.enabled s = true → RefReachable oldish (op.apply oldish s)

/-- Runs a sequence of operations; `none` when one of them is not enabled. -/
def ref_run (oldish : List Nat → Nat → Nat) (s : page_refs_t) :
    List RefOp → Option page_refs_t
  | [] => some s
  | op :: ops => if op.enabled s then ref_run oldish (op.apply oldish s) ops else none

/-- The final state of a sequence of operations (the argument itself when an
operation is not enabled). -/
def ref_run_from (oldish : List Nat → Nat → Nat) (s : page_refs_t) (ops : List RefOp) :
    page_refs_t :=
  (ref_run oldish s ops).getD s

/-- The invariant of pages, pointers and acquirers: the table of pages is
reachable; the snapshot reference count of a page is the number of pointers that
hold it; a pointer holds a live page; every waiter of a page was created in the
lifetime of a pointer that holds the page. -/
def refs_inv (oldish : List Nat → Nat → Nat) (s : page_refs_t) : Prop :=
  PageReachable oldish s.heap ∧
  (∀ p, s.snapshot_refcount_ p = s.ptrs_.count (some p)) ∧
  (∀ ptr p, s.page_of ptr = some p → s.heap.live p = true) ∧
  (∀ p a, a ∈ waiters_of s.heap p → ∃ ptr, (a, ptr) ∈ s.acq_ptr_ ∧ s.page_of ptr = some p)

/-- A page is constructed with a fresh buffer, a pointer is constructed and
initialised with the page, the `page_acq_t` 50 acquires the page through the
pointer and is destroyed. -/
def trace_ptr_acq : List RefOp :=
  [RefOp.page (PageOp.new_page_with_buf 4096 30), RefOp.new_ptr, RefOp.ptr_init 0 0,
   RefOp.acq_init 50 0, RefOp.acq_destroy 50]

end alt

/-! ## Time zone sanitization (`rdb_protocol/pseudo_time.cc`)

A `std::string` becomes the list of its characters; a function that throws
(`rcheck_datum`, `r_sanity_check`) returns `none`. -/

namespace pseudo

/-- The enumeration `optional_char_default_behavior_t`. -/
inductive optional_char_default_behavior_t where
  | INCLUDE
  | EXCLUDE
  deriving DecidableEq, Repr

/-- Implements `sanitize::mandatory_digits(s, n, p_at, p_out)`: the new values
of `*p_at` and `*p_out`, or `none` when the string is truncated or a character
is not a digit. -/
def sanitize.mandatory_digits (s : List Char) : Nat → Nat → List Char →
    Option (Nat × List Char)
  | 0, p_at, p_out => some (p_at, p_out)
  | n + 1, p_at, p_out =>
    match s.get? p_at with
    | none => none
    | some c =>
      if '0' ≤ c ∧ c ≤ '9' then sanitize.mandatory_digits s n (p_at + 1) (p_out ++ [c])
      else none

/-- Implements `sanitize::optional_char(s, c, p_at, p_out, default_behavior)`:
the returned flag and the new values of `*p_at` and `*p_out`. -/
def sanitize.optional_char (s : List Char) (c : Char) (p_at : Nat) (p_out : List Char)
    (default_behavior : optional_char_default_behavior_t) : Bool × Nat × List Char :=
  if s.get? p_at = some c then (true, p_at + 1, p_out ++ [c])
  else
    match default_behavior with
    | optional_char_default_behavior_t.INCLUDE => (false, p_at, p_out ++ [c])
    | optional_char_default_behavior_t.EXCLUDE => (false, p_at, p_out)

/-- Implements `sanitize::hours_valid`. -/
def sanitize.hours_valid (l r : Char) : Bool :=
  (decide (l = '0' ∨ l = '1') && decide ('0' ≤ r ∧ r ≤ '9')) ||
    (decide (l = '2') && decide ('0' ≤ r ∧ r ≤ '4'))

/-- Implements `sanitize::minutes_valid`. -/
def sanitize.minutes_valid (l r : Char) : Bool :=
  decide ('0' ≤ l ∧ l ≤ '5') && decide ('0' ≤ r ∧ r ≤ '9')

/-- Implements `sanitize::tz`: the sanitized time zone, or `none` when the
function throws. -/
def sanitize.tz (s : List Char) : Option (List Char) :=
  if s = "-00".toList ∨ s = "-00:00".toList then none
  else if s = "Z".toList then some "+00:00".toList
  else
    let minus := sanitize.optional_char s '-' 0 [] optional_char_default_behavior_t.EXCLUDE
    let sign :=
      if minus.1 then minus
      else sanitize.optional_char s '+' minus.2.1 minus.2.2
        optional_char_default_behavior_t.EXCLUDE
    if !sign.1 then none
    else
      match sanitize.mandatory_digits s 2 sign.2.1 sign.2.2 with
      | none => none
      | some (at_hours, out_hours) =>
        if at_hours = s.length then some (out_hours ++ ":00".toList)
        else
          let colon := sanitize.optional_char s ':' at_hours out_hours
            optional_char_default_behavior_t.INCLUDE
          match sanitize.mandatory_digits s 2 colon.2.1 colon.2.2 with
          | none => none
          | some (at_minutes, out) =>
            if at_minutes ≠ s.length then none
            else if out.length ≠ 6 then none
            else if !sanitize.hours_valid (out.getD 1 '0') (out.getD 2 '0') then none
            else if !sanitize.minutes_valid (out.getD 4 '0') (out.getD 5 '0') then none
            else some out

/-- Implements `tz_valid(tz, tz_out)`: `none` for `false`, otherwise the string
stored in `*tz_out`. -/
def tz_valid (tz : List Char) : Option (List Char) :=
  sanitize.tz tz

/-- The branch of `sanitize_time` for the key `timezone` with a string value
`raw_tz`: the time zone that the time object holds afterwards, `none` when the
string is rejected (`invalid timezone string`). -/
def sanitize_time_timezone (raw_tz : List Char) : Option (List Char) :=
  match tz_valid raw_tz with
  | none => none
  | some tz => some (if tz = "Z".toList then "+00:00".toList else tz)

/-- The string that `time_to_boost` passes to `posix_time_zone` for a time
object with the time zone `tz`: `sanitize::tz(tz)`, `none` when it throws. -/
def time_to_boost_zone (tz : List Char) : Option (List Char) :=
  sanitize.tz tz

end pseudo

/-! ## `watchable_map_var_t` (`concurrency/watchable_map.tcc`)

A `std::map<key_t, value_t>` becomes the list of its entries in increasing key
order; keys and values are natural numbers. The subscribers that
`notify_change` calls do not write the map, and the lock assertions have no
effect on it; both are left out. -/

namespace watchable_map

/-- The entries of a `std::map<key_t, value_t>`. -/
abbrev std_map := List (Nat × Nat)

/-- Implements `std::map::find`: the value stored for `key`, `none` for `end()`. -/
def std_map.find (m : std_map) (key : Nat) : Option Nat :=
  m.lookup key

/-- Implements `std::map::count`. -/
def std_map.count (m : std_map) (key : Nat) : Nat :=
  if (m.lookup key).isSome then 1 else 0

/-- The position at which `std::map::insert` stores a new entry: in front of the
first entry with a larger key. -/
def std_map.insert_sorted : std_map → Nat → Nat → std_map
  | [], key, value => [(key, value)]
  | e :: rest, key, value =>
    if key < e.1 then (key, value) :: e :: rest
    else e :: std_map.insert_sorted rest key value

/-- Implements `std::map::insert(std::make_pair(key, value))`: when the map has
an entry for `key` the map is unchanged, otherwise the entry is stored. -/
def std_map.insert (m : std_map) (key value : Nat) : std_map :=
  if (m.lookup key).isSome then m else std_map.insert_sorted m key value

/-- Implements `std::map::erase(key)`. -/
def std_map.erase (m : std_map) (key : Nat) : std_map :=
  m.filter (fun e => !decide (e.1 = key))

/-- The field `map` of a `watchable_map_var_t`. -/
structure watchable_map_var_t where
  map : std_map
  deriving DecidableEq, Repr

/-- Implements `watchable_map_var_t::get_all`. -/
def watchable_map_var_t.get_all (w : watchable_map_var_t) : std_map :=
  w.map

/-- Implements `watchable_map_var_t::set_key_no_equals`: `map.insert(...)`, then
the notification. -/
def watchable_map_var_t.set_key_no_equals (w : watchable_map_var_t) (key new_value : Nat) :
    watchable_map_var_t :=
  { w with map := w.map.insert key new_value }

/-- Implements `watchable_map_var_t::delete_key`: `map.erase(key)`, then the
notification. -/
def watchable_map_var_t.delete_key (w : watchable_map_var_t) (key : Nat) :
    watchable_map_var_t :=
  { w with map := w.map.erase key }

/-- Implements `watchable_map_var_t::set_all`: the first loop visits the entries
of `map` (the iterator is advanced before the entry is deleted) and deletes the
keys that `new_value` does not have, the second loop calls `set_key_no_equals`
for every entry of `new_value`. -/
def watchable_map_var_t.set_all (w : watchable_map_var_t) (new_value : std_map) :
    watchable_map_var_t :=
  let w1 := w.map.foldl
    (fun acc jt => if std_map.count new_value jt.1 = 0 then acc.delete_key jt.1 else acc) w
  new_value.foldl (fun acc it => acc.set_key_no_equals it.1 it.2) w1

end watchable_map

/-! # Theorems -/

namespace alt

/-! ## Lemmas on the queue invariant -/

theorem arrival_ordered_of_none_pulsed (l : List current_page_acq_t)
    (h : l.all (fun b => !b.read_cond_) = true) : arrival_ordered l = true := by
  induction l with
  | nil => rfl
  | cons a rest ih =>
    simp only [List.all_cons, Bool.and_eq_true] at h
    have ha : read_pulsed_reader a = false := by
      simp only [read_pulsed_reader]
      cases hr : a.read_cond_ <;> simp_all
    simp [arrival_ordered, ha, h.2]

theorem arrival_ordered_tail (a : current_page_acq_t) (l : List current_page_acq_t)
    (h : arrival_ordered (a :: l) = true) : arrival_ordered l = true := by
  simp only [arrival_ordered] at h
  split at h
  · exact h
  · exact arrival_ordered_of_none_pulsed l h

theorem arrival_ordered_append (pre l : List current_page_acq_t)
    (hpre : ∀ b ∈ pre, read_pulsed_reader b = true) :
    arrival_ordered (pre ++ l) = arrival_ordered l := by
  induction pre with
  | nil => rfl
  | cons a rest ih =>
    have ha := hpre a (List.mem_cons_self _ _)
    simp only [List.cons_append, arrival_ordered, ha, if_true]
    exact ih (fun b hb => hpre b (List.mem_cons_of_mem _ hb))

theorem arrival_ordered_before (pre : List current_page_acq_t) (x : current_page_acq_t)
    (post : List current_page_acq_t) (h : arrival_ordered (pre ++ x :: post) = true)
    (hx : x.read_cond_ = true) : ∀ b ∈ pre, read_pulsed_reader b = true := by
  induction pre with
  | nil => intro b hb; cases hb
  | cons a rest ih =>
    intro b hb
    simp only [List.cons_append, arrival_ordered] at h
    split at h
    · rename_i ha
      rcases List.mem_cons.1 hb with rfl | hb
      · exact ha
      · exact ih h b hb
    · exfalso
      rw [List.all_eq_true] at h
      have := h x (by simp)
      simp [hx] at this

theorem arrival_ordered_drop (l : List current_page_acq_t) (i : Nat)
    (h : arrival_ordered l = true) : arrival_ordered (l.drop i) = true := by
  induction i generalizing l with
  | zero => simpa using h
  | succ n ih =>
    cases l with
    | nil => rfl
    | cons a rest => simpa using ih rest (arrival_ordered_tail a rest h)

theorem none_pulsed_eraseIdx (l : List current_page_acq_t) (i : Nat)
    (h : l.all (fun b => !b.read_cond_) = true) :
    (l.eraseIdx i).all (fun b => !b.read_cond_) = true := by
  rw [List.all_eq_true] at h ⊢
  intro b hb
  exact h b (List.mem_of_mem_eraseIdx hb)

theorem arrival_ordered_eraseIdx (l : List current_page_acq_t) (i : Nat)
    (h : arrival_ordered l = true) : arrival_ordered (l.eraseIdx i) = true := by
  induction l generalizing i with
  | nil => simpa using h
  | cons a rest ih =>
    cases i with
    | zero => simpa using arrival_ordered_tail a rest h
    | succ n =>
      simp only [List.eraseIdx_cons_succ, arrival_ordered] at h ⊢
      split
      · rename_i ha
        rw [if_pos ha] at h
        exact ih n h
      · rename_i ha
        rw [if_neg ha] at h
        exact none_pulsed_eraseIdx rest n h

theorem none_pulsed_modify (f : current_page_acq_t → current_page_acq_t)
    (hf : ∀ a, (f a).read_cond_ = a.read_cond_) (l : List current_page_acq_t) (i : Nat) :
    (l.modify f i).all (fun b => !b.read_cond_) = l.all (fun b => !b.read_cond_) := by
  induction l generalizing i with
  | nil => simp
  | cons a rest ih =>
    cases i with
    | zero => simp [hf]
    | succ n => simp [ih n]

theorem arrival_ordered_modify (f : current_page_acq_t → current_page_acq_t)
    (hr : ∀ a, (f a).read_cond_ = a.read_cond_) (ha : ∀ a, (f a).access_ = a.access_)
    (l : List current_page_acq_t) (i : Nat) :
    arrival_ordered (l.modify f i) = arrival_ordered l := by
  induction l generalizing i with
  | nil => simp
  | cons a rest ih =>
    cases i with
    | zero => simp [arrival_ordered, read_pulsed_reader, hr, ha]
    | succ n =>
      rw [List.modify_succ_cons]
      simp only [arrival_ordered, ih n, none_pulsed_modify f hr]

theorem arrival_ordered_modify_readonly (l : List current_page_acq_t) (i : Nat)
    (h : arrival_ordered l = true) :
    arrival_ordered (l.modify (fun a => { a with access_ := alt_access_t.read }) i) = true := by
  induction l generalizing i with
  | nil => simpa using h
  | cons a rest ih =>
    cases i with
    | zero =>
      simp only [List.modify_zero_cons, arrival_ordered] at h ⊢
      split at h
      · rename_i hrp
        have : read_pulsed_reader { a with access_ := alt_access_t.read } = true := by
          simp only [read_pulsed_reader, Bool.and_eq_true, decide_eq_true_eq] at hrp ⊢
          simp [hrp.2]
        rw [if_pos this]; exact h
      · split
        · exact arrival_ordered_of_none_pulsed rest h
        · exact h
    | succ n =>
      rw [List.modify_succ_cons]
      simp only [arrival_ordered] at h ⊢
      split
      · rename_i hrp
        rw [if_pos hrp] at h
        exact ih n h
      · rename_i hrp
        rw [if_neg hrp] at h
        rw [none_pulsed_modify (fun a => { a with access_ := alt_access_t.read })
          (fun _ => rfl)]
        exact h

theorem write_free_tail_modify (f : current_page_acq_t → current_page_acq_t)
    (hw : ∀ a, (f a).write_cond_ = a.write_cond_) (l : List current_page_acq_t) (i : Nat) :
    write_free (l.modify f i).tail = write_free l.tail := by
  have key : ∀ (l : List current_page_acq_t) (i : Nat),
      write_free (l.modify f i) = write_free l := by
    intro l
    induction l with
    | nil => intro i; simp
    | cons a rest ih =>
      intro i
      cases i with
      | zero => simp [write_free, hw]
      | succ n =>
        have := ih n
        simp only [write_free] at this
        simp [write_free, this]
  cases l with
  | nil => simp
  | cons a rest =>
    cases i with
    | zero => simp
    | succ n => simpa using key rest n

theorem write_free_tail_eraseIdx (l : List current_page_acq_t) (i : Nat)
    (h : write_free l.tail = true) : write_free (l.eraseIdx i).tail = true := by
  cases l with
  | nil => simpa using h
  | cons a rest =>
    simp only [List.tail_cons, write_free, List.all_eq_true] at h
    cases i with
    | zero =>
      simp only [List.eraseIdx_cons_zero, write_free, List.all_eq_true]
      intro b hb
      exact h b (List.mem_of_mem_tail hb)
    | succ n =>
      simp only [List.eraseIdx_cons_succ, List.tail_cons, write_free, List.all_eq_true]
      intro b hb
      exact h b (List.mem_of_mem_eraseIdx hb)

theorem write_free_tail_append_singleton (l : List current_page_acq_t)
    (a : current_page_acq_t) (ha : a.write_cond_ = false)
    (h : write_free l.tail = true) : write_free (l ++ [a]).tail = true := by
  cases l with
  | nil => simp [write_free]
  | cons b rest =>
    simp only [List.tail_cons, write_free, List.cons_append, List.all_append, List.all_cons,
      List.all_nil, Bool.and_true, Bool.and_eq_true] at h ⊢
    exact ⟨h, by simp [ha]⟩

theorem write_free_tail_replace (before rest : List current_page_acq_t)
    (x y : current_page_acq_t) (h : write_free (before ++ x :: rest).tail = true)
    (hxy : y.write_cond_ = x.write_cond_) :
    write_free (before ++ y :: rest).tail = true := by
  cases before with
  | nil => simpa using h
  | cons b bs => simpa [write_free, hxy] using h

theorem pulse_loop_arrival_ordered (s : current_page_t) (before rest : List current_page_acq_t)
    (hb : ∀ b ∈ before, read_pulsed_reader b = true) (hr : arrival_ordered rest = true) :
    arrival_ordered (pulse_loop s before rest).acquirers_ = true := by
  induction rest generalizing s before with
  | nil =>
    simp only [pulse_loop]
    have := arrival_ordered_append before [] hb
    simpa [arrival_ordered] using this
  | cons cur rest ih =>
    have hrest := arrival_ordered_tail cur rest hr
    unfold pulse_loop
    cases hacc : cur.access_ with
    | read =>
      simp only
      split
      · exact ih _ before hb hrest
      · apply ih _ _ _ hrest
        intro b hb2
        rcases List.mem_append.1 hb2 with h1 | h1
        · exact hb b h1
        · simp only [List.mem_singleton] at h1
          subst h1
          simp [read_pulsed_reader, hacc]
    | write =>
      have hnot : read_pulsed_reader cur = false := by simp [read_pulsed_reader, hacc]
      have hnone : rest.all (fun b => !b.read_cond_) = true := by
        simpa [arrival_ordered, hnot] using hr
      simp only
      split
      · rename_i hemp
        simp [arrival_ordered, read_pulsed_reader, hacc, hnone]
      · simp only
        rw [arrival_ordered_append _ _ hb]
        simp [arrival_ordered, read_pulsed_reader, hacc, hnone]

theorem pulse_loop_write_free (s : current_page_t) (before rest : List current_page_acq_t)
    (h : write_free (before ++ rest).tail = true) :
    write_free (pulse_loop s before rest).acquirers_.tail = true := by
  induction rest generalizing s before with
  | nil => simpa [pulse_loop] using h
  | cons cur rest ih =>
    unfold pulse_loop
    cases hacc : cur.access_ with
    | read =>
      simp only
      split
      · apply ih
        have := write_free_tail_eraseIdx (before ++ cur :: rest) before.length h
        simpa [List.eraseIdx_append_of_length_le] using this
      · apply ih
        rw [List.append_assoc, List.singleton_append]
        refine write_free_tail_replace before rest cur _ h ?_
        rfl
    | write =>
      simp only
      split
      · rename_i hemp
        have : before = [] := by simpa using hemp
        subst this
        simpa using h
      · show write_free (before ++ _ :: rest).tail = true
        refine write_free_tail_replace before rest cur _ h ?_
        rfl

theorem all_read_pulsed_of_prev_allows (before post : List current_page_acq_t)
    (h : arrival_ordered (before ++ post) = true) (hp : prev_allows_pulse before = true) :
    ∀ b ∈ before, read_pulsed_reader b = true := by
  rcases List.eq_nil_or_concat before with rfl | ⟨front, x, hfx⟩
  · intro b hb; cases hb
  · rw [List.concat_eq_append] at hfx
    subst hfx
    have hx : read_pulsed_reader x = true := by
      simpa [prev_allows_pulse, read_pulsed_reader] using hp
    have hxr : x.read_cond_ = true := by
      simp only [read_pulsed_reader, Bool.and_eq_true] at hx
      exact hx.2
    have hfront := arrival_ordered_before front x post (by simpa using h) hxr
    intro b hb
    rcases List.mem_append.1 hb with h1 | h1
    · exact hfront b h1
    · simp only [List.mem_singleton] at h1
      subst h1; exact hx

theorem pulse_pulsables_queue_inv (s : current_page_t) (i : Nat)
    (h : queue_inv s.acquirers_) : queue_inv (pulse_pulsables s i).acquirers_ := by
  unfold pulse_pulsables
  split
  · exact h
  · rename_i acq rest hdrop
    have hq : s.acquirers_.take i ++ acq :: rest = s.acquirers_ := by
      rw [← hdrop]; exact List.take_append_drop i s.acquirers_
    split
    · exact h
    · rename_i hprev
      split
      · exact h
      · have hprev2 : prev_allows_pulse (s.acquirers_.take i) = true := by
          simpa using hprev
        constructor
        · apply pulse_loop_arrival_ordered
          · exact all_read_pulsed_of_prev_allows _ (acq :: rest) (by rw [hq]; exact h.1) hprev2
          · rw [← hdrop]; exact arrival_ordered_drop _ _ h.1
        · apply pulse_loop_write_free
          rw [hq]; exact h.2

theorem convert_acquirers (s : current_page_t) :
    (convert_from_serializer_if_necessary s).acquirers_ = s.acquirers_ := by
  unfold convert_from_serializer_if_necessary
  split <;> rfl

theorem get_page_for_write_acquirers (s : current_page_t) :
    (get_page_for_write s).2.acquirers_ = s.acquirers_ := by
  unfold get_page_for_write
  split
  · rfl
  · split <;> rfl

theorem page_ptr_reset_acquirers (p : Option Nat) (s : current_page_t) :
    (page_ptr_reset p s).acquirers_ = s.acquirers_ := by
  cases p <;> rfl

theorem arrival_ordered_append_unpulsed (l : List current_page_acq_t)
    (a : current_page_acq_t) (ha : a.read_cond_ = false) (h : arrival_ordered l = true) :
    arrival_ordered (l ++ [a]) = true := by
  induction l with
  | nil => simp [arrival_ordered, read_pulsed_reader, ha]
  | cons b rest ih =>
    simp only [List.cons_append, arrival_ordered] at h ⊢
    split
    · rename_i hb
      rw [if_pos hb] at h
      exact ih h
    · rename_i hb
      rw [if_neg hb] at h
      simp [List.all_append, h, ha]

theorem queue_inv_modify (f : current_page_acq_t → current_page_acq_t)
    (q : List current_page_acq_t) (i : Nat) (h : queue_inv q)
    (hr : ∀ a, (f a).read_cond_ = a.read_cond_) (ha : ∀ a, (f a).access_ = a.access_)
    (hw : ∀ a, (f a).write_cond_ = a.write_cond_) : queue_inv (q.modify f i) := by
  constructor
  · rw [arrival_ordered_modify f hr ha]; exact h.1
  · rw [write_free_tail_modify f hw]; exact h.2

theorem add_acquirer_queue_inv (s : current_page_t) (access : alt_access_t)
    (h : queue_inv s.acquirers_) : queue_inv (add_acquirer s access).acquirers_ := by
  apply pulse_pulsables_queue_inv
  constructor
  · show arrival_ordered (s.acquirers_ ++ [current_page_acq_t.fresh access]) = true
    exact arrival_ordered_append_unpulsed _ _ rfl h.1
  · exact write_free_tail_append_singleton _ _ rfl h.2

theorem remove_acquirer_queue_inv (s : current_page_t) (i : Nat)
    (h : queue_inv s.acquirers_) : queue_inv (remove_acquirer s i).acquirers_ := by
  have h1 : queue_inv (s.acquirers_.eraseIdx i) :=
    ⟨arrival_ordered_eraseIdx _ _ h.1, write_free_tail_eraseIdx _ _ h.2⟩
  unfold remove_acquirer
  simp only
  split
  · exact pulse_pulsables_queue_inv _ _ h1
  · split
    · exact h1
    · exact h1

theorem declare_readonly_queue_inv (s : current_page_t) (i : Nat)
    (h : queue_inv s.acquirers_) : queue_inv (declare_readonly s i).acquirers_ := by
  apply pulse_pulsables_queue_inv
  constructor
  · exact arrival_ordered_modify_readonly _ _ h.1
  · show write_free (List.modify _ i s.acquirers_).tail = true
    have hw := write_free_tail_modify (fun a => { a with access_ := alt_access_t.read })
      (fun _ => rfl) s.acquirers_ i
    rw [hw]
    exact h.2

theorem declare_snapshotted_queue_inv (s : current_page_t) (i : Nat)
    (h : queue_inv s.acquirers_) : queue_inv (declare_snapshotted s i).acquirers_ := by
  unfold declare_snapshotted
  split
  · exact h
  · split
    · exact h
    · apply pulse_pulsables_queue_inv
      refine queue_inv_modify _ _ _ h ?_ ?_ ?_ <;> intro a <;> rfl

theorem dirtied_queue_inv (q : List current_page_acq_t) (i : Nat) (h : queue_inv q) :
    queue_inv (q.modify (fun a => { a with dirtied_page_ := true }) i) := by
  refine queue_inv_modify _ _ _ h ?_ ?_ ?_ <;> intro a <;> rfl

theorem apply_queue_inv (s : current_page_t) (op : Op)
    (h : queue_inv s.acquirers_) : queue_inv (op.apply s).acquirers_ := by
  cases op with
  | add_acquirer access => exact add_acquirer_queue_inv s access h
  | remove_acquirer i => exact remove_acquirer_queue_inv s i h
  | declare_readonly i => exact declare_readonly_queue_inv s i h
  | declare_snapshotted i => exact declare_snapshotted_queue_inv s i h
  | mark_deleted i =>
    show queue_inv (mark_deleted s i).acquirers_
    unfold mark_deleted current_page_t.mark_deleted
    rw [page_ptr_reset_acquirers]
    exact dirtied_queue_inv _ i h
  | current_page_for_read i =>
    show queue_inv (the_page_for_read s).2.acquirers_
    unfold the_page_for_read
    simp only [convert_acquirers]
    exact h
  | current_page_for_write i =>
    show queue_inv (current_page_for_write s i).2.acquirers_
    unfold current_page_for_write the_page_for_write
    rw [get_page_for_write_acquirers, convert_acquirers]
    exact dirtied_queue_inv _ i h
  | page_for_new_block_id => exact h
  | load_from_copyee_done k =>
    show queue_inv (load_from_copyee_done s k).acquirers_
    unfold load_from_copyee_done
    split <;> exact h
  | reset_snapshotted_page k =>
    show queue_inv (reset_snapshotted_page s k).acquirers_
    unfold reset_snapshotted_page
    split
    · exact h
    · rw [page_ptr_reset_acquirers]; exact h

theorem reachable_queue_inv (s : current_page_t) (h : Reachable s) :
    queue_inv s.acquirers_ := by
  induction h with
  | init b => exact ⟨rfl, rfl⟩
  | init_new b => exact ⟨rfl, rfl⟩
  | step s op _ _ ih => exact apply_queue_inv s op ih

/-! ## Consequences of the queue invariant -/

theorem queue_inv_write_head (q : List current_page_acq_t) (h : queue_inv q)
    (i : Nat) (hi : i < q.length) (hw : (q.get ⟨i, hi⟩).write_cond_ = true) : i = 0 := by
  cases q with
  | nil => simp at hi
  | cons a rest =>
    cases i with
    | zero => rfl
    | succ n =>
      exfalso
      have h2 := h.2
      simp only [List.tail_cons, write_free, List.all_eq_true] at h2
      have hn : n < rest.length := by simpa using hi
      have := h2 (rest.get ⟨n, hn⟩) (List.get_mem _ _ _)
      simp only [List.get_eq_getElem, List.getElem_cons_succ] at hw
      simp only [List.get_eq_getElem] at this
      simp [hw] at this

theorem queue_inv_write_count (q : List current_page_acq_t) (h : queue_inv q) :
    (q.filter (fun a => a.write_cond_)).length ≤ 1 := by
  cases q with
  | nil => simp
  | cons a rest =>
    have h2 := h.2
    simp only [List.tail_cons, write_free, List.all_eq_true] at h2
    have hnil : rest.filter (fun a => a.write_cond_) = [] := by
      rw [List.filter_eq_nil_iff]
      intro b hb
      have := h2 b hb
      simpa using this
    rw [List.filter_cons]
    split <;> simp [hnil]

theorem queue_inv_writer_head (hd : current_page_acq_t) (tl : List current_page_acq_t)
    (h : queue_inv (hd :: tl)) (ha : hd.access_ = alt_access_t.write) :
    ∀ a ∈ tl, a.read_cond_ = false := by
  have h1 := h.1
  have hnot : read_pulsed_reader hd = false := by simp [read_pulsed_reader, ha]
  simp only [arrival_ordered, hnot] at h1
  have h2 : (tl.all fun b => !b.read_cond_) = true := by simpa using h1
  rw [List.all_eq_true] at h2
  intro a hmem
  have := h2 a hmem
  simpa using this

theorem queue_inv_read_order (q : List current_page_acq_t) (h : queue_inv q)
    (i j : Nat) (hji : j < i) (hi : i < q.length)
    (hr : (q.get ⟨i, hi⟩).read_cond_ = true) :
    (q.get ⟨j, Nat.lt_trans hji hi⟩).read_cond_ = true ∧
      (q.get ⟨j, Nat.lt_trans hji hi⟩).access_ = alt_access_t.read := by
  have hsplit : q.take i ++ q.get ⟨i, hi⟩ :: q.drop (i + 1) = q := by
    rw [List.get_eq_getElem, List.getElem_cons_drop, List.take_append_drop]
  have hall := arrival_ordered_before (q.take i) (q.get ⟨i, hi⟩) (q.drop (i + 1))
    (by rw [hsplit]; exact h.1) hr
  have hmem : q.get ⟨j, Nat.lt_trans hji hi⟩ ∈ q.take i := by
    rw [List.mem_take_iff_getElem]
    exact ⟨j, by omega, rfl⟩
  have := hall _ hmem
  simp only [read_pulsed_reader, Bool.and_eq_true, decide_eq_true_eq] at this
  exact ⟨this.2, this.1⟩

theorem reachable_run (s : current_page_t) (ops : List Op) (hs : Reachable s)
    (t : current_page_t) (h : run s ops = some t) : Reachable t := by
  induction ops generalizing s with
  | nil =>
    simp only [run, Option.some.injEq] at h
    subst h; exact hs
  | cons op ops ih =>
    simp only [run] at h
    split at h
    · rename_i hen
      exact ih _ (Reachable.step s op hs hen) h
    · cases h

/-! ## Claims on the acquirer queue -/

/-- C1 (write exclusivity): in every reachable state of a current page, an
acquirer in the queue whose write signal is pulsed is the head of the queue, and
at most one acquirer in the queue has its write signal pulsed. -/
theorem write_exclusivity (s : current_page_t) (h : Reachable s) :
    (∀ (i : Nat) (hi : i < s.acquirers_.length),
        (s.acquirers_.get ⟨i, hi⟩).write_cond_ = true → i = 0) ∧
      (s.acquirers_.filter (fun a => a.write_cond_)).length ≤ 1 :=
  ⟨fun i hi hw => queue_inv_write_head _ (reachable_queue_inv s h) i hi hw,
   queue_inv_write_count _ (reachable_queue_inv s h)⟩

theorem write_exclusivity_witness :
    Reachable (run_from (current_page_t.init 7) trace_writer_reader_writer) ∧
      ((∀ (i : Nat)
          (hi : i < (run_from (current_page_t.init 7) trace_writer_reader_writer).acquirers_.length),
          ((run_from (current_page_t.init 7) trace_writer_reader_writer).acquirers_.get
            ⟨i, hi⟩).write_cond_ = true → i = 0) ∧
        ((run_from (current_page_t.init 7) trace_writer_reader_writer).acquirers_.filter
          (fun a => a.write_cond_)).length ≤ 1) :=
  ⟨reachable_run _ trace_writer_reader_writer (Reachable.init 7) _ rfl,
   write_exclusivity _ (reachable_run _ trace_writer_reader_writer (Reachable.init 7) _ rfl)⟩

/-- C2 (writer mutual exclusion): in every reachable state, if the head of the
queue has write access and its write signal is pulsed, no other acquirer in the
queue has its read signal pulsed. -/
theorem writer_mutual_exclusion (s : current_page_t) (h : Reachable s)
    (hd : current_page_acq_t) (tl : List current_page_acq_t)
    (hq : s.acquirers_ = hd :: tl) (ha : hd.access_ = alt_access_t.write)
    (_hw : hd.write_cond_ = true) : ∀ a ∈ tl, a.read_cond_ = false := by
  have hinv := reachable_queue_inv s h
  rw [hq] at hinv
  exact queue_inv_writer_head hd tl hinv ha

theorem writer_mutual_exclusion_witness :
    Reachable (run_from (current_page_t.init 7) trace_writer_reader_writer) ∧
      ∀ a ∈ [current_page_acq_t.fresh alt_access_t.read,
          current_page_acq_t.fresh alt_access_t.write], a.read_cond_ = false :=
  ⟨reachable_run _ trace_writer_reader_writer (Reachable.init 7) _ rfl,
   writer_mutual_exclusion (run_from (current_page_t.init 7) trace_writer_reader_writer)
     (reachable_run _ trace_writer_reader_writer (Reachable.init 7) _ rfl)
     { current_page_acq_t.fresh alt_access_t.write with read_cond_ := true, write_cond_ := true }
     [current_page_acq_t.fresh alt_access_t.read, current_page_acq_t.fresh alt_access_t.write]
     rfl rfl rfl⟩

/-- C4 (arrival order): in every reachable state, if an acquirer in the queue
has its read signal pulsed then so has every acquirer in front of it (which is
moreover a reader): the read-pulsed acquirers are an initial segment of the
queue. -/
theorem arrival_order (s : current_page_t) (h : Reachable s) (i j : Nat)
    (hji : j < i) (hi : i < s.acquirers_.length)
    (hr : (s.acquirers_.get ⟨i, hi⟩).read_cond_ = true) :
    (s.acquirers_.get ⟨j, Nat.lt_trans hji hi⟩).read_cond_ = true ∧
      (s.acquirers_.get ⟨j, Nat.lt_trans hji hi⟩).access_ = alt_access_t.read :=
  queue_inv_read_order _ (reachable_queue_inv s h) i j hji hi hr

theorem arrival_order_witness :
    Reachable (run_from (current_page_t.init 7) trace_reader_writer) ∧
      (((run_from (current_page_t.init 7) trace_reader_writer).acquirers_.get
          ⟨0, by decide⟩).read_cond_ = true ∧
       ((run_from (current_page_t.init 7) trace_reader_writer).acquirers_.get
          ⟨0, by decide⟩).access_ = alt_access_t.read) :=
  ⟨reachable_run _ trace_reader_writer (Reachable.init 7) _ rfl,
   arrival_order _ (reachable_run _ trace_reader_writer (Reachable.init 7) _ rfl) 1 0
     (by decide) (by decide) rfl⟩

/-- C3 (read parallelism), evaluated on the code: after a write acquirer
arrives, a read acquirer queues behind it and the writer calls
`declare_readonly`, both queued acquirers have read access and the first has its
read signal pulsed, but the read signal of the second is not pulsed: the test
"avoid re-pulsing already-pulsed chains" of `pulse_pulsables` returns before the
loop. No assertion of the source fails along the way. -/
theorem declare_readonly_leaves_reader_waiting :
    run_asserts_hold (current_page_t.init 7) trace_downgrade = true ∧
      (run (current_page_t.init 7) trace_downgrade).map
          (fun s => s.acquirers_.map (fun a => (a.access_, a.read_cond_))) =
        some [(alt_access_t.read, true), (alt_access_t.read, false)] := by
  constructor <;> rfl

/-- C10 (block-id recycling), evaluated on the code: a write acquirer marks
block 7 deleted while a read acquirer is queued behind it and is then destroyed
(`declare_readonly`, `declare_snapshotted`). The detaching branch of
`pulse_pulsables` releases block id 7 although the reader is still in the queue,
and removing the reader afterwards releases it a second time. No assertion of
the source fails along the way. -/
theorem block_id_released_while_queued :
    run_asserts_hold (current_page_t.init 7)
        (trace_delete_with_follower ++ [Op.remove_acquirer 0]) = true ∧
      (run (current_page_t.init 7) trace_delete_with_follower).map
          (fun s => (s.acquirers_.length, s.free_ids_)) = some (1, [7]) ∧
      (run (current_page_t.init 7) (trace_delete_with_follower ++ [Op.remove_acquirer 0])).map
          (fun s => (s.acquirers_.length, s.free_ids_)) = some (0, [7, 7]) := by
  refine ⟨?_, ?_, ?_⟩ <;> rfl

/-! ## Lemmas on snapshot reference counts -/

theorem num_refs_out_of_range (P : Nat) (s : current_page_t)
    (h : s.snapshot_refcount_.length ≤ P) : num_snapshot_references P s = 0 := by
  simp [num_snapshot_references, List.getD_eq_getElem?_getD, List.getElem?_eq_none h]

theorem held_page_allocated (P : Nat) (s : current_page_t) (h : refcount_inv s)
    (hP : 0 < holders P s) : P < s.snapshot_refcount_.length := by
  by_contra hlt
  have := num_refs_out_of_range P s (Nat.le_of_not_lt hlt)
  have := h P
  omega

theorem fresh_page_unheld (s : current_page_t) (h : refcount_inv s) :
    holders s.snapshot_refcount_.length s = 0 := by
  have := num_refs_out_of_range s.snapshot_refcount_.length s (Nat.le_refl _)
  have := h s.snapshot_refcount_.length
  omega

theorem getD_append_zero (l : List Nat) (P : Nat) : (l ++ [0]).getD P 0 = l.getD P 0 := by
  simp only [List.getD_eq_getElem?_getD]
  by_cases h : P < l.length
  · rw [List.getElem?_append_left h]
  · have h1 : l.length ≤ P := Nat.le_of_not_lt h
    rw [List.getElem?_append_right h1, List.getElem?_eq_none h1]
    cases hP : P - l.length <;> simp

theorem getD_modify_self (l : List Nat) (f : Nat → Nat) (p : Nat) (h : p < l.length) :
    (l.modify f p).getD p 0 = f (l.getD p 0) := by
  simp [List.getD_eq_getElem?_getD, List.getElem?_modify, List.getElem?_eq_getElem h]

theorem getD_modify_ne (l : List Nat) (f : Nat → Nat) (p P : Nat) (h : P ≠ p) :
    (l.modify f p).getD P 0 = l.getD P 0 := by
  simp [List.getD_eq_getElem?_getD, List.getElem?_modify_ne _ _ (Ne.symm h)]

theorem getD_modify_pred (l : List Nat) (p : Nat) :
    (l.modify (fun n => n - 1) p).getD p 0 = l.getD p 0 - 1 := by
  simp only [List.getD_eq_getElem?_getD, List.getElem?_modify_eq]
  cases l[p]? <;> simp

theorem refcount_inv_of_fields (s t : current_page_t) (h : refcount_inv s)
    (hp : t.page_ = s.page_) (hd : t.detached_ = s.detached_)
    (hc : t.copyee_ptrs_ = s.copyee_ptrs_)
    (hr : t.snapshot_refcount_ = s.snapshot_refcount_) : refcount_inv t := by
  intro P
  have := h P
  simpa only [holders, num_snapshot_references, hp, hd, hc, hr] using this

theorem refcount_inv_install (s t : current_page_t) (h : refcount_inv s)
    (hp : t.page_ = some s.snapshot_refcount_.length) (hd : t.detached_ = s.detached_)
    (hc : t.copyee_ptrs_ = s.copyee_ptrs_)
    (hr : t.snapshot_refcount_ =
      (s.snapshot_refcount_ ++ [0]).modify (fun n => n + 1) s.snapshot_refcount_.length) :
    refcount_inv t := by
  intro P
  have hfresh := fresh_page_unheld s h
  have hP := h P
  simp only [holders, num_snapshot_references, hp, hd, hc, hr] at hfresh hP ⊢
  by_cases hPl : P = s.snapshot_refcount_.length
  · subst hPl
    rw [getD_modify_self _ _ _ (by simp), getD_append_zero]
    simp only [if_true]
    omega
  · rw [getD_modify_ne _ _ _ _ hPl, getD_append_zero]
    have : ¬ (s.snapshot_refcount_.length = P) := fun h => hPl h.symm
    simp only [Option.some.injEq, this, if_false]
    omega

theorem init_fresh_page_refcount_inv (s : current_page_t) (h : refcount_inv s) :
    refcount_inv (init_fresh_page s) :=
  refcount_inv_install s _ h rfl rfl rfl rfl

theorem convert_refcount_inv (s : current_page_t) (h : refcount_inv s) :
    refcount_inv (convert_from_serializer_if_necessary s) := by
  unfold convert_from_serializer_if_necessary
  split
  · exact h
  · exact refcount_inv_install s _ h rfl rfl rfl rfl

theorem convert_page_some (s : current_page_t) :
    ∃ q, (convert_from_serializer_if_necessary s).page_ = some q := by
  unfold convert_from_serializer_if_necessary
  split
  · rename_i q hq; exact ⟨q, hq⟩
  · exact ⟨_, rfl⟩

theorem refcount_inv_add_holder (s t : current_page_t) (q : Nat) (h : refcount_inv s)
    (hq : 0 < holders q s) (hp : t.page_ = s.page_)
    (hd : ∀ P, t.detached_.countP (fun d => decide (d.snapshotted_page_ = some P)) =
      s.detached_.countP (fun d => decide (d.snapshotted_page_ = some P))
        + (if P = q then 1 else 0))
    (hc : t.copyee_ptrs_ = s.copyee_ptrs_)
    (hr : t.snapshot_refcount_ = s.snapshot_refcount_.modify (fun n => n + 1) q) :
    refcount_inv t := by
  intro P
  have hlen := held_page_allocated q s h hq
  have hP := h P
  simp only [holders, num_snapshot_references, hp, hd, hc, hr] at hP ⊢
  by_cases hPq : P = q
  · subst hPq
    rw [getD_modify_self _ _ _ hlen]
    simp only [if_true]
    omega
  · rw [getD_modify_ne _ _ _ _ hPq]
    simp only [hPq, if_false]
    omega

theorem countP_append_holder (l : List current_page_acq_t) (x : current_page_acq_t)
    (P : Nat) :
    (l ++ [x]).countP (fun d => decide (d.snapshotted_page_ = some P)) =
      l.countP (fun d => decide (d.snapshotted_page_ = some P))
        + (if x.snapshotted_page_ = some P then 1 else 0) := by
  rw [List.countP_append, List.countP_cons, List.countP_nil]
  simp

theorem refcount_inv_of_counts (s t : current_page_t) (h : refcount_inv s)
    (hp : t.page_ = s.page_)
    (hd : ∀ P, t.detached_.countP (fun d => decide (d.snapshotted_page_ = some P)) =
      s.detached_.countP (fun d => decide (d.snapshotted_page_ = some P)))
    (hc : t.copyee_ptrs_ = s.copyee_ptrs_)
    (hr : t.snapshot_refcount_ = s.snapshot_refcount_) : refcount_inv t := by
  intro P
  have := h P
  simpa only [holders, num_snapshot_references, hp, hd, hc, hr] using this

theorem detach_snapshotter_refcount_inv (s : current_page_t) (cur : current_page_acq_t)
    (h : refcount_inv s) : refcount_inv (detach_snapshotter s cur) := by
  unfold detach_snapshotter the_page_for_read_or_deleted
  by_cases hdel : s.is_deleted_ = true
  · simp only [hdel, if_true, page_ptr_init, release_block_id]
    refine refcount_inv_of_counts s _ h rfl ?_ rfl rfl
    intro P
    rw [countP_append_holder]
    simp
  · have hdel2 : s.is_deleted_ = false := by simpa using hdel
    have h1 := convert_refcount_inv s h
    obtain ⟨q, hq⟩ := convert_page_some s
    have hdel3 : (convert_from_serializer_if_necessary s).is_deleted_ = false := by
      unfold convert_from_serializer_if_necessary
      split
      · exact hdel2
      · exact hdel2
    simp only [hdel2, Bool.false_eq_true, if_false, the_page_for_read, hq, page_ptr_init,
      add_snapshotter, hdel3]
    refine refcount_inv_add_holder _ _ q h1 ?_ hq.symm ?_ rfl rfl
    · simp only [holders, hq, if_true]; omega
    · intro P
      rw [countP_append_holder]
      simp only [Option.some.injEq]
      by_cases hPq : P = q
      · subst hPq; simp
      · have : ¬ q = P := fun h => hPq h.symm
        simp [hPq, this]

theorem pulse_loop_refcount_inv (s : current_page_t) (before rest : List current_page_acq_t)
    (h : refcount_inv s) : refcount_inv (pulse_loop s before rest) := by
  induction rest generalizing s before with
  | nil => exact refcount_inv_of_fields s _ h rfl rfl rfl rfl
  | cons cur rest ih =>
    unfold pulse_loop
    cases hacc : cur.access_ with
    | read =>
      simp only
      split
      · exact ih _ before (detach_snapshotter_refcount_inv s _ h)
      · exact ih _ _ h
    | write =>
      simp only
      split
      · split
        · exact refcount_inv_of_fields _ _ (init_fresh_page_refcount_inv s h) rfl rfl rfl rfl
        · exact refcount_inv_of_fields s _ h rfl rfl rfl rfl
      · exact refcount_inv_of_fields s _ h rfl rfl rfl rfl

theorem pulse_pulsables_refcount_inv (s : current_page_t) (i : Nat)
    (h : refcount_inv s) : refcount_inv (pulse_pulsables s i) := by
  unfold pulse_pulsables
  split
  · exact h
  · split
    · exact h
    · split
      · exact h
      · exact pulse_loop_refcount_inv s _ _ h

theorem get_page_for_write_refcount_inv (s : current_page_t) (h : refcount_inv s) :
    refcount_inv (get_page_for_write s).2 := by
  unfold get_page_for_write
  split
  · exact h
  · rename_i p hp
    split
    · have hheld : 0 < holders p s := by simp only [holders, hp, if_true]; omega
      have hlen := held_page_allocated p s h hheld
      have hfresh := fresh_page_unheld s h
      have hne : p ≠ s.snapshot_refcount_.length := Nat.ne_of_lt hlen
      intro P
      have hP := h P
      simp only [holders, num_snapshot_references, new_page_t, add_snapshotter,
        remove_snapshotter, hp, List.count_append, Option.some.injEq] at hfresh hP ⊢
      by_cases hPp : P = p
      · subst hPp
        rw [getD_modify_pred, getD_modify_ne _ _ _ _ hne, getD_modify_self _ _ _ (by simp; omega),
          getD_append_zero]
        have : ¬ (s.snapshot_refcount_.length = P) := fun h => hne h.symm
        simp only [this, if_false, if_true, List.count_singleton_self] at hP ⊢
        omega
      · rw [getD_modify_ne _ _ _ _ hPp]
        have hc0 : List.count P [p] = 0 := by
          rw [List.count_eq_zero]; simpa using hPp
        have hpP : ¬ (p = P) := fun h => hPp h.symm
        simp only [hpP, if_false] at hP
        by_cases hPl : P = s.snapshot_refcount_.length
        · subst hPl
          rw [getD_modify_self _ _ _ (by simp), getD_modify_ne _ _ _ _ hPp, getD_append_zero]
          simp only [if_true, hc0]
          have hz : ¬ (p = s.snapshot_refcount_.length) := hpP
          simp only [hz, if_false] at hfresh
          omega
        · rw [getD_modify_ne _ _ _ _ hPl, getD_modify_ne _ _ _ _ hPp, getD_append_zero]
          have : ¬ (s.snapshot_refcount_.length = P) := fun h => hPl h.symm
          simp only [this, if_false, hc0]
          omega
    · exact h

theorem the_page_for_write_refcount_inv (s : current_page_t) (h : refcount_inv s) :
    refcount_inv (the_page_for_write s).2 :=
  get_page_for_write_refcount_inv _ (convert_refcount_inv s h)

theorem refcount_inv_drop_page (s t : current_page_t) (h : refcount_inv s)
    (hp : t.page_ = none) (hd : t.detached_ = s.detached_)
    (hc : t.copyee_ptrs_ = s.copyee_ptrs_)
    (hr : t.snapshot_refcount_ = (page_ptr_reset s.page_ s).snapshot_refcount_) :
    refcount_inv t := by
  intro P
  have hP := h P
  simp only [holders, num_snapshot_references, hp, hd, hc, hr] at hP ⊢
  cases hpage : s.page_ with
  | none =>
    simp only [hpage, page_ptr_reset] at hP ⊢
    simpa using hP
  | some q =>
    simp only [hpage, page_ptr_reset, remove_snapshotter, Option.some.injEq] at hP ⊢
    by_cases hPq : P = q
    · subst hPq
      rw [getD_modify_pred]
      simp only [if_true] at hP
      simp only [reduceCtorEq, if_false]
      omega
    · rw [getD_modify_ne _ _ _ _ hPq]
      have : ¬ (q = P) := fun h => hPq h.symm
      simp only [this, if_false] at hP
      simp only [reduceCtorEq, if_false]
      omega

theorem mark_deleted_refcount_inv (s : current_page_t) (i : Nat) (h : refcount_inv s) :
    refcount_inv (mark_deleted s i) := by
  unfold mark_deleted current_page_t.mark_deleted
  refine refcount_inv_drop_page s _ h ?_ ?_ ?_ ?_
  · cases hpage : s.page_ <;> rfl
  · cases hpage : s.page_ <;> rfl
  · cases hpage : s.page_ <;> rfl
  · cases hpage : s.page_ <;> rfl

theorem count_eraseIdx_of_get (l : List Nat) (k p : Nat) (hk : l.get? k = some p) (P : Nat) :
    (l.eraseIdx k).count P + (if P = p then 1 else 0) = l.count P := by
  induction l generalizing k with
  | nil => simp at hk
  | cons a rest ih =>
    cases k with
    | zero =>
      simp only [List.get?_cons_zero, Option.some.injEq] at hk
      subst hk
      simp only [List.eraseIdx_cons_zero, List.count_cons]
      by_cases h : P = a
      · subst h; simp
      · have : ¬ (a = P) := fun h2 => h h2.symm
        simp [h, this]
    | succ n =>
      simp only [List.get?_cons_succ] at hk
      have := ih n hk
      simp only [List.eraseIdx_cons_succ, List.count_cons]
      omega

theorem load_from_copyee_done_refcount_inv (s : current_page_t) (k : Nat)
    (h : refcount_inv s) : refcount_inv (load_from_copyee_done s k) := by
  unfold load_from_copyee_done
  split
  · exact h
  · rename_i p hk
    intro P
    have hP := h P
    have hcount := count_eraseIdx_of_get s.copyee_ptrs_ k p hk P
    simp only [holders, num_snapshot_references, remove_snapshotter] at hP ⊢
    by_cases hPp : P = p
    · subst hPp
      rw [getD_modify_pred]
      simp only [if_true] at hcount
      omega
    · rw [getD_modify_ne _ _ _ _ hPp]
      simp only [hPp, if_false] at hcount
      omega

theorem countP_modify_reset (l : List current_page_acq_t) (k : Nat) (d : current_page_acq_t)
    (hk : l.get? k = some d) (P : Nat) :
    (l.modify (fun a => { a with snapshotted_page_ := none }) k).countP
        (fun d => decide (d.snapshotted_page_ = some P))
      + (if d.snapshotted_page_ = some P then 1 else 0) =
    l.countP (fun d => decide (d.snapshotted_page_ = some P)) := by
  induction l generalizing k with
  | nil => simp at hk
  | cons a rest ih =>
    cases k with
    | zero =>
      simp only [List.get?_cons_zero, Option.some.injEq] at hk
      subst hk
      rw [List.modify_zero_cons, List.countP_cons, List.countP_cons]
      simp
    | succ n =>
      simp only [List.get?_cons_succ] at hk
      have := ih n hk
      rw [List.modify_succ_cons, List.countP_cons, List.countP_cons]
      omega

theorem reset_snapshotted_page_refcount_inv (s : current_page_t) (k : Nat)
    (h : refcount_inv s) : refcount_inv (reset_snapshotted_page s k) := by
  unfold reset_snapshotted_page
  split
  · exact h
  · rename_i d hk
    intro P
    have hP := h P
    have hcount := countP_modify_reset s.detached_ k d hk P
    cases hsnap : d.snapshotted_page_ with
    | none =>
      simp only [hsnap, reduceCtorEq, if_false] at hcount
      simp only [holders, num_snapshot_references, page_ptr_reset] at hP ⊢
      omega
    | some q =>
      simp only [hsnap, Option.some.injEq] at hcount
      simp only [holders, num_snapshot_references, page_ptr_reset, remove_snapshotter] at hP ⊢
      by_cases hPq : P = q
      · subst hPq
        rw [getD_modify_pred]
        simp only [if_true] at hcount
        omega
      · rw [getD_modify_ne _ _ _ _ hPq]
        have : ¬ (q = P) := fun h => hPq h.symm
        simp only [this, if_false] at hcount
        omega

theorem apply_refcount_inv (s : current_page_t) (op : Op) (h : refcount_inv s) :
    refcount_inv (op.apply s) := by
  cases op with
  | add_acquirer access =>
    exact pulse_pulsables_refcount_inv _ _ (refcount_inv_of_fields s _ h rfl rfl rfl rfl)
  | remove_acquirer i =>
    show refcount_inv (remove_acquirer s i)
    unfold remove_acquirer
    simp only
    split
    · exact pulse_pulsables_refcount_inv _ _ (refcount_inv_of_fields s _ h rfl rfl rfl rfl)
    · split
      · exact refcount_inv_of_fields s _ h rfl rfl rfl rfl
      · exact refcount_inv_of_fields s _ h rfl rfl rfl rfl
  | declare_readonly i =>
    exact pulse_pulsables_refcount_inv _ _ (refcount_inv_of_fields s _ h rfl rfl rfl rfl)
  | declare_snapshotted i =>
    show refcount_inv (declare_snapshotted s i)
    unfold declare_snapshotted
    split
    · exact h
    · split
      · exact h
      · exact pulse_pulsables_refcount_inv _ _ (refcount_inv_of_fields s _ h rfl rfl rfl rfl)
  | mark_deleted i => exact mark_deleted_refcount_inv s i h
  | current_page_for_read i => exact convert_refcount_inv s h
  | current_page_for_write i =>
    exact the_page_for_write_refcount_inv _ (refcount_inv_of_fields s _ h rfl rfl rfl rfl)
  | page_for_new_block_id =>
    exact init_fresh_page_refcount_inv _ (refcount_inv_of_fields s _ h rfl rfl rfl rfl)
  | load_from_copyee_done k => exact load_from_copyee_done_refcount_inv s k h
  | reset_snapshotted_page k => exact reset_snapshotted_page_refcount_inv s k h

theorem reachable_refcount_inv (s : current_page_t) (h : Reachable s) : refcount_inv s := by
  have hinit : ∀ b, refcount_inv (current_page_t.init b) := by
    intro b P
    simp [holders, current_page_t.init]
  induction h with
  | init b => exact hinit b
  | init_new b => exact init_fresh_page_refcount_inv _ (hinit b)
  | step s op _ _ ih => exact apply_refcount_inv s op ih

theorem the_page_for_write_none (s : current_page_t) (hp : s.page_ = none) :
    the_page_for_write s =
      (some s.snapshot_refcount_.length,
       { s with page_ := some s.snapshot_refcount_.length,
                snapshot_refcount_ := s.snapshot_refcount_ ++ [1],
                page_ctors_ := s.page_ctors_ ++ [page_ctor_t.with_block_id s.block_id] }) := by
  have hm : (s.snapshot_refcount_ ++ [0]).modify (fun n => n + 1) s.snapshot_refcount_.length =
      s.snapshot_refcount_ ++ [1] := by
    induction s.snapshot_refcount_ with
    | nil => rfl
    | cons a l ih =>
      show List.modify _ (l.length + 1) (a :: (l ++ [0])) = _
      rw [List.modify_succ_cons, ih]
      rfl
  simp only [the_page_for_write, convert_from_serializer_if_necessary, hp, new_page_t,
    add_snapshotter, get_page_for_write, num_snapshot_references, hm]
  simp

theorem the_page_for_write_shared (s : current_page_t) (p : Nat) (hp : s.page_ = some p)
    (hn : 1 < num_snapshot_references p s) :
    the_page_for_write s =
      (some s.snapshot_refcount_.length,
       { s with
         page_ := some s.snapshot_refcount_.length,
         snapshot_refcount_ :=
           (((s.snapshot_refcount_ ++ [0]).modify (fun n => n + 1) p).modify (fun n => n + 1)
             s.snapshot_refcount_.length).modify (fun n => n - 1) p,
         page_ctors_ := s.page_ctors_ ++ [page_ctor_t.with_copyee p],
         copyee_ptrs_ := s.copyee_ptrs_ ++ [p] }) := by
  simp only [the_page_for_write, convert_from_serializer_if_necessary, hp, get_page_for_write]
  rw [if_pos hn]
  rfl

theorem the_page_for_write_sole (s : current_page_t) (p : Nat) (hp : s.page_ = some p)
    (hn : ¬ 1 < num_snapshot_references p s) :
    the_page_for_write s = (some p, s) := by
  simp only [the_page_for_write, convert_from_serializer_if_necessary, hp, get_page_for_write]
  rw [if_neg hn]

theorem num_refs_after_copy (l : List Nat) (p P : Nat) (hp : p < l.length) (hP : P < l.length) :
    ((((l ++ [0]).modify (fun n => n + 1) p).modify (fun n => n + 1) l.length).modify
      (fun n => n - 1) p).getD P 0 = l.getD P 0 := by
  have hPl : P ≠ l.length := Nat.ne_of_lt hP
  by_cases hPp : P = p
  · subst hPp
    rw [getD_modify_pred, getD_modify_ne _ _ _ _ hPl,
      getD_modify_self _ _ _ (by simp; omega), getD_append_zero]
    omega
  · rw [getD_modify_ne _ _ _ _ hPp, getD_modify_ne _ _ _ _ hPl, getD_modify_ne _ _ _ _ hPp,
      getD_append_zero]

theorem snapshot_copy_on_write (s : current_page_t) (h : refcount_inv s)
    (d : current_page_acq_t) (hd : d ∈ s.detached_) (P : Nat)
    (hP : d.snapshotted_page_ = some P) :
    ∃ Q, (the_page_for_write s).1 = some Q ∧ Q ≠ P ∧
      (the_page_for_write s).2.page_ = some Q ∧
      (the_page_for_write s).2.detached_ = s.detached_ ∧
      num_snapshot_references P (the_page_for_write s).2 = num_snapshot_references P s ∧
      0 < num_snapshot_references P s ∧
      (s.page_ = some P →
        1 < num_snapshot_references P s ∧
        Q = s.snapshot_refcount_.length ∧
        (the_page_for_write s).2.page_ctors_ = s.page_ctors_ ++ [page_ctor_t.with_copyee P] ∧
        (the_page_for_write s).2.copyee_ptrs_ = s.copyee_ptrs_ ++ [P] ∧
        num_snapshot_references Q (the_page_for_write s).2 = 1) := by
  have hdet : 0 < s.detached_.countP (fun d => decide (d.snapshotted_page_ = some P)) := by
    rw [List.countP_pos_iff]
    exact ⟨d, hd, by simpa using hP⟩
  have hheld : 0 < holders P s := by simp only [holders]; omega
  have hlen := held_page_allocated P s h hheld
  have hPinv := h P
  have hpos : 0 < num_snapshot_references P s := by omega
  cases hpage : s.page_ with
  | none =>
    rw [the_page_for_write_none s hpage]
    refine ⟨_, rfl, by omega, rfl, rfl, ?_, hpos, ?_⟩
    · simp only [num_snapshot_references, List.getD_eq_getElem?_getD]
      rw [List.getElem?_append_left hlen]
    · intro hc
      cases hc
  | some q =>
    by_cases hn : 1 < num_snapshot_references q s
    · have hq : q < s.snapshot_refcount_.length := by
        by_contra hlt
        have := num_refs_out_of_range q s (Nat.le_of_not_lt hlt)
        omega
      rw [the_page_for_write_shared s q hpage hn]
      refine ⟨_, rfl, by omega, rfl, rfl, ?_, hpos, ?_⟩
      · exact num_refs_after_copy _ q P hq hlen
      · intro hc
        simp only [Option.some.injEq] at hc
        subst hc
        refine ⟨hn, rfl, rfl, rfl, ?_⟩
        simp only [num_snapshot_references]
        rw [getD_modify_ne _ _ _ _ (Nat.ne_of_gt hq),
          getD_modify_self _ _ _ (by simp), getD_modify_ne _ _ _ _ (Nat.ne_of_gt hq)]
        simp [List.getD_eq_getElem?_getD]
    · rw [the_page_for_write_sole s q hpage hn]
      have hqP : q ≠ P := by
        intro hqP
        subst hqP
        simp only [holders, hpage, if_true] at hPinv
        omega
      refine ⟨q, rfl, hqP, hpage, rfl, rfl, hpos, ?_⟩
      intro hc
      simp only [Option.some.injEq] at hc
      exact absurd hc hqP

theorem the_page_for_write_fst_congr (s t : current_page_t) (hp : t.page_ = s.page_)
    (hr : t.snapshot_refcount_ = s.snapshot_refcount_) :
    (the_page_for_write t).1 = (the_page_for_write s).1 := by
  cases hpage : s.page_ with
  | none =>
    rw [the_page_for_write_none s hpage, the_page_for_write_none t (hp.trans hpage), hr]
  | some q =>
    have hnum : num_snapshot_references q t = num_snapshot_references q s := by
      simp only [num_snapshot_references, hr]
    by_cases hn : 1 < num_snapshot_references q s
    · rw [the_page_for_write_shared s q hpage hn,
        the_page_for_write_shared t q (hp.trans hpage) (hnum ▸ hn), hr]
    · rw [the_page_for_write_sole s q hpage hn,
        the_page_for_write_sole t q (hp.trans hpage) (hnum ▸ hn)]

theorem current_page_for_write_fst (s : current_page_t) (i : Nat) :
    (current_page_for_write s i).1 = (the_page_for_write s).1 :=
  the_page_for_write_fst_congr s _ rfl rfl

/-- C5 (snapshot stability): in every reachable state, if a detached acquirer
holds page `P` in its `snapshotted_page_`, then `the_page_for_write` (also when
called through `current_page_for_write` by the acquirer at any position `i`)
returns a page `Q` different from `P`, which is the current page afterwards; the
detached acquirers, among them the holder of `P`, and the snapshot count of `P`,
which is positive, are unchanged. When `P` is the current page it has more than
one snapshot reference and `get_page_for_write` makes a copy: `Q` is a page
allocated by this call with the constructor `page_t(copyee, page_cache)` from
the copyee `P`, the `load_from_copyee` coroutine of the copy holds a pointer to
`P`, and `Q` has one snapshot reference. -/
theorem snapshot_stability (s : current_page_t) (h : Reachable s)
    (d : current_page_acq_t) (hd : d ∈ s.detached_) (P : Nat)
    (hP : d.snapshotted_page_ = some P) (i : Nat) :
    ∃ Q, (the_page_for_write s).1 = some Q ∧ (current_page_for_write s i).1 = some Q ∧
      Q ≠ P ∧
      (the_page_for_write s).2.page_ = some Q ∧
      (the_page_for_write s).2.detached_ = s.detached_ ∧
      num_snapshot_references P (the_page_for_write s).2 = num_snapshot_references P s ∧
      0 < num_snapshot_references P s ∧
      (s.page_ = some P →
        1 < num_snapshot_references P s ∧
        Q = s.snapshot_refcount_.length ∧
        (the_page_for_write s).2.page_ctors_ = s.page_ctors_ ++ [page_ctor_t.with_copyee P] ∧
        (the_page_for_write s).2.copyee_ptrs_ = s.copyee_ptrs_ ++ [P] ∧
        num_snapshot_references Q (the_page_for_write s).2 = 1) := by
  obtain ⟨Q, h1, h2, h3, h4, h5, h6, h7⟩ :=
    snapshot_copy_on_write s (reachable_refcount_inv s h) d hd P hP
  refine ⟨Q, h1, ?_, h2, h3, h4, h5, h6, h7⟩
  rw [current_page_for_write_fst]
  exact h1

/-- After `trace_snapshot_then_writer` the detached acquirer holds page 0, which
is still the current page and has two snapshot references; `the_page_for_write`
returns the new page 1, a copy of page 0, and page 0 keeps its two references. -/
theorem snapshot_stability_witness :
    (run_from (current_page_t.init 7) trace_snapshot_then_writer).page_ = some 0 ∧
    num_snapshot_references 0
      (run_from (current_page_t.init 7) trace_snapshot_then_writer) = 2 ∧
    (the_page_for_write (run_from (current_page_t.init 7) trace_snapshot_then_writer)).1
      = some 1 ∧
    (current_page_for_write
      (run_from (current_page_t.init 7) trace_snapshot_then_writer) 0).1 = some 1 ∧
    (the_page_for_write
      (run_from (current_page_t.init 7) trace_snapshot_then_writer)).2.page_ctors_ =
      [page_ctor_t.with_block_id 7, page_ctor_t.with_copyee 0] ∧
    num_snapshot_references 0
      (the_page_for_write (run_from (current_page_t.init 7) trace_snapshot_then_writer)).2
      = 2 := by
  obtain ⟨Q, h1, h2, _, _, _, h6, _, h8⟩ :=
    snapshot_stability (run_from (current_page_t.init 7) trace_snapshot_then_writer)
      (reachable_run _ trace_snapshot_then_writer (Reachable.init 7) _ rfl)
      { access_ := alt_access_t.read, declared_snapshotted_ := true, read_cond_ := true,
        write_cond_ := true, dirtied_page_ := true, snapshotted_page_ := some 0 }
      (by decide) 0 rfl 0
  obtain ⟨_, hQ, _⟩ := h8 (by decide)
  have hQ1 : Q = 1 := by
    rw [hQ]
    decide
  subst hQ1
  exact ⟨by decide, by decide, h1, h2, by decide, by rw [h6]; decide⟩

/-! ## Lemmas on the eviction loop -/

theorem remove_oldish_none (oldish : List Nat → Nat → Nat) (pages : List page_t)
    (b : eviction_bag_t) (t : Nat) (h : b.remove_oldish oldish pages t = none) :
    b.bag_ = [] := by
  unfold eviction_bag_t.remove_oldish at h
  split at h
  · rename_i hget
    by_contra hne
    have hpos : 0 < b.bag_.length := List.length_pos.2 hne
    have hlt : oldish b.bag_ t % b.bag_.length < b.bag_.length := Nat.mod_lt _ hpos
    rw [List.get?_eq_get hlt] at hget
    cases hget
  · cases h

theorem remove_oldish_some (oldish : List Nat → Nat → Nat) (pages : List page_t)
    (b : eviction_bag_t) (t : Nat) (page : Nat) (b1 : eviction_bag_t)
    (h : b.remove_oldish oldish pages t = some (page, b1)) :
    page ∈ b.bag_ ∧ b1.bag_ = b.bag_.erase page := by
  unfold eviction_bag_t.remove_oldish at h
  split at h
  · cases h
  · rename_i pg hget
    simp only [Option.some.injEq, Prod.mk.injEq] at h
    obtain ⟨h1, h2⟩ := h
    subst h1
    subst h2
    exact ⟨List.get?_mem hget, rfl⟩

theorem evict_iteration_none (oldish : List Nat → Nat → Nat) (e : evicter_t)
    (h : evict_iteration oldish e = none) :
    e.in_memory_size ≤ e.memory_limit_ ∨ e.evictable_disk_backed_.bag_ = [] := by
  unfold evict_iteration at h
  split at h
  · split at h
    · rename_i hro
      exact Or.inr (remove_oldish_none oldish _ _ _ hro)
    · cases h
  · rename_i hgt
    exact Or.inl (Nat.le_of_not_lt hgt)

theorem evict_iteration_some (oldish : List Nat → Nat → Nat) (e e1 : evicter_t)
    (h : evict_iteration oldish e = some e1) :
    ∃ page, page ∈ e.evictable_disk_backed_.bag_ ∧
      e1.evictable_disk_backed_.bag_ = e.evictable_disk_backed_.bag_.erase page ∧
      e1.pages = e.pages.modify page_t.evict_self page ∧
      e1.unevictable_ = e.unevictable_ ∧ e1.evictable_unbacked_ = e.evictable_unbacked_ ∧
      e1.memory_limit_ = e.memory_limit_ := by
  unfold evict_iteration at h
  split at h
  · split at h
    · cases h
    · rename_i page bag hro
      simp only [Option.some.injEq] at h
      subst h
      obtain ⟨hmem, hbag⟩ := remove_oldish_some oldish _ _ _ _ _ hro
      exact ⟨page, hmem, hbag, rfl, rfl, rfl, rfl⟩
  · cases h

theorem evict_loop_exits (oldish : List Nat → Nat → Nat) (fuel : Nat) (e : evicter_t)
    (hfuel : e.evictable_disk_backed_.bag_.length ≤ fuel) :
    ∃ e1, evict_loop oldish fuel e = some e1 ∧
      evict_loop oldish e.evictable_disk_backed_.bag_.length e = some e1 ∧
      (e1.in_memory_size ≤ e1.memory_limit_ ∨ e1.evictable_disk_backed_.bag_ = []) ∧
      e1.memory_limit_ = e.memory_limit_ := by
  induction fuel generalizing e with
  | zero =>
    have hnil : e.evictable_disk_backed_.bag_ = [] := List.length_eq_zero.1 (Nat.le_zero.1 hfuel)
    cases hit : evict_iteration oldish e with
    | none =>
      refine ⟨e, by simp [evict_loop, hit], ?_, evict_iteration_none oldish e hit, rfl⟩
      rw [hnil]; simp [evict_loop, hit]
    | some e1 =>
      obtain ⟨page, hmem, _⟩ := evict_iteration_some oldish e e1 hit
      rw [hnil] at hmem
      cases hmem
  | succ n ih =>
    cases hit : evict_iteration oldish e with
    | none =>
      refine ⟨e, by simp [evict_loop, hit], ?_, evict_iteration_none oldish e hit, rfl⟩
      cases hlen : e.evictable_disk_backed_.bag_.length <;> simp [evict_loop, hit]
    | some e1 =>
      obtain ⟨page, hmem, hbag, _, _, _, hlim⟩ := evict_iteration_some oldish e e1 hit
      have hlen : e1.evictable_disk_backed_.bag_.length + 1 =
          e.evictable_disk_backed_.bag_.length := by
        rw [hbag, List.length_erase_of_mem hmem]
        have := List.length_pos_of_mem hmem
        omega
      obtain ⟨e2, h1, h2, h3, h4⟩ := ih e1 (by omega)
      refine ⟨e2, by simp [evict_loop, hit, h1], ?_, h3, by rw [h4, hlim]⟩
      rw [← hlen]
      simp [evict_loop, hit, h2]

/-- C7 (eviction postcondition): for every selection function, evicter state
and memory limit, the loop of `evict_if_necessary` exits (within as many
iterations as the evictable-disk-backed bag has pages; allowing more iterations
gives the same result) and on return either `in_memory_size() <= memory_limit_`
or the evictable-disk-backed bag is empty; the same holds on return from
`update_memory_limit(new)`, with `memory_limit_ = new`. -/
theorem eviction_postcondition (oldish : List Nat → Nat → Nat) (e : evicter_t)
    (new_memory_limit : Nat) :
    (∃ e1, e.evict_if_necessary oldish = some e1 ∧
      (∀ fuel, e.evictable_disk_backed_.bag_.length ≤ fuel →
        evict_loop oldish fuel e = some e1) ∧
      (e1.in_memory_size ≤ e1.memory_limit_ ∨ e1.evictable_disk_backed_.bag_ = [])) ∧
    (∃ e1, e.update_memory_limit oldish new_memory_limit = some e1 ∧
      e1.memory_limit_ = new_memory_limit ∧
      (e1.in_memory_size ≤ e1.memory_limit_ ∨ e1.evictable_disk_backed_.bag_ = [])) := by
  constructor
  · obtain ⟨e1, h1, _, h3, _⟩ := evict_loop_exits oldish _ e (Nat.le_refl _)
    refine ⟨e1, h1, ?_, h3⟩
    intro fuel hfuel
    obtain ⟨e2, h4, h5, _, _⟩ := evict_loop_exits oldish fuel e hfuel
    have h6 : evict_loop oldish e.evictable_disk_backed_.bag_.length e = some e1 := h1
    rw [h5] at h6
    rw [h4, h6]
  · obtain ⟨e1, h1, _, h3, h4⟩ := evict_loop_exits oldish _
      { e with bytes_loaded_counter_ := 0, memory_limit_ := new_memory_limit } (Nat.le_refl _)
    exact ⟨e1, h1, h4, h3⟩

theorem eviction_postcondition_witness :
    (∃ e1, sample_evicter.evict_if_necessary oldish_first = some e1 ∧
      (∀ fuel, sample_evicter.evictable_disk_backed_.bag_.length ≤ fuel →
        evict_loop oldish_first fuel sample_evicter = some e1) ∧
      (e1.in_memory_size ≤ e1.memory_limit_ ∨ e1.evictable_disk_backed_.bag_ = [])) ∧
    (∃ e1, sample_evicter.update_memory_limit oldish_first 9000 = some e1 ∧
      e1.memory_limit_ = 9000 ∧
      (e1.in_memory_size ≤ e1.memory_limit_ ∨ e1.evictable_disk_backed_.bag_ = [])) :=
  eviction_postcondition oldish_first sample_evicter 9000

theorem not_buffer_released_self (e : evicter_t) (p : Nat) : ¬ buffer_released e e p := by
  rintro ⟨pg, pg1, h1, h2, h3, h4⟩
  rw [h1] at h2
  cases h2
  rw [h4] at h3
  cases h3

theorem evict_loop_frame (oldish : List Nat → Nat → Nat) (fuel : Nat) (e e2 : evicter_t)
    (h : evict_loop oldish fuel e = some e2) :
    e2.unevictable_ = e.unevictable_ ∧ e2.evictable_unbacked_ = e.evictable_unbacked_ ∧
      ∀ p, buffer_released e e2 p → p ∈ e.evictable_disk_backed_.bag_ := by
  induction fuel generalizing e with
  | zero =>
    cases hit : evict_iteration oldish e with
    | none =>
      simp only [evict_loop, hit, Option.some.injEq] at h
      subst h
      exact ⟨rfl, rfl, fun p hp => absurd hp (not_buffer_released_self e p)⟩
    | some e1 => simp [evict_loop, hit] at h
  | succ n ih =>
    cases hit : evict_iteration oldish e with
    | none =>
      simp only [evict_loop, hit, Option.some.injEq] at h
      subst h
      exact ⟨rfl, rfl, fun p hp => absurd hp (not_buffer_released_self e p)⟩
    | some e1 =>
      simp only [evict_loop, hit] at h
      obtain ⟨page, hmem, hbag, hpages, hu, hb, _⟩ := evict_iteration_some oldish e e1 hit
      obtain ⟨h1, h2, h3⟩ := ih e1 h
      refine ⟨h1.trans hu, h2.trans hb, ?_⟩
      intro p hp
      by_cases hpp : p = page
      · subst hpp; exact hmem
      · obtain ⟨pg, pg1, hg, hg1, hbuf, hbuf1⟩ := hp
        have hsame : e1.pages.get? p = e.pages.get? p := by
          rw [hpages, List.get?_eq_getElem?, List.get?_eq_getElem?,
            List.getElem?_modify_ne _ _ (Ne.symm hpp)]
        have hp1 : buffer_released e1 e2 p :=
          ⟨pg, pg1, by rw [hsame]; exact hg, hg1, hbuf, hbuf1⟩
        have := h3 p hp1
        rw [hbag] at this
        exact List.mem_of_mem_erase this

/-- C6 (eviction safety): when `evict_if_necessary` returns, the unevictable and
evictable-unbacked bags (membership and size) are unchanged, and every page
whose buffer was released was in the evictable-disk-backed bag at the call;
hence, when every page of that bag is one that `correct_eviction_category`
places there, no page with a waiter or with a destroy-in-progress pointer had
its buffer released. -/
theorem eviction_safety (oldish : List Nat → Nat → Nat) (e e1 : evicter_t)
    (h : e.evict_if_necessary oldish = some e1) :
    e1.unevictable_ = e.unevictable_ ∧ e1.evictable_unbacked_ = e.evictable_unbacked_ ∧
      (∀ p, buffer_released e e1 p → p ∈ e.evictable_disk_backed_.bag_) ∧
      ((∀ p ∈ e.evictable_disk_backed_.bag_, ∀ pg, e.pages.get? p = some pg →
          correct_eviction_category pg = bag_name.evictable_disk_backed) →
        ∀ p pg, buffer_released e e1 p → e.pages.get? p = some pg →
          pg.waiters_ = [] ∧ pg.destroy_ptr_ = false) := by
  obtain ⟨h1, h2, h3⟩ := evict_loop_frame oldish _ e e1 h
  refine ⟨h1, h2, h3, ?_⟩
  intro hcat p pg hrel hpg
  have hc := hcat p (h3 p hrel) pg hpg
  unfold correct_eviction_category at hc
  split at hc
  · cases hc
  · rename_i hun
    simp only [Bool.or_eq_true, Bool.not_eq_true', List.isEmpty_eq_false, not_or] at hun
    constructor
    · have := hun.2
      cases hw : pg.waiters_ with
      | nil => rfl
      | cons a l => simp [hw] at this
    · simpa using hun.1

theorem eviction_safety_witness :
    evicter_t.evict_if_necessary oldish_first sample_evicter = some sample_evicter_after ∧
      sample_evicter_after.unevictable_ = sample_evicter.unevictable_ ∧
      sample_evicter_after.evictable_unbacked_ = sample_evicter.evictable_unbacked_ ∧
      (∀ p, buffer_released sample_evicter sample_evicter_after p →
        p ∈ sample_evicter.evictable_disk_backed_.bag_) ∧
      (∀ p pg, buffer_released sample_evicter sample_evicter_after p →
          sample_evicter.pages.get? p = some pg →
          pg.waiters_ = [] ∧ pg.destroy_ptr_ = false) := by
  have h := eviction_safety oldish_first sample_evicter sample_evicter_after (by decide)
  refine ⟨by decide, h.1, h.2.1, h.2.2.1, h.2.2.2 ?_⟩
  intro p hp pg hpg
  have hp2 : p = 1 ∨ p = 2 := by simpa [sample_evicter] using hp
  rcases hp2 with rfl | rfl
  · have : pg = _ := (Option.some.inj hpg).symm
    subst this
    decide
  · have : pg = _ := (Option.some.inj hpg).symm
    subst this
    decide

/-! ## Lemmas on the flush protocol -/

theorem get?_modify_txn (l : List page_txn_t) (f : page_txn_t → page_txn_t) (t u : Nat)
    (ux : page_txn_t) (h : (l.modify f t).get? u = some ux) :
    (u = t ∧ ∃ tx, l.get? t = some tx ∧ ux = f tx) ∨ (u ≠ t ∧ l.get? u = some ux) := by
  rw [List.get?_eq_getElem?] at h
  by_cases hut : u = t
  · subst hut
    rw [List.getElem?_modify_eq] at h
    cases hl : l[u]? with
    | none => rw [hl] at h; cases h
    | some tx =>
      rw [hl] at h
      simp only [Option.map_eq_map, Option.map_some', Option.some.injEq] at h
      exact Or.inl ⟨rfl, tx, by rw [List.get?_eq_getElem?]; exact hl, h.symm⟩
  · rw [List.getElem?_modify_ne _ _ (Ne.symm hut)] at h
    exact Or.inr ⟨hut, by rw [List.get?_eq_getElem?]; exact h⟩

theorem flush_inv_gen_modify (D : Nat → Prop) (c : page_cache_t)
    (f : page_txn_t → page_txn_t) (t : Nat) (h : flush_inv_gen D c)
    (hf : ∀ tx, c.txns.get? t = some tx →
      txn_ok D (t ∈ c.spawned_ ++ c.flushing_) tx →
      txn_ok D (t ∈ c.spawned_ ++ c.flushing_) (f tx)) :
    flush_inv_gen D { c with txns := c.txns.modify f t } := by
  constructor
  · intro u hu
    simp only [List.length_modify]
    exact h.1 u hu
  · intro u ux hux
    rcases get?_modify_txn c.txns f t u ux hux with ⟨rfl, tx, htx, rfl⟩ | ⟨_, hsame⟩
    · exact hf tx htx (h.2 u tx htx)
    · exact h.2 u ux hsame

theorem flush_inv_gen_last_modifier (D : Nat → Prop) (c : page_cache_t) (b : Nat)
    (v : Option Nat) (h : flush_inv_gen D c) : flush_inv_gen D (set_last_modifier c b v) :=
  h

theorem flush_complete_modify (c : page_cache_t) (f : page_txn_t → page_txn_t) (t : Nat)
    (hf : ∀ tx, (f tx).flush_complete_cond_ = tx.flush_complete_cond_) (p : Nat) :
    flush_complete { c with txns := c.txns.modify f t } p ↔ flush_complete c p := by
  constructor
  · rintro ⟨px, hpx, hc⟩
    rcases get?_modify_txn c.txns f t p px hpx with ⟨rfl, tx, htx, rfl⟩ | ⟨_, hsame⟩
    · exact ⟨tx, htx, by rw [← hf]; exact hc⟩
    · exact ⟨px, hsame, hc⟩
  · rintro ⟨px, hpx, hc⟩
    by_cases hpt : p = t
    · subst hpt
      refine ⟨f px, ?_, by rw [hf]; exact hc⟩
      rw [List.get?_eq_getElem?, List.getElem?_modify_eq, ← List.get?_eq_getElem?, hpx]
      rfl
    · refine ⟨px, ?_, hc⟩
      rw [List.get?_eq_getElem?, List.getElem?_modify_ne _ _ (Ne.symm hpt),
        ← List.get?_eq_getElem?]
      exact hpx

theorem flush_inv_gen_congr (D E : Nat → Prop) (c : page_cache_t) (hDE : ∀ p, D p → E p)
    (h : flush_inv_gen D c) : flush_inv_gen E c := by
  refine ⟨h.1, ?_⟩
  intro t tx htx
  obtain ⟨h1, h2, h3, h4⟩ := h.2 t tx htx
  exact ⟨h1, h2, h3, fun p hp => (h4 p hp).imp id (hDE p)⟩

theorem flush_inv_modify (c : page_cache_t) (f : page_txn_t → page_txn_t) (t : Nat)
    (h : flush_inv c)
    (hc : ∀ tx, (f tx).flush_complete_cond_ = tx.flush_complete_cond_)
    (hf : ∀ tx, c.txns.get? t = some tx →
      txn_ok (flush_complete c) (t ∈ c.spawned_ ++ c.flushing_) tx →
      txn_ok (flush_complete c) (t ∈ c.spawned_ ++ c.flushing_) (f tx)) :
    flush_inv { c with txns := c.txns.modify f t } := by
  have h1 := flush_inv_gen_modify (flush_complete c) c f t h hf
  exact flush_inv_gen_congr _ _ _ (fun p hp => (flush_complete_modify c f t hc p).2 hp) h1

theorem flush_inv_modify_frame (c : page_cache_t) (f : page_txn_t → page_txn_t) (t : Nat)
    (h : flush_inv c)
    (hc : ∀ tx, (f tx).flush_complete_cond_ = tx.flush_complete_cond_)
    (hb : ∀ tx, (f tx).began_waiting_for_flush_ = tx.began_waiting_for_flush_)
    (hl : ∀ tx, (f tx).live_acqs_ = tx.live_acqs_)
    (hp : ∀ tx, (f tx).preceders_ = tx.preceders_)
    (he : ∀ tx, (f tx).ever_preceders = tx.ever_preceders) :
    flush_inv { c with txns := c.txns.modify f t } := by
  apply flush_inv_modify c f t h hc
  intro tx _ hok
  simpa only [txn_ok, hc, hb, hl, hp, he] using hok

theorem began_false_modify (l : List page_txn_t) (f : page_txn_t → page_txn_t) (t u : Nat)
    (hb : ∀ tx, (f tx).began_waiting_for_flush_ = tx.began_waiting_for_flush_)
    (h : ∀ tx, l.get? t = some tx → tx.began_waiting_for_flush_ = false) :
    ∀ tx, (l.modify f u).get? t = some tx → tx.began_waiting_for_flush_ = false := by
  intro tx htx
  rcases get?_modify_txn l f u t tx htx with ⟨rfl, tx0, htx0, rfl⟩ | ⟨_, hsame⟩
  · rw [hb]; exact h tx0 htx0
  · exact h tx hsame

theorem connect_preceder_flush_inv (c : page_cache_t) (t p : Nat) (h : flush_inv c)
    (hb : ∀ tx, c.txns.get? t = some tx → tx.began_waiting_for_flush_ = false) :
    flush_inv (connect_preceder c t p) := by
  unfold connect_preceder
  split
  · rename_i px tx hpx htx
    split
    · split
      · rename_i hnotmem
        have hbt := hb tx htx
        have h1 := flush_inv_modify c
          (fun x => { x with preceders_ := x.preceders_ ++ [p],
                             ever_preceders := x.ever_preceders ++ [p] }) t h (fun _ => rfl)
          (by
            intro tx0 htx0 hok
            have hb0 := hb tx0 htx0
            obtain ⟨h1, h2, h3, h4⟩ := hok
            refine ⟨h1, ?_, ?_, ?_⟩
            · intro hcomp
              have := (h2 hcomp).1
              rw [hb0] at this; cases this
            · intro hst
              have := (h3 hst).1
              rw [hb0] at this; cases this
            · intro q hq
              rcases List.mem_append.1 hq with hq1 | hq1
              · exact (h4 q hq1).imp (fun hm => List.mem_append_left _ hm) id
              · exact Or.inl (List.mem_append_right _ hq1))
        exact flush_inv_modify_frame _ _ p h1 (fun _ => rfl) (fun _ => rfl) (fun _ => rfl)
          (fun _ => rfl) (fun _ => rfl)
      · exact h
    · exact h
  · exact h

theorem get?_append_singleton (l : List page_txn_t) (x ux : page_txn_t) (u : Nat)
    (h : (l ++ [x]).get? u = some ux) :
    l.get? u = some ux ∨ (u = l.length ∧ ux = x) := by
  rw [List.get?_eq_getElem?] at h
  by_cases hu : u < l.length
  · rw [List.getElem?_append_left hu] at h
    exact Or.inl (by rw [List.get?_eq_getElem?]; exact h)
  · have hle : l.length ≤ u := Nat.le_of_not_lt hu
    rw [List.getElem?_append_right hle] at h
    cases hk : u - l.length with
    | zero =>
      rw [hk] at h
      simp only [List.getElem?_cons_zero, Option.some.injEq] at h
      exact Or.inr ⟨by omega, h.symm⟩
    | succ n =>
      rw [hk] at h
      simp at h

theorem flush_inv_append_fresh (c : page_cache_t) (h : flush_inv c) :
    flush_inv { c with txns := c.txns ++ [page_txn_t.fresh] } := by
  have hmono : ∀ p, flush_complete c p →
      flush_complete { c with txns := c.txns ++ [page_txn_t.fresh] } p := by
    rintro p ⟨px, hpx, hc⟩
    refine ⟨px, ?_, hc⟩
    have hlt : p < c.txns.length := by
      rw [List.get?_eq_getElem?] at hpx
      exact (List.getElem?_eq_some_iff.1 hpx).1
    show (c.txns ++ [page_txn_t.fresh]).get? p = some px
    rw [List.get?_eq_getElem?, List.getElem?_append_left hlt, ← List.get?_eq_getElem?]
    exact hpx
  constructor
  · intro u hu
    have := h.1 u hu
    simp only [List.length_append, List.length_singleton]
    omega
  · intro u ux hux
    rcases get?_append_singleton c.txns _ ux u hux with hold | ⟨hlen, rfl⟩
    · obtain ⟨h1, h2, h3, h4⟩ := h.2 u ux hold
      exact ⟨h1, h2, h3, fun p hp => (h4 p hp).imp id (hmono p)⟩
    · unfold txn_ok
      refine ⟨?_, ?_, ?_, ?_⟩
      · intro hb; cases hb
      · intro hb; cases hb
      · intro hst
        have := h.1 u hst
        omega
      · intro p hp; cases hp

theorem new_page_txn_t_flush_inv (c : page_cache_t) (p : Option Nat) (h : flush_inv c) :
    flush_inv (new_page_txn_t c p) := by
  unfold new_page_txn_t
  cases p with
  | none => exact flush_inv_append_fresh c h
  | some q =>
    apply connect_preceder_flush_inv _ _ _ (flush_inv_append_fresh c h)
    intro tx htx
    rcases get?_append_singleton c.txns _ tx _ htx with hold | ⟨_, rfl⟩
    · rw [List.get?_eq_getElem?] at hold
      have := (List.getElem?_eq_some_iff.1 hold).1
      omega
    · rfl

theorem add_acquirer_flush_inv (c : page_cache_t) (t acq : Nat) (h : flush_inv c)
    (hb : ∀ tx, c.txns.get? t = some tx → tx.began_waiting_for_flush_ = false) :
    flush_inv (page_txn_t.add_acquirer c t acq) := by
  unfold page_txn_t.add_acquirer
  refine flush_inv_modify c _ t h ?_ ?_
  · intro tx; rfl
  · intro tx htx hok
    have hb0 := hb tx htx
    obtain ⟨_, h2, h3, h4⟩ := hok
    exact ⟨fun hbe => (by rw [hb0] at hbe; cases hbe), h2, h3, h4⟩

theorem remove_acquirer_flush_inv (c : page_cache_t) (t acq : Nat) (r : Bool)
    (a : alt_access_t) (d : Bool) (b : Nat) (sp : Option Nat) (h : flush_inv c)
    (hb : ∀ tx, c.txns.get? t = some tx → tx.began_waiting_for_flush_ = false) :
    flush_inv (page_txn_t.remove_acquirer c t acq r a d b sp) := by
  have h1 : flush_inv
      { c with txns := c.txns.modify (fun x => { x with live_acqs_ := x.live_acqs_.erase acq }) t } := by
    refine flush_inv_modify c _ t h ?_ ?_
    · intro tx; rfl
    · intro tx htx hok
      have hb0 := hb tx htx
      obtain ⟨_, h2, h3, h4⟩ := hok
      exact ⟨fun hbe => (by rw [hb0] at hbe; cases hbe), h2, h3, h4⟩
  have hb1 := began_false_modify c.txns
    (fun x => { x with live_acqs_ := x.live_acqs_.erase acq }) t t (fun _ => rfl) hb
  unfold page_txn_t.remove_acquirer
  simp only
  split
  · split
    · have h3 := flush_inv_modify_frame
        (set_last_modifier
          { c with txns :=
              c.txns.modify (fun x => { x with live_acqs_ := x.live_acqs_.erase acq }) t }
          b (some t))
        (fun x => { x with pages_modified_last_ := x.pages_modified_last_ ++ [b] }) t
        (flush_inv_gen_last_modifier _ _ b (some t) h1)
        (fun _ => rfl) (fun _ => rfl) (fun _ => rfl) (fun _ => rfl) (fun _ => rfl)
      have hb3 := began_false_modify _
        (fun x => { x with pages_modified_last_ := x.pages_modified_last_ ++ [b] }) t t
        (fun _ => rfl) hb1
      refine flush_inv_modify_frame _ _ t ?_ (fun _ => rfl) (fun _ => rfl) (fun _ => rfl)
        (fun _ => rfl) (fun _ => rfl)
      split
      · exact h3
      · rename_i p _
        apply connect_preceder_flush_inv
        · exact flush_inv_modify_frame _ _ p h3 (fun _ => rfl) (fun _ => rfl) (fun _ => rfl)
            (fun _ => rfl) (fun _ => rfl)
        · exact began_false_modify _
            (fun x => { x with pages_modified_last_ := x.pages_modified_last_.erase b }) t p
            (fun _ => rfl) hb3
    · exact flush_inv_modify_frame _ _ t h1 (fun _ => rfl) (fun _ => rfl) (fun _ => rfl)
        (fun _ => rfl) (fun _ => rfl)
  · exact h1

theorem im_waiting_for_flush_flush_inv_gen (D : Nat → Prop) (c : page_cache_t) (t : Nat)
    (h : flush_inv_gen D c)
    (hb : ∀ tx, c.txns.get? t = some tx → tx.began_waiting_for_flush_ = true) :
    flush_inv_gen D (im_waiting_for_flush c t) := by
  unfold im_waiting_for_flush
  split
  · exact h
  · rename_i tx htx
    split
    · rename_i hemp
      have hpre : tx.preceders_ = [] := by simpa using hemp
      have hlt : t < c.txns.length := by
        rw [List.get?_eq_getElem?] at htx
        exact (List.getElem?_eq_some_iff.1 htx).1
      constructor
      · intro u hu
        simp only [List.append_assoc, List.mem_append, List.mem_singleton] at hu
        rcases hu with hu | hu | hu
        · exact h.1 u (List.mem_append_left _ hu)
        · subst hu; exact hlt
        · exact h.1 u (List.mem_append_right _ hu)
      · intro u ux hux
        obtain ⟨h1, h2, h3, h4⟩ := h.2 u ux hux
        refine ⟨h1, h2, ?_, h4⟩
        intro hst
        simp only [List.append_assoc, List.mem_append, List.mem_singleton] at hst
        rcases hst with hu | hu | hu
        · exact h3 (List.mem_append_left _ hu)
        · subst hu
          have hux2 : c.txns.get? u = some ux := hux
          rw [htx] at hux2
          cases hux2
          exact ⟨hb tx htx, hpre⟩
        · exact h3 (List.mem_append_right _ hu)
    · exact h

theorem im_waiting_for_flush_txns (c : page_cache_t) (t : Nat) :
    (im_waiting_for_flush c t).txns = c.txns := by
  unfold im_waiting_for_flush
  split
  · rfl
  · split <;> rfl

theorem im_waiting_for_flush_flush_inv (c : page_cache_t) (t : Nat) (h : flush_inv c)
    (hb : ∀ tx, c.txns.get? t = some tx → tx.began_waiting_for_flush_ = true) :
    flush_inv (im_waiting_for_flush c t) := by
  refine flush_inv_gen_congr _ _ _ ?_ (im_waiting_for_flush_flush_inv_gen _ c t h hb)
  rintro p ⟨px, hpx, hc⟩
  exact ⟨px, by rw [im_waiting_for_flush_txns]; exact hpx, hc⟩

theorem announce_flush_inv (c : page_cache_t) (t : Nat) (h : flush_inv c) :
    flush_inv (announce_waiting_for_flush_if_we_should c t) := by
  unfold announce_waiting_for_flush_if_we_should
  split
  · exact h
  · rename_i tx htx
    split
    · rename_i hemp
      have hlive : tx.live_acqs_ = [] := by simpa using hemp
      have h1 : flush_inv
          { c with txns :=
              c.txns.modify (fun x => { x with began_waiting_for_flush_ := true }) t } := by
        refine flush_inv_modify c _ t h ?_ ?_
        · intro x; rfl
        · intro tx0 htx0 hok
          rw [htx] at htx0
          cases htx0
          obtain ⟨_, h2, h3, h4⟩ := hok
          exact ⟨fun _ => hlive, fun hc => ⟨rfl, (h2 hc).2⟩, fun hs => ⟨rfl, (h3 hs).2⟩, h4⟩
      apply im_waiting_for_flush_flush_inv _ t h1
      intro tx1 htx1
      rcases get?_modify_txn c.txns _ t t tx1 htx1 with ⟨_, tx0, _, rfl⟩ | ⟨hne, _⟩
      · rfl
      · exact absurd rfl hne
    · exact h

theorem do_flush_txn_start_flush_inv (c : page_cache_t) (t : Nat) (h : flush_inv c)
    (ht : t ∈ c.spawned_) : flush_inv (do_flush_txn_start c t) := by
  have hsub : ∀ u, u ∈ c.spawned_.erase t ++ (c.flushing_ ++ [t]) →
      u ∈ c.spawned_ ++ c.flushing_ := by
    intro u hu
    simp only [List.mem_append, List.mem_singleton] at hu
    rcases hu with hu | hu | hu
    · exact List.mem_append_left _ (List.mem_of_mem_erase hu)
    · exact List.mem_append_right _ hu
    · subst hu; exact List.mem_append_left _ ht
  constructor
  · intro u hu
    exact h.1 u (hsub u hu)
  · intro u ux hux
    obtain ⟨h1, h2, h3, h4⟩ := h.2 u ux hux
    exact ⟨h1, h2, fun hs => h3 (hsub u hs), h4⟩

theorem remove_preceder_flush_inv_gen (D : Nat → Prop) (c : page_cache_t) (u txn : Nat)
    (hD : D txn) (h : flush_inv_gen D c) : flush_inv_gen D (remove_preceder c u txn) := by
  unfold remove_preceder
  refine flush_inv_gen_modify D c _ u h ?_
  intro tx _ hok
  obtain ⟨h1, h2, h3, h4⟩ := hok
  refine ⟨h1, ?_, ?_, ?_⟩
  · intro hc
    have := h2 hc
    exact ⟨this.1, by show tx.preceders_.erase txn = []; rw [this.2]; rfl⟩
  · intro hs
    have := h3 hs
    exact ⟨this.1, by show tx.preceders_.erase txn = []; rw [this.2]; rfl⟩
  · intro p hp
    by_cases hpt : p = txn
    · subst hpt; exact Or.inr hD
    · rcases h4 p hp with hm | hd
      · exact Or.inl ((List.mem_erase_of_ne hpt).2 hm)
      · exact Or.inr hd

theorem flush_notify_subseqer_flush_inv_gen (D : Nat → Prop) (c : page_cache_t) (u txn : Nat)
    (hD : D txn) (h : flush_inv_gen D c) :
    flush_inv_gen D (flush_notify_subseqer txn c u) := by
  have h1 := remove_preceder_flush_inv_gen D c u txn hD h
  unfold flush_notify_subseqer
  simp only
  split
  · exact h1
  · rename_i ux hux
    split
    · rename_i hbegan
      apply im_waiting_for_flush_flush_inv_gen D _ u h1
      intro tx htx
      rw [hux] at htx
      cases htx
      exact hbegan
    · exact h1

theorem flush_notify_subseqer_frame (c : page_cache_t) (u txn : Nat) :
    (flush_notify_subseqer txn c u).flushing_ = c.flushing_ ∧
      ∀ p, flush_complete c p → flush_complete (flush_notify_subseqer txn c u) p := by
  have hrp : ∀ p, flush_complete c p → flush_complete (remove_preceder c u txn) p :=
    fun p hp => (flush_complete_modify c
      (fun x => { x with preceders_ := x.preceders_.erase txn }) u (fun _ => rfl) p).2 hp
  unfold flush_notify_subseqer
  simp only
  split
  · exact ⟨rfl, hrp⟩
  · split
    · constructor
      · unfold im_waiting_for_flush
        split
        · rfl
        · split <;> rfl
      · rintro p hp
        obtain ⟨px, hpx, hc⟩ := hrp p hp
        exact ⟨px, by rw [im_waiting_for_flush_txns]; exact hpx, hc⟩
    · exact ⟨rfl, hrp⟩

theorem foldl_notify_flush_inv_gen (D : Nat → Prop) (txn : Nat) (hD : D txn)
    (us : List Nat) (c : page_cache_t) (h : flush_inv_gen D c) :
    flush_inv_gen D (us.foldl (flush_notify_subseqer txn) c) ∧
      (us.foldl (flush_notify_subseqer txn) c).flushing_ = c.flushing_ ∧
      ∀ p, flush_complete c p → flush_complete (us.foldl (flush_notify_subseqer txn) c) p := by
  induction us generalizing c with
  | nil => exact ⟨h, rfl, fun _ hp => hp⟩
  | cons u rest ih =>
    simp only [List.foldl_cons]
    obtain ⟨h1, h2, h3⟩ := ih (flush_notify_subseqer txn c u)
      (flush_notify_subseqer_flush_inv_gen D c u txn hD h)
    obtain ⟨f1, f2⟩ := flush_notify_subseqer_frame c u txn
    exact ⟨h1, h2.trans f1, fun p hp => h3 p (f2 p hp)⟩

theorem foldl_last_modifier_frame (bs : List Nat) (c : page_cache_t) :
    (bs.foldl (fun c b => set_last_modifier c b none) c).txns = c.txns ∧
      (bs.foldl (fun c b => set_last_modifier c b none) c).spawned_ = c.spawned_ ∧
      (bs.foldl (fun c b => set_last_modifier c b none) c).flushing_ = c.flushing_ := by
  induction bs generalizing c with
  | nil => exact ⟨rfl, rfl, rfl⟩
  | cons b rest ih =>
    simp only [List.foldl_cons]
    obtain ⟨h1, h2, h3⟩ := ih (set_last_modifier c b none)
    exact ⟨h1, h2, h3⟩

theorem flush_inv_gen_of_fields (D : Nat → Prop) (c c1 : page_cache_t)
    (ht : c1.txns = c.txns) (hs : c1.spawned_ = c.spawned_) (hf : c1.flushing_ = c.flushing_)
    (h : flush_inv_gen D c) : flush_inv_gen D c1 := by
  unfold flush_inv_gen at h ⊢
  rw [ht, hs, hf]
  exact h

theorem flush_complete_of_txns (c c1 : page_cache_t) (ht : c1.txns = c.txns) (p : Nat)
    (h : flush_complete c p) : flush_complete c1 p := by
  obtain ⟨px, hpx, hc⟩ := h
  exact ⟨px, by rw [ht]; exact hpx, hc⟩

theorem finish_mark_flush_inv (c : page_cache_t) (txn : Nat)
    (h : flush_inv_gen (fun p => flush_complete c p ∨ p = txn) c) (hfl : txn ∈ c.flushing_) :
    flush_inv
      { c with
        txns := c.txns.modify
          (fun x => { x with pages_modified_last_ := [], flush_complete_cond_ := true }) txn,
        flushing_ := c.flushing_.erase txn } := by
  have hsub : ∀ u, u ∈ c.spawned_ ++ c.flushing_.erase txn → u ∈ c.spawned_ ++ c.flushing_ := by
    intro u hu
    rcases List.mem_append.1 hu with hu | hu
    · exact List.mem_append_left _ hu
    · exact List.mem_append_right _ (List.mem_of_mem_erase hu)
  have hvalid : txn < c.txns.length := h.1 txn (List.mem_append_right _ hfl)
  have hD : ∀ p, (flush_complete c p ∨ p = txn) →
      flush_complete
        { c with
          txns := c.txns.modify
            (fun x => { x with pages_modified_last_ := [], flush_complete_cond_ := true }) txn,
          flushing_ := c.flushing_.erase txn } p := by
    intro p hp
    by_cases hpt : p = txn
    · subst hpt
      refine ⟨{ (c.txns.get ⟨p, hvalid⟩) with
        pages_modified_last_ := [], flush_complete_cond_ := true }, ?_, rfl⟩
      show (c.txns.modify _ p).get? p = _
      rw [List.get?_eq_getElem?, List.getElem?_modify_eq, List.getElem?_eq_getElem hvalid]
      rfl
    · rcases hp with ⟨px, hpx, hc⟩ | hp
      · refine ⟨px, ?_, hc⟩
        show (c.txns.modify _ txn).get? p = _
        rw [List.get?_eq_getElem?, List.getElem?_modify_ne _ _ (Ne.symm hpt),
          ← List.get?_eq_getElem?]
        exact hpx
      · exact absurd hp hpt
  constructor
  · intro u hu
    show u < (c.txns.modify _ txn).length
    rw [List.length_modify]
    exact h.1 u (hsub u hu)
  · intro u ux hux
    rcases get?_modify_txn c.txns _ txn u ux hux with ⟨rfl, tx, htx, rfl⟩ | ⟨_, hsame⟩
    · obtain ⟨h1, _, h3, h4⟩ := h.2 u tx htx
      have hst := h3 (List.mem_append_right _ hfl)
      exact ⟨h1, fun _ => hst, fun _ => hst, fun p hp => (h4 p hp).imp id (hD p)⟩
    · obtain ⟨h1, h2, h3, h4⟩ := h.2 u ux hsame
      exact ⟨h1, h2, fun hs => h3 (hsub u hs), fun p hp => (h4 p hp).imp id (hD p)⟩

theorem do_flush_txn_finish_flush_inv (c : page_cache_t) (txn : Nat) (h : flush_inv c)
    (hfl : txn ∈ c.flushing_) : flush_inv (do_flush_txn_finish c txn) := by
  unfold do_flush_txn_finish
  split
  · exact h
  · rename_i tx htx
    simp only
    have h0 : flush_inv_gen (fun p => flush_complete c p ∨ p = txn) c :=
      flush_inv_gen_congr _ _ _ (fun p hp => Or.inl hp) h
    have h1 : flush_inv_gen (fun p => flush_complete c p ∨ p = txn)
        { c with txns := c.txns.modify (fun x => { x with subseqers_ := [] }) txn } := by
      refine flush_inv_gen_modify _ c _ txn h0 ?_
      intro x _ hok
      exact hok
    have hc1 : ∀ p, flush_complete c p →
        flush_complete
          { c with txns := c.txns.modify (fun x => { x with subseqers_ := [] }) txn } p :=
      fun p hp => (flush_complete_modify c
        (fun x => { x with subseqers_ := [] }) txn (fun _ => rfl) p).2 hp
    obtain ⟨h2, hf2, hc2⟩ := foldl_notify_flush_inv_gen _ txn (Or.inr rfl) tx.subseqers_ _ h1
    obtain ⟨t3, s3, f3⟩ := foldl_last_modifier_frame tx.pages_modified_last_
      (tx.subseqers_.foldl (flush_notify_subseqer txn)
        { c with txns := c.txns.modify (fun x => { x with subseqers_ := [] }) txn })
    have h3 := flush_inv_gen_of_fields _ _ _ t3 s3 f3 h2
    have hfl3 : txn ∈ (tx.pages_modified_last_.foldl (fun c b => set_last_modifier c b none)
        (tx.subseqers_.foldl (flush_notify_subseqer txn)
          { c with txns := c.txns.modify (fun x => { x with subseqers_ := [] }) txn })).flushing_ := by
      rw [f3, hf2]; exact hfl
    apply finish_mark_flush_inv _ txn _ hfl3
    refine flush_inv_gen_congr _ _ _ ?_ h3
    intro p hp
    rcases hp with hp | hp
    · exact Or.inl (flush_complete_of_txns _ _ t3 p (hc2 p (hc1 p hp)))
    · exact Or.inr hp

theorem apply_flush_inv (c : page_cache_t) (op : TxnOp) (h : flush_inv c)
    (hen : op.enabled c = true) : flush_inv (op.apply c) := by
  cases op with
  | new_txn p => exact new_page_txn_t_flush_inv c p h
  | add_acquirer t acq =>
    apply add_acquirer_flush_inv c t acq h
    intro tx htx
    simp only [TxnOp.enabled, htx] at hen
    simpa using hen
  | remove_acquirer t acq r a d b sp =>
    apply remove_acquirer_flush_inv c t acq r a d b sp h
    intro tx htx
    simp only [TxnOp.enabled, htx, decide_eq_true_eq] at hen
    cases hb : tx.began_waiting_for_flush_ with
    | false => rfl
    | true =>
      have := (h.2 t tx htx).1 hb
      rw [this] at hen
      cases hen
  | destroy_txn t => exact announce_flush_inv c t h
  | flush_start t =>
    apply do_flush_txn_start_flush_inv c t h
    simpa [TxnOp.enabled] using hen
  | flush_finish t =>
    apply do_flush_txn_finish_flush_inv c t h
    simpa [TxnOp.enabled] using hen

theorem reachable_flush_inv (ok : page_cache_t → TxnOp → Bool) (c : page_cache_t)
    (h : TxnReachableBy ok c) : flush_inv c := by
  induction h with
  | init =>
    constructor
    · intro t ht; cases ht
    · intro t tx htx; cases htx
  | step c op _ hen _ ih => exact apply_flush_inv c op ih hen

theorem txn_reachable_by_run (ok : page_cache_t → TxnOp → Bool) (c : page_cache_t)
    (ops : List TxnOp) (hc : TxnReachableBy ok c)
    (c1 : page_cache_t) (h : txn_run_by ok c ops = some c1) : TxnReachableBy ok c1 := by
  induction ops generalizing c with
  | nil =>
    simp only [txn_run_by, Option.some.injEq] at h
    subst h; exact hc
  | cons op ops ih =>
    simp only [txn_run_by] at h
    split at h
    · rename_i hen
      simp only [Bool.and_eq_true] at hen
      exact ih _ (TxnReachableBy.step c op hc hen.1 hen.2) h
    · cases h

theorem txn_reachable_run (c : page_cache_t) (ops : List TxnOp) (hc : TxnReachable c)
    (c1 : page_cache_t) (h : txn_run c ops = some c1) : TxnReachable c1 :=
  txn_reachable_by_run _ c ops hc c1 h

/-- C8 (causal flush order): in every reachable state, a transaction whose
`do_flush_txn` has been spawned, is running or has finished has announced
readiness (`began_waiting_for_flush_`), has no live acquirers and has an empty
preceder set; and every transaction that was ever connected as its preceder has
its `flush_complete_cond_` pulsed, which `do_flush_txn` does after `index_write`
has returned and after removing itself from the preceders of its subseqers. -/
theorem causal_flush_order (c : page_cache_t) (h : TxnReachable c) (t : Nat)
    (hst : flush_started c t) :
    ∃ tx, c.txns.get? t = some tx ∧ tx.began_waiting_for_flush_ = true ∧
      tx.live_acqs_ = [] ∧ tx.preceders_ = [] ∧
      ∀ p ∈ tx.ever_preceders, flush_complete c p := by
  have hinv := reachable_flush_inv _ c h
  have hex : ∃ tx, c.txns.get? t = some tx := by
    rcases hst with hs | hs | ⟨px, hpx, _⟩
    · have hlt := hinv.1 t (List.mem_append_left _ hs)
      exact ⟨c.txns.get ⟨t, hlt⟩, List.get?_eq_get hlt⟩
    · have hlt := hinv.1 t (List.mem_append_right _ hs)
      exact ⟨c.txns.get ⟨t, hlt⟩, List.get?_eq_get hlt⟩
    · exact ⟨px, hpx⟩
  obtain ⟨tx, htx⟩ := hex
  obtain ⟨h1, h2, h3, h4⟩ := hinv.2 t tx htx
  have hbp : tx.began_waiting_for_flush_ = true ∧ tx.preceders_ = [] := by
    rcases hst with hs | hs | ⟨px, hpx, hc⟩
    · exact h3 (List.mem_append_left _ hs)
    · exact h3 (List.mem_append_right _ hs)
    · rw [htx] at hpx
      cases hpx
      exact h2 hc
  refine ⟨tx, htx, hbp.1, h1 hbp.1, hbp.2, ?_⟩
  intro p hp
  rcases h4 p hp with hm | hd
  · rw [hbp.2] at hm
    cases hm
  · exact hd

theorem causal_flush_order_witness :
    TxnReachable (txn_run_from page_cache_t.init trace_causal_chain) ∧
      flush_started (txn_run_from page_cache_t.init trace_causal_chain) 1 ∧
      ∃ tx, (txn_run_from page_cache_t.init trace_causal_chain).txns.get? 1 = some tx ∧
        tx.began_waiting_for_flush_ = true ∧ tx.live_acqs_ = [] ∧ tx.preceders_ = [] ∧
        ∀ p ∈ tx.ever_preceders,
          flush_complete (txn_run_from page_cache_t.init trace_causal_chain) p :=
  ⟨txn_reachable_run _ trace_causal_chain TxnReachableBy.init _ rfl,
   Or.inl (by decide),
   causal_flush_order _ (txn_reachable_run _ trace_causal_chain TxnReachableBy.init _ rfl) 1
     (Or.inl (by decide))⟩

/-! ## The preceder relation -/

theorem edges_decrease_modify (l : List page_txn_t) (f : page_txn_t → page_txn_t) (u : Nat)
    (hf : ∀ tx, ∀ p ∈ (f tx).preceders_, p ∈ tx.preceders_) (h : edges_decrease l) :
    edges_decrease (l.modify f u) := by
  intro t tx htx p hp
  rcases get?_modify_txn l f u t tx htx with ⟨rfl, tx0, htx0, rfl⟩ | ⟨_, hsame⟩
  · exact h t tx0 htx0 p (hf tx0 p hp)
  · exact h t tx hsame p hp

theorem edges_decrease_connect (c : page_cache_t) (t p : Nat) (hpt : p < t)
    (h : edges_decrease c.txns) : edges_decrease (connect_preceder c t p).txns := by
  unfold connect_preceder
  split
  · split
    · split
      · dsimp only
        refine edges_decrease_modify _ _ p (fun _ _ hq => hq) ?_
        intro u ux hux q hq
        rcases get?_modify_txn c.txns _ t u ux hux with ⟨rfl, tx0, htx0, rfl⟩ | ⟨_, hsame⟩
        · rcases List.mem_append.1 hq with hq1 | hq1
          · exact h u tx0 htx0 q hq1
          · simp only [List.mem_singleton] at hq1
            subst hq1; exact hpt
        · exact h u ux hsame q hq
      · exact h
    · exact h
  · exact h

theorem edges_decrease_append_fresh (l : List page_txn_t) (h : edges_decrease l) :
    edges_decrease (l ++ [page_txn_t.fresh]) := by
  intro t tx htx p hp
  rcases get?_append_singleton l _ tx t htx with hold | ⟨_, rfl⟩
  · exact h t tx hold p hp
  · cases hp

theorem edges_decrease_notify (txn : Nat) (c : page_cache_t) (u : Nat)
    (h : edges_decrease c.txns) : edges_decrease (flush_notify_subseqer txn c u).txns := by
  have h1 : edges_decrease (remove_preceder c u txn).txns :=
    edges_decrease_modify c.txns _ u (fun _ _ hq => List.mem_of_mem_erase hq) h
  unfold flush_notify_subseqer
  simp only
  split
  · exact h1
  · split
    · rw [im_waiting_for_flush_txns]; exact h1
    · exact h1

theorem edges_decrease_foldl_notify (txn : Nat) (us : List Nat) (c : page_cache_t)
    (h : edges_decrease c.txns) :
    edges_decrease (us.foldl (flush_notify_subseqer txn) c).txns := by
  induction us generalizing c with
  | nil => exact h
  | cons u rest ih => exact ih _ (edges_decrease_notify txn c u h)

theorem edges_decrease_remove_acquirer (c : page_cache_t) (t acq : Nat) (r : Bool)
    (a : alt_access_t) (d : Bool) (b : Nat) (sp : Option Nat)
    (hok : dirty_after_earlier c (TxnOp.remove_acquirer t acq r a d b sp) = true)
    (h : edges_decrease c.txns) :
    edges_decrease (page_txn_t.remove_acquirer c t acq r a d b sp).txns := by
  have h1 : edges_decrease
      (c.txns.modify (fun x => { x with live_acqs_ := x.live_acqs_.erase acq }) t) :=
    edges_decrease_modify _ _ t (fun _ _ hq => hq) h
  unfold page_txn_t.remove_acquirer
  simp only
  split
  · rename_i hrw
    simp only [Bool.and_eq_true, decide_eq_true_eq] at hrw
    split
    · rename_i hd
      refine edges_decrease_modify _ _ t (fun _ _ hq => hq) ?_
      have h3 : edges_decrease
          ((c.txns.modify (fun x => { x with live_acqs_ := x.live_acqs_.erase acq }) t).modify
            (fun x => { x with pages_modified_last_ := x.pages_modified_last_ ++ [b] }) t) :=
        edges_decrease_modify _ _ t (fun _ _ hq => hq) h1
      split
      · exact h3
      · rename_i p hp
        have hpt : p < t := by
          have hp2 : get_last_modifier c b = some p := hp
          simp only [dirty_after_earlier, hrw.1, hrw.2, hd, decide_True, Bool.and_self,
            if_true, hp2, decide_eq_true_eq] at hok
          exact hok
        apply edges_decrease_connect _ t p hpt
        exact edges_decrease_modify _ _ p (fun _ _ hq => hq) h3
    · exact edges_decrease_modify _ _ t (fun _ _ hq => hq) h1
  · exact h1

theorem edges_decrease_apply (c : page_cache_t) (op : TxnOp) (hen : op.enabled c = true)
    (hok : dirty_after_earlier c op = true) (h : edges_decrease c.txns) :
    edges_decrease (op.apply c).txns := by
  cases op with
  | new_txn p =>
    show edges_decrease (new_page_txn_t c p).txns
    unfold new_page_txn_t
    cases p with
    | none => exact edges_decrease_append_fresh _ h
    | some q =>
      have hq : q < c.txns.length := by simpa [TxnOp.enabled] using hen
      exact edges_decrease_connect _ _ q hq (edges_decrease_append_fresh _ h)
  | add_acquirer t acq => exact edges_decrease_modify _ _ t (fun _ _ hq => hq) h
  | remove_acquirer t acq r a d b sp => exact edges_decrease_remove_acquirer c t acq r a d b sp hok h
  | destroy_txn t =>
    show edges_decrease (announce_waiting_for_flush_if_we_should c t).txns
    unfold announce_waiting_for_flush_if_we_should
    split
    · exact h
    · split
      · rw [im_waiting_for_flush_txns]
        exact edges_decrease_modify _ _ t (fun _ _ hq => hq) h
      · exact h
  | flush_start t => exact h
  | flush_finish t =>
    show edges_decrease (do_flush_txn_finish c t).txns
    unfold do_flush_txn_finish
    split
    · exact h
    · rename_i tx _
      simp only
      refine edges_decrease_modify _ _ t (fun _ _ hq => hq) ?_
      rw [(foldl_last_modifier_frame tx.pages_modified_last_ _).1]
      apply edges_decrease_foldl_notify
      exact edges_decrease_modify _ _ t (fun _ _ hq => hq) h

theorem reachable_edges_decrease (c : page_cache_t)
    (h : TxnReachableBy dirty_after_earlier c) : edges_decrease c.txns := by
  induction h with
  | init => intro t tx htx; cases htx
  | step c op _ hen hok ih => exact edges_decrease_apply c op hen hok ih

theorem acyclic_of_edges_decrease (c : page_cache_t) (h : edges_decrease c.txns) :
    preceders_acyclic c := by
  have key : ∀ a b, Relation.TransGen (preceder_edge c) a b → b < a := by
    intro a b hab
    induction hab with
    | single hedge =>
      obtain ⟨tx, htx, hp⟩ := hedge
      exact h _ tx htx _ hp
    | tail _ hedge ih =>
      obtain ⟨tx, htx, hp⟩ := hedge
      exact Nat.lt_trans (h _ tx htx _ hp) ih
  intro t ht
  exact Nat.lt_irrefl t (key t t ht)


/-- After two transactions each dirty a block that the other one dirtied last,
each is a preceder of the other, so the preceder relation has a cycle. The state
is reachable and no assertion of the source fails along the way. -/
theorem preceder_cycle_reachable :
    TxnReachable (txn_run_from page_cache_t.init trace_cross_dirty) ∧
      txn_run_asserts_hold page_cache_t.init trace_cross_dirty = true ∧
      ¬ preceders_acyclic (txn_run_from page_cache_t.init trace_cross_dirty) := by
  refine ⟨txn_reachable_run _ trace_cross_dirty TxnReachableBy.init _ rfl, rfl, ?_⟩
  intro hac
  apply hac 0
  have e01 : preceder_edge (txn_run_from page_cache_t.init trace_cross_dirty) 0 1 :=
    ⟨(txn_run_from page_cache_t.init trace_cross_dirty).txns.get ⟨0, by decide⟩, rfl,
      by decide⟩
  have e10 : preceder_edge (txn_run_from page_cache_t.init trace_cross_dirty) 1 0 :=
    ⟨(txn_run_from page_cache_t.init trace_cross_dirty).txns.get ⟨1, by decide⟩, rfl,
      by decide⟩
  exact Relation.TransGen.tail (Relation.TransGen.single e01) e10

/-- Preceders given to the constructor are transactions created earlier. When,
in addition, every dirtying write acquirer is destroyed at a time when the
previous last modifier of its block is a transaction created before the
acquirer's own, every preceder of a transaction was created before it, and the
preceder relation is acyclic. -/
theorem preceders_acyclic_in_creation_order (c : page_cache_t)
    (h : TxnReachableBy dirty_after_earlier c) :
    (∀ t p, preceder_edge c t p → p < t) ∧ preceders_acyclic c ∧
      ∀ t, ¬ preceder_edge c t t := by
  have hdec := reachable_edges_decrease c h
  have hac := acyclic_of_edges_decrease c hdec
  refine ⟨?_, hac, fun t ht => hac t (Relation.TransGen.single ht)⟩
  rintro t p ⟨tx, htx, hp⟩
  exact hdec t tx htx p hp

theorem preceders_acyclic_in_creation_order_witness :
    TxnReachableBy dirty_after_earlier
        ((txn_run_by dirty_after_earlier page_cache_t.init trace_ordered_dirty).getD
          page_cache_t.init) ∧
      preceder_edge
        ((txn_run_by dirty_after_earlier page_cache_t.init trace_ordered_dirty).getD
          page_cache_t.init) 1 0 ∧
      preceders_acyclic
        ((txn_run_by dirty_after_earlier page_cache_t.init trace_ordered_dirty).getD
          page_cache_t.init) :=
  ⟨txn_reachable_by_run _ _ trace_ordered_dirty TxnReachableBy.init _ rfl,
   ⟨((txn_run_by dirty_after_earlier page_cache_t.init trace_ordered_dirty).getD
      page_cache_t.init).txns.get ⟨1, by decide⟩, rfl, by decide⟩,
   (preceders_acyclic_in_creation_order _
     (txn_reachable_by_run _ _ trace_ordered_dirty TxnReachableBy.init _ rfl)).2.1⟩

/-! ## Eviction eligibility -/

/-- C17, as stated, fails on the code: a page with no destroy-in-progress
pointer, no waiters and a block token, but without a buffer, is placed in the
evicted bag by `correct_eviction_category`, not in the evictable-disk-backed
bag. -/
theorem token_without_buffer_is_evicted :
    sample_evicted_page.destroy_ptr_ = false ∧ sample_evicted_page.waiters_ = [] ∧
      sample_evicted_page.block_token_.isSome = true ∧
      correct_eviction_category sample_evicted_page = bag_name.evicted ∧
      correct_eviction_category sample_evicted_page ≠ bag_name.evictable_disk_backed := by
  decide

/-- C17 (amended): for every page state, `correct_eviction_category` returns
the evictable-disk-backed bag if and only if the page has no
destroy-in-progress pointer, has no waiters, has a buffer and has a block
token. -/
theorem eviction_eligibility (pg : page_t) :
    correct_eviction_category pg = bag_name.evictable_disk_backed ↔
      (pg.destroy_ptr_ = false ∧ pg.waiters_ = [] ∧ pg.buf_.isSome = true ∧
        pg.block_token_.isSome = true) := by
  unfold correct_eviction_category
  cases hd : pg.destroy_ptr_ <;> cases hw : pg.waiters_ <;> cases hb : pg.buf_ <;>
    cases ht : pg.block_token_ <;> simp

/-! ## Symmetry and deduplication of edges -/

theorem get?_modify_map {α : Type} (l : List page_txn_t) (f : page_txn_t → page_txn_t)
    (u t : Nat) (π : page_txn_t → α) :
    ((l.modify f u).get? t).map π =
      if t = u then (l.get? t).map (fun x => π (f x)) else (l.get? t).map π := by
  rw [List.get?_eq_getElem?, List.get?_eq_getElem?]
  by_cases htu : t = u
  · subst htu
    rw [if_pos rfl, List.getElem?_modify_eq]
    cases l[t]? <;> rfl
  · rw [if_neg htu, List.getElem?_modify_ne _ _ (Ne.symm htu)]

theorem preceders_of_modify (l : List page_txn_t) (f : page_txn_t → page_txn_t)
    (g : List Nat → List Nat) (hf : ∀ x, (f x).preceders_ = g x.preceders_) (u t : Nat) :
    preceders_of (l.modify f u) t =
      if t = u ∧ t < l.length then g (preceders_of l t) else preceders_of l t := by
  unfold preceders_of
  rw [get?_modify_map]
  by_cases htu : t = u
  · subst htu
    by_cases hlt : t < l.length
    · rw [if_pos rfl, if_pos ⟨rfl, hlt⟩, List.get?_eq_get hlt]
      simp [hf]
    · rw [if_pos rfl, if_neg (fun h => hlt h.2)]
      rw [List.get?_eq_none.2 (Nat.le_of_not_lt hlt)]
      rfl
  · rw [if_neg htu, if_neg (fun h => htu h.1)]

theorem subseqers_of_modify (l : List page_txn_t) (f : page_txn_t → page_txn_t)
    (g : List Nat → List Nat) (hf : ∀ x, (f x).subseqers_ = g x.subseqers_) (u t : Nat) :
    subseqers_of (l.modify f u) t =
      if t = u ∧ t < l.length then g (subseqers_of l t) else subseqers_of l t := by
  unfold subseqers_of
  rw [get?_modify_map]
  by_cases htu : t = u
  · subst htu
    by_cases hlt : t < l.length
    · rw [if_pos rfl, if_pos ⟨rfl, hlt⟩, List.get?_eq_get hlt]
      simp [hf]
    · rw [if_pos rfl, if_neg (fun h => hlt h.2)]
      rw [List.get?_eq_none.2 (Nat.le_of_not_lt hlt)]
      rfl
  · rw [if_neg htu, if_neg (fun h => htu h.1)]

theorem preceders_of_modify_frame (l : List page_txn_t) (f : page_txn_t → page_txn_t)
    (hf : ∀ x, (f x).preceders_ = x.preceders_) (u t : Nat) :
    preceders_of (l.modify f u) t = preceders_of l t := by
  rw [preceders_of_modify l f id hf]
  split <;> rfl

theorem subseqers_of_modify_frame (l : List page_txn_t) (f : page_txn_t → page_txn_t)
    (hf : ∀ x, (f x).subseqers_ = x.subseqers_) (u t : Nat) :
    subseqers_of (l.modify f u) t = subseqers_of l t := by
  rw [subseqers_of_modify l f id hf]
  split <;> rfl

theorem preceders_of_append_fresh (l : List page_txn_t) (t : Nat) :
    preceders_of (l ++ [page_txn_t.fresh]) t = preceders_of l t := by
  unfold preceders_of
  rw [List.get?_eq_getElem?, List.get?_eq_getElem?]
  by_cases hlt : t < l.length
  · rw [List.getElem?_append_left hlt]
  · have hle : l.length ≤ t := Nat.le_of_not_lt hlt
    rw [List.getElem?_append_right hle, List.getElem?_eq_none hle]
    cases hk : t - l.length <;> simp [page_txn_t.fresh]

theorem subseqers_of_append_fresh (l : List page_txn_t) (t : Nat) :
    subseqers_of (l ++ [page_txn_t.fresh]) t = subseqers_of l t := by
  unfold subseqers_of
  rw [List.get?_eq_getElem?, List.get?_eq_getElem?]
  by_cases hlt : t < l.length
  · rw [List.getElem?_append_left hlt]
  · have hle : l.length ≤ t := Nat.le_of_not_lt hlt
    rw [List.getElem?_append_right hle, List.getElem?_eq_none hle]
    cases hk : t - l.length <;> simp [page_txn_t.fresh]

theorem preceders_of_get (l : List page_txn_t) (t : Nat) (tx : page_txn_t)
    (h : l.get? t = some tx) : preceders_of l t = tx.preceders_ := by
  unfold preceders_of
  rw [h]; rfl

theorem subseqers_of_get (l : List page_txn_t) (t : Nat) (tx : page_txn_t)
    (h : l.get? t = some tx) : subseqers_of l t = tx.subseqers_ := by
  unfold subseqers_of
  rw [h]; rfl

theorem connect_preceder_cases (c : page_cache_t) (t p : Nat) :
    connect_preceder c t p = c ∨
      (p ∉ preceders_of c.txns t ∧
        (∀ u, preceders_of (connect_preceder c t p).txns u =
          if u = t then preceders_of c.txns t ++ [p] else preceders_of c.txns u) ∧
        (∀ u, subseqers_of (connect_preceder c t p).txns u =
          if u = p then subseqers_of c.txns p ++ [t] else subseqers_of c.txns u)) := by
  unfold connect_preceder
  split
  · rename_i px tx hpx htx
    split
    · split
      · rename_i hnot
        right
        have hpl : p < c.txns.length := by
          rw [List.get?_eq_getElem?] at hpx
          exact (List.getElem?_eq_some_iff.1 hpx).1
        have htl : t < c.txns.length := by
          rw [List.get?_eq_getElem?] at htx
          exact (List.getElem?_eq_some_iff.1 htx).1
        refine ⟨by rw [preceders_of_get _ _ _ htx]; exact hnot, ?_, ?_⟩
        · intro u
          show preceders_of (List.modify _ p (List.modify _ t c.txns)) u = _
          rw [preceders_of_modify_frame _
              (fun x : page_txn_t => { x with subseqers_ := x.subseqers_ ++ [t] })
              (fun _ => rfl),
            preceders_of_modify _
              (fun x : page_txn_t => { x with preceders_ := x.preceders_ ++ [p],
                                              ever_preceders := x.ever_preceders ++ [p] })
              (fun l => l ++ [p]) (fun _ => rfl)]
          by_cases hut : u = t
          · subst hut
            rw [if_pos ⟨rfl, htl⟩, if_pos rfl]
          · rw [if_neg (fun h => hut h.1), if_neg hut]
        · intro u
          show subseqers_of (List.modify _ p (List.modify _ t c.txns)) u = _
          rw [subseqers_of_modify _
              (fun x : page_txn_t => { x with subseqers_ := x.subseqers_ ++ [t] })
              (fun l => l ++ [t]) (fun _ => rfl),
            subseqers_of_modify_frame _
              (fun x : page_txn_t => { x with preceders_ := x.preceders_ ++ [p],
                                              ever_preceders := x.ever_preceders ++ [p] })
              (fun _ => rfl)]
          by_cases hup : u = p
          · subst hup
            rw [if_pos ⟨rfl, by rw [List.length_modify]; exact hpl⟩, if_pos rfl]
          · rw [if_neg (fun h => hup h.1), if_neg hup]
      · exact Or.inl rfl
    · exact Or.inl rfl
  · exact Or.inl rfl

theorem connect_preceder_graph (c : page_cache_t) (t p : Nat)
    (hs : edge_sym c.txns) (hn : edges_nodup c.txns) :
    edge_sym (connect_preceder c t p).txns ∧ edges_nodup (connect_preceder c t p).txns := by
  rcases connect_preceder_cases c t p with hsame | ⟨hnot, hpre, hsub⟩
  · rw [hsame]; exact ⟨hs, hn⟩
  · have hnotsub : t ∉ subseqers_of c.txns p := fun h => hnot ((hs t p).2 h)
    constructor
    · intro u q
      rw [hpre, hsub]
      by_cases hut : u = t <;> by_cases hqp : q = p
      · subst hut; subst hqp; simp
      · subst hut
        rw [if_pos rfl, if_neg hqp]
        simp only [List.mem_append, List.mem_singleton, hqp, or_false]
        exact hs u q
      · subst hqp
        rw [if_neg hut, if_pos rfl]
        simp only [List.mem_append, List.mem_singleton, hut, or_false]
        exact hs u q
      · rw [if_neg hut, if_neg hqp]
        exact hs u q
    · intro u
      rw [hpre, hsub]
      constructor
      · by_cases hut : u = t
        · subst hut
          rw [if_pos rfl]
          exact List.Nodup.append (hn u).1 (List.nodup_singleton p)
            (by simpa using hnot)
        · rw [if_neg hut]; exact (hn u).1
      · by_cases hup : u = p
        · subst hup
          rw [if_pos rfl]
          exact List.Nodup.append (hn u).2 (List.nodup_singleton t)
            (by simpa using hnotsub)
        · rw [if_neg hup]; exact (hn u).2

/-! ## The end of `do_flush_txn` -/

theorem get_last_modifier_set (c : page_cache_t) (b : Nat) (v : Option Nat) (b1 : Nat) :
    get_last_modifier (set_last_modifier c b v) b1 =
      if b1 = b then v else get_last_modifier c b1 := by
  unfold get_last_modifier set_last_modifier
  simp only [List.get?_eq_getElem?]
  have hlen : b < (c.last_modifier_ ++
      List.replicate (b + 1 - c.last_modifier_.length) none).length := by
    simp only [List.length_append, List.length_replicate]
    omega
  by_cases hb : b1 = b
  · subst hb
    rw [if_pos rfl, List.getElem?_set_self hlen]
    rfl
  · rw [if_neg hb, List.getElem?_set_ne (Ne.symm hb)]
    by_cases hlt : b1 < c.last_modifier_.length
    · rw [List.getElem?_append_left hlt]
    · have hle : c.last_modifier_.length ≤ b1 := Nat.le_of_not_lt hlt
      rw [List.getElem?_append_right hle, List.getElem?_eq_none hle]
      rw [List.getElem?_replicate]
      split <;> rfl

theorem foldl_clear_last_modifier (bs : List Nat) (c : page_cache_t) (b : Nat) :
    get_last_modifier (bs.foldl (fun c b => set_last_modifier c b none) c) b =
      if b ∈ bs then none else get_last_modifier c b := by
  induction bs generalizing c with
  | nil => simp
  | cons b0 rest ih =>
    simp only [List.foldl_cons, List.mem_cons]
    rw [ih, get_last_modifier_set]
    by_cases hr : b ∈ rest
    · simp [hr]
    · by_cases hb : b = b0
      · simp [hb]
      · simp [hr, hb]

theorem flush_notify_subseqer_txns (txn : Nat) (c : page_cache_t) (u : Nat) :
    (flush_notify_subseqer txn c u).txns = (remove_preceder c u txn).txns := by
  unfold flush_notify_subseqer
  simp only
  split
  · rfl
  · split
    · rw [im_waiting_for_flush_txns]
    · rfl

theorem preceders_of_notify (txn : Nat) (c : page_cache_t) (u t : Nat) :
    preceders_of (flush_notify_subseqer txn c u).txns t =
      if t = u then (preceders_of c.txns t).erase txn else preceders_of c.txns t := by
  rw [flush_notify_subseqer_txns]
  show preceders_of (List.modify _ u c.txns) t = _
  rw [preceders_of_modify _ (fun x : page_txn_t => { x with preceders_ := x.preceders_.erase txn })
    (fun l => l.erase txn) (fun _ => rfl)]
  by_cases htu : t = u
  · subst htu
    by_cases hlt : t < c.txns.length
    · rw [if_pos ⟨rfl, hlt⟩, if_pos rfl]
    · rw [if_neg (fun h => hlt h.2), if_pos rfl]
      have : preceders_of c.txns t = [] := by
        unfold preceders_of
        rw [List.get?_eq_none.2 (Nat.le_of_not_lt hlt)]
        rfl
      rw [this]; rfl
  · rw [if_neg (fun h => htu h.1), if_neg htu]

theorem subseqers_of_notify (txn : Nat) (c : page_cache_t) (u t : Nat) :
    subseqers_of (flush_notify_subseqer txn c u).txns t = subseqers_of c.txns t := by
  rw [flush_notify_subseqer_txns]
  exact subseqers_of_modify_frame _
    (fun x : page_txn_t => { x with preceders_ := x.preceders_.erase txn }) (fun _ => rfl) u t

theorem began_of_modify_frame (l : List page_txn_t) (f : page_txn_t → page_txn_t)
    (hf : ∀ x, (f x).began_waiting_for_flush_ = x.began_waiting_for_flush_) (u t : Nat) :
    began_of (l.modify f u) t = began_of l t := by
  unfold began_of
  rw [get?_modify_map]
  split
  · cases l.get? t <;> simp [hf]
  · rfl

theorem began_of_notify (txn : Nat) (c : page_cache_t) (u t : Nat) :
    began_of (flush_notify_subseqer txn c u).txns t = began_of c.txns t := by
  rw [flush_notify_subseqer_txns]
  exact began_of_modify_frame _
    (fun x : page_txn_t => { x with preceders_ := x.preceders_.erase txn }) (fun _ => rfl) u t

theorem flush_notify_subseqer_spawned_mono (txn : Nat) (c : page_cache_t) (u v : Nat)
    (h : v ∈ c.spawned_) : v ∈ (flush_notify_subseqer txn c u).spawned_ := by
  unfold flush_notify_subseqer
  simp only
  split
  · exact h
  · split
    · unfold im_waiting_for_flush
      split
      · exact h
      · split
        · exact List.mem_append_left _ h
        · exact h
    · exact h

theorem flush_notify_subseqer_spawns (txn : Nat) (c : page_cache_t) (u : Nat)
    (hb : began_of c.txns u = true)
    (hp : (preceders_of c.txns u).erase txn = []) :
    u ∈ (flush_notify_subseqer txn c u).spawned_ := by
  have hpre : preceders_of (remove_preceder c u txn).txns u = [] := by
    have := preceders_of_notify txn c u u
    rw [flush_notify_subseqer_txns, if_pos rfl, hp] at this
    exact this
  have hbeg : began_of (remove_preceder c u txn).txns u = true := by
    have := began_of_notify txn c u u
    rw [flush_notify_subseqer_txns, hb] at this
    exact this
  unfold flush_notify_subseqer
  simp only
  cases hget : (remove_preceder c u txn).txns.get? u with
  | none =>
    unfold began_of at hbeg
    rw [hget] at hbeg
    cases hbeg
  | some ux =>
    simp only
    have hb2 : ux.began_waiting_for_flush_ = true := by
      unfold began_of at hbeg
      rw [hget] at hbeg
      exact hbeg
    have hp2 : ux.preceders_ = [] := by
      rw [← preceders_of_get _ _ _ hget]; exact hpre
    rw [if_pos hb2]
    unfold im_waiting_for_flush
    rw [hget]
    simp [hp2]

theorem foldl_notify_edges (txn : Nat) (us : List Nat) (hnd : us.Nodup) (c : page_cache_t) :
    (∀ t, preceders_of (us.foldl (flush_notify_subseqer txn) c).txns t =
      if t ∈ us then (preceders_of c.txns t).erase txn else preceders_of c.txns t) ∧
    (∀ t, subseqers_of (us.foldl (flush_notify_subseqer txn) c).txns t =
      subseqers_of c.txns t) ∧
    (∀ t, began_of (us.foldl (flush_notify_subseqer txn) c).txns t = began_of c.txns t) ∧
    (∀ v, v ∈ c.spawned_ → v ∈ (us.foldl (flush_notify_subseqer txn) c).spawned_) ∧
    (∀ u ∈ us, began_of c.txns u = true →
      (preceders_of c.txns u).erase txn = [] →
      u ∈ (us.foldl (flush_notify_subseqer txn) c).spawned_) := by
  induction us generalizing c with
  | nil =>
    refine ⟨fun t => by simp, fun t => rfl, fun t => rfl, fun v hv => hv, ?_⟩
    intro u hu; cases hu
  | cons u rest ih =>
    have hu : u ∉ rest := (List.nodup_cons.1 hnd).1
    obtain ⟨i1, i2, i3, i4, i5⟩ := ih (List.nodup_cons.1 hnd).2 (flush_notify_subseqer txn c u)
    simp only [List.foldl_cons]
    refine ⟨?_, ?_, ?_, ?_, ?_⟩
    · intro t
      rw [i1, preceders_of_notify]
      by_cases htu : t = u
      · subst htu
        simp [hu]
      · by_cases htr : t ∈ rest
        · simp [htu, htr]
        · simp [htu, htr]
    · intro t; rw [i2, subseqers_of_notify]
    · intro t; rw [i3, began_of_notify]
    · intro v hv
      exact i4 v (flush_notify_subseqer_spawned_mono txn c u v hv)
    · intro v hv hb hp
      rcases List.mem_cons.1 hv with rfl | hvr
      · exact i4 v (flush_notify_subseqer_spawns txn c v hb hp)
      · apply i5 v hvr
        · rw [began_of_notify]; exact hb
        · rw [preceders_of_notify]
          have : v ≠ u := fun h => hu (h ▸ hvr)
          rw [if_neg this]; exact hp

theorem do_flush_txn_finish_effect (c : page_cache_t) (txn : Nat) (tx : page_txn_t)
    (htx : c.txns.get? txn = some tx) (hnd : tx.subseqers_.Nodup) :
    (∀ t, preceders_of (do_flush_txn_finish c txn).txns t =
      if t ∈ tx.subseqers_ then (preceders_of c.txns t).erase txn
      else preceders_of c.txns t) ∧
    (∀ t, subseqers_of (do_flush_txn_finish c txn).txns t =
      if t = txn then [] else subseqers_of c.txns t) ∧
    (∀ u ∈ tx.subseqers_, began_of c.txns u = true →
      (preceders_of c.txns u).erase txn = [] → u ∈ (do_flush_txn_finish c txn).spawned_) ∧
    (∀ b ∈ tx.pages_modified_last_, get_last_modifier (do_flush_txn_finish c txn) b = none) ∧
    (∃ tx1, (do_flush_txn_finish c txn).txns.get? txn = some tx1 ∧
      tx1.pages_modified_last_ = [] ∧ tx1.flush_complete_cond_ = true) := by
  have hlt : txn < c.txns.length := by
    rw [List.get?_eq_getElem?] at htx
    exact (List.getElem?_eq_some_iff.1 htx).1
  obtain ⟨e1, e2, e3, _, e5⟩ := foldl_notify_edges txn tx.subseqers_ hnd
    { c with txns := c.txns.modify (fun x => { x with subseqers_ := [] }) txn }
  obtain ⟨f1, f2, _⟩ := foldl_last_modifier_frame tx.pages_modified_last_
    (tx.subseqers_.foldl (flush_notify_subseqer txn)
      { c with txns := c.txns.modify (fun x => { x with subseqers_ := [] }) txn })
  have hpre1 : ∀ t, preceders_of
      (c.txns.modify (fun x : page_txn_t => { x with subseqers_ := [] }) txn) t =
      preceders_of c.txns t :=
    fun t => preceders_of_modify_frame _
      (fun x : page_txn_t => { x with subseqers_ := [] }) (fun _ => rfl) txn t
  have hbeg1 : ∀ t, began_of
      (c.txns.modify (fun x : page_txn_t => { x with subseqers_ := [] }) txn) t =
      began_of c.txns t :=
    fun t => began_of_modify_frame _
      (fun x : page_txn_t => { x with subseqers_ := [] }) (fun _ => rfl) txn t
  unfold do_flush_txn_finish
  rw [htx]
  simp only
  refine ⟨?_, ?_, ?_, ?_, ?_⟩
  · intro t
    rw [preceders_of_modify_frame _
      (fun x : page_txn_t => { x with pages_modified_last_ := [], flush_complete_cond_ := true })
      (fun _ => rfl), f1, e1, hpre1]
  · intro t
    rw [subseqers_of_modify_frame _
      (fun x : page_txn_t => { x with pages_modified_last_ := [], flush_complete_cond_ := true })
      (fun _ => rfl), f1, e2]
    show subseqers_of (c.txns.modify _ txn) t = _
    rw [subseqers_of_modify _ (fun x : page_txn_t => { x with subseqers_ := [] })
      (fun _ => []) (fun _ => rfl)]
    by_cases ht : t = txn
    · subst ht
      rw [if_pos ⟨rfl, hlt⟩, if_pos rfl]
    · rw [if_neg (fun h => ht h.1), if_neg ht]
  · intro u hu hb hp
    change u ∈ (List.foldl (fun c b => set_last_modifier c b none) _
      tx.pages_modified_last_).spawned_
    rw [f2]
    apply e5 u hu
    · show began_of (c.txns.modify _ txn) u = true
      rw [hbeg1]; exact hb
    · show (preceders_of (c.txns.modify _ txn) u).erase txn = []
      rw [hpre1]; exact hp
  · intro b hb
    change get_last_modifier (List.foldl (fun c b => set_last_modifier c b none) _
      tx.pages_modified_last_) b = none
    rw [foldl_clear_last_modifier, if_pos hb]
  · have hlen : txn < (List.foldl (fun c b => set_last_modifier c b none)
        (tx.subseqers_.foldl (flush_notify_subseqer txn)
          { c with txns := c.txns.modify (fun x => { x with subseqers_ := [] }) txn })
        tx.pages_modified_last_).txns.length := by
      have hl2 : ∀ (us : List Nat) (d : page_cache_t),
          (us.foldl (flush_notify_subseqer txn) d).txns.length = d.txns.length := by
        intro us
        induction us with
        | nil => intro d; rfl
        | cons u rest ih =>
          intro d
          simp only [List.foldl_cons]
          rw [ih, flush_notify_subseqer_txns]
          show (List.modify _ u d.txns).length = _
          rw [List.length_modify]
      rw [f1, hl2]
      show (List.modify _ txn c.txns).length > txn
      rw [List.length_modify]
      exact hlt
    rw [List.get?_eq_getElem?, List.getElem?_modify_eq, List.getElem?_eq_getElem hlen]
    exact ⟨_, rfl, rfl, rfl⟩

theorem graph_frame (l l1 : List page_txn_t)
    (hp : ∀ t, preceders_of l1 t = preceders_of l t)
    (hs : ∀ t, subseqers_of l1 t = subseqers_of l t)
    (h : edge_sym l ∧ edges_nodup l) : edge_sym l1 ∧ edges_nodup l1 := by
  constructor
  · intro t p
    rw [hp, hs]
    exact h.1 t p
  · intro t
    rw [hp, hs]
    exact h.2 t

theorem graph_modify_frame (l : List page_txn_t) (f : page_txn_t → page_txn_t) (u : Nat)
    (hfp : ∀ x, (f x).preceders_ = x.preceders_)
    (hfs : ∀ x, (f x).subseqers_ = x.subseqers_)
    (h : edge_sym l ∧ edges_nodup l) :
    edge_sym (l.modify f u) ∧ edges_nodup (l.modify f u) :=
  graph_frame l _ (fun t => preceders_of_modify_frame l f hfp u t)
    (fun t => subseqers_of_modify_frame l f hfs u t) h

theorem graph_connect (c : page_cache_t) (t p : Nat)
    (h : edge_sym c.txns ∧ edges_nodup c.txns) :
    edge_sym (connect_preceder c t p).txns ∧ edges_nodup (connect_preceder c t p).txns :=
  connect_preceder_graph c t p h.1 h.2

theorem graph_remove_acquirer (c : page_cache_t) (t acq : Nat) (r : Bool)
    (a : alt_access_t) (d : Bool) (b : Nat) (sp : Option Nat)
    (h : edge_sym c.txns ∧ edges_nodup c.txns) :
    edge_sym (page_txn_t.remove_acquirer c t acq r a d b sp).txns ∧
      edges_nodup (page_txn_t.remove_acquirer c t acq r a d b sp).txns := by
  have h1 := graph_modify_frame c.txns
    (fun x : page_txn_t => { x with live_acqs_ := x.live_acqs_.erase acq }) t
    (fun _ => rfl) (fun _ => rfl) h
  unfold page_txn_t.remove_acquirer
  simp only
  split
  · split
    · refine graph_modify_frame _ _ t ?_ ?_ ?_
      · intro x; rfl
      · intro x; rfl
      have h3 := graph_modify_frame _
        (fun x : page_txn_t => { x with pages_modified_last_ := x.pages_modified_last_ ++ [b] }) t
        (fun _ => rfl) (fun _ => rfl) h1
      split
      · exact h3
      · rename_i p hp
        apply graph_connect
        exact graph_modify_frame _
          (fun x : page_txn_t =>
            { x with pages_modified_last_ := x.pages_modified_last_.erase b }) p
          (fun _ => rfl) (fun _ => rfl) h3
    · exact graph_modify_frame _
        (fun x : page_txn_t =>
          { x with touched_pages_ := x.touched_pages_ ++ [(b, repli_timestamp_t.invalid)] }) t
        (fun _ => rfl) (fun _ => rfl) h1
  · exact h1

theorem graph_flush_finish (c : page_cache_t) (txn : Nat)
    (h : edge_sym c.txns ∧ edges_nodup c.txns) :
    edge_sym (do_flush_txn_finish c txn).txns ∧ edges_nodup (do_flush_txn_finish c txn).txns := by
  cases htx : c.txns.get? txn with
  | none =>
    have hsame : do_flush_txn_finish c txn = c := by
      unfold do_flush_txn_finish
      rw [htx]
    rw [hsame]; exact h
  | some tx =>
    have hsub : subseqers_of c.txns txn = tx.subseqers_ := subseqers_of_get _ _ _ htx
    have hnd : tx.subseqers_.Nodup := hsub ▸ (h.2 txn).2
    obtain ⟨e1, e2, _, _, _⟩ := do_flush_txn_finish_effect c txn tx htx hnd
    constructor
    · intro t p
      rw [e1, e2]
      by_cases hp : p = txn
      · subst hp
        rw [if_pos rfl]
        simp only [List.not_mem_nil, iff_false]
        by_cases ht : t ∈ tx.subseqers_
        · rw [if_pos ht]
          intro hmem
          exact absurd hmem (List.Nodup.not_mem_erase (h.2 t).1)
        · rw [if_neg ht]
          intro hmem
          exact ht (hsub ▸ (h.1 t p).1 hmem)
      · rw [if_neg hp]
        by_cases ht : t ∈ tx.subseqers_
        · rw [if_pos ht, List.mem_erase_of_ne hp]
          exact h.1 t p
        · rw [if_neg ht]
          exact h.1 t p
    · intro t
      rw [e1, e2]
      constructor
      · split
        · exact List.Nodup.erase _ (h.2 t).1
        · exact (h.2 t).1
      · split
        · exact List.nodup_nil
        · exact (h.2 t).2

theorem graph_apply (c : page_cache_t) (op : TxnOp)
    (h : edge_sym c.txns ∧ edges_nodup c.txns) :
    edge_sym (op.apply c).txns ∧ edges_nodup (op.apply c).txns := by
  cases op with
  | new_txn p =>
    show edge_sym (new_page_txn_t c p).txns ∧ edges_nodup (new_page_txn_t c p).txns
    have h1 : edge_sym (c.txns ++ [page_txn_t.fresh]) ∧
        edges_nodup (c.txns ++ [page_txn_t.fresh]) :=
      graph_frame c.txns _ (preceders_of_append_fresh c.txns)
        (subseqers_of_append_fresh c.txns) h
    unfold new_page_txn_t
    cases p with
    | none => exact h1
    | some q => exact graph_connect _ _ q h1
  | add_acquirer t acq =>
    exact graph_modify_frame c.txns
      (fun x : page_txn_t => { x with live_acqs_ := x.live_acqs_ ++ [acq] }) t
      (fun _ => rfl) (fun _ => rfl) h
  | remove_acquirer t acq r a d b sp => exact graph_remove_acquirer c t acq r a d b sp h
  | destroy_txn t =>
    show edge_sym (announce_waiting_for_flush_if_we_should c t).txns ∧
      edges_nodup (announce_waiting_for_flush_if_we_should c t).txns
    unfold announce_waiting_for_flush_if_we_should
    split
    · exact h
    · split
      · rw [im_waiting_for_flush_txns]
        exact graph_modify_frame c.txns
          (fun x : page_txn_t => { x with began_waiting_for_flush_ := true }) t
          (fun _ => rfl) (fun _ => rfl) h
      · exact h
  | flush_start t => exact h
  | flush_finish t => exact graph_flush_finish c t h

theorem reachable_graph (ok : page_cache_t → TxnOp → Bool) (c : page_cache_t)
    (h : TxnReachableBy ok c) : edge_sym c.txns ∧ edges_nodup c.txns := by
  induction h with
  | init =>
    constructor
    · intro t p
      cases t <;> cases p <;> simp [preceders_of, subseqers_of, page_cache_t.init]
    · intro t
      cases t <;> simp [preceders_of, subseqers_of, page_cache_t.init]
  | step c op _ _ _ ih => exact graph_apply c op ih

/-! ## Cycles of preceders -/

theorem preceder_edge_iff (c : page_cache_t) (t p : Nat) :
    preceder_edge c t p ↔ p ∈ preceders_of c.txns t := by
  unfold preceder_edge preceders_of
  cases c.txns.get? t <;> simp

theorem preceders_kept_connect (c : page_cache_t) (t p x q : Nat)
    (h : q ∈ preceders_of c.txns x) : q ∈ preceders_of (connect_preceder c t p).txns x := by
  rcases connect_preceder_cases c t p with hsame | ⟨_, hpre, _⟩
  · rw [hsame]
    exact h
  · rw [hpre]
    split
    · rename_i hx
      subst hx
      exact List.mem_append_left _ h
    · exact h

theorem preceders_kept_modify (l : List page_txn_t) (f : page_txn_t → page_txn_t) (u : Nat)
    (hf : ∀ y, (f y).preceders_ = y.preceders_) (x q : Nat)
    (h : q ∈ preceders_of l x) : q ∈ preceders_of (l.modify f u) x := by
  rw [preceders_of_modify_frame l f hf]
  exact h

theorem preceders_kept_remove_acquirer (c : page_cache_t) (t acq : Nat) (r : Bool)
    (a : alt_access_t) (d : Bool) (b : Nat) (sp : Option Nat) (x q : Nat)
    (h : q ∈ preceders_of c.txns x) :
    q ∈ preceders_of (page_txn_t.remove_acquirer c t acq r a d b sp).txns x := by
  have h1 : q ∈ preceders_of
      (c.txns.modify (fun x => { x with live_acqs_ := x.live_acqs_.erase acq }) t) x := by
    refine preceders_kept_modify _ _ _ ?_ x q h
    intro y
    rfl
  unfold page_txn_t.remove_acquirer
  simp only
  split
  · split
    · refine preceders_kept_modify _ _ _ ?_ x q ?_
      · intro y
        rfl
      have h3 : q ∈ preceders_of
          ((c.txns.modify (fun x => { x with live_acqs_ := x.live_acqs_.erase acq }) t).modify
            (fun x => { x with pages_modified_last_ := x.pages_modified_last_ ++ [b] }) t) x := by
        refine preceders_kept_modify _ _ _ ?_ x q h1
        intro y
        rfl
      split
      · exact h3
      · rename_i p hp
        apply preceders_kept_connect
        refine preceders_kept_modify _ _ _ ?_ x q h3
        intro y
        rfl
    · refine preceders_kept_modify _ _ _ ?_ x q h1
      intro y
      rfl
  · exact h1

theorem preceders_kept_apply (c : page_cache_t) (op : TxnOp)
    (hg : edge_sym c.txns ∧ edges_nodup c.txns) (x q : Nat)
    (h : q ∈ preceders_of c.txns x) (hne : op ≠ TxnOp.flush_finish q) :
    q ∈ preceders_of (op.apply c).txns x := by
  cases op with
  | new_txn p =>
    show q ∈ preceders_of (new_page_txn_t c p).txns x
    have h1 : q ∈ preceders_of (c.txns ++ [page_txn_t.fresh]) x := by
      rw [preceders_of_append_fresh]
      exact h
    unfold new_page_txn_t
    cases p with
    | none => exact h1
    | some u => exact preceders_kept_connect _ _ u x q h1
  | add_acquirer t acq =>
    refine preceders_kept_modify _ _ _ ?_ x q h
    intro y
    rfl
  | remove_acquirer t acq r a d b sp =>
    exact preceders_kept_remove_acquirer c t acq r a d b sp x q h
  | destroy_txn t =>
    show q ∈ preceders_of (announce_waiting_for_flush_if_we_should c t).txns x
    unfold announce_waiting_for_flush_if_we_should
    split
    · exact h
    · split
      · rw [im_waiting_for_flush_txns]
        refine preceders_kept_modify _ _ _ ?_ x q h
        intro y
        rfl
      · exact h
  | flush_start t => exact h
  | flush_finish t =>
    have hqt : q ≠ t := fun he => hne (he ▸ rfl)
    show q ∈ preceders_of (do_flush_txn_finish c t).txns x
    cases htx : c.txns.get? t with
    | none =>
      have hsame : do_flush_txn_finish c t = c := by
        unfold do_flush_txn_finish
        rw [htx]
      rw [hsame]
      exact h
    | some tx =>
      have hsub : subseqers_of c.txns t = tx.subseqers_ := subseqers_of_get _ _ _ htx
      have hnd : tx.subseqers_.Nodup := hsub ▸ (hg.2 t).2
      obtain ⟨e1, _⟩ := do_flush_txn_finish_effect c t tx htx hnd
      rw [e1]
      split
      · exact (List.mem_erase_of_ne hqt).2 h
      · exact h

theorem started_no_preceders (c : page_cache_t) (hinv : flush_inv c) (t : Nat)
    (hs : flush_started c t) : preceders_of c.txns t = [] := by
  obtain ⟨hlt, hok⟩ := hinv
  have hmem : t ∈ c.spawned_ ++ c.flushing_ → preceders_of c.txns t = [] := by
    intro hm
    have hl := hlt t hm
    have hget : c.txns.get? t = some (c.txns.get ⟨t, hl⟩) := List.get?_eq_get hl
    rw [preceders_of_get _ _ _ hget]
    exact ((hok t _ hget).2.2.1 hm).2
  rcases hs with hs | hs | ⟨px, hpx, hc⟩
  · exact hmem (List.mem_append_left _ hs)
  · exact hmem (List.mem_append_right _ hs)
  · rw [preceders_of_get _ _ _ hpx]
    exact ((hok t px hpx).2.1 hc).2

theorem closed_set_persists (S : Nat → Prop) (ops : List TxnOp) :
    ∀ c, TxnReachable c → (∀ x, S x → ∃ p, S p ∧ preceder_edge c x p) →
      ∀ c1, txn_run c ops = some c1 →
        ∀ x p, S x → S p → preceder_edge c x p → preceder_edge c1 x p := by
  induction ops with
  | nil =>
    intro c _ _ c1 hrun x p _ _ he
    simp only [txn_run, txn_run_by, Option.some.injEq] at hrun
    subst hrun
    exact he
  | cons op ops ih =>
    intro c hc hS c1 hrun x p hx hp he
    simp only [txn_run, txn_run_by] at hrun
    split at hrun
    · rename_i hen
      simp only [Bool.and_true] at hen
      have hstep : ∀ y q, S y → S q → preceder_edge c y q →
          preceder_edge (op.apply c) y q := by
        intro y q _ hq hyq
        rw [preceder_edge_iff] at hyq ⊢
        apply preceders_kept_apply c op (reachable_graph _ c hc) y q hyq
        intro hop
        subst hop
        have hfl : q ∈ c.flushing_ := by simpa [TxnOp.enabled] using hen
        have hnone := started_no_preceders c (reachable_flush_inv _ c hc) q (Or.inr (Or.inl hfl))
        obtain ⟨r, _, hr⟩ := hS q hq
        rw [preceder_edge_iff, hnone] at hr
        cases hr
      have hc1 : TxnReachable (op.apply c) := TxnReachableBy.step c op hc hen rfl
      have hS1 : ∀ y, S y → ∃ q, S q ∧ preceder_edge (op.apply c) y q := by
        intro y hy
        obtain ⟨q, hq, hyq⟩ := hS y hy
        exact ⟨q, hq, hstep y q hy hq hyq⟩
      exact ih (op.apply c) hc1 hS1 c1 hrun x p hx hp (hstep x p hx hp he)
    · cases hrun

theorem cycle_member_has_preceder (c : page_cache_t) (t x : Nat)
    (h1 : Relation.TransGen (preceder_edge c) t x)
    (h2 : Relation.TransGen (preceder_edge c) x t) :
    ∃ p, (Relation.TransGen (preceder_edge c) t p ∧ Relation.TransGen (preceder_edge c) p t) ∧
      preceder_edge c x p := by
  rcases Relation.TransGen.head'_iff.1 h2 with ⟨p, hxp, hpt⟩
  refine ⟨p, ⟨Relation.TransGen.tail h1 hxp, ?_⟩, hxp⟩
  rcases Relation.reflTransGen_iff_eq_or_transGen.1 hpt with heq | htr
  · subst heq
    exact Relation.TransGen.tail h1 hxp
  · exact htr

/-- C9: the preceder relation of a reachable state can have a cycle (see the
witness), and a cycle is never resolved. If, in a reachable state, transaction
`t` reaches itself through preceder edges, then after every further sequence of
events the cycle is still there, and no transaction on the cycle has its flush
coroutine spawned, running or completed: the transactions on a cycle are never
flushed. -/
theorem preceder_cycle_never_flushes (c : page_cache_t) (h : TxnReachable c) (t : Nat)
    (hcyc : Relation.TransGen (preceder_edge c) t t)
    (ops : List TxnOp) (c1 : page_cache_t) (hrun : txn_run c ops = some c1) :
    Relation.TransGen (preceder_edge c1) t t ∧ ¬ preceders_acyclic c1 ∧
    ∀ u, Relation.TransGen (preceder_edge c) t u → Relation.TransGen (preceder_edge c) u t →
      ¬ flush_started c1 u := by
  have hS : ∀ x, (Relation.TransGen (preceder_edge c) t x ∧
      Relation.TransGen (preceder_edge c) x t) →
      ∃ p, (Relation.TransGen (preceder_edge c) t p ∧
        Relation.TransGen (preceder_edge c) p t) ∧ preceder_edge c x p :=
    fun x hx => cycle_member_has_preceder c t x hx.1 hx.2
  have hkeep := closed_set_persists
    (fun x => Relation.TransGen (preceder_edge c) t x ∧ Relation.TransGen (preceder_edge c) x t)
    ops c h hS c1 hrun
  have hlift : ∀ y, Relation.TransGen (preceder_edge c) t y →
      Relation.TransGen (preceder_edge c) y t → Relation.TransGen (preceder_edge c1) t y := by
    intro y hty
    induction hty with
    | single hedge =>
      intro hyt
      exact Relation.TransGen.single
        (hkeep _ _ ⟨hcyc, hcyc⟩ ⟨Relation.TransGen.single hedge, hyt⟩ hedge)
    | tail htb hedge ih =>
      intro hyt
      have hbt := Relation.TransGen.head hedge hyt
      exact Relation.TransGen.tail (ih hbt)
        (hkeep _ _ ⟨htb, hbt⟩ ⟨Relation.TransGen.tail htb hedge, hyt⟩ hedge)
  have hc1 := hlift t hcyc hcyc
  refine ⟨hc1, fun hac => hac t hc1, ?_⟩
  intro u htu hut hst
  obtain ⟨p, hp, hup⟩ := hS u ⟨htu, hut⟩
  have hup1 := hkeep u p ⟨htu, hut⟩ hp hup
  have hnone := started_no_preceders c1
    (reachable_flush_inv _ c1 (txn_reachable_run c ops h c1 hrun)) u hst
  rw [preceder_edge_iff, hnone] at hup1
  cases hup1

/-- Two transactions each dirty a block that the other one dirtied last
(`trace_cross_dirty`), and both are destroyed. Every event is enabled and no
assertion of the source fails. Each transaction is the only preceder of the
other; both have announced that they wait for the flush, no flush coroutine is
spawned or running, and none ever will be. -/
theorem preceder_cycle_never_flushes_witness :
    (txn_run page_cache_t.init
      (trace_cross_dirty ++ [TxnOp.destroy_txn 0, TxnOp.destroy_txn 1])).isSome = true ∧
    txn_run_asserts_hold page_cache_t.init
      (trace_cross_dirty ++ [TxnOp.destroy_txn 0, TxnOp.destroy_txn 1]) = true ∧
    (txn_run_from page_cache_t.init
      (trace_cross_dirty ++ [TxnOp.destroy_txn 0, TxnOp.destroy_txn 1])).txns.map
        (fun x => (x.preceders_, x.began_waiting_for_flush_, x.flush_complete_cond_)) =
      [([1], true, false), ([0], true, false)] ∧
    (txn_run_from page_cache_t.init
      (trace_cross_dirty ++ [TxnOp.destroy_txn 0, TxnOp.destroy_txn 1])).spawned_ = [] ∧
    (txn_run_from page_cache_t.init
      (trace_cross_dirty ++ [TxnOp.destroy_txn 0, TxnOp.destroy_txn 1])).flushing_ = [] ∧
    ¬ preceders_acyclic (txn_run_from page_cache_t.init
      (trace_cross_dirty ++ [TxnOp.destroy_txn 0, TxnOp.destroy_txn 1])) ∧
    ¬ flush_started (txn_run_from page_cache_t.init
      (trace_cross_dirty ++ [TxnOp.destroy_txn 0, TxnOp.destroy_txn 1])) 0 ∧
    ¬ flush_started (txn_run_from page_cache_t.init
      (trace_cross_dirty ++ [TxnOp.destroy_txn 0, TxnOp.destroy_txn 1])) 1 := by
  have e01 : preceder_edge (txn_run_from page_cache_t.init trace_cross_dirty) 0 1 :=
    (preceder_edge_iff _ 0 1).2 (by decide)
  have e10 : preceder_edge (txn_run_from page_cache_t.init trace_cross_dirty) 1 0 :=
    (preceder_edge_iff _ 1 0).2 (by decide)
  have hcyc := Relation.TransGen.tail (Relation.TransGen.single e01) e10
  obtain ⟨_, h2, h3⟩ := preceder_cycle_never_flushes
    (txn_run_from page_cache_t.init trace_cross_dirty)
    (txn_reachable_run _ trace_cross_dirty TxnReachableBy.init _ rfl) 0 hcyc
    [TxnOp.destroy_txn 0, TxnOp.destroy_txn 1]
    (txn_run_from page_cache_t.init
      (trace_cross_dirty ++ [TxnOp.destroy_txn 0, TxnOp.destroy_txn 1])) (by decide)
  exact ⟨by decide, by decide, by decide, by decide, by decide, h2, h3 0 hcyc hcyc,
    h3 1 (Relation.TransGen.single e01) (Relation.TransGen.single e10)⟩

/-! ## Claims about the preceder and subseqer lists -/

/-- C14 (preceder/successor symmetry): in every state reachable from the empty
cache by the events of the flush graph (among them every call of
`connect_preceder` and the subseqer-detaching step at the end of
`do_flush_txn`), transaction `P` is in `T.preceders_` if and only if `T` is in
`P.subseqers_`. -/
theorem preceder_subseqer_symmetry (c : page_cache_t) (h : TxnReachable c) (T P : Nat) :
    P ∈ preceders_of c.txns T ↔ T ∈ subseqers_of c.txns P :=
  (reachable_graph _ c h).1 T P

theorem preceder_subseqer_symmetry_witness :
    TxnReachable (txn_run_from page_cache_t.init trace_ordered_dirty) ∧
      0 ∈ preceders_of (txn_run_from page_cache_t.init trace_ordered_dirty).txns 1 ∧
      (0 ∈ preceders_of (txn_run_from page_cache_t.init trace_ordered_dirty).txns 1 ↔
        1 ∈ subseqers_of (txn_run_from page_cache_t.init trace_ordered_dirty).txns 0) :=
  ⟨txn_reachable_run _ trace_ordered_dirty TxnReachableBy.init _ rfl, by decide,
   preceder_subseqer_symmetry _
     (txn_reachable_run _ trace_ordered_dirty TxnReachableBy.init _ rfl) 1 0⟩

/-- C15 (deduplicated edges): `connect_preceder` changes nothing when the
`flush_complete_cond_` of the preceder is pulsed; calling it twice with the same
preceder gives the same state as calling it once; and in every reachable state
no `preceders_` and no `subseqers_` list contains a transaction twice. -/
theorem connect_preceder_idempotent (c : page_cache_t) (t p : Nat) :
    (flush_complete c p → connect_preceder c t p = c) ∧
      connect_preceder (connect_preceder c t p) t p = connect_preceder c t p ∧
      (TxnReachable c → edges_nodup c.txns) := by
  refine ⟨?_, ?_, fun h => (reachable_graph _ c h).2⟩
  · rintro ⟨px, hpx, hc⟩
    unfold connect_preceder
    rw [hpx]
    cases c.txns.get? t with
    | none => rfl
    | some tx => simp [hc]
  · rcases connect_preceder_cases c t p with hsame | ⟨_, hpre, _⟩
    · rw [hsame, hsame]
    · rcases connect_preceder_cases (connect_preceder c t p) t p with hsame2 | ⟨hnot, _, _⟩
      · exact hsame2
      · exfalso
        apply hnot
        rw [hpre, if_pos rfl]
        exact List.mem_append_right _ (List.mem_singleton_self p)

theorem connect_preceder_idempotent_witness :
    (flush_complete (txn_run_from page_cache_t.init trace_causal_chain) 0 ∧
      connect_preceder (txn_run_from page_cache_t.init trace_causal_chain) 1 0 =
        txn_run_from page_cache_t.init trace_causal_chain) ∧
      (TxnReachable (txn_run_from page_cache_t.init trace_ordered_dirty) ∧
        connect_preceder (txn_run_from page_cache_t.init trace_ordered_dirty) 0 1 ≠
          txn_run_from page_cache_t.init trace_ordered_dirty ∧
        edges_nodup (txn_run_from page_cache_t.init trace_ordered_dirty).txns) :=
  ⟨⟨⟨_, rfl, rfl⟩,
    (connect_preceder_idempotent (txn_run_from page_cache_t.init trace_causal_chain) 1 0).1
      ⟨_, rfl, rfl⟩⟩,
   txn_reachable_run _ trace_ordered_dirty TxnReachableBy.init _ rfl, by decide,
   (connect_preceder_idempotent (txn_run_from page_cache_t.init trace_ordered_dirty) 0 0).2.2
     (txn_reachable_run _ trace_ordered_dirty TxnReachableBy.init _ rfl)⟩

/-- C13 (flush completion): let `do_flush_txn(T)` run its part after
`index_write` in a reachable state. Afterwards `T.subseqers_` is empty; `T` has
been erased from the preceders of every former subseqer, is no longer in them,
and their other preceders are the same; the preceders of all other transactions
are unchanged; every former subseqer that had set `began_waiting_for_flush_` and
has no preceders left is in the list of spawned flushes; the `last_modifier_` of
every block of `T.pages_modified_last_` is `NULL`; that list is empty and
`flush_complete_cond_` is pulsed. -/
theorem flush_completion (c : page_cache_t) (h : TxnReachable c) (T : Nat) (tx : page_txn_t)
    (hT : c.txns.get? T = some tx) :
    subseqers_of (do_flush_txn_finish c T).txns T = [] ∧
      (∀ u ∈ tx.subseqers_,
        preceders_of (do_flush_txn_finish c T).txns u = (preceders_of c.txns u).erase T ∧
        T ∉ preceders_of (do_flush_txn_finish c T).txns u ∧
        ∀ q, q ≠ T →
          (q ∈ preceders_of (do_flush_txn_finish c T).txns u ↔ q ∈ preceders_of c.txns u)) ∧
      (∀ u, u ∉ tx.subseqers_ →
        preceders_of (do_flush_txn_finish c T).txns u = preceders_of c.txns u) ∧
      (∀ u ∈ tx.subseqers_, began_of c.txns u = true →
        preceders_of (do_flush_txn_finish c T).txns u = [] →
        u ∈ (do_flush_txn_finish c T).spawned_) ∧
      (∀ b ∈ tx.pages_modified_last_, get_last_modifier (do_flush_txn_finish c T) b = none) ∧
      ∃ tx1, (do_flush_txn_finish c T).txns.get? T = some tx1 ∧
        tx1.pages_modified_last_ = [] ∧ tx1.flush_complete_cond_ = true := by
  have hg := reachable_graph _ c h
  have hsub : subseqers_of c.txns T = tx.subseqers_ := subseqers_of_get _ _ _ hT
  have hnd : tx.subseqers_.Nodup := hsub ▸ (hg.2 T).2
  obtain ⟨e1, e2, e3, e4, e5⟩ := do_flush_txn_finish_effect c T tx hT hnd
  refine ⟨?_, ?_, ?_, ?_, e4, e5⟩
  · rw [e2, if_pos rfl]
  · intro u hu
    have hpre : preceders_of (do_flush_txn_finish c T).txns u =
        (preceders_of c.txns u).erase T := by rw [e1, if_pos hu]
    refine ⟨hpre, ?_, ?_⟩
    · rw [hpre]
      exact List.Nodup.not_mem_erase (hg.2 u).1
    · intro q hq
      rw [hpre, List.mem_erase_of_ne hq]
  · intro u hu
    rw [e1, if_neg hu]
  · intro u hu hb hp
    apply e3 u hu hb
    rw [e1, if_pos hu] at hp
    exact hp

theorem flush_completion_witness :
    TxnReachable (txn_run_from page_cache_t.init trace_flush_running) ∧
      (∃ tx, (txn_run_from page_cache_t.init trace_flush_running).txns.get? 0 = some tx ∧
        1 ∈ tx.subseqers_) ∧
      0 ∈ preceders_of (txn_run_from page_cache_t.init trace_flush_running).txns 1 ∧
      1 ∈ (do_flush_txn_finish
        (txn_run_from page_cache_t.init trace_flush_running) 0).spawned_ :=
  ⟨txn_reachable_run _ trace_flush_running TxnReachableBy.init _ rfl,
   ⟨_, rfl, by decide⟩, by decide,
   (flush_completion _ (txn_reachable_run _ trace_flush_running TxnReachableBy.init _ rfl)
     0 _ rfl).2.2.2.1 1 (by decide) (by decide) (by decide)⟩

/-! ## Resurrection of a deleted block -/

theorem modify_append_zero (l : List Nat) :
    (l ++ [0]).modify (fun n => n + 1) l.length = l ++ [1] := by
  induction l with
  | nil => rfl
  | cons a l ih =>
    show List.modify _ (l.length + 1) (a :: (l ++ [0])) = _
    rw [List.modify_succ_cons, ih]
    rfl

theorem init_fresh_page_eq (s : current_page_t) :
    init_fresh_page s =
      { s with
        page_ := some s.snapshot_refcount_.length,
        is_deleted_ := false,
        snapshot_refcount_ := s.snapshot_refcount_ ++ [1],
        page_ctors_ := s.page_ctors_ ++ [page_ctor_t.with_block_size_and_buf] } := by
  simp only [init_fresh_page, new_page_t, add_snapshotter]
  rw [modify_append_zero]

theorem detach_snapshotter_deleted (s : current_page_t) (cur : current_page_acq_t)
    (hdel : s.is_deleted_ = true) :
    detach_snapshotter s cur =
      { s with
        detached_ := s.detached_ ++ [{ cur with snapshotted_page_ := none }],
        free_ids_ := s.free_ids_ ++ [s.block_id] } := by
  simp [detach_snapshotter, the_page_for_read_or_deleted, hdel, page_ptr_init,
    release_block_id]

theorem convert_is_deleted (s : current_page_t) :
    (convert_from_serializer_if_necessary s).is_deleted_ = s.is_deleted_ := by
  unfold convert_from_serializer_if_necessary
  split
  · rfl
  · rfl

theorem detach_snapshotter_is_deleted (s : current_page_t) (cur : current_page_acq_t) :
    (detach_snapshotter s cur).is_deleted_ = s.is_deleted_ := by
  by_cases hdel : s.is_deleted_ = true
  · rw [detach_snapshotter_deleted s cur hdel]
  · have hf : s.is_deleted_ = false := by simpa using hdel
    have hc := convert_is_deleted s
    simp only [detach_snapshotter, the_page_for_read_or_deleted, hf, the_page_for_read,
      Bool.false_eq_true, if_false]
    cases hp : (convert_from_serializer_if_necessary s).page_ with
    | none => simp [page_ptr_init, hc, hf]
    | some q => simp [page_ptr_init, add_snapshotter, hc, hf]

theorem pulse_loop_readers_is_deleted (l : List current_page_acq_t)
    (hl : ∀ a ∈ l, a.access_ = alt_access_t.read)
    (s : current_page_t) (before : List current_page_acq_t) :
    (pulse_loop s before l).is_deleted_ = s.is_deleted_ := by
  induction l generalizing s before with
  | nil => rfl
  | cons a rest ih =>
    have ha : a.access_ = alt_access_t.read := hl a (List.mem_cons_self _ _)
    have hrest : ∀ b ∈ rest, b.access_ = alt_access_t.read :=
      fun b hb => hl b (List.mem_cons_of_mem _ hb)
    simp only [pulse_loop, ha]
    split
    · rw [ih hrest, detach_snapshotter_is_deleted]
    · rw [ih hrest]

/-- C20 (deleted-block resurrection): let the current page be marked deleted.
When the loop of `pulse_pulsables` reaches a write acquirer `w` that has no
acquirer in front of it, and when `pulse_pulsables` is called for a write
acquirer at the head of the queue, the result is the state `resurrected`: a new
page created by `page_t(block_size, buf, page_cache)` is installed in `page_`,
`is_deleted_` is cleared, and the read and write signals of `w` are pulsed.
A snapshotted read acquirer `cur` that is detached gets an empty
`snapshotted_page_`, the block id is released, and nothing else changes:
`is_deleted_` stays set and no page is created; and a call of `pulse_pulsables`
that meets read acquirers only leaves `is_deleted_` set. The page that the
constructor `page_t(block_size, buf, page_cache)` creates has the given size and
buffer and no block token. -/
theorem deleted_block_resurrection (s : current_page_t) (hdel : s.is_deleted_ = true) :
    (∀ w rest, w.access_ = alt_access_t.write →
      pulse_loop s [] (w :: rest) = resurrected s w rest ∧
      (s.acquirers_ = w :: rest → pulse_pulsables s 0 = resurrected s w rest)) ∧
    (∀ (h : page_heap_t) (block_size buf : Nat),
      page_at (new_page_with_buf h block_size buf).evicter.pages h.evicter.pages.length =
        { page_t.unloaded with ser_buf_size_ := block_size, buf_ := some buf }) ∧
    (∀ cur,
      detach_snapshotter s cur =
        { s with
          detached_ := s.detached_ ++ [{ cur with snapshotted_page_ := none }],
          free_ids_ := s.free_ids_ ++ [s.block_id] } ∧
      (detach_snapshotter s cur).is_deleted_ = true ∧
      (detach_snapshotter s cur).page_ = s.page_ ∧
      (detach_snapshotter s cur).snapshot_refcount_ = s.snapshot_refcount_) ∧
    (∀ i, (∀ a ∈ s.acquirers_.drop i, a.access_ = alt_access_t.read) →
      (pulse_pulsables s i).is_deleted_ = true) := by
  refine ⟨?_, ?_, ?_, ?_⟩
  · intro w rest hw
    have h1 : pulse_loop s [] (w :: rest) = resurrected s w rest := by
      simp only [pulse_loop, hw, List.isEmpty_nil, if_true, hdel]
      rw [init_fresh_page_eq]
      simp [resurrected, hw]
    refine ⟨h1, ?_⟩
    intro hq
    unfold pulse_pulsables
    rw [hq]
    simp only [List.drop_zero, List.take_zero, prev_allows_pulse, List.getLast?_nil,
      Bool.not_true, Bool.false_eq_true, if_false, hw]
    simpa using h1
  · intro h block_size buf
    show page_at (h.evicter.pages ++ [_]) h.evicter.pages.length = _
    unfold page_at
    rw [List.getD_append_right _ _ _ _ (Nat.le_refl _)]
    simp
  · intro cur
    rw [detach_snapshotter_deleted s cur hdel]
    exact ⟨rfl, hdel, rfl, rfl⟩
  · intro i hi
    unfold pulse_pulsables
    split
    · exact hdel
    · rename_i acq rest hdrop
      split
      · exact hdel
      · split
        · exact hdel
        · rw [pulse_loop_readers_is_deleted _ (by rw [← hdrop]; exact hi)]
          exact hdel

theorem deleted_block_resurrection_witness :
    Reachable (run_from (current_page_t.init 7) trace_delete_then_writer.dropLast) ∧
      (run_from (current_page_t.init 7) trace_delete_then_writer.dropLast).is_deleted_ = true ∧
      (run_from (current_page_t.init 7) trace_delete_then_writer.dropLast).detached_.map
        (fun a => a.snapshotted_page_) = [none] ∧
      pulse_loop (run_from (current_page_t.init 7) trace_delete_then_writer.dropLast) []
          [current_page_acq_t.fresh alt_access_t.write] =
        resurrected (run_from (current_page_t.init 7) trace_delete_then_writer.dropLast)
          (current_page_acq_t.fresh alt_access_t.write) [] ∧
      run_from (current_page_t.init 7) trace_delete_then_writer =
        resurrected (run_from (current_page_t.init 7) trace_delete_then_writer.dropLast)
          (current_page_acq_t.fresh alt_access_t.write) [] :=
  ⟨reachable_run _ trace_delete_then_writer.dropLast (Reachable.init 7) _ rfl, by decide,
   by decide,
   ((deleted_block_resurrection
      (run_from (current_page_t.init 7) trace_delete_then_writer.dropLast) (by decide)).1
      (current_page_acq_t.fresh alt_access_t.write) [] rfl).1,
   by decide⟩

/-! ## Page operations and the eviction bags -/

theorem bag_set_bag (e : evicter_t) (n : bag_name) (b : eviction_bag_t) (m : bag_name) :
    (e.set_bag n b).bag m = if m = n then b else e.bag m := by
  cases n <;> cases m <;> simp [evicter_t.set_bag, evicter_t.bag]

theorem pages_set_bag (e : evicter_t) (n : bag_name) (b : eviction_bag_t) :
    (e.set_bag n b).pages = e.pages := by
  cases n <;> rfl

theorem bag_count_set_bag (e : evicter_t) (n : bag_name) (b : eviction_bag_t) (m : bag_name)
    (q : Nat) :
    bag_count (e.set_bag n b) m q = if m = n then b.bag_.count q else bag_count e m q := by
  unfold bag_count
  rw [bag_set_bag]
  split <;> rfl

theorem count_bag_remove (b : eviction_bag_t) (p sz q : Nat) :
    (b.remove p sz).bag_.count q = if q = p then b.bag_.count q - 1 else b.bag_.count q := by
  show (b.bag_.erase p).count q = _
  by_cases hq : q = p
  · subst hq
    rw [if_pos rfl, List.count_erase_self]
  · rw [if_neg hq, List.count_erase_of_ne hq]

theorem count_bag_add (b : eviction_bag_t) (p sz q : Nat) :
    (b.add p sz).bag_.count q = b.bag_.count q + if q = p then 1 else 0 := by
  show (b.bag_ ++ [p]).count q = _
  rw [List.count_append, List.count_singleton']
  by_cases hq : q = p
  · subst hq; simp
  · rw [if_neg hq, if_neg (fun h => hq h.symm)]

theorem change_eviction_bag_pages (e : evicter_t) (cur : bag_name) (p : Nat) :
    (e.change_eviction_bag cur p).pages = e.pages := by
  unfold evicter_t.change_eviction_bag
  simp only [pages_set_bag]

theorem change_eviction_bag_count (e : evicter_t) (cur : bag_name) (p : Nat) (n : bag_name)
    (q : Nat) :
    bag_count (e.change_eviction_bag cur p) n q =
      if q = p then
        (if n = cur then bag_count e n p - 1 else bag_count e n p) +
          (if n = correct_eviction_category (page_at e.pages p) then 1 else 0)
      else bag_count e n q := by
  unfold evicter_t.change_eviction_bag
  simp only [pages_set_bag]
  rw [bag_count_set_bag, count_bag_add]
  have h1 : ∀ m, ((e.set_bag cur ((e.bag cur).remove p (ser_buf_size_of e.pages p))).bag m).bag_.count q
      = if q = p then (if m = cur then bag_count e m p - 1 else bag_count e m p)
        else bag_count e m q := by
    intro m
    rw [bag_set_bag]
    by_cases hm : m = cur
    · subst hm
      rw [if_pos rfl, count_bag_remove]
      by_cases hq : q = p
      · subst hq; rw [if_pos rfl, if_pos rfl, if_pos rfl]; rfl
      · rw [if_neg hq, if_neg hq]; rfl
    · rw [if_neg hm]
      by_cases hq : q = p
      · subst hq; rw [if_pos rfl, if_neg hm]; rfl
      · rw [if_neg hq]; rfl
  have h2 : ∀ m, bag_count (e.set_bag cur ((e.bag cur).remove p (ser_buf_size_of e.pages p))) m q
      = if q = p then (if m = cur then bag_count e m p - 1 else bag_count e m p)
        else bag_count e m q := h1
  by_cases hn : n = correct_eviction_category (page_at e.pages p)
  · subst hn
    rw [if_pos rfl, h1]
    by_cases hq : q = p
    · subst hq; simp
    · simp [hq]
  · rw [if_neg hn, h2]
    by_cases hq : q = p
    · subst hq; simp [hn]
    · simp [hq]

theorem move_unevictable_eq_change (e : evicter_t) (p : Nat) :
    e.move_unevictable_to_evictable p = e.change_eviction_bag bag_name.unevictable p := rfl

theorem page_at_modify (l : List page_t) (f : page_t → page_t) (p q : Nat) :
    page_at (l.modify f p) q = if q = p ∧ p < l.length then f (page_at l p) else page_at l q := by
  unfold page_at
  rw [List.getD_eq_getElem?_getD, List.getD_eq_getElem?_getD, List.getD_eq_getElem?_getD,
    List.getElem?_modify]
  by_cases hq : q = p
  · subst hq
    by_cases hlt : q < l.length
    · rw [if_pos ⟨rfl, hlt⟩, List.getElem?_eq_getElem hlt]
      simp
    · rw [if_neg (fun h => hlt h.2), List.getElem?_eq_none (Nat.le_of_not_lt hlt)]
      rfl
  · rw [if_neg (fun h => hq h.1)]
    cases l[q]? with
    | none => rfl
    | some x =>
      have hpq : ¬ p = q := fun h => hq h.symm
      simp [hpq]

theorem page_at_append_left (l : List page_t) (pg : page_t) (q : Nat) (hq : q < l.length) :
    page_at (l ++ [pg]) q = page_at l q := by
  unfold page_at
  exact List.getD_append _ _ _ _ hq

theorem page_at_append_length (l : List page_t) (pg : page_t) :
    page_at (l ++ [pg]) l.length = pg := by
  unfold page_at
  rw [List.getD_append_right _ _ _ _ (Nat.le_refl _)]
  simp

theorem modify_append_length (l : List page_t) (f : page_t → page_t) (x : page_t) :
    (l ++ [x]).modify f l.length = l ++ [f x] := by
  induction l with
  | nil => rfl
  | cons a l ih => simp [List.modify_succ_cons, ih]

theorem bag_with_pages (e : evicter_t) (ps : List page_t) (n : bag_name) :
    ({ e with pages := ps } : evicter_t).bag n = e.bag n := by
  cases n <;> rfl

theorem bag_count_with_pages (e : evicter_t) (ps : List page_t) (n : bag_name) (q : Nat) :
    bag_count ({ e with pages := ps } : evicter_t) n q = bag_count e n q := by
  unfold bag_count
  rw [bag_with_pages]

theorem live_lt (h : page_heap_t) (p : Nat) (hl : h.live p = true) :
    p < h.evicter.pages.length := by
  simp only [page_heap_t.live, Bool.and_eq_true, decide_eq_true_eq] at hl
  exact hl.1

theorem live_congr (h h1 : page_heap_t)
    (hlen : h1.evicter.pages.length = h.evicter.pages.length)
    (hdel : h1.deleted_ = h.deleted_) (q : Nat) : h1.live q = h.live q := by
  unfold page_heap_t.live
  rw [hlen, hdel]

theorem bag_inv_update (h h1 : page_heap_t) (p : Nat) (f : page_t → page_t)
    (hinv : bag_inv h)
    (hpages : h1.evicter.pages = h.evicter.pages.modify f p)
    (hdel : h1.deleted_ = h.deleted_)
    (hcount : ∀ n q, bag_count h1.evicter n q =
      if q = p ∧ h.live p = true then
        (if n = correct_eviction_category (f (page_at h.evicter.pages p)) then 1 else 0)
      else bag_count h.evicter n q) :
    bag_inv h1 := by
  intro q n
  have hlive : h1.live q = h.live q :=
    live_congr h h1 (by rw [hpages, List.length_modify]) hdel q
  rw [hcount, hlive, hpages, page_at_modify]
  by_cases hq : q = p
  · subst hq
    by_cases hl : h.live q = true
    · have hlt := live_lt h q hl
      simp [hl, hlt]
    · have hz := hinv q n
      simp only [hl, false_and, if_false] at hz
      simp [hl, hz]
  · have hz := hinv q n
    simp [hq, hz]

theorem bag_inv_change (h h1 : page_heap_t) (e0 : evicter_t) (p : Nat) (f : page_t → page_t)
    (cur : bag_name) (hinv : bag_inv h) (hl : h.live p = true)
    (he0p : e0.pages = h.evicter.pages.modify f p)
    (he0c : ∀ n q, bag_count e0 n q = bag_count h.evicter n q)
    (hcur : cur = correct_eviction_category (page_at h.evicter.pages p))
    (hev : h1.evicter = e0.change_eviction_bag cur p)
    (hdel : h1.deleted_ = h.deleted_) :
    bag_inv h1 := by
  have hlt := live_lt h p hl
  refine bag_inv_update h h1 p f hinv (by rw [hev, change_eviction_bag_pages, he0p]) hdel ?_
  intro n q
  rw [hev, change_eviction_bag_count]
  simp only [he0c, he0p]
  by_cases hq : q = p
  · subst hq
    have hz := hinv q n
    rw [page_at_modify, hz]
    by_cases hn : n = correct_eviction_category (page_at h.evicter.pages q)
    · simp [hn, hl, hlt, hcur]
    · simp [hn, hl, hlt, hcur]
  · simp [hq]

theorem bag_inv_same_category (h h1 : page_heap_t) (p : Nat) (f : page_t → page_t)
    (hinv : bag_inv h)
    (hpages : h1.evicter.pages = h.evicter.pages.modify f p)
    (hdel : h1.deleted_ = h.deleted_)
    (hbags : ∀ n q, bag_count h1.evicter n q = bag_count h.evicter n q)
    (hcat : correct_eviction_category (f (page_at h.evicter.pages p)) =
      correct_eviction_category (page_at h.evicter.pages p)) :
    bag_inv h1 := by
  refine bag_inv_update h h1 p f hinv hpages hdel ?_
  intro n q
  rw [hbags]
  by_cases hq : q = p ∧ h.live p = true
  · rw [if_pos hq, hinv, hcat]
    obtain ⟨rfl, hl⟩ := hq
    simp [hl]
  · rw [if_neg hq]

theorem bag_inv_new_page (h h1 : page_heap_t) (pg : page_t)
    (hinv : bag_inv h) (hnd : h.evicter.pages.length ∉ h.deleted_)
    (hpages : h1.evicter.pages = h.evicter.pages ++ [pg])
    (hdel : h1.deleted_ = h.deleted_)
    (hcount : ∀ n q, bag_count h1.evicter n q =
      bag_count h.evicter n q +
        if q = h.evicter.pages.length ∧ n = correct_eviction_category pg then 1 else 0) :
    bag_inv h1 := by
  intro q n
  rw [hcount, hinv q n]
  unfold page_heap_t.live
  rw [hpages, hdel, List.length_append, List.length_singleton]
  by_cases hq : q = h.evicter.pages.length
  · subst hq
    rw [page_at_append_length]
    simp [hnd]
  · by_cases hlt : q < h.evicter.pages.length
    · rw [page_at_append_left _ _ _ hlt]
      have h1 : q < h.evicter.pages.length + 1 := by omega
      simp [hq, hlt, h1]
    · have h1 : ¬ q < h.evicter.pages.length + 1 := by omega
      simp [hq, hlt, h1]

theorem bag_inv_destroy (h : page_heap_t) (p : Nat) (hinv : bag_inv h)
    (hl : h.live p = true) : bag_inv (page_t_destroy h p) := by
  intro q n
  unfold page_t_destroy evicter_t.remove_page
  simp only [pages_set_bag]
  rw [bag_count_set_bag]
  have hlive : ∀ q, ({ h with
      evicter := h.evicter.set_bag (correct_eviction_category (page_at h.evicter.pages p))
        ((h.evicter.bag (correct_eviction_category (page_at h.evicter.pages p))).remove p
          (ser_buf_size_of h.evicter.pages p)),
      deleted_ := h.deleted_ ++ [p] } : page_heap_t).live q =
      (h.live q && !decide (q = p)) := by
    intro q
    simp only [page_heap_t.live, pages_set_bag, List.mem_append, List.mem_singleton]
    by_cases h1 : q < h.evicter.pages.length <;> by_cases h2 : q ∈ h.deleted_ <;>
      by_cases h3 : q = p <;> simp [h1, h2, h3]
  rw [hlive]
  by_cases hn : n = correct_eviction_category (page_at h.evicter.pages p)
  · rw [if_pos hn, count_bag_remove]
    have hc := hinv q n
    unfold bag_count at hc
    rw [← hn, hc]
    by_cases hq : q = p
    · subst hq; simp [hl, hn]
    · simp [hq]
  · rw [if_neg hn, hinv q n]
    by_cases hq : q = p
    · subst hq; simp [hn]
    · simp [hq]

theorem category_of_waiters (pg : page_t) (hw : pg.waiters_ ≠ []) :
    correct_eviction_category pg = bag_name.unevictable := by
  unfold correct_eviction_category
  cases hws : pg.waiters_ with
  | nil => exact absurd hws hw
  | cons a l => simp

theorem category_of_destroy_ptr (pg : page_t) (hd : pg.destroy_ptr_ = true) :
    correct_eviction_category pg = bag_name.unevictable := by
  unfold correct_eviction_category
  simp [hd]

theorem lookup_mem (l : List (Nat × page_loader_t)) (p : Nat) (x : page_loader_t)
    (h : l.lookup p = some x) : (p, x) ∈ l := by
  induction l with
  | nil => cases h
  | cons a l ih =>
    obtain ⟨k, v⟩ := a
    rw [List.lookup_cons] at h
    by_cases hk : p = k
    · subst hk
      simp only [beq_self_eq_true] at h
      cases h
      exact List.mem_cons_self _ _
    · have hb : (p == k) = false := by simpa using hk
      simp only [hb] at h
      exact List.mem_cons_of_mem _ (ih h)

theorem lookup_none_of_not_mem (l : List (Nat × page_loader_t)) (p : Nat)
    (h : ∀ x ∈ l, x.1 ≠ p) : l.lookup p = none := by
  cases hl : l.lookup p with
  | none => rfl
  | some x => exact absurd rfl (h _ (lookup_mem l p x hl))

theorem lookup_filter_ne (l : List (Nat × page_loader_t)) (page p : Nat) :
    (l.filter (fun x => !decide (x.1 = page))).lookup p =
      if p = page then none else l.lookup p := by
  induction l with
  | nil => simp
  | cons a l ih =>
    obtain ⟨k, v⟩ := a
    by_cases hk : k = page
    · subst hk
      rw [List.filter_cons_of_neg (by simp), ih, List.lookup_cons]
      by_cases hp : p = k
      · rw [if_pos hp, if_pos hp]
      · have hb : (p == k) = false := by simpa using hp
        rw [if_neg hp, if_neg hp]
        simp only [hb]
    · rw [List.filter_cons_of_pos (by simpa using hk), List.lookup_cons, List.lookup_cons, ih]
      by_cases hp : p = k
      · subst hp
        simp [hk]
      · have hb : (p == k) = false := by simpa using hp
        simp only [hb]

theorem loader_inv_of (h h1 : page_heap_t) (hinv : loader_inv h)
    (hlen : h1.evicter.pages.length = h.evicter.pages.length)
    (hdel : ∀ p, p ∈ h1.deleted_ → p ∈ h.deleted_ ∨ p < h.evicter.pages.length)
    (hdel2 : ∀ p, p ∈ h.deleted_ → p ∈ h1.deleted_)
    (hmem : ∀ l ∈ h1.loaders_, l ∈ h.loaders_)
    (hload : ∀ p l, h1.loaders_.lookup p = some l → h1.live p = true →
      h.loaders_.lookup p = some l ∧
        ((page_at h.evicter.pages p).destroy_ptr_ = true →
          (page_at h1.evicter.pages p).destroy_ptr_ = true)) :
    loader_inv h1 := by
  obtain ⟨i1, i2, i3⟩ := hinv
  refine ⟨?_, ?_, ?_⟩
  · intro p hp
    rw [hlen]
    rcases hdel p hp with hd | hd
    · exact i1 p hd
    · exact hd
  · intro l hl
    rw [hlen]
    exact i2 l (hmem l hl)
  · intro p l hl hlive
    obtain ⟨h2, h3⟩ := hload p l hl hlive
    apply h3
    apply i3 p l h2
    simp only [page_heap_t.live, Bool.and_eq_true, decide_eq_true_eq, Bool.not_eq_true',
      decide_eq_false_iff_not] at hlive ⊢
    exact ⟨hlen ▸ hlive.1, fun hd => hlive.2 (hdel2 p hd)⟩

theorem loader_inv_modify (h h1 : page_heap_t) (q : Nat) (f : page_t → page_t)
    (hinv : loader_inv h)
    (hpages : h1.evicter.pages = h.evicter.pages.modify f q)
    (hdel : h1.deleted_ = h.deleted_)
    (hmem : ∀ l ∈ h1.loaders_, l ∈ h.loaders_)
    (hlook : ∀ p l, h1.loaders_.lookup p = some l → h.loaders_.lookup p = some l)
    (hf : h1.loaders_.lookup q = none ∨ ∀ x, (f x).destroy_ptr_ = x.destroy_ptr_) :
    loader_inv h1 := by
  refine loader_inv_of h h1 hinv (by rw [hpages, List.length_modify])
    (fun p hp => Or.inl (hdel ▸ hp)) (fun p hp => hdel ▸ hp) hmem ?_
  intro p l hl _
  refine ⟨hlook p l hl, ?_⟩
  intro hd
  rw [hpages, page_at_modify]
  split
  · rename_i hpq
    rcases hf with hf | hf
    · rw [← hpq.1, hl] at hf
      cases hf
    · rw [hf, ← hpq.1]
      exact hd
  · exact hd

theorem bag_inv_congr (h h1 : page_heap_t) (hinv : bag_inv h)
    (hev : h1.evicter = h.evicter) (hdel : h1.deleted_ = h.deleted_) : bag_inv h1 := by
  intro p n
  have hl : h1.live p = h.live p := by
    unfold page_heap_t.live
    rw [hev, hdel]
  rw [hev, hl]
  exact hinv p n

theorem loader_inv_congr (h h1 : page_heap_t) (hinv : loader_inv h)
    (hev : h1.evicter = h.evicter) (hdel : h1.deleted_ = h.deleted_)
    (hlo : h1.loaders_ = h.loaders_) : loader_inv h1 := by
  obtain ⟨i1, i2, i3⟩ := hinv
  have hl : ∀ p, h1.live p = h.live p := by
    intro p
    unfold page_heap_t.live
    rw [hev, hdel]
  refine ⟨?_, ?_, ?_⟩
  · rw [hev, hdel]; exact i1
  · rw [hev, hlo]; exact i2
  · intro p l
    rw [hev, hlo, hl]
    exact i3 p l

theorem add_waiter_fields (h : page_heap_t) (page acq : Nat) :
    (add_waiter h page acq).evicter =
        ({ h.evicter with
            pages := h.evicter.pages.modify
              (fun pg => { pg with waiters_ := pg.waiters_ ++ [acq] }) page } :
          evicter_t).change_eviction_bag
          (correct_eviction_category (page_at h.evicter.pages page)) page ∧
      (add_waiter h page acq).deleted_ = h.deleted_ ∧
      (add_waiter h page acq).loaders_ = h.loaders_ := by
  unfold add_waiter
  simp only [page_heap_t.modify_page]
  split <;> exact ⟨rfl, rfl, rfl⟩

theorem inv_add_waiter (h : page_heap_t) (page acq : Nat)
    (hinv : bag_inv h ∧ loader_inv h) (hl : h.live page = true) :
    bag_inv (add_waiter h page acq) ∧ loader_inv (add_waiter h page acq) := by
  obtain ⟨hev, hdel, hlo⟩ := add_waiter_fields h page acq
  constructor
  · exact bag_inv_change h _ _ page
      (fun pg : page_t => { pg with waiters_ := pg.waiters_ ++ [acq] }) _ hinv.1 hl rfl
      (fun n q => bag_count_with_pages _ _ n q) rfl hev hdel
  · refine loader_inv_modify h _ page
      (fun pg : page_t => { pg with waiters_ := pg.waiters_ ++ [acq] }) hinv.2
      (by rw [hev, change_eviction_bag_pages]) hdel (by rw [hlo]; exact fun l hl => hl)
      (by rw [hlo]; exact fun p l hl => hl) (Or.inr (fun _ => rfl))

theorem inv_remove_waiter (h : page_heap_t) (page acq : Nat)
    (hinv : bag_inv h ∧ loader_inv h) (hl : h.live page = true) :
    bag_inv (page_acq_t_destroy h page acq) ∧ loader_inv (page_acq_t_destroy h page acq) := by
  constructor
  · exact bag_inv_change h _ _ page
      (fun pg : page_t => { pg with waiters_ := pg.waiters_.erase acq }) _ hinv.1 hl rfl
      (fun n q => bag_count_with_pages _ _ n q) rfl rfl rfl
  · exact loader_inv_modify h _ page
      (fun pg : page_t => { pg with waiters_ := pg.waiters_.erase acq }) hinv.2
      (by
        show (evicter_t.change_eviction_bag _ _ page).pages = _
        rw [change_eviction_bag_pages]
        rfl)
      rfl (fun l hl => hl) (fun p l hl => hl) (Or.inr (fun _ => rfl))

theorem inv_get_buf_write (h : page_heap_t) (page acq : Nat)
    (hinv : bag_inv h ∧ loader_inv h)
    (hw : acq ∈ (page_at h.evicter.pages page).waiters_) :
    bag_inv (get_buf_write h page).2 ∧ loader_inv (get_buf_write h page).2 := by
  have hne : (page_at h.evicter.pages page).waiters_ ≠ [] := by
    intro h0
    rw [h0] at hw
    cases hw
  constructor
  · refine bag_inv_same_category h _ page
      (fun pg : page_t => { pg with block_token_ := none }) hinv.1 rfl rfl
      (fun n q => bag_count_with_pages _ _ n q) ?_
    rw [category_of_waiters _ hne]
    exact category_of_waiters _ hne
  · exact loader_inv_modify h _ page
      (fun pg : page_t => { pg with block_token_ := none }) hinv.2 rfl rfl
      (fun l hl => hl) (fun p l hl => hl) (Or.inr (fun _ => rfl))

theorem bag_count_add_now_loaded_size (e : evicter_t) (sz : Nat) (n : bag_name) (q : Nat) :
    bag_count (e.add_now_loaded_size sz) n q = bag_count e n q := by
  cases n <;> rfl

theorem inv_pulse_waiters (h : page_heap_t) (page : Nat) (g : page_t → page_t)
    (hinv : bag_inv h ∧ loader_inv h) (hl : h.live page = true)
    (hd : (page_at h.evicter.pages page).destroy_ptr_ = true)
    (hg : h.loaders_.lookup page = none ∨ ∀ x, (g x).destroy_ptr_ = x.destroy_ptr_) :
    bag_inv (pulse_waiters_or_make_evictable (h.modify_page page g) page) ∧
      loader_inv (pulse_waiters_or_make_evictable (h.modify_page page g) page) := by
  have hlt := live_lt h page hl
  have hcat := category_of_destroy_ptr _ hd
  have hfun : pulse_waiters_or_make_evictable (h.modify_page page g) page =
      if (page_at (h.evicter.pages.modify g page) page).waiters_.isEmpty = true then
        { h.modify_page page g with
          evicter := (evicter_t.add_now_loaded_size
            ({ h.evicter with pages := h.evicter.pages.modify g page } : evicter_t)
            (ser_buf_size_of (h.evicter.pages.modify g page) page)).move_unevictable_to_evictable
              page }
      else
        { h.modify_page page g with
          evicter := evicter_t.add_now_loaded_size
            ({ h.evicter with pages := h.evicter.pages.modify g page } : evicter_t)
            (ser_buf_size_of (h.evicter.pages.modify g page) page),
          pulsed_ := h.pulsed_ ++ (page_at (h.evicter.pages.modify g page) page).waiters_ } := rfl
  rw [hfun]
  split
  · constructor
    · exact bag_inv_change h _
        (evicter_t.add_now_loaded_size
          ({ h.evicter with pages := h.evicter.pages.modify g page } : evicter_t)
          (ser_buf_size_of (h.evicter.pages.modify g page) page))
        page g bag_name.unevictable hinv.1 hl rfl
        (fun n q => by rw [bag_count_add_now_loaded_size, bag_count_with_pages])
        hcat.symm rfl rfl
    · exact loader_inv_modify h _ page g hinv.2
        (by
          show (evicter_t.move_unevictable_to_evictable _ page).pages = _
          rw [move_unevictable_eq_change, change_eviction_bag_pages]
          rfl)
        rfl (fun l hl => hl) (fun p l hl => hl) hg
  · rename_i hw
    constructor
    · refine bag_inv_same_category h _ page g hinv.1 rfl rfl
        (fun n q => by
          show bag_count (evicter_t.add_now_loaded_size _ _) n q = _
          rw [bag_count_add_now_loaded_size]
          exact bag_count_with_pages _ _ n q) ?_
      rw [hcat]
      apply category_of_waiters
      intro h0
      apply hw
      have hpa : page_at (h.evicter.pages.modify g page) page = g (page_at h.evicter.pages page) := by
        rw [page_at_modify, if_pos ⟨rfl, hlt⟩]
      show (page_at (h.evicter.pages.modify g page) page).waiters_.isEmpty = true
      rw [hpa, h0]
      rfl
    · exact loader_inv_modify h _ page g hinv.2 rfl rfl (fun l hl => hl)
        (fun p l hl => hl) hg

theorem new_page_not_yet_loaded_fields (h : page_heap_t) :
    (new_page_not_yet_loaded h).evicter.pages =
        h.evicter.pages ++ [{ page_t.unloaded with destroy_ptr_ := true }] ∧
      (new_page_not_yet_loaded h).deleted_ = h.deleted_ ∧
      (new_page_not_yet_loaded h).loaders_ = h.loaders_ ∧
      (new_page_not_yet_loaded h).pulsed_ = h.pulsed_ ∧
      ∀ n q, bag_count (new_page_not_yet_loaded h).evicter n q =
        bag_count h.evicter n q +
          if q = h.evicter.pages.length ∧ n = bag_name.unevictable then 1 else 0 := by
  refine ⟨?_, rfl, rfl, rfl, ?_⟩
  · show List.modify _ h.evicter.pages.length (h.evicter.pages ++ [page_t.unloaded]) = _
    rw [modify_append_length]
  · intro n q
    cases n
    · show (h.evicter.unevictable_.bag_ ++ [h.evicter.pages.length]).count q = _
      rw [List.count_append, List.count_singleton']
      by_cases hq : q = h.evicter.pages.length
      · subst hq; simp [bag_count, evicter_t.bag]
      · have hq2 : ¬ h.evicter.pages.length = q := fun hh => hq hh.symm
        simp [bag_count, evicter_t.bag, hq, hq2]
    · simp [bag_count, evicter_t.bag, new_page_not_yet_loaded, evicter_t.add_not_yet_loaded]
    · simp [bag_count, evicter_t.bag, new_page_not_yet_loaded, evicter_t.add_not_yet_loaded]
    · simp [bag_count, evicter_t.bag, new_page_not_yet_loaded, evicter_t.add_not_yet_loaded]

theorem length_not_deleted (h : page_heap_t) (hinv : loader_inv h) :
    h.evicter.pages.length ∉ h.deleted_ :=
  fun hd => Nat.lt_irrefl _ (hinv.1 _ hd)

theorem lookup_length_none (h : page_heap_t) (hinv : loader_inv h) :
    h.loaders_.lookup h.evicter.pages.length = none :=
  lookup_none_of_not_mem _ _ (fun x hx hh => Nat.lt_irrefl _ (hh ▸ hinv.2.1 x hx))

theorem loader_inv_new_page (h h1 : page_heap_t) (pg : page_t) (hinv : loader_inv h)
    (hpages : h1.evicter.pages = h.evicter.pages ++ [pg])
    (hdel : h1.deleted_ = h.deleted_) (hlo : h1.loaders_ = h.loaders_) :
    loader_inv h1 := by
  obtain ⟨i1, i2, i3⟩ := hinv
  have hlen : h1.evicter.pages.length = h.evicter.pages.length + 1 := by
    rw [hpages, List.length_append, List.length_singleton]
  refine ⟨?_, ?_, ?_⟩
  · intro p hp
    rw [hlen]
    exact Nat.lt_succ_of_lt (i1 p (hdel ▸ hp))
  · intro l hl
    rw [hlen]
    exact Nat.lt_succ_of_lt (i2 l (hlo ▸ hl))
  · intro p l hl hlive
    rw [hlo] at hl
    have hlt : p < h.evicter.pages.length := i2 _ (lookup_mem _ _ _ hl)
    rw [hpages, page_at_append_left _ _ _ hlt]
    apply i3 p l hl
    simp only [page_heap_t.live, Bool.and_eq_true, decide_eq_true_eq, Bool.not_eq_true',
      decide_eq_false_iff_not] at hlive ⊢
    exact ⟨hlt, hdel ▸ hlive.2⟩

theorem loader_inv_add_loader (h h1 : page_heap_t) (p : Nat) (x : page_loader_t)
    (hinv : loader_inv h) (hlt : p < h.evicter.pages.length)
    (hd : h.live p = true → (page_at h.evicter.pages p).destroy_ptr_ = true)
    (hev : h1.evicter = h.evicter) (hdel : h1.deleted_ = h.deleted_)
    (hlo : h1.loaders_ = h.loaders_ ++ [(p, x)]) :
    loader_inv h1 := by
  obtain ⟨i1, i2, i3⟩ := hinv
  have hl : ∀ q, h1.live q = h.live q := by
    intro q
    unfold page_heap_t.live
    rw [hev, hdel]
  refine ⟨?_, ?_, ?_⟩
  · rw [hev, hdel]; exact i1
  · intro l hl
    rw [hev]
    rw [hlo] at hl
    rcases List.mem_append.1 hl with hm | hm
    · exact i2 l hm
    · rw [List.mem_singleton.1 hm]
      exact hlt
  · intro q l hq hlive
    rw [hl] at hlive
    rw [hev]
    rw [hlo, List.lookup_append] at hq
    cases hq1 : h.loaders_.lookup q with
    | some l1 => exact i3 q l1 hq1 hlive
    | none =>
      rw [hq1] at hq
      simp only [Option.or, List.lookup_cons] at hq
      by_cases hqp : q = p
      · subst hqp
        exact hd hlive
      · have hb : (q == p) = false := by simpa using hqp
        simp [hb] at hq

theorem inv_new_page_not_yet_loaded (h : page_heap_t) (hinv : bag_inv h ∧ loader_inv h) :
    bag_inv (new_page_not_yet_loaded h) ∧ loader_inv (new_page_not_yet_loaded h) := by
  obtain ⟨hp, hd, hlo, _, hc⟩ := new_page_not_yet_loaded_fields h
  constructor
  · refine bag_inv_new_page h _ _ hinv.1 (length_not_deleted h hinv.2) hp hd ?_
    intro n q
    rw [hc]
    have hcat : correct_eviction_category { page_t.unloaded with destroy_ptr_ := true } =
        bag_name.unevictable := rfl
    rw [hcat]
  · exact loader_inv_new_page h _ _ hinv.2 hp hd hlo

theorem inv_new_page_with_block_id (h : page_heap_t) (block_id : Nat)
    (hinv : bag_inv h ∧ loader_inv h) :
    bag_inv (new_page_with_block_id h block_id) ∧
      loader_inv (new_page_with_block_id h block_id) := by
  obtain ⟨hp, hd, hlo, _, _⟩ := new_page_not_yet_loaded_fields h
  have h0 := inv_new_page_not_yet_loaded h hinv
  constructor
  · exact bag_inv_congr _ _ h0.1 rfl rfl
  · refine loader_inv_add_loader (new_page_not_yet_loaded h) _ h.evicter.pages.length
      (page_loader_t.load_with_block_id block_id) h0.2 ?_ ?_ rfl rfl rfl
    · rw [hp, List.length_append, List.length_singleton]
      exact Nat.lt_succ_self _
    · intro _
      rw [hp, page_at_append_length]

theorem inv_new_page_with_buf (h : page_heap_t) (block_size buf : Nat)
    (hinv : bag_inv h ∧ loader_inv h) :
    bag_inv (new_page_with_buf h block_size buf) ∧
      loader_inv (new_page_with_buf h block_size buf) := by
  constructor
  · refine bag_inv_new_page h _
      { page_t.unloaded with ser_buf_size_ := block_size, buf_ := some buf }
      hinv.1 (length_not_deleted h hinv.2) rfl rfl ?_
    intro n q
    have hcat : correct_eviction_category
        { page_t.unloaded with ser_buf_size_ := block_size, buf_ := some buf } =
        bag_name.evictable_unbacked := rfl
    rw [hcat]
    cases n
    · simp [bag_count, evicter_t.bag, new_page_with_buf, evicter_t.add_to_evictable_unbacked]
    · simp [bag_count, evicter_t.bag, new_page_with_buf, evicter_t.add_to_evictable_unbacked]
    · show (h.evicter.evictable_unbacked_.bag_ ++ [h.evicter.pages.length]).count q = _
      rw [List.count_append, List.count_singleton']
      by_cases hq : q = h.evicter.pages.length
      · subst hq; simp [bag_count, evicter_t.bag]
      · have hq2 : ¬ h.evicter.pages.length = q := fun hh => hq hh.symm
        simp [bag_count, evicter_t.bag, hq, hq2]
    · simp [bag_count, evicter_t.bag, new_page_with_buf, evicter_t.add_to_evictable_unbacked]
  · exact loader_inv_new_page h _ _ hinv.2 rfl rfl rfl

theorem pulse_waiters_live (h : page_heap_t) (page q : Nat) :
    (pulse_waiters_or_make_evictable h page).live q = h.live q := by
  unfold pulse_waiters_or_make_evictable
  simp only
  split
  · refine live_congr h _ ?_ ?_ q
    · show (evicter_t.move_unevictable_to_evictable _ page).pages.length = _
      rw [move_unevictable_eq_change, change_eviction_bag_pages]
      rfl
    · rfl
  · rfl

theorem modify_page_live (h : page_heap_t) (page : Nat) (g : page_t → page_t) (q : Nat) :
    (h.modify_page page g).live q = h.live q :=
  live_congr h (h.modify_page page g) (List.length_modify _ _ _) rfl q

theorem inv_load_with_block_id_finish (h : page_heap_t) (page buf tok sz : Nat)
    (hinv : bag_inv h ∧ loader_inv h) (hlt : page < h.evicter.pages.length)
    (hd : h.live page = true → (page_at h.evicter.pages page).destroy_ptr_ = true) :
    bag_inv (load_with_block_id_finish h page buf tok sz) ∧
      loader_inv (load_with_block_id_finish h page buf tok sz) := by
  unfold load_with_block_id_finish
  split
  · exact hinv
  · rename_i hnd
    have hl : h.live page = true := by
      simp only [decide_eq_true_eq] at hnd
      simp [page_heap_t.live, hlt, hnd]
    exact inv_pulse_waiters h page _ hinv hl (hd hl) (Or.inr (fun _ => rfl))

theorem inv_load_from_copyee_finish (h : page_heap_t) (page copyee acq buf : Nat)
    (hinv : bag_inv h ∧ loader_inv h) (hc : h.live copyee = true)
    (hlt : page < h.evicter.pages.length) (hno : h.loaders_.lookup page = none)
    (hd : h.live page = true → (page_at h.evicter.pages page).destroy_ptr_ = true) :
    bag_inv (load_from_copyee_finish h page copyee acq buf) ∧
      loader_inv (load_from_copyee_finish h page copyee acq buf) := by
  unfold load_from_copyee_finish
  simp only
  split
  · exact inv_remove_waiter h copyee acq hinv hc
  · rename_i hnd
    have hl : h.live page = true := by
      simp only [decide_eq_true_eq] at hnd
      simp [page_heap_t.live, hlt, hnd]
    refine inv_remove_waiter _ copyee acq
      (inv_pulse_waiters h page _ hinv hl (hd hl) (Or.inl hno)) ?_
    rw [pulse_waiters_live, modify_page_live]
    exact hc

theorem loader_inv_filter (h h1 : page_heap_t) (page : Nat) (hinv : loader_inv h)
    (hev : h1.evicter = h.evicter) (hdel : h1.deleted_ = h.deleted_)
    (hlo : h1.loaders_ = h.loaders_.filter (fun l => !decide (l.1 = page))) :
    loader_inv h1 ∧ h1.loaders_.lookup page = none := by
  constructor
  · refine loader_inv_of h h1 hinv (by rw [hev]) (fun p hp => Or.inl (hdel ▸ hp))
      (fun p hp => hdel ▸ hp) ?_ ?_
    · intro l hl
      rw [hlo] at hl
      exact List.mem_of_mem_filter hl
    · intro p l hl _
      rw [hlo, lookup_filter_ne] at hl
      split at hl
      · cases hl
      · exact ⟨hl, fun hd => hev ▸ hd⟩
  · rw [hlo, lookup_filter_ne, if_pos rfl]

theorem live_new_page_not_yet_loaded (h : page_heap_t) (q : Nat) (hq : h.live q = true) :
    (new_page_not_yet_loaded h).live q = true := by
  obtain ⟨hp, hd, _⟩ := new_page_not_yet_loaded_fields h
  simp only [page_heap_t.live, Bool.and_eq_true, decide_eq_true_eq, Bool.not_eq_true',
    decide_eq_false_iff_not] at hq ⊢
  rw [hp, hd, List.length_append, List.length_singleton]
  exact ⟨Nat.lt_succ_of_lt hq.1, hq.2⟩

theorem add_waiter_page_at (h : page_heap_t) (page acq q : Nat) (hq : q ≠ page) :
    page_at (add_waiter h page acq).evicter.pages q = page_at h.evicter.pages q := by
  rw [(add_waiter_fields h page acq).1, change_eviction_bag_pages]
  show page_at (List.modify _ page h.evicter.pages) q = _
  rw [page_at_modify, if_neg (fun hh => hq hh.1)]

theorem add_waiter_live (h : page_heap_t) (page acq q : Nat) :
    (add_waiter h page acq).live q = h.live q := by
  obtain ⟨hev, hdel, _⟩ := add_waiter_fields h page acq
  refine live_congr h _ ?_ hdel q
  rw [hev, change_eviction_bag_pages]
  exact List.length_modify _ _ _

theorem inv_new_page_with_copyee (h : page_heap_t) (copyee acq buf : Nat)
    (hinv : bag_inv h ∧ loader_inv h) (hc : h.live copyee = true) :
    bag_inv (new_page_with_copyee h copyee acq buf) ∧
      loader_inv (new_page_with_copyee h copyee acq buf) := by
  obtain ⟨hp, hd, hlo, _, _⟩ := new_page_not_yet_loaded_fields h
  have h0 := inv_new_page_not_yet_loaded h hinv
  have hc0 := live_new_page_not_yet_loaded h copyee hc
  have h1 := inv_add_waiter _ copyee acq h0 hc0
  obtain ⟨hev1, hdel1, hlo1⟩ := add_waiter_fields (new_page_not_yet_loaded h) copyee acq
  have hne : h.evicter.pages.length ≠ copyee := Nat.ne_of_gt (live_lt h copyee hc)
  have hlen1 : h.evicter.pages.length <
      (add_waiter (new_page_not_yet_loaded h) copyee acq).evicter.pages.length := by
    rw [hev1, change_eviction_bag_pages]
    show _ < (List.modify _ copyee _).length
    rw [List.length_modify, hp, List.length_append, List.length_singleton]
    exact Nat.lt_succ_self _
  have hdp : (page_at (add_waiter (new_page_not_yet_loaded h) copyee acq).evicter.pages
      h.evicter.pages.length).destroy_ptr_ = true := by
    rw [add_waiter_page_at _ _ _ _ hne, hp, page_at_append_length]
  have hno : (add_waiter (new_page_not_yet_loaded h) copyee acq).loaders_.lookup
      h.evicter.pages.length = none := by
    rw [hlo1, hlo]
    exact lookup_length_none h hinv.2
  unfold new_page_with_copyee
  simp only
  split
  · refine inv_load_from_copyee_finish _ _ copyee acq buf h1 ?_ hlen1 hno (fun _ => hdp)
    rw [add_waiter_live]
    exact hc0
  · constructor
    · exact bag_inv_congr _ _ h1.1 rfl rfl
    · exact loader_inv_add_loader _ _ h.evicter.pages.length
        (page_loader_t.load_from_copyee copyee acq) h1.2 hlen1 (fun _ => hdp) rfl rfl rfl

theorem inv_page_t_destroy (h : page_heap_t) (page : Nat)
    (hinv : bag_inv h ∧ loader_inv h) (hl : h.live page = true) :
    bag_inv (page_t_destroy h page) ∧ loader_inv (page_t_destroy h page) := by
  constructor
  · exact bag_inv_destroy h page hinv.1 hl
  · refine loader_inv_of h _ hinv.2 ?_ ?_ ?_ (fun l hl => hl) ?_
    · show (evicter_t.remove_page _ page).pages.length = _
      unfold evicter_t.remove_page
      simp only [pages_set_bag]
    · intro p hp
      rcases List.mem_append.1 hp with hm | hm
      · exact Or.inl hm
      · rw [List.mem_singleton.1 hm]
        exact Or.inr (live_lt h page hl)
    · intro p hp
      exact List.mem_append_left _ hp
    · intro p l hl2 _
      refine ⟨hl2, fun hd => ?_⟩
      show (page_at (evicter_t.remove_page _ page).pages p).destroy_ptr_ = true
      unfold evicter_t.remove_page
      simp only [pages_set_bag]
      exact hd

theorem evict_iteration_eq (oldish : List Nat → Nat → Nat) (e e1 : evicter_t)
    (h : evict_iteration oldish e = some e1) :
    ∃ page, page ∈ e.evictable_disk_backed_.bag_ ∧
      e1 = { e with
        evictable_disk_backed_ :=
          e.evictable_disk_backed_.remove page (ser_buf_size_of e.pages page),
        evicted_ := e.evicted_.add page (ser_buf_size_of e.pages page),
        pages := e.pages.modify page_t.evict_self page } := by
  unfold evict_iteration at h
  split at h
  · split at h
    · cases h
    · rename_i page bag hro
      simp only [Option.some.injEq] at h
      subst h
      have hmem := (remove_oldish_some oldish _ _ _ _ _ hro).1
      unfold eviction_bag_t.remove_oldish at hro
      split at hro
      · cases hro
      · simp only [Option.some.injEq, Prod.mk.injEq] at hro
        obtain ⟨h1, h2⟩ := hro
        subst h1
        subst h2
        exact ⟨_, hmem, rfl⟩
  · cases h

theorem category_evict_self (pg : page_t)
    (h : correct_eviction_category pg = bag_name.evictable_disk_backed) :
    correct_eviction_category (page_t.evict_self pg) = bag_name.evicted := by
  unfold correct_eviction_category at h ⊢
  unfold page_t.evict_self
  split at h
  · cases h
  · rename_i hun
    simp [hun]

theorem inv_evict_iteration (oldish : List Nat → Nat → Nat) (h : page_heap_t) (e1 : evicter_t)
    (hinv : bag_inv h ∧ loader_inv h) (he : evict_iteration oldish h.evicter = some e1) :
    bag_inv { h with evicter := e1 } ∧ loader_inv { h with evicter := e1 } := by
  obtain ⟨page, hmem, heq⟩ := evict_iteration_eq oldish _ _ he
  subst heq
  have hpos : 0 < bag_count h.evicter bag_name.evictable_disk_backed page :=
    List.count_pos_iff.2 hmem
  have hc := hinv.1 page bag_name.evictable_disk_backed
  have hlc : h.live page = true ∧
      bag_name.evictable_disk_backed = correct_eviction_category (page_at h.evicter.pages page) := by
    by_contra hcon
    rw [if_neg hcon] at hc
    omega
  obtain ⟨hl, hcat⟩ := hlc
  have hcat2 := category_evict_self _ hcat.symm
  constructor
  · refine bag_inv_update h _ page page_t.evict_self hinv.1 rfl rfl ?_
    intro n q
    rw [hcat2]
    have hz := hinv.1 q n
    by_cases hq : q = page
    · subst hq
      rw [if_pos ⟨rfl, hl⟩]
      rw [← hcat] at hz
      cases n
      · show bag_count h.evicter bag_name.unevictable q = _
        rw [hz]; simp
      · show (h.evicter.evictable_disk_backed_.remove q _).bag_.count q = _
        rw [count_bag_remove, if_pos rfl]
        have hz2 : h.evicter.evictable_disk_backed_.bag_.count q = 1 := by
          have := hz
          simp only [hl, true_and, if_true] at this
          exact this
        rw [hz2]; simp
      · show bag_count h.evicter bag_name.evictable_unbacked q = _
        rw [hz]; simp
      · show (h.evicter.evicted_.add q _).bag_.count q = _
        rw [count_bag_add, if_pos rfl]
        have hz2 : h.evicter.evicted_.bag_.count q = 0 := by
          have := hz
          simp only [hl, true_and] at this
          exact this
        rw [hz2]; simp
    · rw [if_neg (fun hh => hq hh.1)]
      cases n
      · rfl
      · show (h.evicter.evictable_disk_backed_.remove page _).bag_.count q = _
        rw [count_bag_remove, if_neg hq]; rfl
      · rfl
      · show (h.evicter.evicted_.add page _).bag_.count q = _
        rw [count_bag_add, if_neg hq]; rfl
  · exact loader_inv_modify h _ page page_t.evict_self hinv.2 rfl rfl (fun l hl => hl)
      (fun p l hl => hl) (Or.inr (fun _ => rfl))

theorem inv_evict_loop (oldish : List Nat → Nat → Nat) (fuel : Nat) (h : page_heap_t)
    (e2 : evicter_t) (hinv : bag_inv h ∧ loader_inv h)
    (he : evict_loop oldish fuel h.evicter = some e2) :
    bag_inv { h with evicter := e2 } ∧ loader_inv { h with evicter := e2 } := by
  induction fuel generalizing h with
  | zero =>
    cases hit : evict_iteration oldish h.evicter with
    | none =>
      simp only [evict_loop, hit, Option.some.injEq] at he
      subst he
      exact hinv
    | some e1 => simp [evict_loop, hit] at he
  | succ n ih =>
    cases hit : evict_iteration oldish h.evicter with
    | none =>
      simp only [evict_loop, hit, Option.some.injEq] at he
      subst he
      exact hinv
    | some e1 =>
      simp only [evict_loop, hit] at he
      exact ih { h with evicter := e1 } (inv_evict_iteration oldish h e1 hinv hit) he

theorem inv_page_op (oldish : List Nat → Nat → Nat) (h : page_heap_t) (op : PageOp)
    (hinv : bag_inv h ∧ loader_inv h) (hen : op.enabled h = true) :
    bag_inv (op.apply oldish h) ∧ loader_inv (op.apply oldish h) := by
  cases op with
  | new_page_with_block_id b => exact inv_new_page_with_block_id h b hinv
  | new_page_with_buf bs buf => exact inv_new_page_with_buf h bs buf hinv
  | new_page_with_copyee copyee acq buf =>
    simp only [PageOp.enabled, Bool.and_eq_true] at hen
    exact inv_new_page_with_copyee h copyee acq buf hinv hen.1
  | load_with_block_id_finish page buf tok sz =>
    simp only [PageOp.enabled] at hen
    split at hen
    · rename_i b hlook
      obtain ⟨hf, _⟩ := loader_inv_filter h
        { h with loaders_ := h.loaders_.filter (fun l => !decide (l.1 = page)) } page
        hinv.2 rfl rfl rfl
      have hlt : page < h.evicter.pages.length := hinv.2.2.1 _ (lookup_mem _ _ _ hlook)
      exact inv_load_with_block_id_finish _ page buf tok sz
        ⟨bag_inv_congr h _ hinv.1 rfl rfl, hf⟩ hlt (fun hl => hinv.2.2.2 page _ hlook hl)
    · cases hen
  | load_from_copyee_finish page buf =>
    simp only [PageOp.enabled] at hen
    show bag_inv (match h.loaders_.lookup page with
      | some (page_loader_t.load_from_copyee copyee acq) => _
      | _ => h) ∧ loader_inv (match h.loaders_.lookup page with
      | some (page_loader_t.load_from_copyee copyee acq) => _
      | _ => h)
    split at hen
    · rename_i copyee acq hlook
      simp only [Bool.and_eq_true] at hen
      obtain ⟨hf, hno⟩ := loader_inv_filter h
        { h with loaders_ := h.loaders_.filter (fun l => !decide (l.1 = page)) } page
        hinv.2 rfl rfl rfl
      have hlt : page < h.evicter.pages.length := hinv.2.2.1 _ (lookup_mem _ _ _ hlook)
      exact inv_load_from_copyee_finish _ page copyee acq buf
        ⟨bag_inv_congr h _ hinv.1 rfl rfl, hf⟩ hen.1 hlt hno
        (fun hl => hinv.2.2.2 page _ hlook hl)
    · cases hen
  | add_waiter page acq =>
    simp only [PageOp.enabled, Bool.and_eq_true] at hen
    exact inv_add_waiter h page acq hinv hen.1
  | remove_waiter page acq =>
    simp only [PageOp.enabled, Bool.and_eq_true] at hen
    exact inv_remove_waiter h page acq hinv hen.1.1
  | get_buf_write page acq =>
    simp only [PageOp.enabled, Bool.and_eq_true, decide_eq_true_eq] at hen
    exact inv_get_buf_write h page acq hinv hen.1.1.2
  | destroy page =>
    simp only [PageOp.enabled, Bool.and_eq_true] at hen
    exact inv_page_t_destroy h page hinv hen.1
  | evict_if_necessary =>
    show bag_inv (match h.evicter.evict_if_necessary oldish with
      | some e1 => { h with evicter := e1 }
      | none => h) ∧ loader_inv (match h.evicter.evict_if_necessary oldish with
      | some e1 => { h with evicter := e1 }
      | none => h)
    cases he : h.evicter.evict_if_necessary oldish with
    | none => exact hinv
    | some e1 => exact inv_evict_loop oldish _ h e1 hinv he

theorem page_reachable_inv (oldish : List Nat → Nat → Nat) (h : page_heap_t)
    (hr : PageReachable oldish h) : bag_inv h ∧ loader_inv h := by
  induction hr with
  | init m =>
    constructor
    · intro p n
      cases n <;> simp [bag_count, evicter_t.bag, page_heap_t.init, page_heap_t.live]
    · refine ⟨?_, ?_, ?_⟩
      · intro p hp; cases hp
      · intro l hl; cases hl
      · intro p l hl; cases hl
  | step h op _ hen ih => exact inv_page_op oldish h op ih hen

theorem page_reachable_run (oldish : List Nat → Nat → Nat) (h : page_heap_t)
    (ops : List PageOp) (hr : PageReachable oldish h) (h1 : page_heap_t)
    (hrun : page_run oldish h ops = some h1) : PageReachable oldish h1 := by
  induction ops generalizing h with
  | nil =>
    simp only [page_run, Option.some.injEq] at hrun
    subst hrun; exact hr
  | cons op ops ih =>
    simp only [page_run] at hrun
    split at hrun
    · rename_i hen
      exact ih _ (PageReachable.step h op hr hen) hrun
    · cases hrun

/-- C16 (bag membership invariant): in every state reachable from the empty
cache by the page operations (the three constructors of `page_t`, `add_waiter`,
`remove_waiter`, the completion of `load_with_block_id` and of
`load_from_copyee`, `reset_block_token` through `get_buf_write`, the destruction
of a page, and `evict_if_necessary`), every live page is in the eviction bag
that `correct_eviction_category` returns for its current state, occurs there
once, and is in no other of the four bags. -/
theorem bag_membership_invariant (oldish : List Nat → Nat → Nat) (h : page_heap_t)
    (hr : PageReachable oldish h) (p : Nat) (hl : h.live p = true) :
    (∀ n, p ∈ (h.evicter.bag n).bag_ ↔
      n = correct_eviction_category (page_at h.evicter.pages p)) ∧
    (∀ n, (h.evicter.bag n).bag_.count p =
      if n = correct_eviction_category (page_at h.evicter.pages p) then 1 else 0) := by
  have hinv := (page_reachable_inv oldish h hr).1
  have hc : ∀ n, (h.evicter.bag n).bag_.count p =
      if n = correct_eviction_category (page_at h.evicter.pages p) then 1 else 0 := by
    intro n
    have := hinv p n
    simp only [hl, true_and] at this
    exact this
  refine ⟨?_, hc⟩
  intro n
  rw [← List.count_pos_iff, hc]
  split <;> simp [*]

theorem bag_membership_invariant_witness :
    PageReachable oldish_first
        (page_run_from oldish_first (page_heap_t.init 4096) trace_pages_mixed) ∧
      (page_run_from oldish_first (page_heap_t.init 4096) trace_pages_mixed).live 1 = true ∧
      (page_run_from oldish_first (page_heap_t.init 4096) trace_pages_mixed).live 2 = true ∧
      (∀ n, 2 ∈ ((page_run_from oldish_first (page_heap_t.init 4096)
          trace_pages_mixed).evicter.bag n).bag_ ↔
        n = correct_eviction_category
          (page_at (page_run_from oldish_first (page_heap_t.init 4096)
            trace_pages_mixed).evicter.pages 2)) :=
  ⟨page_reachable_run _ _ trace_pages_mixed (PageReachable.init 4096) _ rfl, by decide,
   by decide,
   (bag_membership_invariant oldish_first _
     (page_reachable_run _ _ trace_pages_mixed (PageReachable.init 4096) _ rfl) 2
     (by decide)).1⟩

theorem pulse_waiters_pages (h : page_heap_t) (page : Nat) :
    (pulse_waiters_or_make_evictable h page).evicter.pages = h.evicter.pages := by
  unfold pulse_waiters_or_make_evictable
  simp only
  split
  · show (evicter_t.move_unevictable_to_evictable _ page).pages = _
    rw [move_unevictable_eq_change, change_eviction_bag_pages]
    rfl
  · rfl

theorem move_asserts_false (e : evicter_t) (page : Nat)
    (hc : correct_eviction_category (page_at e.pages page) = bag_name.unevictable) :
    e.move_unevictable_to_evictable_asserts page = false := by
  unfold evicter_t.move_unevictable_to_evictable_asserts
  rw [hc]
  simp

theorem mem_bag_iff_of_inv (h : page_heap_t) (hinv : bag_inv h) (p : Nat)
    (hl : h.live p = true) (n : bag_name) :
    p ∈ (h.evicter.bag n).bag_ ↔
      n = correct_eviction_category (page_at h.evicter.pages p) := by
  have hc := hinv p n
  unfold bag_count at hc
  rw [← List.count_pos_iff, hc]
  simp only [hl, true_and]
  split <;> simp [*]

/-- C18 (as the code behaves): in every reachable state, when the part of
`load_with_block_id` after the serializer read runs for a live page without
waiters, the page gets the buffer, the block token and the block size of the
token, but `destroy_ptr_` is still set: `correct_eviction_category` returns the
unevictable bag, the second assertion of `move_unevictable_to_evictable` is
false, and the page is in the unevictable bag again, not in the
evictable-disk-backed bag. -/
theorem disk_load_completion_stays_unevictable (oldish : List Nat → Nat → Nat)
    (h : page_heap_t) (hr : PageReachable oldish h) (page buf tok sz : Nat)
    (hen : (PageOp.load_with_block_id_finish page buf tok sz).enabled h = true)
    (hl : h.live page = true) (hw : (page_at h.evicter.pages page).waiters_ = []) :
    (page_at ((PageOp.load_with_block_id_finish page buf tok sz).apply oldish h).evicter.pages
        page).buf_ = some buf ∧
      (page_at ((PageOp.load_with_block_id_finish page buf tok sz).apply oldish h).evicter.pages
        page).block_token_ = some tok ∧
      (page_at ((PageOp.load_with_block_id_finish page buf tok sz).apply oldish h).evicter.pages
        page).ser_buf_size_ = sz ∧
      (page_at ((PageOp.load_with_block_id_finish page buf tok sz).apply oldish h).evicter.pages
        page).destroy_ptr_ = true ∧
      correct_eviction_category
        (page_at ((PageOp.load_with_block_id_finish page buf tok sz).apply oldish h).evicter.pages
          page) = bag_name.unevictable ∧
      page ∈ ((PageOp.load_with_block_id_finish page buf tok sz).apply oldish
        h).evicter.unevictable_.bag_ ∧
      page ∉ ((PageOp.load_with_block_id_finish page buf tok sz).apply oldish
        h).evicter.evictable_disk_backed_.bag_ ∧
      load_with_block_id_finish_asserts h page buf tok sz = false := by
  have hinv := page_reachable_inv oldish h hr
  have hinv1 := inv_page_op oldish h _ hinv hen
  have hlt := live_lt h page hl
  have hnd : page ∉ h.deleted_ := by
    simp only [page_heap_t.live, Bool.and_eq_true, decide_eq_true_eq, Bool.not_eq_true',
      decide_eq_false_iff_not] at hl
    exact hl.2
  have hd : (page_at h.evicter.pages page).destroy_ptr_ = true := by
    simp only [PageOp.enabled] at hen
    split at hen
    · rename_i b hlook
      exact hinv.2.2.2 page _ hlook hl
    · cases hen
  have hpages : ((PageOp.load_with_block_id_finish page buf tok sz).apply oldish h).evicter.pages
      = h.evicter.pages.modify (fun pg =>
        { pg with ser_buf_size_ := sz, buf_ := some buf, block_token_ := some tok }) page := by
    show (load_with_block_id_finish _ page buf tok sz).evicter.pages = _
    unfold load_with_block_id_finish
    rw [if_neg (by simpa using hnd), pulse_waiters_pages]
    rfl
  have hpa : page_at
      ((PageOp.load_with_block_id_finish page buf tok sz).apply oldish h).evicter.pages page =
      { page_at h.evicter.pages page with
        ser_buf_size_ := sz, buf_ := some buf, block_token_ := some tok } := by
    rw [hpages, page_at_modify, if_pos ⟨rfl, hlt⟩]
  have hl1 : ((PageOp.load_with_block_id_finish page buf tok sz).apply oldish h).live page
      = true := by
    rw [← hl]
    refine live_congr h _ (by rw [hpages, List.length_modify]) ?_ page
    show (load_with_block_id_finish _ page buf tok sz).deleted_ = _
    unfold load_with_block_id_finish
    rw [if_neg (by simpa using hnd)]
    unfold pulse_waiters_or_make_evictable
    simp only
    split <;> rfl
  have hcat : correct_eviction_category
      (page_at ((PageOp.load_with_block_id_finish page buf tok sz).apply oldish h).evicter.pages
        page) = bag_name.unevictable := by
    apply category_of_destroy_ptr
    rw [hpa]
    exact hd
  have hmem := mem_bag_iff_of_inv _ hinv1.1 page hl1
  refine ⟨by rw [hpa], by rw [hpa], by rw [hpa], by rw [hpa]; exact hd, hcat, ?_, ?_, ?_⟩
  · exact (hmem bag_name.unevictable).2 hcat.symm
  · intro hm
    have := (hmem bag_name.evictable_disk_backed).1 hm
    rw [hcat] at this
    cases this
  · have hpa2 : page_at (h.evicter.pages.modify (fun pg =>
        { pg with ser_buf_size_ := sz, buf_ := some buf, block_token_ := some tok }) page) page =
        { page_at h.evicter.pages page with
          ser_buf_size_ := sz, buf_ := some buf, block_token_ := some tok } := by
      rw [page_at_modify, if_pos ⟨rfl, hlt⟩]
    have hcat2 : correct_eviction_category
        { page_at h.evicter.pages page with
          ser_buf_size_ := sz, buf_ := some buf, block_token_ := some tok } =
        bag_name.unevictable := category_of_destroy_ptr _ hd
    have key : pulse_waiters_or_make_evictable_asserts
        (h.modify_page page (fun pg =>
          { pg with ser_buf_size_ := sz, buf_ := some buf, block_token_ := some tok })) page =
        false := by
      unfold pulse_waiters_or_make_evictable_asserts
      have hwe : (page_at (h.modify_page page (fun pg =>
          { pg with ser_buf_size_ := sz, buf_ := some buf,
                    block_token_ := some tok })).evicter.pages page).waiters_.isEmpty = true := by
        show (page_at (List.modify _ page h.evicter.pages) page).waiters_.isEmpty = true
        rw [hpa2]
        show (page_at h.evicter.pages page).waiters_.isEmpty = true
        rw [hw]
        rfl
      rw [if_pos hwe]
      rw [move_asserts_false _ page (by
        show correct_eviction_category (page_at (List.modify _ page h.evicter.pages) page) = _
        rw [hpa2]
        exact hcat2)]
      simp
    unfold load_with_block_id_finish_asserts
    rw [key]
    simp

theorem disk_load_completion_stays_unevictable_witness :
    PageReachable oldish_first
        (page_run_from oldish_first (page_heap_t.init 100000) trace_disk_load.dropLast) ∧
      (PageOp.load_with_block_id_finish 0 30 40 4096).enabled
        (page_run_from oldish_first (page_heap_t.init 100000) trace_disk_load.dropLast) = true ∧
      0 ∈ (page_run_from oldish_first (page_heap_t.init 100000)
        trace_disk_load).evicter.unevictable_.bag_ ∧
      0 ∉ (page_run_from oldish_first (page_heap_t.init 100000)
        trace_disk_load).evicter.evictable_disk_backed_.bag_ ∧
      load_with_block_id_finish_asserts
        (page_run_from oldish_first (page_heap_t.init 100000) trace_disk_load.dropLast)
        0 30 40 4096 = false :=
  ⟨page_reachable_run _ _ trace_disk_load.dropLast (PageReachable.init 100000) _ rfl,
   by decide,
   (disk_load_completion_stays_unevictable oldish_first _
     (page_reachable_run _ _ trace_disk_load.dropLast (PageReachable.init 100000) _ rfl)
     0 30 40 4096 (by decide) (by decide) (by decide)).2.2.2.2.2.1,
   (disk_load_completion_stays_unevictable oldish_first _
     (page_reachable_run _ _ trace_disk_load.dropLast (PageReachable.init 100000) _ rfl)
     0 30 40 4096 (by decide) (by decide) (by decide)).2.2.2.2.2.2.1,
   (disk_load_completion_stays_unevictable oldish_first _
     (page_reachable_run _ _ trace_disk_load.dropLast (PageReachable.init 100000) _ rfl)
     0 30 40 4096 (by decide) (by decide) (by decide)).2.2.2.2.2.2.2⟩

/-- C19 (as the code behaves): in every reachable state, let a live page with
a buffer have the `page_acq_t acq` as its only waiter. After
`page_acq_t::get_buf_write` the page has no block token and the same buffer;
after the acquirer is then destroyed the page has no waiters and is in exactly
one bag: the evictable-unbacked bag when `destroy_ptr_` is null, but the
unevictable bag when `destroy_ptr_` is set, which is the state of every page
loaded by `load_with_block_id`. -/
theorem write_invalidation_bag (oldish : List Nat → Nat → Nat) (h : page_heap_t)
    (hr : PageReachable oldish h) (page acq : Nat) (hl : h.live page = true)
    (hws : (page_at h.evicter.pages page).waiters_ = [acq])
    (hbuf : (page_at h.evicter.pages page).buf_.isSome = true) :
    (page_at (get_buf_write h page).2.evicter.pages page).block_token_ = none ∧
      (page_at (get_buf_write h page).2.evicter.pages page).buf_ =
        (page_at h.evicter.pages page).buf_ ∧
      (get_buf_write h page).1 = (page_at h.evicter.pages page).buf_ ∧
      (page_at (page_acq_t_destroy (get_buf_write h page).2 page acq).evicter.pages
        page).waiters_ = [] ∧
      ∀ n, page ∈ ((page_acq_t_destroy (get_buf_write h page).2 page acq).evicter.bag n).bag_ ↔
        n = if (page_at h.evicter.pages page).destroy_ptr_ = true then bag_name.unevictable
            else bag_name.evictable_unbacked := by
  have hinv := page_reachable_inv oldish h hr
  have hlt := live_lt h page hl
  have hmemw : acq ∈ (page_at h.evicter.pages page).waiters_ := by
    rw [hws]; exact List.mem_singleton_self acq
  have hinv1 := inv_get_buf_write h page acq hinv hmemw
  have hl1 : (get_buf_write h page).2.live page = true := by
    rw [← hl]
    exact live_congr h (get_buf_write h page).2 (List.length_modify _ _ _) rfl page
  have hinv2 := inv_remove_waiter _ page acq hinv1 hl1
  have hpa1 : page_at (get_buf_write h page).2.evicter.pages page =
      { page_at h.evicter.pages page with block_token_ := none } := by
    show page_at (List.modify _ page h.evicter.pages) page = _
    rw [page_at_modify, if_pos ⟨rfl, hlt⟩]
  have hlt1 : page < (get_buf_write h page).2.evicter.pages.length := live_lt _ page hl1
  have hpa2 : page_at (page_acq_t_destroy (get_buf_write h page).2 page acq).evicter.pages page =
      { page_at h.evicter.pages page with block_token_ := none, waiters_ := [] } := by
    show page_at (evicter_t.change_eviction_bag _ _ page).pages page = _
    rw [change_eviction_bag_pages]
    show page_at (List.modify _ page (get_buf_write h page).2.evicter.pages) page = _
    rw [page_at_modify, if_pos ⟨rfl, hlt1⟩, hpa1]
    simp [hws]
  have hl2 : (page_acq_t_destroy (get_buf_write h page).2 page acq).live page = true := by
    rw [← hl1]
    refine live_congr (get_buf_write h page).2
      (page_acq_t_destroy (get_buf_write h page).2 page acq) ?_ ?_ page
    · show (evicter_t.change_eviction_bag _ _ page).pages.length = _
      rw [change_eviction_bag_pages]
      exact List.length_modify _ _ _
    · rfl
  refine ⟨by rw [hpa1], by rw [hpa1], ?_, by rw [hpa2], ?_⟩
  · show (page_at (get_buf_write h page).2.evicter.pages page).buf_ = _
    rw [hpa1]
  · intro n
    rw [mem_bag_iff_of_inv _ hinv2.1 page hl2 n, hpa2]
    have hcat : correct_eviction_category
        { page_at h.evicter.pages page with block_token_ := none, waiters_ := [] } =
        if (page_at h.evicter.pages page).destroy_ptr_ = true then bag_name.unevictable
        else bag_name.evictable_unbacked := by
      unfold correct_eviction_category
      cases hd : (page_at h.evicter.pages page).destroy_ptr_ <;> simp [hbuf]
    rw [hcat]

theorem write_invalidation_bag_witness :
    PageReachable oldish_first
        (page_run_from oldish_first (page_heap_t.init 100000)
          (trace_disk_load_write.take 3)) ∧
      (page_at (page_run_from oldish_first (page_heap_t.init 100000)
        (trace_disk_load_write.take 3)).evicter.pages 0).destroy_ptr_ = true ∧
      (∀ n, 0 ∈ ((page_acq_t_destroy (get_buf_write
          (page_run_from oldish_first (page_heap_t.init 100000)
            (trace_disk_load_write.take 3)) 0).2 0 50).evicter.bag n).bag_ ↔
        n = bag_name.unevictable) ∧
      page_run_from oldish_first (page_heap_t.init 100000) trace_disk_load_write =
        page_acq_t_destroy (get_buf_write
          (page_run_from oldish_first (page_heap_t.init 100000)
            (trace_disk_load_write.take 3)) 0).2 0 50 :=
  ⟨page_reachable_run _ _ (trace_disk_load_write.take 3) (PageReachable.init 100000) _ rfl,
   by decide,
   (write_invalidation_bag oldish_first _
     (page_reachable_run _ _ (trace_disk_load_write.take 3) (PageReachable.init 100000) _ rfl)
     0 50 (by decide) (by decide) (by decide)).2.2.2.2,
   by decide⟩

/-! ## The index operations of a flush -/

theorem index_write_op_of_written (dp : dirtied_page_t) (t : Nat) :
    index_write_op_of { block_id := dp.block_id, is_deleted := false, block_token := some t,
                        tstamp := dp.tstamp } =
      { block_id := dp.block_id, token := some (some t), recency := dp.tstamp } := rfl

theorem mem_modify_acq (f : current_page_acq_t → current_page_acq_t)
    (l : List current_page_acq_t) (i : Nat) (b : current_page_acq_t)
    (hb : b ∈ l.modify f i) : b ∈ l ∨ ∃ a, l.get? i = some a ∧ b = f a := by
  induction l generalizing i with
  | nil => simp at hb
  | cons x rest ih =>
    cases i with
    | zero =>
      simp only [List.modify, List.modifyTailIdx, List.modifyHead] at hb
      rcases List.mem_cons.1 hb with h1 | h1
      · exact Or.inr ⟨x, rfl, h1⟩
      · exact Or.inl (List.mem_cons_of_mem _ h1)
    | succ n =>
      rw [List.modify_succ_cons] at hb
      rcases List.mem_cons.1 hb with h1 | h1
      · exact Or.inl (h1 ▸ List.mem_cons_self _ _)
      · rcases ih n h1 with h2 | ⟨a, h2, h3⟩
        · exact Or.inl (List.mem_cons_of_mem _ h2)
        · exact Or.inr ⟨a, h2, h3⟩

theorem dirtied_inv_modify (f : current_page_acq_t → current_page_acq_t)
    (l : List current_page_acq_t) (i : Nat) (h : dirtied_inv l)
    (hf : ∀ a, l.get? i = some a → (f a).dirtied_page_ = true → (f a).write_cond_ = true) :
    dirtied_inv (l.modify f i) := by
  intro b hb hd
  rcases mem_modify_acq f l i b hb with h1 | ⟨a, h2, h3⟩
  · exact h b h1 hd
  · subst h3
    exact hf a h2 hd

theorem pulse_loop_dirtied (s : current_page_t) (before rest : List current_page_acq_t)
    (h : dirtied_inv (before ++ rest)) :
    dirtied_inv (pulse_loop s before rest).acquirers_ := by
  induction rest generalizing s before with
  | nil =>
    simp only [pulse_loop]
    simpa using h
  | cons cur rest ih =>
    have hcur : cur.dirtied_page_ = true → cur.write_cond_ = true :=
      h cur (List.mem_append_right _ (List.mem_cons_self _ _))
    have hb : ∀ a ∈ before, a.dirtied_page_ = true → a.write_cond_ = true :=
      fun a ha => h a (List.mem_append_left _ ha)
    have hr : ∀ a ∈ rest, a.dirtied_page_ = true → a.write_cond_ = true :=
      fun a ha => h a (List.mem_append_right _ (List.mem_cons_of_mem _ ha))
    unfold pulse_loop
    cases hacc : cur.access_ with
    | read =>
      simp only
      split
      · apply ih
        intro a ha
        rcases List.mem_append.1 ha with h1 | h1
        · exact hb a h1
        · exact hr a h1
      · apply ih
        intro a ha
        rcases List.mem_append.1 ha with h1 | h1
        · rcases List.mem_append.1 h1 with h2 | h2
          · exact hb a h2
          · rw [List.mem_singleton.1 h2]
            exact hcur
        · exact hr a h1
    | write =>
      simp only
      split
      · intro a ha
        rcases List.mem_cons.1 ha with h1 | h1
        · rw [h1]
          intro _
          rfl
        · exact hr a h1
      · intro a ha
        rcases List.mem_append.1 ha with h1 | h1
        · exact hb a h1
        · rcases List.mem_cons.1 h1 with h2 | h2
          · rw [h2]
            exact hcur
          · exact hr a h2

theorem pulse_pulsables_dirtied (s : current_page_t) (i : Nat)
    (h : dirtied_inv s.acquirers_) : dirtied_inv (pulse_pulsables s i).acquirers_ := by
  unfold pulse_pulsables
  split
  · exact h
  · rename_i acq rest hdrop
    have hq : s.acquirers_.take i ++ acq :: rest = s.acquirers_ := by
      rw [← hdrop]; exact List.take_append_drop i s.acquirers_
    split
    · exact h
    · split
      · exact h
      · apply pulse_loop_dirtied
        rw [hq]
        exact h

theorem apply_dirtied_inv (s : current_page_t) (op : Op) (hen : op.enabled s = true)
    (h : dirtied_inv s.acquirers_) : dirtied_inv (op.apply s).acquirers_ := by
  cases op with
  | add_acquirer access =>
    apply pulse_pulsables_dirtied
    intro a ha
    rcases List.mem_append.1 ha with h1 | h1
    · exact h a h1
    · rw [List.mem_singleton.1 h1]
      intro hd
      cases hd
  | remove_acquirer i =>
    have h1 : dirtied_inv (s.acquirers_.eraseIdx i) :=
      fun a ha => h a (List.mem_of_mem_eraseIdx ha)
    show dirtied_inv (remove_acquirer s i).acquirers_
    unfold remove_acquirer
    simp only
    split
    · exact pulse_pulsables_dirtied _ _ h1
    · split
      · exact h1
      · exact h1
  | declare_readonly i =>
    apply pulse_pulsables_dirtied
    exact dirtied_inv_modify _ _ i h (fun a ha hd => h a (List.get?_mem ha) hd)
  | declare_snapshotted i =>
    show dirtied_inv (declare_snapshotted s i).acquirers_
    unfold declare_snapshotted
    split
    · exact h
    · split
      · exact h
      · apply pulse_pulsables_dirtied
        exact dirtied_inv_modify _ _ i h (fun a ha hd => h a (List.get?_mem ha) hd)
  | mark_deleted i =>
    show dirtied_inv (mark_deleted s i).acquirers_
    unfold mark_deleted current_page_t.mark_deleted
    rw [page_ptr_reset_acquirers]
    apply dirtied_inv_modify _ _ i h
    intro a ha _
    simp only [Op.enabled, ha] at hen
    exact hen
  | current_page_for_read i =>
    show dirtied_inv (the_page_for_read s).2.acquirers_
    unfold the_page_for_read
    simp only [convert_acquirers]
    exact h
  | current_page_for_write i =>
    show dirtied_inv (current_page_for_write s i).2.acquirers_
    unfold current_page_for_write the_page_for_write
    rw [get_page_for_write_acquirers, convert_acquirers]
    apply dirtied_inv_modify _ _ i h
    intro a ha _
    simp only [Op.enabled, ha] at hen
    exact hen
  | page_for_new_block_id => exact h
  | load_from_copyee_done k =>
    show dirtied_inv (load_from_copyee_done s k).acquirers_
    unfold load_from_copyee_done
    split <;> exact h
  | reset_snapshotted_page k =>
    show dirtied_inv (reset_snapshotted_page s k).acquirers_
    unfold reset_snapshotted_page
    split
    · exact h
    · rw [page_ptr_reset_acquirers]; exact h

theorem reachable_dirtied_inv (s : current_page_t) (h : Reachable s) :
    dirtied_inv s.acquirers_ := by
  induction h with
  | init b => intro a ha; cases ha
  | init_new b => intro a ha; cases ha
  | step s op _ hen ih => exact apply_dirtied_inv s op hen ih

/-! ## The commit of an acquirer -/

theorem the_page_for_read_or_deleted_fst (s : current_page_t) :
    (the_page_for_read_or_deleted s).1 = snapshot_of s := by
  unfold the_page_for_read_or_deleted snapshot_of the_page_for_read
  split <;> rfl

theorem snapshot_of_acquirers (s : current_page_t) (q : List current_page_acq_t) :
    snapshot_of { s with acquirers_ := q } = snapshot_of s := by
  unfold snapshot_of convert_from_serializer_if_necessary
  cases hp : s.page_ <;> simp [hp, new_page_t, add_snapshotter]

theorem detach_snapshotter_detached (s : current_page_t) (cur : current_page_acq_t) :
    (detach_snapshotter s cur).detached_ =
      s.detached_ ++ [{ cur with snapshotted_page_ := snapshot_of s }] := by
  rw [← the_page_for_read_or_deleted_fst]
  unfold detach_snapshotter the_page_for_read_or_deleted the_page_for_read
    convert_from_serializer_if_necessary
  by_cases hdel : s.is_deleted_ = true
  · simp [hdel, page_ptr_init, release_block_id]
  · have hf : s.is_deleted_ = false := by simpa using hdel
    cases hp : s.page_ <;>
      simp [hf, hp, page_ptr_init, release_block_id, new_page_t, add_snapshotter]

theorem init_fresh_page_detached (s : current_page_t) :
    (init_fresh_page s).detached_ = s.detached_ := rfl

theorem pulse_loop_detached_prefix (s : current_page_t) (before l : List current_page_acq_t) :
    ∃ extra, (pulse_loop s before l).detached_ = s.detached_ ++ extra := by
  induction l generalizing s before with
  | nil => exact ⟨[], by simp [pulse_loop]⟩
  | cons cur rest ih =>
    unfold pulse_loop
    cases hacc : cur.access_ with
    | read =>
      simp only
      split
      · obtain ⟨extra, he⟩ := ih (detach_snapshotter s
          { cur with access_ := alt_access_t.read, read_cond_ := true }) before
        rw [he, detach_snapshotter_detached, List.append_assoc]
        exact ⟨_, rfl⟩
      · exact ih s _
    | write =>
      simp only
      split
      · split
        · exact ⟨[], by simp [init_fresh_page_detached]⟩
        · exact ⟨[], by simp⟩
      · exact ⟨[], by simp⟩

theorem pulse_loop_length (s : current_page_t) (before l : List current_page_acq_t) :
    (pulse_loop s before l).acquirers_.length ≤ before.length + l.length := by
  induction l generalizing s before with
  | nil => simp [pulse_loop]
  | cons cur rest ih =>
    unfold pulse_loop
    cases hacc : cur.access_ with
    | read =>
      simp only
      split
      · have := ih (detach_snapshotter s
          { cur with access_ := alt_access_t.read, read_cond_ := true }) before
        simp only [List.length_cons]
        omega
      · have := ih s (before ++ [{ cur with access_ := alt_access_t.read, read_cond_ := true }])
        simp only [List.length_append, List.length_cons, List.length_nil] at this ⊢
        omega
    | write =>
      simp only
      split
      · rename_i hemp
        simp only [List.length_cons]
        omega
      · simp

theorem pulse_after_detach (s : current_page_t) (q rest : List current_page_acq_t)
    (X : current_page_acq_t) :
    (pulse_loop (detach_snapshotter { s with acquirers_ := q } X) [] rest).detached_.get?
        s.detached_.length = some { X with snapshotted_page_ := snapshot_of s } ∧
      (pulse_loop (detach_snapshotter { s with acquirers_ := q } X) [] rest).acquirers_.length ≤
        rest.length := by
  constructor
  · obtain ⟨extra, he⟩ :=
      pulse_loop_detached_prefix (detach_snapshotter { s with acquirers_ := q } X) [] rest
    rw [he, detach_snapshotter_detached, snapshot_of_acquirers, List.append_assoc,
      List.get?_eq_getElem?, List.getElem?_append_right (Nat.le_refl _)]
    simp
  · have := pulse_loop_length (detach_snapshotter { s with acquirers_ := q } X) [] rest
    simpa using this

theorem commit_current_page (s : current_page_t) (a : current_page_acq_t)
    (rest : List current_page_acq_t) (hq : s.acquirers_ = a :: rest)
    (hr : a.read_cond_ = true) :
    ∃ q,
      (if a.declared_snapshotted_ = true then declare_readonly s 0
        else declare_snapshotted (declare_readonly s 0) 0) =
        pulse_loop (detach_snapshotter { s with acquirers_ := q }
          { a with access_ := alt_access_t.read, declared_snapshotted_ := true,
                   read_cond_ := true }) [] rest ∧
      (if a.declared_snapshotted_ = true then s.detached_.length
        else (declare_readonly s 0).detached_.length) = s.detached_.length := by
  by_cases hd : a.declared_snapshotted_ = true
  · rw [if_pos hd, if_pos hd]
    refine ⟨{ a with access_ := alt_access_t.read } :: rest, ?_, rfl⟩
    unfold declare_readonly pulse_pulsables
    simp only [hq, List.modify, List.modifyTailIdx, List.modifyHead, List.drop_zero,
      List.take_zero, prev_allows_pulse, List.getLast?_nil, Bool.not_true, Bool.false_eq_true,
      if_false, hd, hr, Bool.and_false, pulse_loop, if_true]
  · have hdf : a.declared_snapshotted_ = false := by simpa using hd
    rw [if_neg hd, if_neg hd]
    have h1 : declare_readonly s 0 =
        { s with acquirers_ := { a with access_ := alt_access_t.read } :: rest } := by
      unfold declare_readonly pulse_pulsables
      simp [hq, List.modify, List.modifyTailIdx, List.modifyHead, prev_allows_pulse, hdf, hr]
    rw [h1]
    refine ⟨{ a with access_ := alt_access_t.read, declared_snapshotted_ := true } :: rest,
      ?_, rfl⟩
    unfold declare_snapshotted pulse_pulsables
    simp only [List.get?_cons_zero, hdf, Bool.false_eq_true, if_false, List.modify,
      List.modifyTailIdx, List.modifyHead, List.drop_zero, List.take_zero, prev_allows_pulse,
      List.getLast?_nil, Bool.not_true, hr, Bool.and_false, pulse_loop, if_true,
      Bool.not_false, Bool.and_true]

theorem txn_lists_modify_frame (c : page_cache_t) (l : List page_txn_t)
    (f : page_txn_t → page_txn_t) (u t : Nat)
    (hf : ∀ x, ((f x).live_acqs_, (f x).snapshotted_dirtied_pages_, (f x).touched_pages_) =
      (x.live_acqs_, x.snapshotted_dirtied_pages_, x.touched_pages_)) :
    txn_lists { c with txns := l.modify f u } t = txn_lists { c with txns := l } t := by
  unfold txn_lists
  show ((l.modify f u).get? t).map _ = (l.get? t).map _
  rw [get?_modify_map]
  split
  · congr 1
    funext x
    exact hf x
  · rfl

theorem txn_lists_connect_preceder (c : page_cache_t) (t p u : Nat) :
    txn_lists (connect_preceder c t p) u = txn_lists c u := by
  unfold connect_preceder
  split
  · split
    · split
      · show txn_lists { c with txns := List.modify _ p (List.modify _ t c.txns) } u = _
        rw [txn_lists_modify_frame c _
            (fun x : page_txn_t => { x with subseqers_ := x.subseqers_ ++ [t] }) p u
            (fun _ => rfl),
          txn_lists_modify_frame c _
            (fun x : page_txn_t => { x with preceders_ := x.preceders_ ++ [p],
                                            ever_preceders := x.ever_preceders ++ [p] }) t u
            (fun _ => rfl)]
      · rfl
    · rfl
  · rfl

theorem txn_lists_modify_self (c : page_cache_t) (l : List page_txn_t)
    (f : page_txn_t → page_txn_t) (t : Nat) :
    txn_lists { c with txns := l.modify f t } t =
      (txn_lists { c with txns := l } t).map (fun _ =>
        (((l.get? t).map f).map (fun x =>
          (x.live_acqs_, x.snapshotted_dirtied_pages_, x.touched_pages_))).getD ([], [], [])) := by
  unfold txn_lists
  show ((l.modify f t).get? t).map _ = _
  rw [get?_modify_map, if_pos rfl]
  show _ = ((l.get? t).map _).map _
  cases l.get? t <;> rfl

theorem lists_after_modify (X : List page_txn_t) (F : page_txn_t → page_txn_t) (t : Nat)
    (g : List Nat × List dirtied_page_t × List (Nat × repli_timestamp_t) →
      List Nat × List dirtied_page_t × List (Nat × repli_timestamp_t))
    (o : Option (List Nat × List dirtied_page_t × List (Nat × repli_timestamp_t)))
    (hF : ∀ x, ((F x).live_acqs_, (F x).snapshotted_dirtied_pages_, (F x).touched_pages_) =
      g (x.live_acqs_, x.snapshotted_dirtied_pages_, x.touched_pages_))
    (h : (X.get? t).map
      (fun x => (x.live_acqs_, x.snapshotted_dirtied_pages_, x.touched_pages_)) = o) :
    ((X.modify F t).get? t).map
      (fun x => (x.live_acqs_, x.snapshotted_dirtied_pages_, x.touched_pages_)) = o.map g := by
  rw [get?_modify_map, if_pos rfl, ← h, Option.map_map]
  congr 1
  funext x
  exact hF x

theorem txn_lists_remove_acquirer (c : page_cache_t) (t acq : Nat) (r : Bool)
    (a : alt_access_t) (d : Bool) (b : Nat) (sp : Option Nat) :
    txn_lists (page_txn_t.remove_acquirer c t acq r a d b sp) t =
      (c.txns.get? t).map (fun x =>
        (x.live_acqs_.erase acq,
         if (r && decide (a = alt_access_t.write) && d) = true then
           x.snapshotted_dirtied_pages_ ++
             [{ block_id := b, ptr := sp, tstamp := repli_timestamp_t.invalid }]
         else x.snapshotted_dirtied_pages_,
         if (r && decide (a = alt_access_t.write) && !d) = true then
           x.touched_pages_ ++ [(b, repli_timestamp_t.invalid)]
         else x.touched_pages_)) := by
  have h1 : txn_lists
      { c with txns := c.txns.modify (fun x => { x with live_acqs_ := x.live_acqs_.erase acq }) t }
      t = (c.txns.get? t).map (fun x =>
        (x.live_acqs_.erase acq, x.snapshotted_dirtied_pages_, x.touched_pages_)) := by
    unfold txn_lists
    show ((c.txns.modify _ t).get? t).map _ = _
    rw [get?_modify_map, if_pos rfl]
  unfold page_txn_t.remove_acquirer
  simp only
  split
  · rename_i hrw
    split
    · rename_i hd
      have hcond : (r && decide (a = alt_access_t.write) && d) = true := by
        rw [hrw, hd]; rfl
      have hcond2 : (r && decide (a = alt_access_t.write) && !d) = false := by
        rw [hd]; simp
      simp only [hcond, hcond2, if_true, Bool.false_eq_true, if_false]
      have h3 : txn_lists
          { set_last_modifier
              { c with txns :=
                  c.txns.modify (fun x => { x with live_acqs_ := x.live_acqs_.erase acq }) t }
              b (some t) with
            txns := (c.txns.modify
              (fun x => { x with live_acqs_ := x.live_acqs_.erase acq }) t).modify
              (fun x => { x with pages_modified_last_ := x.pages_modified_last_ ++ [b] }) t }
          t = (c.txns.get? t).map (fun x =>
            (x.live_acqs_.erase acq, x.snapshotted_dirtied_pages_, x.touched_pages_)) := by
        rw [← h1]
        exact txn_lists_modify_frame _ _
          (fun x : page_txn_t => { x with pages_modified_last_ := x.pages_modified_last_ ++ [b] })
          t t (fun _ => rfl)
      split
      · exact (lists_after_modify _ _ t
          (fun y => (y.1, y.2.1 ++
            [{ block_id := b, ptr := sp, tstamp := repli_timestamp_t.invalid }], y.2.2))
          _ (fun _ => rfl) h3).trans (by cases c.txns.get? t <;> rfl)
      · rename_i p hp
        refine (lists_after_modify _ _ t
          (fun y => (y.1, y.2.1 ++
            [{ block_id := b, ptr := sp, tstamp := repli_timestamp_t.invalid }], y.2.2))
          ((c.txns.get? t).map (fun x =>
            (x.live_acqs_.erase acq, x.snapshotted_dirtied_pages_, x.touched_pages_)))
          (fun _ => rfl) ?_).trans (by cases c.txns.get? t <;> rfl)
        show txn_lists (connect_preceder _ t p) t = _
        rw [txn_lists_connect_preceder, ← h3]
        exact txn_lists_modify_frame _ _
          (fun x : page_txn_t =>
            { x with pages_modified_last_ := x.pages_modified_last_.erase b }) p t
          (fun _ => rfl)
    · rename_i hd
      have hdf : d = false := by simpa using hd
      have hcond : (r && decide (a = alt_access_t.write) && d) = false := by
        rw [hdf]; simp
      have hcond2 : (r && decide (a = alt_access_t.write) && !d) = true := by
        rw [hrw, hdf]; rfl
      simp only [hcond, hcond2, if_true, Bool.false_eq_true, if_false]
      unfold txn_lists
      show ((List.modify _ t (c.txns.modify _ t)).get? t).map _ = _
      rw [get?_modify_map, if_pos rfl, get?_modify_map, if_pos rfl]
  · rename_i hrw
    have hcond : (r && decide (a = alt_access_t.write) && d) = false := by
      cases h : (r && decide (a = alt_access_t.write)) with
      | true => exact absurd h hrw
      | false => rfl
    have hcond2 : (r && decide (a = alt_access_t.write) && !d) = false := by
      cases h : (r && decide (a = alt_access_t.write)) with
      | true => exact absurd h hrw
      | false => rfl
    simp only [hcond, hcond2, Bool.false_eq_true, if_false]
    exact h1

/-- C11 (acquirer commit): let `page_txn_t::remove_acquirer` run for the
acquirer `A` at position `i` of the queue of a reachable current page of block
`b`, owned by transaction `t`. In every case `A` is erased from `live_acqs_`.
(i) If `A` has write access, is read-pulsed and dirtied the page, exactly one
entry for `b` is appended to `snapshotted_dirtied_pages_`, holding the page that
`A` got when it was detached (no page when the block is marked deleted, else the
current page), `touched_pages_` is unchanged, and `A` was the head of the queue
and is now in `detached_` with that page, the queue being shorter.
(ii) If `A` has write access, is read-pulsed and did not dirty the page, exactly
one entry `(b, repli_timestamp_t::invalid)` is appended to `touched_pages_`,
`snapshotted_dirtied_pages_` is unchanged and the current page is untouched.
(iii) Otherwise both lists and the current page are unchanged. -/
theorem acquirer_commit (c : page_cache_t) (s : current_page_t) (hs : Reachable s)
    (t acq i : Nat) (a : current_page_acq_t) (ha : s.acquirers_.get? i = some a) :
    (txn_lists (txn_remove_acquirer c s t acq i).1 t).map (fun l => l.1) =
        (txn_lists c t).map (fun l => l.1.erase acq) ∧
      (a.access_ = alt_access_t.write → a.read_cond_ = true → a.dirtied_page_ = true →
        txn_lists (txn_remove_acquirer c s t acq i).1 t =
          (txn_lists c t).map (fun l =>
            (l.1.erase acq,
             l.2.1 ++ [{ block_id := s.block_id, ptr := snapshot_of s,
                         tstamp := repli_timestamp_t.invalid }],
             l.2.2)) ∧
        (s.is_deleted_ = true → snapshot_of s = none) ∧
        (s.is_deleted_ = false → ∃ p, snapshot_of s = some p) ∧
        i = 0 ∧
        (txn_remove_acquirer c s t acq i).2.detached_.get? s.detached_.length =
          some { a with access_ := alt_access_t.read, declared_snapshotted_ := true,
                        read_cond_ := true, snapshotted_page_ := snapshot_of s } ∧
        (txn_remove_acquirer c s t acq i).2.acquirers_.length < s.acquirers_.length) ∧
      (a.access_ = alt_access_t.write → a.read_cond_ = true → a.dirtied_page_ = false →
        txn_lists (txn_remove_acquirer c s t acq i).1 t =
          (txn_lists c t).map (fun l =>
            (l.1.erase acq, l.2.1, l.2.2 ++ [(s.block_id, repli_timestamp_t.invalid)])) ∧
        (txn_remove_acquirer c s t acq i).2 = s) ∧
      ((a.access_ = alt_access_t.read ∨ a.read_cond_ = false) →
        txn_lists (txn_remove_acquirer c s t acq i).1 t =
          (txn_lists c t).map (fun l => (l.1.erase acq, l.2.1, l.2.2)) ∧
        (txn_remove_acquirer c s t acq i).2 = s) := by
  have hfst : ∀ sp : Option Nat,
      (txn_lists (page_txn_t.remove_acquirer c t acq a.read_cond_ a.access_ a.dirtied_page_
        s.block_id sp) t).map (fun l => l.1) =
        (txn_lists c t).map (fun l => l.1.erase acq) := by
    intro sp
    rw [txn_lists_remove_acquirer]
    unfold txn_lists
    cases c.txns.get? t <;> rfl
  refine ⟨?_, ?_, ?_, ?_⟩
  · unfold txn_remove_acquirer
    rw [ha]
    simp only
    split
    · exact hfst _
    · exact hfst _
  · intro hw hr hd
    have hmem : a ∈ s.acquirers_ := List.get?_mem ha
    have hwc : a.write_cond_ = true := reachable_dirtied_inv s hs a hmem hd
    have hi : i < s.acquirers_.length := by
      rw [List.get?_eq_getElem?] at ha
      exact (List.getElem?_eq_some_iff.1 ha).1
    have hget : s.acquirers_.get ⟨i, hi⟩ = a := by
      rw [List.get?_eq_get hi] at ha
      exact Option.some.inj ha
    have hi0 : i = 0 :=
      queue_inv_write_head s.acquirers_ (reachable_queue_inv s hs) i hi (by rw [hget]; exact hwc)
    subst hi0
    obtain ⟨rest, hq⟩ : ∃ rest, s.acquirers_ = a :: rest := by
      cases hq : s.acquirers_ with
      | nil => rw [hq] at ha; cases ha
      | cons x rest =>
        rw [hq] at ha
        simp only [List.get?_cons_zero, Option.some.injEq] at ha
        exact ⟨rest, by rw [ha]⟩
    obtain ⟨q, hs2, hk⟩ := commit_current_page s a rest hq hr
    obtain ⟨hdet, hlen⟩ := pulse_after_detach s q rest
      { a with access_ := alt_access_t.read, declared_snapshotted_ := true, read_cond_ := true }
    have hcond : (a.read_cond_ && decide (a.access_ = alt_access_t.write) && a.dirtied_page_)
        = true := by
      rw [hr, hw, hd]; rfl
    have hfun : txn_remove_acquirer c s t acq 0 =
        (page_txn_t.remove_acquirer c t acq a.read_cond_ a.access_ a.dirtied_page_ s.block_id
          (snapshot_of s),
         pulse_loop (detach_snapshotter { s with acquirers_ := q }
           { a with access_ := alt_access_t.read, declared_snapshotted_ := true,
                    read_cond_ := true }) [] rest) := by
      unfold txn_remove_acquirer
      rw [ha]
      simp only [hcond, if_true]
      rw [hs2, hk, hdet]
      rfl
    rw [hfun]
    refine ⟨?_, ?_, ?_, rfl, hdet, ?_⟩
    · rw [txn_lists_remove_acquirer]
      unfold txn_lists
      cases c.txns.get? t <;> simp [hr, hw, hd]
    · intro hdel
      simp [snapshot_of, hdel]
    · intro hdel
      obtain ⟨p, hp⟩ := convert_page_some s
      exact ⟨p, by simp [snapshot_of, hdel, hp]⟩
    · show (pulse_loop _ [] rest).acquirers_.length < s.acquirers_.length
      rw [hq, List.length_cons]
      exact Nat.lt_succ_of_le hlen
  · intro hw hr hd
    have hcond : (a.read_cond_ && decide (a.access_ = alt_access_t.write) && a.dirtied_page_)
        = false := by
      rw [hd]; simp
    have hfun : txn_remove_acquirer c s t acq i =
        (page_txn_t.remove_acquirer c t acq a.read_cond_ a.access_ a.dirtied_page_ s.block_id
          none, s) := by
      unfold txn_remove_acquirer
      rw [ha]
      simp only [hcond, Bool.false_eq_true, if_false]
    rw [hfun]
    refine ⟨?_, rfl⟩
    rw [txn_lists_remove_acquirer]
    unfold txn_lists
    cases c.txns.get? t <;> simp [hr, hw, hd]
  · intro hor
    have hrw : (a.read_cond_ && decide (a.access_ = alt_access_t.write)) = false := by
      rcases hor with h1 | h1
      · rw [h1]; simp
      · rw [h1]; simp
    have hcond : (a.read_cond_ && decide (a.access_ = alt_access_t.write) && a.dirtied_page_)
        = false := by
      rw [hrw]; rfl
    have hfun : txn_remove_acquirer c s t acq i =
        (page_txn_t.remove_acquirer c t acq a.read_cond_ a.access_ a.dirtied_page_ s.block_id
          none, s) := by
      unfold txn_remove_acquirer
      rw [ha]
      simp only [hcond, Bool.false_eq_true, if_false]
    rw [hfun]
    refine ⟨?_, rfl⟩
    rw [txn_lists_remove_acquirer]
    unfold txn_lists
    cases c.txns.get? t <;> simp [hrw]

theorem acquirer_commit_witness :
    Reachable (run_from (current_page_t.init 7) trace_writer_dirties) ∧
      (∃ a, (run_from (current_page_t.init 7) trace_writer_dirties).acquirers_.get? 0 = some a ∧
        a.access_ = alt_access_t.write ∧ a.read_cond_ = true ∧ a.dirtied_page_ = true) ∧
      txn_lists (txn_remove_acquirer
          (txn_run_from page_cache_t.init trace_txn_with_acquirer)
          (run_from (current_page_t.init 7) trace_writer_dirties) 0 100 0).1 0 =
        some ([], [{ block_id := 7, ptr := some 0, tstamp := repli_timestamp_t.invalid }], []) :=
  ⟨reachable_run _ trace_writer_dirties (Reachable.init 7) _ rfl,
   ⟨_, rfl, rfl, rfl, rfl⟩,
   ((acquirer_commit (txn_run_from page_cache_t.init trace_txn_with_acquirer)
      (run_from (current_page_t.init 7) trace_writer_dirties)
      (reachable_run _ trace_writer_dirties (Reachable.init 7) _ rfl) 0 100 0 _ rfl).2.1
      rfl rfl rfl).1⟩

/-! ## The free list of block ids -/

theorem acquire_block_id_nil (f : free_list_t) (h : f.free_ids_ = []) :
    f.acquire_block_id =
      (f.next_new_block_id_, { f with next_new_block_id_ := f.next_new_block_id_ + 1 }) := by
  simp [free_list_t.acquire_block_id, h]

theorem acquire_block_id_concat (f : free_list_t) (ids : List block_id_t) (ret : block_id_t)
    (h : f.free_ids_ = ids ++ [ret]) :
    f.acquire_block_id = (ret, { f with free_ids_ := ids }) := by
  simp [free_list_t.acquire_block_id, h]

theorem acquire_block_ids_fresh (n : Nat) (f : free_list_t) (h : f.free_ids_ = []) :
    f.acquire_block_ids n =
      (List.range' f.next_new_block_id_ n,
       { f with next_new_block_id_ := f.next_new_block_id_ + n }) := by
  induction n generalizing f with
  | zero => simp [free_list_t.acquire_block_ids]
  | succ n ih =>
    have h1 := ih { f with next_new_block_id_ := f.next_new_block_id_ + 1 } h
    simp only [free_list_t.acquire_block_ids, acquire_block_id_nil f h]
    rw [h1]
    simp [List.range'_succ, Nat.add_assoc, Nat.add_comm 1 n]

theorem acquire_released_block_ids (xs : List block_id_t) (f : free_list_t) :
    (f.release_block_ids xs).acquire_block_ids xs.length = (xs.reverse, f) := by
  induction xs using List.reverseRecOn generalizing f with
  | nil => simp [free_list_t.release_block_ids, free_list_t.acquire_block_ids]
  | append_singleton xs x ih =>
    have h1 : f.release_block_ids (xs ++ [x]) = (f.release_block_ids xs).release_block_id x := by
      simp [free_list_t.release_block_ids, List.foldl_append]
    have h2 : ((f.release_block_ids xs).release_block_id x).acquire_block_id =
        (x, f.release_block_ids xs) :=
      acquire_block_id_concat _ (f.release_block_ids xs).free_ids_ x rfl
    rw [h1, List.length_append, List.length_singleton]
    simp only [free_list_t.acquire_block_ids, h2]
    rw [ih]
    simp

theorem free_list_inv_init (max_block_id : block_id_t) (get_delete_bit : block_id_t → Bool) :
    free_list_inv (free_list_use_t.init max_block_id get_delete_bit) := by
  refine ⟨?_, ?_, ?_, ?_, ?_⟩
  · exact (List.nodup_range max_block_id).filter _
  · intro x hx
    have := (List.mem_filter.mp hx).1
    exact List.mem_range.mp this
  · intro x hx
    have := (List.mem_filter.mp hx).1
    exact List.mem_range.mp this
  · exact (List.nodup_range max_block_id).filter _
  · intro x hx hx2
    have h1 := (List.mem_filter.mp hx).2
    have h2 := (List.mem_filter.mp hx2).2
    simp [h2] at h1

theorem free_list_inv_step (s : free_list_use_t) (op : FreeListOp) (hi : free_list_inv s)
    (hen : op.enabled s = true) : free_list_inv (op.apply s) := by
  obtain ⟨h1, h2, h3, h4, h5⟩ := hi
  cases op with
  | acquire_block_id =>
    cases hl : s.free_list.free_ids_.getLast? with
    | none =>
      have hnil : s.free_list.free_ids_ = [] := List.getLast?_eq_none_iff.mp hl
      have hacq := acquire_block_id_nil s.free_list hnil
      simp only [FreeListOp.apply, hacq, free_list_inv, hnil]
      refine ⟨List.nodup_nil, ?_, ?_, ?_, ?_⟩
      · intro x hx; simp at hx
      · intro x hx
        rcases List.mem_append.mp hx with hx | hx
        · exact Nat.lt_succ_of_lt (h3 x hx)
        · simp at hx; subst hx; exact Nat.lt_succ_self _
      · refine List.Nodup.append h4 (List.nodup_singleton _) ?_
        intro x hx hx2
        simp at hx2
        subst hx2
        exact Nat.lt_irrefl _ (h3 _ hx)
      · intro x _ hx; simp at hx
    | some ret =>
      have hcat : s.free_list.free_ids_.dropLast ++ [ret] = s.free_list.free_ids_ :=
        List.dropLast_append_getLast? ret hl
      have hacq := acquire_block_id_concat s.free_list _ ret hcat.symm
      rw [← hcat] at h1 h2 h5
      have hnd := List.nodup_append.mp h1
      simp only [FreeListOp.apply, hacq, free_list_inv]
      refine ⟨hnd.1, ?_, ?_, ?_, ?_⟩
      · intro x hx
        exact h2 x (List.mem_append_left _ hx)
      · intro x hx
        rcases List.mem_append.mp hx with hx | hx
        · exact h3 x hx
        · simp at hx; subst hx; exact h2 _ (by simp)
      · refine List.Nodup.append h4 (List.nodup_singleton _) ?_
        intro x hx hx2
        simp at hx2
        subst hx2
        exact h5 _ hx (by simp)
      · intro x hx hx2
        rcases List.mem_append.mp hx with hx | hx
        · exact h5 x hx (List.mem_append_left _ hx2)
        · simp at hx; subst hx
          exact hnd.2.2 hx2 (by simp)
  | release_block_id b =>
    have hb : b ∈ s.held_ := by simpa [FreeListOp.enabled] using hen
    simp only [FreeListOp.apply, free_list_t.release_block_id, free_list_inv]
    refine ⟨?_, ?_, ?_, h4.erase _, ?_⟩
    · refine List.Nodup.append h1 (List.nodup_singleton _) ?_
      intro x hx hx2
      simp at hx2
      subst hx2
      exact h5 _ hb hx
    · intro x hx
      rcases List.mem_append.mp hx with hx | hx
      · exact h2 x hx
      · simp at hx; subst hx; exact h3 _ hb
    · intro x hx
      exact h3 x (List.mem_of_mem_erase hx)
    · intro x hx hx2
      have hx3 := (List.Nodup.mem_erase_iff h4).mp hx
      rcases List.mem_append.mp hx2 with hx2 | hx2
      · exact h5 x hx3.2 hx2
      · simp at hx2; exact hx3.1 hx2

theorem free_list_reachable_inv (max_block_id : block_id_t) (get_delete_bit : block_id_t → Bool)
    (s : free_list_use_t) (h : FreeListReachable max_block_id get_delete_bit s) :
    free_list_inv s := by
  induction h with
  | init => exact free_list_inv_init max_block_id get_delete_bit
  | step s op _ hen ih => exact free_list_inv_step s op ih hen

theorem free_list_reachable_run (max_block_id : block_id_t) (get_delete_bit : block_id_t → Bool)
    (ops : List FreeListOp) (s s1 : free_list_use_t)
    (h : FreeListReachable max_block_id get_delete_bit s)
    (hr : free_list_run s ops = some s1) :
    FreeListReachable max_block_id get_delete_bit s1 := by
  induction ops generalizing s with
  | nil =>
    simp [free_list_run] at hr
    subst hr
    exact h
  | cons op ops ih =>
    simp only [free_list_run] at hr
    split at hr
    · rename_i hen
      exact ih _ (FreeListReachable.step s op h hen) hr
    · cases hr

theorem acquire_not_held (s : free_list_use_t) (hi : free_list_inv s) :
    s.free_list.acquire_block_id.1 ∉ s.held_ := by
  obtain ⟨_, _, h3, _, h5⟩ := hi
  cases hl : s.free_list.free_ids_.getLast? with
  | none =>
    have hnil : s.free_list.free_ids_ = [] := List.getLast?_eq_none_iff.mp hl
    rw [acquire_block_id_nil s.free_list hnil]
    intro hx
    have := h3 _ hx
    simp at this
  | some ret =>
    have hcat : s.free_list.free_ids_.dropLast ++ [ret] = s.free_list.free_ids_ :=
      List.dropLast_append_getLast? ret hl
    rw [acquire_block_id_concat s.free_list _ ret hcat.symm]
    intro hx
    apply h5 _ hx
    rw [← hcat]
    simp

/-- C21: `acquire_block_id` on a pool that ends with `ret` returns `ret` and
removes it; on an empty pool it returns `next_new_block_id_` and increments it
by one, so `n` successive calls on an empty pool return the strictly increasing
ids `next_new_block_id_, ..., next_new_block_id_ + n - 1`; `release_block_id x`
followed by `acquire_block_id` returns `x` and restores the free list, and more
generally the ids released last are returned first. -/
theorem free_list_allocation (f : free_list_t) :
    (∀ ids ret, f.free_ids_ = ids ++ [ret] →
      f.acquire_block_id = (ret, { f with free_ids_ := ids })) ∧
    (f.free_ids_ = [] →
      f.acquire_block_id =
        (f.next_new_block_id_, { f with next_new_block_id_ := f.next_new_block_id_ + 1 }) ∧
      ∀ n, (f.acquire_block_ids n).1 = List.range' f.next_new_block_id_ n ∧
        (f.acquire_block_ids n).1.Pairwise (fun a b => a < b)) ∧
    (∀ x, (f.release_block_id x).acquire_block_id = (x, f)) ∧
    (∀ xs, (f.release_block_ids xs).acquire_block_ids xs.length = (xs.reverse, f)) := by
  refine ⟨fun ids ret h => acquire_block_id_concat f ids ret h, ?_, ?_, ?_⟩
  · intro h
    refine ⟨acquire_block_id_nil f h, fun n => ?_⟩
    rw [acquire_block_ids_fresh n f h]
    refine ⟨rfl, ?_⟩
    have := List.pairwise_lt_range' f.next_new_block_id_ n
    simpa using this
  · intro x
    exact acquire_block_id_concat _ f.free_ids_ x rfl
  · intro xs
    exact acquire_released_block_ids xs f

/-- The free list with pool `[7, 3]` and the empty free list with next id 5. -/
theorem free_list_allocation_witness :
    (free_list_t.mk 9 [7, 3]).acquire_block_id = (3, free_list_t.mk 9 [7]) ∧
    ((free_list_t.mk 5 []).acquire_block_ids 3).1 = [5, 6, 7] ∧
    ((free_list_t.mk 9 [7]).release_block_ids [3, 4]).acquire_block_ids 2 =
      ([4, 3], free_list_t.mk 9 [7]) :=
  ⟨(free_list_allocation (free_list_t.mk 9 [7, 3])).1 [7] 3 rfl,
   (((free_list_allocation (free_list_t.mk 5 [])).2.1 rfl).2 3).1,
   (free_list_allocation (free_list_t.mk 9 [7])).2.2.2 [3, 4]⟩

/-- C28: in every state reachable from the initial free list under the release
discipline, the pool has no id twice, every pooled id is below
`next_new_block_id_`, and the id that `acquire_block_id` returns is not in use. -/
theorem free_list_well_formed (max_block_id : block_id_t) (get_delete_bit : block_id_t → Bool)
    (s : free_list_use_t) (h : FreeListReachable max_block_id get_delete_bit s) :
    s.free_list.free_ids_.Nodup ∧
    (∀ x ∈ s.free_list.free_ids_, x < s.free_list.next_new_block_id_) ∧
    s.free_list.acquire_block_id.1 ∉ s.held_ := by
  have hi := free_list_reachable_inv max_block_id get_delete_bit s h
  exact ⟨hi.1, hi.2.1, acquire_not_held s hi⟩

/-- The state after `trace_free_list` from a serializer with six blocks, two of
them deleted: the pool is `[2]`, the next new id is 6, and ids 3, 5, 4, 1, 0 are
in use. -/
theorem free_list_well_formed_witness :
    free_list_run (free_list_use_t.init 6 sample_delete_bit) trace_free_list =
      some { free_list := { next_new_block_id_ := 6, free_ids_ := [2] },
             held_ := [3, 5, 4, 1, 0] } ∧
    [2].Nodup ∧ (∀ x ∈ [2], x < 6) ∧
    (free_list_t.mk 6 [2]).acquire_block_id.1 ∉ [3, 5, 4, 1, 0] :=
  ⟨by decide,
   free_list_well_formed 6 sample_delete_bit
     { free_list := { next_new_block_id_ := 6, free_ids_ := [2] }, held_ := [3, 5, 4, 1, 0] }
     (free_list_reachable_run 6 sample_delete_bit trace_free_list _ _
       FreeListReachable.init (by decide))⟩

/-! ## Pulsing on arrival -/

theorem prev_allows_pulse_iff (q : List current_page_acq_t) :
    prev_allows_pulse q = true ↔
      (q.getLast? = none ∨
        ∃ prev, q.getLast? = some prev ∧ prev.access_ = alt_access_t.read ∧
          prev.read_cond_ = true) := by
  unfold prev_allows_pulse
  cases h : q.getLast? with
  | none => simp
  | some prev => simp

/-- C23: `add_acquirer` appends the new acquirer `a` to the queue and changes no
other acquirer, queued or detached; on return the read signal of `a` is pulsed
if and only if the queue was empty or its last acquirer was a read-access
acquirer whose read signal is pulsed, and the write signal of `a` is pulsed if
and only if `a` has write access and the queue was empty. -/
theorem arrival_pulsing_rule (s : current_page_t) (access : alt_access_t) :
    ∃ a, (add_acquirer s access).acquirers_ = s.acquirers_ ++ [a] ∧
      (add_acquirer s access).detached_ = s.detached_ ∧
      a.access_ = access ∧
      (a.read_cond_ = true ↔
        (s.acquirers_.getLast? = none ∨
          ∃ prev, s.acquirers_.getLast? = some prev ∧ prev.access_ = alt_access_t.read ∧
            prev.read_cond_ = true)) ∧
      (a.write_cond_ = true ↔ (access = alt_access_t.write ∧ s.acquirers_ = [])) := by
  have hd : (s.acquirers_ ++ [current_page_acq_t.fresh access]).drop s.acquirers_.length =
      [current_page_acq_t.fresh access] := by simp
  have ht : (s.acquirers_ ++ [current_page_acq_t.fresh access]).take s.acquirers_.length =
      s.acquirers_ := by simp
  rw [← prev_allows_pulse_iff]
  unfold add_acquirer pulse_pulsables
  simp only [hd, ht]
  cases hp : prev_allows_pulse s.acquirers_ with
  | false =>
    refine ⟨current_page_acq_t.fresh access, by simp, by simp, rfl, by simp [current_page_acq_t.fresh], ?_⟩
    have hne : s.acquirers_ ≠ [] := by
      intro h
      simp [h, prev_allows_pulse] at hp
    simp [current_page_acq_t.fresh, hne]
  | true =>
    cases access with
    | read =>
      refine ⟨{ current_page_acq_t.fresh alt_access_t.read with read_cond_ := true }, ?_, ?_, rfl,
        by simp, by simp [current_page_acq_t.fresh]⟩
      · simp [current_page_acq_t.fresh, pulse_loop]
      · simp [current_page_acq_t.fresh, pulse_loop]
    | write =>
      by_cases he : s.acquirers_ = []
      · refine ⟨{ current_page_acq_t.fresh alt_access_t.write with
            read_cond_ := true, write_cond_ := true }, ?_, ?_, rfl, by simp, by simp [he]⟩
        · simp [current_page_acq_t.fresh, pulse_loop, he]
        · simp [current_page_acq_t.fresh, pulse_loop, he]
          split
          · exact init_fresh_page_detached _
          · rfl
      · refine ⟨{ current_page_acq_t.fresh alt_access_t.write with read_cond_ := true }, ?_, ?_,
          rfl, by simp, by simp [he, current_page_acq_t.fresh]⟩
        · simp [current_page_acq_t.fresh, pulse_loop, he]
        · simp [current_page_acq_t.fresh, pulse_loop, he]

/-! ## Detaching a snapshotter -/

theorem modify_append_cons (f : current_page_acq_t → current_page_acq_t)
    (pre post : List current_page_acq_t) (a : current_page_acq_t) :
    (pre ++ a :: post).modify f pre.length = pre ++ f a :: post := by
  induction pre with
  | nil => rfl
  | cons x pre ih => simp [List.modify_succ_cons, ih]

theorem pulse_loop_reader (s : current_page_t) (before rest : List current_page_acq_t)
    (cur : current_page_acq_t) (hacc : cur.access_ = alt_access_t.read)
    (hd : cur.declared_snapshotted_ = false) :
    pulse_loop s before (cur :: rest) =
      pulse_loop s (before ++ [{ cur with read_cond_ := true }]) rest := by
  simp [pulse_loop, hacc, hd]

theorem pulse_loop_snapshotter (s : current_page_t) (before rest : List current_page_acq_t)
    (cur : current_page_acq_t) (hacc : cur.access_ = alt_access_t.read)
    (hd : cur.declared_snapshotted_ = true) :
    pulse_loop s before (cur :: rest) =
      pulse_loop (detach_snapshotter s { cur with read_cond_ := true }) before rest := by
  simp [pulse_loop, hacc, hd]

theorem pulse_loop_writer (s : current_page_t) (before rest : List current_page_acq_t)
    (cur : current_page_acq_t) (hacc : cur.access_ = alt_access_t.write) :
    pulse_loop s before (cur :: rest) =
      if before.isEmpty then
        { (if s.is_deleted_ then init_fresh_page s else s) with
          acquirers_ := { cur with read_cond_ := true, write_cond_ := true } :: rest }
      else
        { s with acquirers_ := before ++ { cur with read_cond_ := true } :: rest } := by
  simp [pulse_loop, hacc]

theorem same_acquirer_refl (b : current_page_acq_t) : same_acquirer b b := rfl

theorem same_acquirer_list_refl (l : List current_page_acq_t) :
    List.Forall₂ same_acquirer l l := by
  induction l with
  | nil => exact List.Forall₂.nil
  | cons b l ih => exact List.Forall₂.cons rfl ih

theorem pulse_loop_no_snapshotters (rest : List current_page_acq_t) (s : current_page_t)
    (before : List current_page_acq_t)
    (h : ∀ b ∈ rest, b.declared_snapshotted_ = false) :
    ∃ rest1, (pulse_loop s before rest).acquirers_ = before ++ rest1 ∧
      List.Forall₂ same_acquirer rest rest1 ∧
      (pulse_loop s before rest).detached_ = s.detached_ ∧
      (s.is_deleted_ = false →
        (pulse_loop s before rest).snapshot_refcount_ = s.snapshot_refcount_) ∧
      (∀ b1, rest1.head? = some b1 → b1.read_cond_ = true ∧
        (b1.access_ = alt_access_t.write → before = [] → b1.write_cond_ = true)) := by
  induction rest generalizing s before with
  | nil =>
    refine ⟨[], by simp [pulse_loop], List.Forall₂.nil, rfl, fun _ => rfl, ?_⟩
    intro b1 hb
    simp at hb
  | cons cur rest ih =>
    have hcur := h cur (List.mem_cons_self _ _)
    have hrest : ∀ b ∈ rest, b.declared_snapshotted_ = false :=
      fun b hb => h b (List.mem_cons_of_mem _ hb)
    by_cases hacc : cur.access_ = alt_access_t.read
    · rw [pulse_loop_reader s before rest cur hacc hcur]
      obtain ⟨rest1, h1, h2, h3, h4, _⟩ := ih s (before ++ [{ cur with read_cond_ := true }]) hrest
      refine ⟨{ cur with read_cond_ := true } :: rest1, ?_, List.Forall₂.cons rfl h2, h3, h4, ?_⟩
      · rw [h1, List.append_assoc]
        rfl
      · intro b1 hb
        simp only [List.head?_cons, Option.some.injEq] at hb
        subst hb
        refine ⟨rfl, fun hw => ?_⟩
        rw [hacc] at hw
        cases hw
    · have hw : cur.access_ = alt_access_t.write := by
        cases hc : cur.access_ with
        | read => exact absurd hc hacc
        | write => rfl
      rw [pulse_loop_writer s before rest cur hw]
      by_cases hemp : before = []
      · subst hemp
        refine ⟨{ cur with read_cond_ := true, write_cond_ := true } :: rest, by simp,
          List.Forall₂.cons rfl (same_acquirer_list_refl rest), ?_, ?_, ?_⟩
        · simp only [List.isEmpty_nil, if_true]
          split
          · exact init_fresh_page_detached s
          · rfl
        · intro hdel
          simp [hdel]
        · intro b1 hb
          simp only [List.head?_cons, Option.some.injEq] at hb
          subst hb
          exact ⟨rfl, fun _ _ => rfl⟩
      · have hne : before.isEmpty = false := by
          cases before with
          | nil => exact absurd rfl hemp
          | cons x xs => rfl
        refine ⟨{ cur with read_cond_ := true } :: rest, by simp [hne],
          List.Forall₂.cons rfl (same_acquirer_list_refl rest), by simp [hne],
          fun _ => by simp [hne], ?_⟩
        intro b1 hb
        simp only [List.head?_cons, Option.some.injEq] at hb
        subst hb
        exact ⟨rfl, fun _ he => absurd he hemp⟩

theorem declare_snapshotted_detaches (s : current_page_t) (pre post : List current_page_acq_t)
    (a : current_page_acq_t) (hq : s.acquirers_ = pre ++ a :: post)
    (hacc : a.access_ = alt_access_t.read) (hd : a.declared_snapshotted_ = false)
    (hp : prev_allows_pulse pre = true) :
    declare_snapshotted s pre.length =
      pulse_loop
        (detach_snapshotter
          { s with acquirers_ := pre ++ { a with declared_snapshotted_ := true } :: post }
          { a with declared_snapshotted_ := true, read_cond_ := true }) pre post := by
  have hget : s.acquirers_.get? pre.length = some a := by
    rw [hq, List.get?_eq_getElem?, List.getElem?_append_right (Nat.le_refl _)]
    simp
  have hdrop : (pre ++ { a with declared_snapshotted_ := true } :: post).drop pre.length =
      { a with declared_snapshotted_ := true } :: post := by simp
  have htake : (pre ++ { a with declared_snapshotted_ := true } :: post).take pre.length =
      pre := by simp
  unfold declare_snapshotted
  rw [hget]
  simp only [hd, Bool.false_eq_true, if_false]
  rw [hq, modify_append_cons]
  unfold pulse_pulsables
  simp only [hdrop, htake, hp, Bool.not_true, Bool.false_eq_true, if_false, Bool.and_false]
  exact pulse_loop_snapshotter _ pre post { a with declared_snapshotted_ := true } hacc rfl

theorem num_refs_add_snapshotter (p : Nat) (s : current_page_t)
    (hp : p < s.snapshot_refcount_.length) :
    num_snapshot_references p (add_snapshotter p s) = num_snapshot_references p s + 1 := by
  simp [num_snapshot_references, add_snapshotter, List.getD_eq_getElem?_getD,
    List.getElem?_modify_eq, List.getElem?_eq_getElem hp]

theorem detach_snapshotter_refs (s : current_page_t) (cur : current_page_acq_t)
    (hdel : s.is_deleted_ = false)
    (hlt : ∀ p, s.page_ = some p → p < s.snapshot_refcount_.length) :
    (detach_snapshotter s cur).is_deleted_ = false ∧
    ∃ p, snapshot_of s = some p ∧ (s.page_ = none ∨ s.page_ = some p) ∧
      num_snapshot_references p (detach_snapshotter s cur) =
        num_snapshot_references p s + (if s.page_ = none then 2 else 1) := by
  cases hpg : s.page_ with
  | none =>
    refine ⟨?_, s.snapshot_refcount_.length, ?_, Or.inl rfl, ?_⟩
    · simp [detach_snapshotter, the_page_for_read_or_deleted, the_page_for_read,
        convert_from_serializer_if_necessary, hdel, hpg, new_page_t, add_snapshotter,
        page_ptr_init]
    · simp [snapshot_of, convert_from_serializer_if_necessary, hdel, hpg, new_page_t,
        add_snapshotter]
    · rw [num_refs_out_of_range _ s (Nat.le_refl _)]
      simp [detach_snapshotter, the_page_for_read_or_deleted, the_page_for_read,
        convert_from_serializer_if_necessary, hdel, hpg, new_page_t, add_snapshotter,
        page_ptr_init, num_snapshot_references, modify_append_zero]
  | some p =>
    have hp := hlt p hpg
    refine ⟨?_, p, ?_, Or.inr rfl, ?_⟩
    · simp [detach_snapshotter, the_page_for_read_or_deleted, the_page_for_read,
        convert_from_serializer_if_necessary, hdel, hpg, add_snapshotter, page_ptr_init]
    · simp [snapshot_of, convert_from_serializer_if_necessary, hdel, hpg]
    · have h1 : detach_snapshotter s cur =
          { add_snapshotter p s with
            detached_ := s.detached_ ++ [{ cur with snapshotted_page_ := some p }] } := by
        simp [detach_snapshotter, the_page_for_read_or_deleted, the_page_for_read,
          convert_from_serializer_if_necessary, hdel, hpg, add_snapshotter, page_ptr_init]
      rw [h1]
      have := num_refs_add_snapshotter p s hp
      simpa [num_snapshot_references, add_snapshotter] using this

theorem reachable_run_from (s : current_page_t) (ops : List Op) (hs : Reachable s) :
    Reachable (run_from s ops) := by
  unfold run_from
  cases h : run s ops with
  | none => exact hs
  | some t => exact reachable_run s ops hs t h

theorem detach_snapshotter_held (s : current_page_t) (cur : current_page_acq_t) (p : Nat)
    (hdel : s.is_deleted_ = false) (hpg : s.page_ = some p) :
    detach_snapshotter s cur =
      { add_snapshotter p s with
        detached_ := s.detached_ ++ [{ cur with snapshotted_page_ := some p }] } := by
  simp [detach_snapshotter, the_page_for_read_or_deleted, the_page_for_read,
    convert_from_serializer_if_necessary, hdel, hpg, add_snapshotter, page_ptr_init]

theorem snapshot_of_held (s : current_page_t) (p : Nat) (hdel : s.is_deleted_ = false)
    (hpg : s.page_ = some p) : snapshot_of s = some p := by
  simp [snapshot_of, convert_from_serializer_if_necessary, hdel, hpg]

theorem snapshot_of_deleted (s : current_page_t) (hdel : s.is_deleted_ = true) :
    snapshot_of s = none := by
  simp [snapshot_of, hdel]

theorem pulse_loop_detaches (rest : List current_page_acq_t) :
    ∀ (s : current_page_t) (before : List current_page_acq_t),
    (s.is_deleted_ = false → ∃ p, s.page_ = some p ∧ p < s.snapshot_refcount_.length) →
    ∃ rest1 others kept,
      (pulse_loop s before rest).acquirers_ = before ++ rest1 ∧
      List.Sublist kept rest ∧
      List.Forall₂ same_acquirer kept rest1 ∧
      rest1.length + others.length = rest.length ∧
      (pulse_loop s before rest).detached_ = s.detached_ ++ others ∧
      (∀ o ∈ others, o.access_ = alt_access_t.read ∧ o.declared_snapshotted_ = true ∧
        o.read_cond_ = true ∧ o.snapshotted_page_ = snapshot_of s) ∧
      ((∀ b ∈ rest.takeWhile (fun b => decide (b.access_ = alt_access_t.read)),
          b.declared_snapshotted_ = false) → others = []) ∧
      (∀ b1, rest1.head? = some b1 → b1.read_cond_ = true ∧
        (b1.access_ = alt_access_t.write → before = [] → b1.write_cond_ = true)) ∧
      (s.is_deleted_ = false → ∀ p, s.page_ = some p →
        num_snapshot_references p (pulse_loop s before rest) =
          num_snapshot_references p s + others.length) := by
  induction rest with
  | nil =>
    intro s before _
    refine ⟨[], [], [], by simp [pulse_loop], List.Sublist.slnil, List.Forall₂.nil, rfl,
      by simp [pulse_loop], ?_, fun _ => rfl, ?_, ?_⟩
    · intro o ho
      cases ho
    · intro b1 hb
      simp at hb
    · intro _ p _
      simp [pulse_loop, num_snapshot_references]
  | cons cur rest ih =>
    intro s before hs
    by_cases hacc : cur.access_ = alt_access_t.read
    · by_cases hd : cur.declared_snapshotted_ = true
      · rw [pulse_loop_snapshotter s before rest cur hacc hd]
        have hdelq : (detach_snapshotter s { cur with read_cond_ := true }).is_deleted_ =
            s.is_deleted_ := detach_snapshotter_is_deleted s _
        have hsnap : snapshot_of (detach_snapshotter s { cur with read_cond_ := true }) =
            snapshot_of s := by
          by_cases hdel : s.is_deleted_ = true
          · rw [snapshot_of_deleted s hdel, snapshot_of_deleted _ (hdelq.trans hdel)]
          · have hf : s.is_deleted_ = false := by simpa using hdel
            obtain ⟨p, hp, _⟩ := hs hf
            rw [snapshot_of_held s p hf hp]
            apply snapshot_of_held _ p (hdelq.trans hf)
            rw [detach_snapshotter_held s _ p hf hp]
            exact hp
        have hs1 : (detach_snapshotter s { cur with read_cond_ := true }).is_deleted_ = false →
            ∃ p, (detach_snapshotter s { cur with read_cond_ := true }).page_ = some p ∧
              p < (detach_snapshotter s
                { cur with read_cond_ := true }).snapshot_refcount_.length := by
          intro hf1
          have hf : s.is_deleted_ = false := hdelq ▸ hf1
          obtain ⟨p, hp, hlt⟩ := hs hf
          refine ⟨p, ?_, ?_⟩
          · rw [detach_snapshotter_held s _ p hf hp]
            exact hp
          · rw [detach_snapshotter_held s _ p hf hp]
            simpa [add_snapshotter] using hlt
        obtain ⟨rest1, others, kept, h1, h2, h3, h4, h5, h6, h7, h8, h9⟩ :=
          ih (detach_snapshotter s { cur with read_cond_ := true }) before hs1
        refine ⟨rest1, { cur with read_cond_ := true, snapshotted_page_ := snapshot_of s } ::
          others, kept, h1, List.Sublist.cons _ h2, h3, ?_, ?_, ?_, ?_, h8, ?_⟩
        · simp only [List.length_cons]
          omega
        · rw [h5, detach_snapshotter_detached]
          simp
        · intro o ho
          rcases List.mem_cons.1 ho with rfl | ho
          · exact ⟨hacc, hd, rfl, rfl⟩
          · rw [← hsnap]
            exact h6 o ho
        · intro hall
          have := hall cur (by simp [List.takeWhile_cons, hacc])
          rw [hd] at this
          cases this
        · intro hf p hp
          have hp1 : (detach_snapshotter s { cur with read_cond_ := true }).page_ = some p := by
            rw [detach_snapshotter_held s _ p hf hp]
            exact hp
          rw [h9 (hdelq.trans hf) p hp1]
          obtain ⟨q, hq, hlt⟩ := hs hf
          have hqp : q = p := by
            rw [hp] at hq
            exact (Option.some.inj hq).symm
          subst hqp
          have hcount : num_snapshot_references q
              (detach_snapshotter s { cur with read_cond_ := true }) =
              num_snapshot_references q s + 1 := by
            rw [detach_snapshotter_held s _ q hf hp]
            have := num_refs_add_snapshotter q s hlt
            simpa [num_snapshot_references, add_snapshotter] using this
          rw [hcount]
          simp only [List.length_cons]
          omega
      · have hdf : cur.declared_snapshotted_ = false := by simpa using hd
        rw [pulse_loop_reader s before rest cur hacc hdf]
        obtain ⟨rest1, others, kept, h1, h2, h3, h4, h5, h6, h7, _, h9⟩ :=
          ih s (before ++ [{ cur with read_cond_ := true }]) hs
        refine ⟨{ cur with read_cond_ := true } :: rest1, others, cur :: kept, ?_,
          List.Sublist.cons₂ _ h2, List.Forall₂.cons rfl h3, ?_, h5, h6, ?_, ?_, h9⟩
        · rw [h1, List.append_assoc]
          rfl
        · simp only [List.length_cons]
          omega
        · intro hall
          apply h7
          intro b hb
          apply hall b
          simp [List.takeWhile_cons, hacc, hb]
        · intro b1 hb
          simp only [List.head?_cons, Option.some.injEq] at hb
          subst hb
          refine ⟨rfl, fun hw => ?_⟩
          rw [hacc] at hw
          cases hw
    · have hw : cur.access_ = alt_access_t.write := by
        cases hc : cur.access_ with
        | read => exact absurd hc hacc
        | write => rfl
      rw [pulse_loop_writer s before rest cur hw]
      by_cases hemp : before = []
      · subst hemp
        refine ⟨{ cur with read_cond_ := true, write_cond_ := true } :: rest, [], cur :: rest,
          by simp, List.Sublist.refl _,
          List.Forall₂.cons rfl (same_acquirer_list_refl rest), by simp, ?_, ?_,
          fun _ => rfl, ?_, ?_⟩
        · simp only [List.isEmpty_nil, if_true, List.append_nil]
          split
          · exact init_fresh_page_detached s
          · rfl
        · intro o ho
          cases ho
        · intro b1 hb
          simp only [List.head?_cons, Option.some.injEq] at hb
          subst hb
          exact ⟨rfl, fun _ _ => rfl⟩
        · intro hf p _
          simp [hf, num_snapshot_references]
      · have hne : before.isEmpty = false := by
          cases before with
          | nil => exact absurd rfl hemp
          | cons x xs => rfl
        refine ⟨{ cur with read_cond_ := true } :: rest, [], cur :: rest, by simp [hne],
          List.Sublist.refl _, List.Forall₂.cons rfl (same_acquirer_list_refl rest), by simp,
          by simp [hne], ?_, fun _ => rfl, ?_, ?_⟩
        · intro o ho
          cases ho
        · intro b1 hb
          simp only [List.head?_cons, Option.some.injEq] at hb
          subst hb
          exact ⟨rfl, fun _ he => absurd he hemp⟩
        · intro _ p _
          simp [hne, num_snapshot_references]

theorem forall₂_of_sublist_length (kept rest rest1 : List current_page_acq_t)
    (h2 : List.Sublist kept rest) (h3 : List.Forall₂ same_acquirer kept rest1)
    (h4 : rest1.length = rest.length) : List.Forall₂ same_acquirer rest rest1 := by
  have hlen : kept.length = rest.length := by
    rw [h3.length_eq, h4]
  rw [← h2.eq_of_length hlen]
  exact h3

theorem detach_snapshotter_page (s : current_page_t) (cur : current_page_acq_t)
    (hdel : s.is_deleted_ = false)
    (hlt : ∀ p, s.page_ = some p → p < s.snapshot_refcount_.length) :
    ∃ p, snapshot_of s = some p ∧ (s.page_ = none ∨ s.page_ = some p) ∧
      (detach_snapshotter s cur).page_ = some p ∧
      p < (detach_snapshotter s cur).snapshot_refcount_.length ∧
      num_snapshot_references p (detach_snapshotter s cur) =
        num_snapshot_references p s + (if s.page_ = none then 2 else 1) := by
  obtain ⟨_, p, hp1, hp2, hp3⟩ := detach_snapshotter_refs s cur hdel hlt
  refine ⟨p, hp1, hp2, ?_, ?_, hp3⟩
  · cases hpg : s.page_ with
    | none =>
      have h5 : snapshot_of s = some s.snapshot_refcount_.length := by
        simp [snapshot_of, convert_from_serializer_if_necessary, hdel, hpg, new_page_t,
          add_snapshotter]
      rw [h5] at hp1
      rw [← Option.some.inj hp1]
      simp [detach_snapshotter, the_page_for_read_or_deleted, the_page_for_read,
        convert_from_serializer_if_necessary, hdel, hpg, new_page_t, add_snapshotter,
        page_ptr_init]
    | some q =>
      rw [snapshot_of_held s q hdel hpg] at hp1
      rw [← Option.some.inj hp1, detach_snapshotter_held s cur q hdel hpg]
      exact hpg
  · cases hpg : s.page_ with
    | none =>
      have h5 : snapshot_of s = some s.snapshot_refcount_.length := by
        simp [snapshot_of, convert_from_serializer_if_necessary, hdel, hpg, new_page_t,
          add_snapshotter]
      rw [h5] at hp1
      rw [← Option.some.inj hp1]
      simp [detach_snapshotter, the_page_for_read_or_deleted, the_page_for_read,
        convert_from_serializer_if_necessary, hdel, hpg, new_page_t, add_snapshotter,
        page_ptr_init]
    | some q =>
      rw [snapshot_of_held s q hdel hpg] at hp1
      rw [← Option.some.inj hp1, detach_snapshotter_held s cur q hdel hpg]
      simpa [add_snapshotter] using hlt q hpg

theorem detach_then_loop (s : current_page_t) (cur : current_page_acq_t)
    (before rest : List current_page_acq_t)
    (hlt : ∀ p, s.page_ = some p → p < s.snapshot_refcount_.length) :
    ∃ rest1 others kept,
      (pulse_loop (detach_snapshotter s cur) before rest).acquirers_ = before ++ rest1 ∧
      List.Sublist kept rest ∧
      List.Forall₂ same_acquirer kept rest1 ∧
      rest1.length + others.length = rest.length ∧
      (pulse_loop (detach_snapshotter s cur) before rest).detached_ =
        s.detached_ ++ { cur with snapshotted_page_ := snapshot_of s } :: others ∧
      (∀ o ∈ others, o.access_ = alt_access_t.read ∧ o.declared_snapshotted_ = true ∧
        o.read_cond_ = true ∧ o.snapshotted_page_ = snapshot_of s) ∧
      ((∀ b ∈ rest.takeWhile (fun b => decide (b.access_ = alt_access_t.read)),
          b.declared_snapshotted_ = false) →
        others = [] ∧ List.Forall₂ same_acquirer rest rest1) ∧
      (∀ b1, rest1.head? = some b1 → b1.read_cond_ = true ∧
        (b1.access_ = alt_access_t.write → before = [] → b1.write_cond_ = true)) ∧
      (s.is_deleted_ = true → snapshot_of s = none) ∧
      (s.is_deleted_ = false → ∃ p, snapshot_of s = some p ∧
        (s.page_ = none ∨ s.page_ = some p) ∧
        num_snapshot_references p (pulse_loop (detach_snapshotter s cur) before rest) =
          num_snapshot_references p s + (if s.page_ = none then 2 else 1) + others.length) := by
  have hdelq := detach_snapshotter_is_deleted s cur
  have hs1 : (detach_snapshotter s cur).is_deleted_ = false →
      ∃ p, (detach_snapshotter s cur).page_ = some p ∧
        p < (detach_snapshotter s cur).snapshot_refcount_.length := by
    intro hf1
    obtain ⟨p, _, _, h3, h4, _⟩ := detach_snapshotter_page s cur (hdelq ▸ hf1) hlt
    exact ⟨p, h3, h4⟩
  have hsnap1 : snapshot_of (detach_snapshotter s cur) = snapshot_of s := by
    by_cases hdel : s.is_deleted_ = true
    · rw [snapshot_of_deleted s hdel, snapshot_of_deleted _ (hdelq.trans hdel)]
    · have hf : s.is_deleted_ = false := by simpa using hdel
      obtain ⟨p, h1, _, h3, _, _⟩ := detach_snapshotter_page s cur hf hlt
      rw [h1, snapshot_of_held _ p (hdelq.trans hf) h3]
  obtain ⟨rest1, others, kept, h1, h2, h3, h4, h5, h6, h7, h8, h9⟩ :=
    pulse_loop_detaches rest (detach_snapshotter s cur) before hs1
  refine ⟨rest1, others, kept, h1, h2, h3, h4, ?_, ?_, ?_, h8, ?_, ?_⟩
  · rw [h5, detach_snapshotter_detached]
    simp
  · intro o ho
    rw [← hsnap1]
    exact h6 o ho
  · intro hall
    have ho := h7 hall
    refine ⟨ho, forall₂_of_sublist_length kept _ rest1 h2 h3 ?_⟩
    rw [ho] at h4
    simpa using h4
  · intro hdel
    exact snapshot_of_deleted s hdel
  · intro hdel
    obtain ⟨p, hp1, hp2, hp3, _, hp5⟩ := detach_snapshotter_page s cur hdel hlt
    refine ⟨p, hp1, hp2, ?_⟩
    rw [h9 (hdelq.trans hdel) p hp3, hp5]

/-- C24 (counterexample): a write acquirer marks the block deleted and calls
`declare_readonly`; it is then a read acquirer at the head of the queue that
has not declared itself snapshotted. When it declares itself snapshotted it is
detached, but its snapshot pointer is empty and no snapshot count changes.
Second run: a reader declares itself snapshotted while it waits behind a writer,
and the writer calls `declare_readonly`; no assertion fails. When the former
writer, now a read-pulsed reader at the head, declares itself snapshotted, the
reader behind it is detached by the same call, and the snapshot count of the
current page rises by two, from one to three. -/
theorem snapshotter_of_deleted_block_holds_no_page :
    (run (current_page_t.init_new 7) trace_deleter_downgrades).isSome = true ∧
    (run_from (current_page_t.init_new 7) trace_deleter_downgrades).acquirers_.map
        (fun a => (a.access_, a.declared_snapshotted_)) = [(alt_access_t.read, false)] ∧
    (declare_snapshotted
        (run_from (current_page_t.init_new 7) trace_deleter_downgrades) 0).acquirers_ = [] ∧
    (declare_snapshotted
        (run_from (current_page_t.init_new 7) trace_deleter_downgrades) 0).detached_.map
        (fun a => a.snapshotted_page_) = [none] ∧
    (declare_snapshotted
        (run_from (current_page_t.init_new 7) trace_deleter_downgrades) 0).snapshot_refcount_ =
      (run_from (current_page_t.init_new 7) trace_deleter_downgrades).snapshot_refcount_ ∧
    (run (current_page_t.init_new 7) trace_snapshotter_behind_downgraded).isSome = true ∧
    run_asserts_hold (current_page_t.init_new 7)
      (trace_snapshotter_behind_downgraded ++ [Op.declare_snapshotted 0]) = true ∧
    (run_from (current_page_t.init_new 7) trace_snapshotter_behind_downgraded).acquirers_.map
        (fun a => (a.access_, a.declared_snapshotted_, a.read_cond_)) =
      [(alt_access_t.read, false, true), (alt_access_t.read, true, false)] ∧
    num_snapshot_references 0
      (run_from (current_page_t.init_new 7) trace_snapshotter_behind_downgraded) = 1 ∧
    (declare_snapshotted
        (run_from (current_page_t.init_new 7) trace_snapshotter_behind_downgraded)
        0).acquirers_ = [] ∧
    (declare_snapshotted
        (run_from (current_page_t.init_new 7) trace_snapshotter_behind_downgraded)
        0).detached_.map (fun a => a.snapshotted_page_) = [some 0, some 0] ∧
    num_snapshot_references 0
      (declare_snapshotted
        (run_from (current_page_t.init_new 7) trace_snapshotter_behind_downgraded) 0) = 3 := by
  decide

/-- C24 (amended): in a reachable state, let the acquirer `a` at position `i` of
the queue have read access, not be declared snapshotted yet, and have no
predecessor or a read-pulsed reader as predecessor. After `declare_snapshotted`,
`a` is out of the queue and among the detached acquirers (its `current_page_` is
null) with its read signal pulsed. The queue is the part in front of `a` followed
by `rest1`; the acquirers of `rest1` are acquirers that were behind `a`, in the
same order and unchanged up to their signals; the other acquirers that were
behind `a`, `others`, are readers that had declared themselves snapshotted: they
are detached by the same call, after `a`, read-pulsed and with the same snapshot
pointer as `a`. When no reader between `a` and the first writer behind it had
declared itself snapshotted, `others` is empty and `rest1` is all that was
behind `a`. The new successor of the part in front of `a` has its read signal
pulsed, and when it is a writer and the head of the queue its write signal is
pulsed. When the block is marked deleted the snapshot pointer of `a` is empty;
otherwise it holds the current page `p`, whose snapshot count has increased by
one for `a` and by one for each acquirer of `others` (and by one more, from
zero, when the current page was created by this call). -/
theorem snapshot_detaching (s : current_page_t) (i : Nat) (a : current_page_acq_t)
    (hr : Reachable s)
    (ha : s.acquirers_.get? i = some a)
    (hacc : a.access_ = alt_access_t.read)
    (hfirst : a.declared_snapshotted_ = false)
    (hprev : (s.acquirers_.take i).getLast? = none ∨
      ∃ prev, (s.acquirers_.take i).getLast? = some prev ∧
        prev.access_ = alt_access_t.read ∧ prev.read_cond_ = true) :
    ∃ rest1 others kept,
      (declare_snapshotted s i).acquirers_ = s.acquirers_.take i ++ rest1 ∧
      List.Sublist kept (s.acquirers_.drop (i + 1)) ∧
      List.Forall₂ same_acquirer kept rest1 ∧
      rest1.length + others.length = (s.acquirers_.drop (i + 1)).length ∧
      (declare_snapshotted s i).detached_ = s.detached_ ++
        { a with declared_snapshotted_ := true, read_cond_ := true,
                 snapshotted_page_ := snapshot_of s } :: others ∧
      (∀ o ∈ others, o.access_ = alt_access_t.read ∧ o.declared_snapshotted_ = true ∧
        o.read_cond_ = true ∧ o.snapshotted_page_ = snapshot_of s) ∧
      ((∀ b ∈ (s.acquirers_.drop (i + 1)).takeWhile
            (fun b => decide (b.access_ = alt_access_t.read)),
          b.declared_snapshotted_ = false) →
        others = [] ∧ List.Forall₂ same_acquirer (s.acquirers_.drop (i + 1)) rest1) ∧
      (∀ b1, rest1.head? = some b1 → b1.read_cond_ = true ∧
        (b1.access_ = alt_access_t.write → i = 0 → b1.write_cond_ = true)) ∧
      (s.is_deleted_ = true → snapshot_of s = none) ∧
      (s.is_deleted_ = false → ∃ p, snapshot_of s = some p ∧
        (s.page_ = none ∨ s.page_ = some p) ∧
        num_snapshot_references p (declare_snapshotted s i) =
          num_snapshot_references p s + (if s.page_ = none then 2 else 1) + others.length) := by
  obtain ⟨hlt, hget⟩ := List.get?_eq_some.mp ha
  have hq : s.acquirers_ = s.acquirers_.take i ++ a :: s.acquirers_.drop (i + 1) := by
    have h1 := List.take_append_drop i s.acquirers_
    rw [List.drop_eq_getElem_cons hlt] at h1
    rw [← hget]
    exact h1.symm
  have hlen : (s.acquirers_.take i).length = i := by
    rw [List.length_take]
    omega
  have hpp : prev_allows_pulse (s.acquirers_.take i) = true :=
    (prev_allows_pulse_iff _).mpr hprev
  have hds := declare_snapshotted_detaches s _ _ a hq hacc hfirst hpp
  rw [hlen] at hds
  rw [hds]
  have hlt2 : ∀ p, s.page_ = some p → p < s.snapshot_refcount_.length := by
    intro p hp
    refine held_page_allocated p s (reachable_refcount_inv s hr) ?_
    unfold holders
    rw [if_pos hp]
    omega
  obtain ⟨rest1, others, kept, h1, h2, h3, h4, h5, h6, h7, h8, h9, h10⟩ :=
    detach_then_loop
      { s with acquirers_ :=
          s.acquirers_.take i ++ { a with declared_snapshotted_ := true } ::
            s.acquirers_.drop (i + 1) }
      { a with declared_snapshotted_ := true, read_cond_ := true }
      (s.acquirers_.take i) (s.acquirers_.drop (i + 1)) hlt2
  rw [snapshot_of_acquirers] at h5 h6 h9 h10
  refine ⟨rest1, others, kept, h1, h2, h3, h4, h5, h6, h7, ?_, h9, h10⟩
  intro b1 hb
  obtain ⟨x, y⟩ := h8 b1 hb
  refine ⟨x, fun hw hi => y hw ?_⟩
  subst hi
  simp

/-- A reader and a writer are queued on a new block; the reader declares itself
snapshotted: it is detached holding page 0, whose snapshot count rises from one
to two, no other acquirer is detached, and the writer is the head with its write
signal pulsed. -/
theorem snapshot_detaching_witness :
    (run_from (current_page_t.init_new 7) trace_reader_writer).acquirers_.map
        (fun b => (b.access_, b.read_cond_, b.write_cond_)) =
      [(alt_access_t.read, true, false), (alt_access_t.write, true, false)] ∧
    (declare_snapshotted
        (run_from (current_page_t.init_new 7) trace_reader_writer) 0).acquirers_.map
        (fun b => (b.access_, b.read_cond_, b.write_cond_)) =
      [(alt_access_t.write, true, true)] ∧
    (declare_snapshotted
        (run_from (current_page_t.init_new 7) trace_reader_writer) 0).detached_ =
      [{ access_ := alt_access_t.read, declared_snapshotted_ := true, read_cond_ := true,
         write_cond_ := false, dirtied_page_ := false, snapshotted_page_ := some 0 }] ∧
    num_snapshot_references 0
        (declare_snapshotted (run_from (current_page_t.init_new 7) trace_reader_writer) 0) =
      num_snapshot_references 0 (run_from (current_page_t.init_new 7) trace_reader_writer) + 1 := by
  obtain ⟨_, others, _, _, _, _, _, h5, _, h7, _⟩ :=
    snapshot_detaching (run_from (current_page_t.init_new 7) trace_reader_writer) 0
      { access_ := alt_access_t.read, declared_snapshotted_ := false, read_cond_ := true,
        write_cond_ := false, dirtied_page_ := false, snapshotted_page_ := none }
      (reachable_run_from _ _ (Reachable.init_new 7)) (by decide) rfl rfl
      (Or.inl (by decide))
  obtain ⟨ho, _⟩ := h7 (by decide)
  subst ho
  exact ⟨by decide, by decide, h5, by decide⟩

/-! ## Dirtied pages and last modifiers at the commit of an acquirer -/

/-- C26: when `page_txn_t::remove_acquirer` runs for an acquirer whose access is
`read`, in particular for a write acquirer that dirtied the page and then called
`declare_readonly`, no entry is appended to `snapshotted_dirtied_pages_` or to
`touched_pages_`, whatever `dirtied_page_` is: the acquirer is erased from
`live_acqs_`, and the `last_modifier_` fields and the current page are
unchanged. -/
theorem dirtied_page_dropped_after_declare_readonly (c : page_cache_t) (s : current_page_t)
    (t acq i : Nat) (a : current_page_acq_t) (ha : s.acquirers_.get? i = some a)
    (hacc : a.access_ = alt_access_t.read) :
    txn_lists (txn_remove_acquirer c s t acq i).1 t =
        (txn_lists c t).map (fun l => (l.1.erase acq, l.2.1, l.2.2)) ∧
    (txn_remove_acquirer c s t acq i).1.last_modifier_ = c.last_modifier_ ∧
    (txn_remove_acquirer c s t acq i).2 = s := by
  have hrw : (a.read_cond_ && decide (a.access_ = alt_access_t.write)) = false := by
    rw [hacc]
    simp
  have hcond : (a.read_cond_ && decide (a.access_ = alt_access_t.write) && a.dirtied_page_)
      = false := by
    rw [hrw]
    rfl
  have hfun : txn_remove_acquirer c s t acq i =
      (page_txn_t.remove_acquirer c t acq a.read_cond_ a.access_ a.dirtied_page_ s.block_id
        none, s) := by
    unfold txn_remove_acquirer
    rw [ha]
    simp only [hcond, Bool.false_eq_true, if_false]
  rw [hfun]
  refine ⟨?_, ?_, rfl⟩
  · rw [txn_lists_remove_acquirer]
    unfold txn_lists
    cases c.txns.get? t <;> simp [hrw]
  · unfold page_txn_t.remove_acquirer
    simp only [hrw, Bool.false_eq_true, if_false]

/-- The write acquirer 100 of transaction 0 obtains the page of block 7 for
writing, calls `declare_readonly` and is destroyed: the transaction has no
dirtied page and no touched page. -/
theorem dirtied_page_dropped_after_declare_readonly_witness :
    (run (current_page_t.init 7) trace_writer_dirties_downgrades).isSome = true ∧
    (run_from (current_page_t.init 7) trace_writer_dirties_downgrades).acquirers_.map
        (fun a => (a.access_, a.dirtied_page_)) = [(alt_access_t.read, true)] ∧
    txn_lists (txn_remove_acquirer
        (txn_run_from page_cache_t.init trace_txn_with_acquirer)
        (run_from (current_page_t.init 7) trace_writer_dirties_downgrades) 0 100 0).1 0 =
      some ([], [], []) :=
  ⟨by decide, by decide,
   (dirtied_page_dropped_after_declare_readonly
      (txn_run_from page_cache_t.init trace_txn_with_acquirer)
      (run_from (current_page_t.init 7) trace_writer_dirties_downgrades) 0 100 0 _ rfl rfl).1⟩

/-! ## The last modifier of a block -/

theorem modified_last_of_modify (l : List page_txn_t) (f : page_txn_t → page_txn_t)
    (g : List Nat → List Nat) (hf : ∀ x, (f x).pages_modified_last_ = g x.pages_modified_last_)
    (hg : u < l.length ∨ g [] = []) (t : Nat) :
    modified_last_of (l.modify f u) t =
      if t = u then g (modified_last_of l t) else modified_last_of l t := by
  unfold modified_last_of
  rw [get?_modify_map]
  by_cases htu : t = u
  · subst htu
    rw [if_pos rfl, if_pos rfl]
    cases hl : l.get? t with
    | none =>
      have hge := List.get?_eq_none.1 hl
      rcases hg with hg | hg
      · exact absurd hg (Nat.not_lt.mpr hge)
      · simp [hg]
    | some x => simp [hf]
  · rw [if_neg htu, if_neg htu]

theorem modified_last_of_modify_frame (l : List page_txn_t) (f : page_txn_t → page_txn_t)
    (hf : ∀ x, (f x).pages_modified_last_ = x.pages_modified_last_) (u t : Nat) :
    modified_last_of (l.modify f u) t = modified_last_of l t := by
  rw [modified_last_of_modify l f id hf (Or.inr rfl)]
  split <;> rfl

theorem modified_last_of_append_fresh (l : List page_txn_t) (t : Nat) :
    modified_last_of (l ++ [page_txn_t.fresh]) t = modified_last_of l t := by
  unfold modified_last_of
  rw [List.get?_eq_getElem?, List.get?_eq_getElem?]
  by_cases hlt : t < l.length
  · rw [List.getElem?_append_left hlt]
  · have hle : l.length ≤ t := Nat.le_of_not_lt hlt
    rw [List.getElem?_append_right hle, List.getElem?_eq_none hle]
    cases t - l.length <;> rfl

theorem get_last_modifier_congr (c c1 : page_cache_t)
    (h : c1.last_modifier_ = c.last_modifier_) (b : Nat) :
    get_last_modifier c1 b = get_last_modifier c b := by
  unfold get_last_modifier
  rw [h]

theorem last_modifier_inv_frame (c c1 : page_cache_t)
    (h1 : ∀ t, modified_last_of c1.txns t = modified_last_of c.txns t)
    (h2 : c1.last_modifier_ = c.last_modifier_) (h : last_modifier_inv c) :
    last_modifier_inv c1 := by
  intro b t hb
  rw [h1]
  apply h
  rw [← get_last_modifier_congr c c1 h2]
  exact hb

theorem connect_preceder_modified_last (c : page_cache_t) (t p : Nat) :
    (∀ u, modified_last_of (connect_preceder c t p).txns u = modified_last_of c.txns u) ∧
      (connect_preceder c t p).last_modifier_ = c.last_modifier_ := by
  unfold connect_preceder
  split
  · split
    · split
      · refine ⟨fun u => ?_, rfl⟩
        show modified_last_of (List.modify _ p (List.modify _ t c.txns)) u = _
        rw [modified_last_of_modify_frame _
            (fun x : page_txn_t => { x with subseqers_ := x.subseqers_ ++ [t] })
            (fun _ => rfl),
          modified_last_of_modify_frame _
            (fun x : page_txn_t => { x with preceders_ := x.preceders_ ++ [p],
                                            ever_preceders := x.ever_preceders ++ [p] })
            (fun _ => rfl)]
      · exact ⟨fun _ => rfl, rfl⟩
    · exact ⟨fun _ => rfl, rfl⟩
  · exact ⟨fun _ => rfl, rfl⟩

theorem im_waiting_for_flush_last_modifier (c : page_cache_t) (t : Nat) :
    (im_waiting_for_flush c t).last_modifier_ = c.last_modifier_ := by
  unfold im_waiting_for_flush
  split
  · rfl
  · split <;> rfl

theorem flush_notify_subseqer_modified_last (txn : Nat) (c : page_cache_t) (u : Nat) :
    (∀ t, modified_last_of (flush_notify_subseqer txn c u).txns t = modified_last_of c.txns t) ∧
      (flush_notify_subseqer txn c u).last_modifier_ = c.last_modifier_ := by
  constructor
  · intro t
    rw [flush_notify_subseqer_txns]
    exact modified_last_of_modify_frame _
      (fun x : page_txn_t => { x with preceders_ := x.preceders_.erase txn }) (fun _ => rfl) u t
  · unfold flush_notify_subseqer
    simp only
    split
    · rfl
    · split
      · rw [im_waiting_for_flush_last_modifier]
        rfl
      · rfl

theorem foldl_notify_modified_last (txn : Nat) (us : List Nat) (c : page_cache_t) :
    (∀ t, modified_last_of (us.foldl (flush_notify_subseqer txn) c).txns t =
        modified_last_of c.txns t) ∧
      (us.foldl (flush_notify_subseqer txn) c).last_modifier_ = c.last_modifier_ := by
  induction us generalizing c with
  | nil => exact ⟨fun _ => rfl, rfl⟩
  | cons u rest ih =>
    simp only [List.foldl_cons]
    obtain ⟨h1, h2⟩ := ih (flush_notify_subseqer txn c u)
    obtain ⟨f1, f2⟩ := flush_notify_subseqer_modified_last txn c u
    exact ⟨fun t => (h1 t).trans (f1 t), h2.trans f2⟩

theorem do_flush_txn_finish_last_modifier_inv (c : page_cache_t) (txn : Nat)
    (h : last_modifier_inv c) : last_modifier_inv (do_flush_txn_finish c txn) := by
  unfold do_flush_txn_finish
  cases htx : c.txns.get? txn with
  | none => exact h
  | some tx =>
    simp only
    have hpml : modified_last_of c.txns txn = tx.pages_modified_last_ := by
      unfold modified_last_of
      rw [htx]
      rfl
    obtain ⟨n1, n2⟩ := foldl_notify_modified_last txn tx.subseqers_
      { c with txns := c.txns.modify (fun x => { x with subseqers_ := [] }) txn }
    obtain ⟨m1, _, _⟩ := foldl_last_modifier_frame tx.pages_modified_last_
      (tx.subseqers_.foldl (flush_notify_subseqer txn)
        { c with txns := c.txns.modify (fun x => { x with subseqers_ := [] }) txn })
    intro b t hb
    have hb1 : get_last_modifier
        (tx.pages_modified_last_.foldl (fun c b => set_last_modifier c b none)
          (tx.subseqers_.foldl (flush_notify_subseqer txn)
            { c with txns := c.txns.modify (fun x => { x with subseqers_ := [] }) txn })) b =
        some t := hb
    rw [foldl_clear_last_modifier] at hb1
    by_cases hmem : b ∈ tx.pages_modified_last_
    · rw [if_pos hmem] at hb1
      cases hb1
    · rw [if_neg hmem, get_last_modifier_congr _ _ n2] at hb1
      have hb2 : get_last_modifier c b = some t := hb1
      have hin := h b t hb2
      have hne : t ≠ txn := by
        intro he
        rw [he, hpml] at hin
        exact hmem hin
      show b ∈ modified_last_of (List.modify _ txn _) t
      rw [modified_last_of_modify _
          (fun x : page_txn_t => { x with pages_modified_last_ := [],
                                          flush_complete_cond_ := true })
          (fun _ => []) (fun _ => rfl) (Or.inr rfl), if_neg hne, m1, n1]
      show b ∈ modified_last_of (List.modify _ txn c.txns) t
      rw [modified_last_of_modify_frame _
          (fun x : page_txn_t => { x with subseqers_ := [] }) (fun _ => rfl)]
      exact hin

theorem announce_last_modifier_inv (c : page_cache_t) (t : Nat) (h : last_modifier_inv c) :
    last_modifier_inv (announce_waiting_for_flush_if_we_should c t) := by
  unfold announce_waiting_for_flush_if_we_should
  split
  · exact h
  · split
    · refine last_modifier_inv_frame c _ (fun u => ?_) ?_ h
      · rw [im_waiting_for_flush_txns]
        exact modified_last_of_modify_frame _
          (fun x : page_txn_t => { x with began_waiting_for_flush_ := true }) (fun _ => rfl) t u
      · rw [im_waiting_for_flush_last_modifier]
    · exact h

theorem new_page_txn_t_last_modifier_inv (c : page_cache_t) (p : Option Nat)
    (h : last_modifier_inv c) : last_modifier_inv (new_page_txn_t c p) := by
  have h1 : last_modifier_inv { c with txns := c.txns ++ [page_txn_t.fresh] } :=
    last_modifier_inv_frame c _ (fun t => modified_last_of_append_fresh c.txns t) rfl h
  unfold new_page_txn_t
  cases p with
  | none => exact h1
  | some q =>
    obtain ⟨f1, f2⟩ := connect_preceder_modified_last
      { c with txns := c.txns ++ [page_txn_t.fresh] } c.txns.length q
    exact last_modifier_inv_frame _ _ f1 f2 h1

theorem dirty_commit_last_modifier_inv (c1 : page_cache_t) (t b : Nat) (sp : Option Nat)
    (hlt : t < c1.txns.length) (h : last_modifier_inv c1) :
    last_modifier_inv
      (let previous_modifier := get_last_modifier c1 b
       let c2 := set_last_modifier c1 b (some t)
       let txns3 : List page_txn_t := c2.txns.modify
         (fun x => { x with pages_modified_last_ := x.pages_modified_last_ ++ [b] }) t
       let c3 := { c2 with txns := txns3 }
       let c4 :=
         match previous_modifier with
         | none => c3
         | some p =>
           let txns4 : List page_txn_t := c3.txns.modify
             (fun x => { x with pages_modified_last_ := x.pages_modified_last_.erase b }) p
           connect_preceder { c3 with txns := txns4 } t p
       let txns5 : List page_txn_t := c4.txns.modify
         (fun x => { x with snapshotted_dirtied_pages_ :=
                              x.snapshotted_dirtied_pages_ ++
                                [{ block_id := b, ptr := sp,
                                   tstamp := repli_timestamp_t.invalid }] }) t
       { c4 with txns := txns5 }) := by
  have h3 : ∀ u, modified_last_of (c1.txns.modify
      (fun x => { x with pages_modified_last_ := x.pages_modified_last_ ++ [b] }) t) u =
      if u = t then modified_last_of c1.txns u ++ [b] else modified_last_of c1.txns u :=
    fun u => modified_last_of_modify c1.txns
      (fun x : page_txn_t => { x with pages_modified_last_ := x.pages_modified_last_ ++ [b] })
      (fun l => l ++ [b]) (fun _ => rfl) (Or.inl hlt) u
  simp only
  cases hprev : get_last_modifier c1 b with
  | none =>
    simp only
    intro b1 u hb
    have hb1 : get_last_modifier (set_last_modifier c1 b (some t)) b1 = some u := hb
    rw [get_last_modifier_set] at hb1
    show b1 ∈ modified_last_of (List.modify _ t (List.modify _ t c1.txns)) u
    rw [modified_last_of_modify_frame _
        (fun x : page_txn_t => { x with snapshotted_dirtied_pages_ :=
          x.snapshotted_dirtied_pages_ ++
            [{ block_id := b, ptr := sp, tstamp := repli_timestamp_t.invalid }] })
        (fun _ => rfl), h3]
    by_cases hbb : b1 = b
    · rw [if_pos hbb] at hb1
      cases hb1
      rw [if_pos rfl, hbb]
      exact List.mem_append_right _ (List.mem_singleton_self b)
    · rw [if_neg hbb] at hb1
      have := h b1 u hb1
      split
      · exact List.mem_append_left _ this
      · exact this
  | some p =>
    simp only
    have key : ∀ (X : page_cache_t) (u : Nat),
        modified_last_of (connect_preceder X t p).txns u = modified_last_of X.txns u :=
      fun X => (connect_preceder_modified_last X t p).1
    have key2 : ∀ X : page_cache_t,
        (connect_preceder X t p).last_modifier_ = X.last_modifier_ :=
      fun X => (connect_preceder_modified_last X t p).2
    intro b1 u hb
    simp only [get_last_modifier] at hb
    rw [key2] at hb
    have hb1 : get_last_modifier (set_last_modifier c1 b (some t)) b1 = some u := hb
    rw [get_last_modifier_set] at hb1
    show b1 ∈ modified_last_of (List.modify _ t _) u
    rw [modified_last_of_modify_frame _
        (fun x : page_txn_t => { x with snapshotted_dirtied_pages_ :=
          x.snapshotted_dirtied_pages_ ++
            [{ block_id := b, ptr := sp, tstamp := repli_timestamp_t.invalid }] })
        (fun _ => rfl), key]
    show b1 ∈ modified_last_of (List.modify _ p (List.modify _ t c1.txns)) u
    rw [modified_last_of_modify _
        (fun x : page_txn_t => { x with pages_modified_last_ := x.pages_modified_last_.erase b })
        (fun l => l.erase b) (fun _ => rfl) (Or.inr rfl), h3]
    by_cases hbb : b1 = b
    · rw [if_pos hbb] at hb1
      cases hb1
      subst hbb
      rw [if_pos rfl]
      split
      · rename_i hup
        have hin := h b1 p hprev
        rw [← hup] at hin
        rw [List.erase_append_left _ hin]
        exact List.mem_append_right _ (List.mem_singleton_self b1)
      · exact List.mem_append_right _ (List.mem_singleton_self b1)
    · rw [if_neg hbb] at hb1
      have hin := h b1 u hb1
      have hin2 : b1 ∈ (if u = t then modified_last_of c1.txns u ++ [b]
          else modified_last_of c1.txns u) := by
        split
        · exact List.mem_append_left _ hin
        · exact hin
      split
      · exact (List.mem_erase_of_ne hbb).mpr hin2
      · exact hin2

theorem remove_acquirer_last_modifier_inv (c : page_cache_t) (t acq : Nat) (r : Bool)
    (a : alt_access_t) (d : Bool) (b : Nat) (sp : Option Nat) (hlt : t < c.txns.length)
    (h : last_modifier_inv c) :
    last_modifier_inv (page_txn_t.remove_acquirer c t acq r a d b sp) := by
  have hc1 : last_modifier_inv
      { c with txns :=
          c.txns.modify (fun x => { x with live_acqs_ := x.live_acqs_.erase acq }) t } :=
    last_modifier_inv_frame c _ (fun u => modified_last_of_modify_frame _
      (fun x : page_txn_t => { x with live_acqs_ := x.live_acqs_.erase acq })
      (fun _ => rfl) t u) rfl h
  have hlt1 : t < (c.txns.modify
      (fun x => { x with live_acqs_ := x.live_acqs_.erase acq }) t).length := by
    rw [List.length_modify]
    exact hlt
  unfold page_txn_t.remove_acquirer
  simp only
  split
  · split
    · exact dirty_commit_last_modifier_inv _ t b sp hlt1 hc1
    · refine last_modifier_inv_frame
        { c with txns :=
            c.txns.modify (fun x => { x with live_acqs_ := x.live_acqs_.erase acq }) t }
        _ (fun u => ?_) rfl hc1
      exact modified_last_of_modify_frame _
        (fun x : page_txn_t => { x with touched_pages_ :=
          x.touched_pages_ ++ [(b, repli_timestamp_t.invalid)] }) (fun _ => rfl) t u
  · exact hc1

theorem last_modifier_inv_apply (c : page_cache_t) (op : TxnOp) (hen : op.enabled c = true)
    (h : last_modifier_inv c) : last_modifier_inv (op.apply c) := by
  cases op with
  | new_txn p => exact new_page_txn_t_last_modifier_inv c p h
  | add_acquirer t acq =>
    refine last_modifier_inv_frame c _ (fun u => ?_) rfl h
    exact modified_last_of_modify_frame _
      (fun x : page_txn_t => { x with live_acqs_ := x.live_acqs_ ++ [acq] }) (fun _ => rfl) t u
  | remove_acquirer t acq r a d b sp =>
    have hlt : t < c.txns.length := by
      simp only [TxnOp.enabled] at hen
      cases hg : c.txns.get? t with
      | none => rw [hg] at hen; cases hen
      | some tx =>
        rw [List.get?_eq_getElem?] at hg
        exact (List.getElem?_eq_some_iff.1 hg).1
    exact remove_acquirer_last_modifier_inv c t acq r a d b sp hlt h
  | destroy_txn t => exact announce_last_modifier_inv c t h
  | flush_start t => exact last_modifier_inv_frame c _ (fun _ => rfl) rfl h
  | flush_finish t => exact do_flush_txn_finish_last_modifier_inv c t h

theorem reachable_last_modifier_inv (ok : page_cache_t → TxnOp → Bool) (c : page_cache_t)
    (h : TxnReachableBy ok c) : last_modifier_inv c := by
  induction h with
  | init =>
    intro b t hb
    simp [get_last_modifier, page_cache_t.init] at hb
  | step c op _ hen _ ih => exact last_modifier_inv_apply c op hen ih

/-- C27: in every reachable state of the cache, if transaction `t` is the last
modifier of block `b`, then the destruction of a further write acquirer of `t`
that dirtied `b` fails the assertion of `page_txn_t::remove_acquirer` that the
current page is not yet in `pages_modified_last_` of this transaction. -/
theorem last_modifier_assert_fails_on_second_dirty (c : page_cache_t) (h : TxnReachable c)
    (t acq : Nat) (b : block_id_t) (sp : Option Nat)
    (hm : get_last_modifier c b = some t) :
    (TxnOp.remove_acquirer t acq true alt_access_t.write true b sp).asserts_hold c = false := by
  have hin := reachable_last_modifier_inv _ c h b t hm
  simp only [TxnOp.asserts_hold]
  cases hg : c.txns.get? t with
  | none => simp
  | some tx =>
    have hmem : b ∈ tx.pages_modified_last_ := by
      unfold modified_last_of at hin
      rw [hg] at hin
      exact hin
    simp [hmem]

/-- A transaction dirties block 10 through two successive write acquirers
(`trace_dirty_twice`). Every event is enabled and the assertions hold up to the
destruction of the second acquirer; there the transaction is the last modifier
of the block and the assertion fails. A build without assertions continues: the
transaction becomes its own preceder and subseqer, and when its destructor
announces that it waits for the flush no flush is spawned. -/
theorem last_modifier_assert_fails_on_second_dirty_witness :
    (txn_run page_cache_t.init trace_dirty_twice).isSome = true ∧
    txn_run_asserts_hold page_cache_t.init trace_dirty_twice.dropLast = true ∧
    get_last_modifier (txn_run_from page_cache_t.init trace_dirty_twice.dropLast) 10 = some 0 ∧
    (TxnOp.remove_acquirer 0 101 true alt_access_t.write true 10 (some 0)).asserts_hold
        (txn_run_from page_cache_t.init trace_dirty_twice.dropLast) = false ∧
    preceders_of (txn_run_from page_cache_t.init trace_dirty_twice).txns 0 = [0] ∧
    subseqers_of (txn_run_from page_cache_t.init trace_dirty_twice).txns 0 = [0] ∧
    (txn_run page_cache_t.init (trace_dirty_twice ++ [TxnOp.destroy_txn 0])).map
        (fun c => (c.spawned_, c.flushing_)) = some ([], []) :=
  ⟨by decide, by decide, by decide,
   last_modifier_assert_fails_on_second_dirty
     (txn_run_from page_cache_t.init trace_dirty_twice.dropLast)
     (txn_reachable_run page_cache_t.init trace_dirty_twice.dropLast TxnReachableBy.init _ rfl)
     0 101 10 (some 0) (by decide),
   by decide, by decide, by decide⟩

/-! ## Size accounting of the eviction bags -/

theorem ser_buf_size_of_eq (l : List page_t) (q : Nat) :
    ser_buf_size_of l q = (page_at l q).ser_buf_size_ := by
  unfold ser_buf_size_of page_at
  rw [List.getD_eq_getElem?_getD, List.get?_eq_getElem?]
  cases l[q]? <;> rfl

theorem ser_buf_size_of_modify (l : List page_t) (f : page_t → page_t) (p q : Nat)
    (hf : ∀ x, (f x).ser_buf_size_ = x.ser_buf_size_) :
    ser_buf_size_of (l.modify f p) q = ser_buf_size_of l q := by
  rw [ser_buf_size_of_eq, ser_buf_size_of_eq, page_at_modify]
  split
  · rename_i hq
    rw [hf, hq.1]
  · rfl

theorem uint64_add (S sz : Nat) : (S % UINT64 + sz) % UINT64 = (S + sz) % UINT64 := by
  rw [Nat.mod_add_mod]

theorem uint64_sub (S S1 sz : Nat) (h : S1 + sz = S) :
    (S % UINT64 + (UINT64 - sz % UINT64)) % UINT64 = S1 % UINT64 := by
  unfold UINT64
  omega

theorem sum_sizes_erase (ps : List page_t) (l : List Nat) (p : Nat) (hp : p ∈ l) :
    ((l.erase p).map (ser_buf_size_of ps)).sum + ser_buf_size_of ps p =
      (l.map (ser_buf_size_of ps)).sum := by
  rw [Nat.add_comm]
  exact List.sum_map_erase (ser_buf_size_of ps) hp

theorem sum_sizes_append (ps : List page_t) (l : List Nat) (p : Nat) :
    ((l ++ [p]).map (ser_buf_size_of ps)).sum =
      (l.map (ser_buf_size_of ps)).sum + ser_buf_size_of ps p := by
  simp

theorem sum_sizes_congr (ps ps1 : List page_t) (l : List Nat)
    (h : ∀ q ∈ l, ser_buf_size_of ps1 q = ser_buf_size_of ps q) :
    (l.map (ser_buf_size_of ps1)).sum = (l.map (ser_buf_size_of ps)).sum := by
  rw [List.map_congr_left h]

theorem sum_sizes_update (ps ps1 : List page_t) (l : List Nat) (p : Nat)
    (hz : ser_buf_size_of ps p = 0)
    (h : ∀ q, q ≠ p → ser_buf_size_of ps1 q = ser_buf_size_of ps q) :
    (l.map (ser_buf_size_of ps1)).sum =
      (l.map (ser_buf_size_of ps)).sum + l.count p * ser_buf_size_of ps1 p := by
  induction l with
  | nil => simp
  | cons a l ih =>
    simp only [List.map_cons, List.sum_cons, ih, List.count_cons]
    by_cases ha : a = p
    · subst ha
      simp [hz, Nat.add_mul]
      omega
    · have ha2 : (a == p) = false := by simpa using ha
      rw [h a ha, ha2]
      simp
      omega

theorem bag_size_sum_with_pages (e : evicter_t) (ps : List page_t) (n : bag_name)
    (h : ∀ q ∈ (e.bag n).bag_, ser_buf_size_of ps q = ser_buf_size_of e.pages q) :
    bag_size_sum ({ e with pages := ps } : evicter_t) n = bag_size_sum e n := by
  unfold bag_size_sum
  rw [bag_with_pages]
  exact sum_sizes_congr _ _ _ h

theorem bag_sizes_ok_with_pages (e : evicter_t) (ps : List page_t)
    (h : ∀ q, ser_buf_size_of ps q = ser_buf_size_of e.pages q) (hs : bag_sizes_ok e) :
    bag_sizes_ok ({ e with pages := ps } : evicter_t) := by
  intro n
  rw [bag_size_sum_with_pages e ps n (fun q _ => h q), bag_with_pages]
  exact hs n

theorem bag_sizes_ok_change (e : evicter_t) (cur : bag_name) (p : Nat)
    (hs : bag_sizes_ok e) (hm : p ∈ (e.bag cur).bag_) :
    bag_sizes_ok (e.change_eviction_bag cur p) := by
  have herase := sum_sizes_erase e.pages (e.bag cur).bag_ p hm
  intro n
  unfold evicter_t.change_eviction_bag bag_size_sum
  simp only [pages_set_bag, bag_set_bag]
  by_cases hn : n = correct_eviction_category (page_at e.pages p)
  · rw [if_pos hn]
    by_cases hc : correct_eviction_category (page_at e.pages p) = cur
    · rw [if_pos hc]
      show (((e.bag cur).size_ + (UINT64 - ser_buf_size_of e.pages p % UINT64)) % UINT64 +
          ser_buf_size_of e.pages p) % UINT64 =
        (((e.bag cur).bag_.erase p ++ [p]).map (ser_buf_size_of e.pages)).sum % UINT64
      rw [sum_sizes_append, hs cur]
      unfold bag_size_sum
      rw [uint64_sub _ _ _ herase, uint64_add]
    · rw [if_neg hc]
      show ((e.bag (correct_eviction_category (page_at e.pages p))).size_ +
          ser_buf_size_of e.pages p) % UINT64 =
        (((e.bag (correct_eviction_category (page_at e.pages p))).bag_ ++ [p]).map
          (ser_buf_size_of e.pages)).sum % UINT64
      rw [sum_sizes_append, hs _]
      unfold bag_size_sum
      rw [uint64_add]
  · rw [if_neg hn]
    by_cases hc : n = cur
    · rw [if_pos hc]
      show ((e.bag cur).size_ + (UINT64 - ser_buf_size_of e.pages p % UINT64)) % UINT64 =
        (((e.bag cur).bag_.erase p).map (ser_buf_size_of e.pages)).sum % UINT64
      rw [hs cur]
      unfold bag_size_sum
      exact uint64_sub _ _ _ herase
    · rw [if_neg hc]
      exact hs n

theorem bag_sizes_ok_remove_page (e : evicter_t) (p : Nat) (hs : bag_sizes_ok e)
    (hm : p ∈ (e.bag (correct_eviction_category (page_at e.pages p))).bag_) :
    bag_sizes_ok (e.remove_page p) := by
  have herase := sum_sizes_erase e.pages _ p hm
  intro n
  unfold evicter_t.remove_page bag_size_sum
  simp only [pages_set_bag, bag_set_bag]
  by_cases hn : n = correct_eviction_category (page_at e.pages p)
  · rw [if_pos hn]
    show ((e.bag (correct_eviction_category (page_at e.pages p))).size_ +
        (UINT64 - ser_buf_size_of e.pages p % UINT64)) % UINT64 =
      (((e.bag (correct_eviction_category (page_at e.pages p))).bag_.erase p).map
        (ser_buf_size_of e.pages)).sum % UINT64
    rw [hs _]
    unfold bag_size_sum
    exact uint64_sub _ _ _ herase
  · rw [if_neg hn]
    exact hs n

theorem not_mem_bag_of_not_live (h : page_heap_t) (hinv : bag_inv h) (p : Nat)
    (hl : ¬ h.live p = true) (n : bag_name) : p ∉ (h.evicter.bag n).bag_ := by
  have hc := hinv p n
  unfold bag_count at hc
  rw [if_neg (fun hh => hl hh.1)] at hc
  exact List.count_eq_zero.1 hc

theorem size_inv_modify (h h1 : page_heap_t) (p : Nat) (f : page_t → page_t)
    (hs : size_inv h) (hf : ∀ x, (f x).ser_buf_size_ = x.ser_buf_size_)
    (hev : h1.evicter = ({ h.evicter with pages := h.evicter.pages.modify f p } : evicter_t))
    (hlo : h1.loaders_ = h.loaders_) : size_inv h1 := by
  constructor
  · rw [hev]
    exact bag_sizes_ok_with_pages _ _ (fun q => ser_buf_size_of_modify _ f p q hf) hs.1
  · intro q l hlk
    rw [hev]
    show ser_buf_size_of (h.evicter.pages.modify f p) q = 0
    rw [ser_buf_size_of_modify _ f p q hf]
    exact hs.2 q l (hlo ▸ hlk)

theorem size_inv_change (h h1 : page_heap_t) (p : Nat) (f : page_t → page_t) (cur : bag_name)
    (hinv : bag_inv h) (hl : h.live p = true) (hs : size_inv h)
    (hf : ∀ x, (f x).ser_buf_size_ = x.ser_buf_size_)
    (hcur : cur = correct_eviction_category (page_at h.evicter.pages p))
    (hev : h1.evicter =
      ({ h.evicter with pages := h.evicter.pages.modify f p } : evicter_t).change_eviction_bag
        cur p)
    (hlo : h1.loaders_ = h.loaders_) : size_inv h1 := by
  have hfr : ∀ q, ser_buf_size_of (h.evicter.pages.modify f p) q =
      ser_buf_size_of h.evicter.pages q := fun q => ser_buf_size_of_modify _ f p q hf
  constructor
  · rw [hev]
    refine bag_sizes_ok_change _ _ p (bag_sizes_ok_with_pages _ _ hfr hs.1) ?_
    rw [bag_with_pages]
    exact (mem_bag_iff_of_inv h hinv p hl _).2 hcur
  · intro q l hlk
    rw [hev, change_eviction_bag_pages]
    show ser_buf_size_of (h.evicter.pages.modify f p) q = 0
    rw [hfr]
    exact hs.2 q l (hlo ▸ hlk)

theorem size_inv_add_waiter (h : page_heap_t) (page acq : Nat) (hinv : bag_inv h)
    (hl : h.live page = true) (hs : size_inv h) : size_inv (add_waiter h page acq) := by
  obtain ⟨hev, _, hlo⟩ := add_waiter_fields h page acq
  exact size_inv_change h _ page
    (fun pg : page_t => { pg with waiters_ := pg.waiters_ ++ [acq] }) _ hinv hl hs
    (fun _ => rfl) rfl hev hlo

theorem size_inv_remove_waiter (h : page_heap_t) (page acq : Nat) (hinv : bag_inv h)
    (hl : h.live page = true) (hs : size_inv h) :
    size_inv (page_acq_t_destroy h page acq) :=
  size_inv_change h _ page
    (fun pg : page_t => { pg with waiters_ := pg.waiters_.erase acq }) _ hinv hl hs
    (fun _ => rfl) rfl rfl rfl

theorem size_inv_get_buf_write (h : page_heap_t) (page : Nat) (hs : size_inv h) :
    size_inv (get_buf_write h page).2 :=
  size_inv_modify h _ page (fun pg : page_t => { pg with block_token_ := none }) hs
    (fun _ => rfl) rfl rfl

theorem size_inv_destroy (h : page_heap_t) (page : Nat) (hinv : bag_inv h)
    (hl : h.live page = true) (hs : size_inv h) : size_inv (page_t_destroy h page) := by
  constructor
  · exact bag_sizes_ok_remove_page _ page hs.1 ((mem_bag_iff_of_inv h hinv page hl _).2 rfl)
  · intro q l hlk
    show ser_buf_size_of (evicter_t.remove_page _ page).pages q = 0
    unfold evicter_t.remove_page
    simp only [pages_set_bag]
    exact hs.2 q l hlk

theorem bag_sizes_ok_load (e : evicter_t) (p sz : Nat) (f : page_t → page_t)
    (hs : bag_sizes_ok e) (hz : ser_buf_size_of e.pages p = 0) (hlt : p < e.pages.length)
    (hf : ∀ x, (f x).ser_buf_size_ = sz)
    (hc : ∀ n, (e.bag n).bag_.count p = if n = bag_name.unevictable then 1 else 0) :
    bag_sizes_ok
      (({ e with pages := e.pages.modify f p } : evicter_t).add_now_loaded_size sz) := by
  have hp : ser_buf_size_of (e.pages.modify f p) p = sz := by
    rw [ser_buf_size_of_eq, page_at_modify, if_pos ⟨rfl, hlt⟩, hf]
  have hq : ∀ q, q ≠ p → ser_buf_size_of (e.pages.modify f p) q = ser_buf_size_of e.pages q := by
    intro q hne
    rw [ser_buf_size_of_eq, ser_buf_size_of_eq, page_at_modify, if_neg (fun hh => hne hh.1)]
  have hsum : ∀ n, (((e.bag n).bag_).map (ser_buf_size_of (e.pages.modify f p))).sum =
      bag_size_sum e n + (if n = bag_name.unevictable then sz else 0) := by
    intro n
    rw [sum_sizes_update e.pages _ _ p hz hq, hp, hc]
    unfold bag_size_sum
    split <;> simp
  intro n
  cases n
  · show (e.unevictable_.size_ + sz) % UINT64 =
      ((e.unevictable_.bag_).map (ser_buf_size_of (e.pages.modify f p))).sum % UINT64
    have h1 := hsum bag_name.unevictable
    have h2 := hs bag_name.unevictable
    simp only [evicter_t.bag, if_true] at h1 h2
    rw [h1, h2, uint64_add]
  · show e.evictable_disk_backed_.size_ =
      ((e.evictable_disk_backed_.bag_).map (ser_buf_size_of (e.pages.modify f p))).sum % UINT64
    have h1 := hsum bag_name.evictable_disk_backed
    have h2 := hs bag_name.evictable_disk_backed
    simp only [evicter_t.bag] at h1 h2
    rw [h1, h2]
    simp
  · show e.evictable_unbacked_.size_ =
      ((e.evictable_unbacked_.bag_).map (ser_buf_size_of (e.pages.modify f p))).sum % UINT64
    have h1 := hsum bag_name.evictable_unbacked
    have h2 := hs bag_name.evictable_unbacked
    simp only [evicter_t.bag] at h1 h2
    rw [h1, h2]
    simp
  · show e.evicted_.size_ =
      ((e.evicted_.bag_).map (ser_buf_size_of (e.pages.modify f p))).sum % UINT64
    have h1 := hsum bag_name.evicted
    have h2 := hs bag_name.evicted
    simp only [evicter_t.bag] at h1 h2
    rw [h1, h2]
    simp

theorem size_inv_pulse_waiters (h : page_heap_t) (page sz : Nat) (g : page_t → page_t)
    (hinv : bag_inv h) (hl : h.live page = true)
    (hd : (page_at h.evicter.pages page).destroy_ptr_ = true)
    (hs : size_inv h) (hz : ser_buf_size_of h.evicter.pages page = 0)
    (hg : ∀ x, (g x).ser_buf_size_ = sz) (hno : h.loaders_.lookup page = none) :
    size_inv (pulse_waiters_or_make_evictable (h.modify_page page g) page) := by
  have hlt := live_lt h page hl
  have hcat := category_of_destroy_ptr _ hd
  have hp : ser_buf_size_of (h.evicter.pages.modify g page) page = sz := by
    rw [ser_buf_size_of_eq, page_at_modify, if_pos ⟨rfl, hlt⟩, hg]
  have hq : ∀ q, q ≠ page →
      ser_buf_size_of (h.evicter.pages.modify g page) q = ser_buf_size_of h.evicter.pages q := by
    intro q hne
    rw [ser_buf_size_of_eq, ser_buf_size_of_eq, page_at_modify, if_neg (fun hh => hne hh.1)]
  have hc : ∀ n, (h.evicter.bag n).bag_.count page =
      if n = bag_name.unevictable then 1 else 0 := by
    intro n
    have := hinv page n
    unfold bag_count at this
    rw [this, hcat]
    by_cases hn : n = bag_name.unevictable
    · simp [hn, hl]
    · simp [hn]
  have hload := bag_sizes_ok_load h.evicter page sz g hs.1 hz hlt hg hc
  have hlo : ∀ q l, h.loaders_.lookup q = some l →
      ser_buf_size_of (h.evicter.pages.modify g page) q = 0 := by
    intro q l hlk
    have hne : q ≠ page := by
      intro he
      rw [he, hno] at hlk
      cases hlk
    rw [hq q hne]
    exact hs.2 q l hlk
  have hfun : pulse_waiters_or_make_evictable (h.modify_page page g) page =
      if (page_at (h.evicter.pages.modify g page) page).waiters_.isEmpty = true then
        { h.modify_page page g with
          evicter := (evicter_t.add_now_loaded_size
            ({ h.evicter with pages := h.evicter.pages.modify g page } : evicter_t)
            (ser_buf_size_of (h.evicter.pages.modify g page) page)).move_unevictable_to_evictable
              page }
      else
        { h.modify_page page g with
          evicter := evicter_t.add_now_loaded_size
            ({ h.evicter with pages := h.evicter.pages.modify g page } : evicter_t)
            (ser_buf_size_of (h.evicter.pages.modify g page) page),
          pulsed_ := h.pulsed_ ++ (page_at (h.evicter.pages.modify g page) page).waiters_ } := rfl
  rw [hfun, hp]
  split
  · constructor
    · show bag_sizes_ok (evicter_t.move_unevictable_to_evictable _ page)
      rw [move_unevictable_eq_change]
      refine bag_sizes_ok_change _ _ page hload ?_
      show page ∈ h.evicter.unevictable_.bag_
      have := hc bag_name.unevictable
      simp only [evicter_t.bag, if_true] at this
      exact List.count_pos_iff.1 (by omega)
    · intro q l hlk
      show ser_buf_size_of (evicter_t.move_unevictable_to_evictable _ page).pages q = 0
      rw [move_unevictable_eq_change, change_eviction_bag_pages]
      exact hlo q l hlk
  · exact ⟨hload, fun q l hlk => hlo q l hlk⟩

theorem ser_buf_size_of_append (l : List page_t) (pg : page_t) (q : Nat)
    (hq : q ≠ l.length ∨ pg.ser_buf_size_ = 0) :
    ser_buf_size_of (l ++ [pg]) q = ser_buf_size_of l q := by
  rw [ser_buf_size_of_eq, ser_buf_size_of_eq]
  by_cases hlt : q < l.length
  · rw [page_at_append_left _ _ _ hlt]
  · by_cases he : q = l.length
    · subst he
      rw [page_at_append_length]
      rcases hq with hq | hq
      · exact absurd rfl hq
      · rw [hq]
        unfold page_at
        rw [List.getD_eq_getElem?_getD, List.getElem?_eq_none (Nat.le_refl _)]
        rfl
    · have hgt : l.length + 1 ≤ q := by omega
      unfold page_at
      rw [List.getD_eq_getElem?_getD, List.getD_eq_getElem?_getD,
        List.getElem?_eq_none (by rw [List.length_append, List.length_singleton]; exact hgt),
        List.getElem?_eq_none (by omega)]

theorem size_inv_new_page_not_yet_loaded (h : page_heap_t) (hs : size_inv h) :
    size_inv (new_page_not_yet_loaded h) ∧
      ser_buf_size_of (new_page_not_yet_loaded h).evicter.pages h.evicter.pages.length = 0 := by
  obtain ⟨hp, _, hlo, _, _⟩ := new_page_not_yet_loaded_fields h
  have hfr : ∀ q, ser_buf_size_of (new_page_not_yet_loaded h).evicter.pages q =
      ser_buf_size_of h.evicter.pages q := by
    intro q
    rw [hp]
    exact ser_buf_size_of_append _ _ q (Or.inr rfl)
  refine ⟨⟨?_, ?_⟩, ?_⟩
  · intro n
    unfold bag_size_sum
    rw [sum_sizes_congr h.evicter.pages _ _ (fun q _ => hfr q)]
    cases n
    · show h.evicter.unevictable_.size_ =
        ((h.evicter.unevictable_.bag_ ++ [h.evicter.pages.length]).map
          (ser_buf_size_of h.evicter.pages)).sum % UINT64
      rw [sum_sizes_append]
      have hz : ser_buf_size_of h.evicter.pages h.evicter.pages.length = 0 := by
        unfold ser_buf_size_of
        rw [List.get?_eq_none.2 (Nat.le_refl _)]
      rw [hz, Nat.add_zero]
      exact hs.1 bag_name.unevictable
    · exact hs.1 bag_name.evictable_disk_backed
    · exact hs.1 bag_name.evictable_unbacked
    · exact hs.1 bag_name.evicted
  · intro q l hlk
    rw [hfr]
    exact hs.2 q l (hlo ▸ hlk)
  · rw [hp, ser_buf_size_of_eq, page_at_append_length]
    rfl

theorem lookup_append_singleton (l : List (Nat × page_loader_t)) (p : Nat) (x : page_loader_t)
    (q : Nat) (y : page_loader_t) (h : (l ++ [(p, x)]).lookup q = some y) :
    (∃ z, l.lookup q = some z) ∨ q = p := by
  induction l with
  | nil =>
    right
    rw [List.nil_append, List.lookup_cons] at h
    by_cases hq : q = p
    · exact hq
    · have hb : (q == p) = false := by simpa using hq
      simp only [hb] at h
      cases h
  | cons a l ih =>
    obtain ⟨k, v⟩ := a
    rw [List.cons_append, List.lookup_cons] at h
    rw [List.lookup_cons]
    by_cases hq : q = k
    · subst hq
      simp only [beq_self_eq_true]
      exact Or.inl ⟨_, rfl⟩
    · have hb : (q == k) = false := by simpa using hq
      simp only [hb] at h ⊢
      exact ih h

theorem size_inv_add_loader (h : page_heap_t) (p : Nat) (x : page_loader_t) (hs : size_inv h)
    (hz : ser_buf_size_of h.evicter.pages p = 0) :
    size_inv { h with loaders_ := h.loaders_ ++ [(p, x)] } := by
  refine ⟨hs.1, ?_⟩
  intro q l hlk
  rcases lookup_append_singleton _ _ _ _ _ hlk with ⟨z, hz2⟩ | hq
  · exact hs.2 q z hz2
  · rw [hq]
    exact hz

theorem size_inv_filter (h : page_heap_t) (page : Nat) (hs : size_inv h) :
    size_inv { h with loaders_ := h.loaders_.filter (fun l => !decide (l.1 = page)) } := by
  refine ⟨hs.1, ?_⟩
  intro q l hlk
  have hlk2 : (h.loaders_.filter (fun l => !decide (l.1 = page))).lookup q = some l := hlk
  rw [lookup_filter_ne] at hlk2
  split at hlk2
  · cases hlk2
  · exact hs.2 q l hlk2

theorem size_inv_new_page_with_block_id (h : page_heap_t) (block_id : Nat) (hs : size_inv h) :
    size_inv (new_page_with_block_id h block_id) := by
  obtain ⟨h1, h2⟩ := size_inv_new_page_not_yet_loaded h hs
  exact size_inv_add_loader (new_page_not_yet_loaded h) _ _ h1 h2

theorem size_inv_new_page_with_buf (h : page_heap_t) (block_size buf : Nat)
    (hinv : bag_inv h ∧ loader_inv h) (hs : size_inv h) :
    size_inv (new_page_with_buf h block_size buf) := by
  have hnl : ¬ h.live h.evicter.pages.length = true := by
    simp [page_heap_t.live]
  have hfr : ∀ n, ∀ q ∈ (h.evicter.bag n).bag_,
      ser_buf_size_of (h.evicter.pages ++
        [{ page_t.unloaded with ser_buf_size_ := block_size, buf_ := some buf }]) q =
      ser_buf_size_of h.evicter.pages q := by
    intro n q hq
    refine ser_buf_size_of_append _ _ q (Or.inl ?_)
    intro he
    rw [he] at hq
    exact not_mem_bag_of_not_live h hinv.1 _ hnl n hq
  have hnew : ser_buf_size_of (h.evicter.pages ++
      [{ page_t.unloaded with ser_buf_size_ := block_size, buf_ := some buf }])
      h.evicter.pages.length = block_size := by
    rw [ser_buf_size_of_eq, page_at_append_length]
  have key : ∀ n, (h.evicter.bag n).size_ =
      ((h.evicter.bag n).bag_.map (ser_buf_size_of (h.evicter.pages ++
        [{ page_t.unloaded with ser_buf_size_ := block_size, buf_ := some buf }]))).sum
        % UINT64 := by
    intro n
    rw [sum_sizes_congr h.evicter.pages _ _ (hfr n)]
    exact hs.1 n
  constructor
  · intro n
    cases n
    · exact key bag_name.unevictable
    · exact key bag_name.evictable_disk_backed
    · show (h.evicter.evictable_unbacked_.size_ + ser_buf_size_of (h.evicter.pages ++
          [{ page_t.unloaded with ser_buf_size_ := block_size, buf_ := some buf }])
          h.evicter.pages.length) % UINT64 =
        ((h.evicter.evictable_unbacked_.bag_ ++ [h.evicter.pages.length]).map
          (ser_buf_size_of (h.evicter.pages ++
            [{ page_t.unloaded with ser_buf_size_ := block_size, buf_ := some buf }]))).sum
          % UINT64
      have k := key bag_name.evictable_unbacked
      simp only [evicter_t.bag] at k
      rw [sum_sizes_append, k, uint64_add]
    · exact key bag_name.evicted
  · intro q l hlk
    have hlt : q < h.evicter.pages.length := hinv.2.2.1 _ (lookup_mem _ _ _ hlk)
    show ser_buf_size_of (h.evicter.pages ++ _) q = 0
    rw [ser_buf_size_of_append _ _ q (Or.inl (Nat.ne_of_lt hlt))]
    exact hs.2 q l hlk

theorem size_inv_load_with_block_id_finish (h : page_heap_t) (page buf tok sz : Nat)
    (hinv : bag_inv h) (hlt : page < h.evicter.pages.length)
    (hd : h.live page = true → (page_at h.evicter.pages page).destroy_ptr_ = true)
    (hs : size_inv h) (hz : ser_buf_size_of h.evicter.pages page = 0)
    (hno : h.loaders_.lookup page = none) :
    size_inv (load_with_block_id_finish h page buf tok sz) := by
  unfold load_with_block_id_finish
  split
  · exact hs
  · rename_i hnd
    have hl : h.live page = true := by
      simp only [decide_eq_true_eq] at hnd
      simp [page_heap_t.live, hlt, hnd]
    exact size_inv_pulse_waiters h page sz _ hinv hl (hd hl) hs hz (fun _ => rfl) hno

theorem size_inv_load_from_copyee_finish (h : page_heap_t) (page copyee acq buf : Nat)
    (hinv : bag_inv h ∧ loader_inv h) (hc : h.live copyee = true)
    (hlt : page < h.evicter.pages.length) (hno : h.loaders_.lookup page = none)
    (hd : h.live page = true → (page_at h.evicter.pages page).destroy_ptr_ = true)
    (hs : size_inv h) (hz : ser_buf_size_of h.evicter.pages page = 0) :
    size_inv (load_from_copyee_finish h page copyee acq buf) := by
  unfold load_from_copyee_finish
  simp only
  split
  · exact size_inv_remove_waiter h copyee acq hinv.1 hc hs
  · rename_i hnd
    have hl : h.live page = true := by
      simp only [decide_eq_true_eq] at hnd
      simp [page_heap_t.live, hlt, hnd]
    refine size_inv_remove_waiter _ copyee acq
      (inv_pulse_waiters h page _ hinv hl (hd hl) (Or.inl hno)).1 ?_
      (size_inv_pulse_waiters h page _ _ hinv.1 hl (hd hl) hs hz (fun _ => rfl) hno)
    rw [pulse_waiters_live, modify_page_live]
    exact hc

theorem size_inv_new_page_with_copyee (h : page_heap_t) (copyee acq buf : Nat)
    (hinv : bag_inv h ∧ loader_inv h) (hc : h.live copyee = true) (hs : size_inv h) :
    size_inv (new_page_with_copyee h copyee acq buf) := by
  obtain ⟨hp, hd, hlo, _, _⟩ := new_page_not_yet_loaded_fields h
  have h0 := inv_new_page_not_yet_loaded h hinv
  have hc0 := live_new_page_not_yet_loaded h copyee hc
  have h1 := inv_add_waiter _ copyee acq h0 hc0
  obtain ⟨hev1, hdel1, hlo1⟩ := add_waiter_fields (new_page_not_yet_loaded h) copyee acq
  have hne : h.evicter.pages.length ≠ copyee := Nat.ne_of_gt (live_lt h copyee hc)
  have hlen1 : h.evicter.pages.length <
      (add_waiter (new_page_not_yet_loaded h) copyee acq).evicter.pages.length := by
    rw [hev1, change_eviction_bag_pages]
    show _ < (List.modify _ copyee _).length
    rw [List.length_modify, hp, List.length_append, List.length_singleton]
    exact Nat.lt_succ_self _
  have hdp : (page_at (add_waiter (new_page_not_yet_loaded h) copyee acq).evicter.pages
      h.evicter.pages.length).destroy_ptr_ = true := by
    rw [add_waiter_page_at _ _ _ _ hne, hp, page_at_append_length]
  have hno : (add_waiter (new_page_not_yet_loaded h) copyee acq).loaders_.lookup
      h.evicter.pages.length = none := by
    rw [hlo1, hlo]
    exact lookup_length_none h hinv.2
  obtain ⟨hs0, hz0⟩ := size_inv_new_page_not_yet_loaded h hs
  have hs1 := size_inv_add_waiter _ copyee acq h0.1 hc0 hs0
  have hz1 : ser_buf_size_of (add_waiter (new_page_not_yet_loaded h) copyee acq).evicter.pages
      h.evicter.pages.length = 0 := by
    rw [ser_buf_size_of_eq, add_waiter_page_at _ _ _ _ hne, ← ser_buf_size_of_eq]
    exact hz0
  unfold new_page_with_copyee
  simp only
  split
  · refine size_inv_load_from_copyee_finish _ _ copyee acq buf h1 ?_ hlen1 hno (fun _ => hdp)
      hs1 hz1
    rw [add_waiter_live]
    exact hc0
  · exact size_inv_add_loader _ _ _ hs1 hz1

theorem size_inv_evict_iteration (oldish : List Nat → Nat → Nat) (h : page_heap_t)
    (e1 : evicter_t) (hs : size_inv h) (he : evict_iteration oldish h.evicter = some e1) :
    size_inv { h with evicter := e1 } := by
  obtain ⟨page, hmem, heq⟩ := evict_iteration_eq oldish _ _ he
  subst heq
  have hfr : ∀ q, ser_buf_size_of (h.evicter.pages.modify page_t.evict_self page) q =
      ser_buf_size_of h.evicter.pages q :=
    fun q => ser_buf_size_of_modify _ page_t.evict_self page q (fun _ => rfl)
  have key : ∀ l : List Nat,
      (l.map (ser_buf_size_of (h.evicter.pages.modify page_t.evict_self page))).sum =
        (l.map (ser_buf_size_of h.evicter.pages)).sum :=
    fun l => sum_sizes_congr h.evicter.pages _ l (fun q _ => hfr q)
  have herase := sum_sizes_erase h.evicter.pages _ page hmem
  constructor
  · intro n
    cases n
    · show h.evicter.unevictable_.size_ =
        (h.evicter.unevictable_.bag_.map
          (ser_buf_size_of (h.evicter.pages.modify page_t.evict_self page))).sum % UINT64
      rw [key]
      exact hs.1 bag_name.unevictable
    · show (h.evicter.evictable_disk_backed_.size_ +
          (UINT64 - ser_buf_size_of h.evicter.pages page % UINT64)) % UINT64 =
        ((h.evicter.evictable_disk_backed_.bag_.erase page).map
          (ser_buf_size_of (h.evicter.pages.modify page_t.evict_self page))).sum % UINT64
      have k := hs.1 bag_name.evictable_disk_backed
      simp only [evicter_t.bag, bag_size_sum] at k
      rw [key, k]
      exact uint64_sub _ _ _ herase
    · show h.evicter.evictable_unbacked_.size_ =
        (h.evicter.evictable_unbacked_.bag_.map
          (ser_buf_size_of (h.evicter.pages.modify page_t.evict_self page))).sum % UINT64
      rw [key]
      exact hs.1 bag_name.evictable_unbacked
    · show (h.evicter.evicted_.size_ + ser_buf_size_of h.evicter.pages page) % UINT64 =
        ((h.evicter.evicted_.bag_ ++ [page]).map
          (ser_buf_size_of (h.evicter.pages.modify page_t.evict_self page))).sum % UINT64
      have k := hs.1 bag_name.evicted
      simp only [evicter_t.bag, bag_size_sum] at k
      rw [key, sum_sizes_append, k, uint64_add]
  · intro q l hlk
    show ser_buf_size_of (h.evicter.pages.modify page_t.evict_self page) q = 0
    rw [hfr]
    exact hs.2 q l hlk

theorem size_inv_evict_loop (oldish : List Nat → Nat → Nat) (fuel : Nat) (h : page_heap_t)
    (e2 : evicter_t) (hs : size_inv h) (he : evict_loop oldish fuel h.evicter = some e2) :
    size_inv { h with evicter := e2 } := by
  induction fuel generalizing h with
  | zero =>
    cases hit : evict_iteration oldish h.evicter with
    | none =>
      simp only [evict_loop, hit, Option.some.injEq] at he
      subst he
      exact hs
    | some e1 => simp [evict_loop, hit] at he
  | succ n ih =>
    cases hit : evict_iteration oldish h.evicter with
    | none =>
      simp only [evict_loop, hit, Option.some.injEq] at he
      subst he
      exact hs
    | some e1 =>
      simp only [evict_loop, hit] at he
      exact ih { h with evicter := e1 } (size_inv_evict_iteration oldish h e1 hs hit) he

theorem size_inv_page_op (oldish : List Nat → Nat → Nat) (h : page_heap_t) (op : PageOp)
    (hinv : bag_inv h ∧ loader_inv h) (hs : size_inv h) (hen : op.enabled h = true) :
    size_inv (op.apply oldish h) := by
  cases op with
  | new_page_with_block_id b => exact size_inv_new_page_with_block_id h b hs
  | new_page_with_buf bs buf => exact size_inv_new_page_with_buf h bs buf hinv hs
  | new_page_with_copyee copyee acq buf =>
    simp only [PageOp.enabled, Bool.and_eq_true] at hen
    exact size_inv_new_page_with_copyee h copyee acq buf hinv hen.1 hs
  | load_with_block_id_finish page buf tok sz =>
    simp only [PageOp.enabled] at hen
    split at hen
    · rename_i b hlook
      obtain ⟨_, hno⟩ := loader_inv_filter h
        { h with loaders_ := h.loaders_.filter (fun l => !decide (l.1 = page)) } page
        hinv.2 rfl rfl rfl
      have hlt : page < h.evicter.pages.length := hinv.2.2.1 _ (lookup_mem _ _ _ hlook)
      exact size_inv_load_with_block_id_finish _ page buf tok sz
        (bag_inv_congr h _ hinv.1 rfl rfl) hlt (fun hl => hinv.2.2.2 page _ hlook hl)
        (size_inv_filter h page hs) (hs.2 page _ hlook) hno
    · cases hen
  | load_from_copyee_finish page buf =>
    simp only [PageOp.enabled] at hen
    show size_inv (match h.loaders_.lookup page with
      | some (page_loader_t.load_from_copyee copyee acq) => _
      | _ => h)
    split at hen
    · rename_i copyee acq hlook
      simp only [Bool.and_eq_true] at hen
      obtain ⟨hf, hno⟩ := loader_inv_filter h
        { h with loaders_ := h.loaders_.filter (fun l => !decide (l.1 = page)) } page
        hinv.2 rfl rfl rfl
      have hlt : page < h.evicter.pages.length := hinv.2.2.1 _ (lookup_mem _ _ _ hlook)
      exact size_inv_load_from_copyee_finish _ page copyee acq buf
        ⟨bag_inv_congr h _ hinv.1 rfl rfl, hf⟩ hen.1 hlt hno
        (fun hl => hinv.2.2.2 page _ hlook hl) (size_inv_filter h page hs) (hs.2 page _ hlook)
    · cases hen
  | add_waiter page acq =>
    simp only [PageOp.enabled, Bool.and_eq_true] at hen
    exact size_inv_add_waiter h page acq hinv.1 hen.1 hs
  | remove_waiter page acq =>
    simp only [PageOp.enabled, Bool.and_eq_true] at hen
    exact size_inv_remove_waiter h page acq hinv.1 hen.1.1 hs
  | get_buf_write page acq => exact size_inv_get_buf_write h page hs
  | destroy page =>
    simp only [PageOp.enabled, Bool.and_eq_true] at hen
    exact size_inv_destroy h page hinv.1 hen.1 hs
  | evict_if_necessary =>
    show size_inv (match h.evicter.evict_if_necessary oldish with
      | some e1 => { h with evicter := e1 }
      | none => h)
    cases he : h.evicter.evict_if_necessary oldish with
    | none => exact hs
    | some e1 => exact size_inv_evict_loop oldish _ h e1 hs he

theorem page_reachable_size_inv (oldish : List Nat → Nat → Nat) (h : page_heap_t)
    (hr : PageReachable oldish h) : size_inv h := by
  induction hr with
  | init m =>
    constructor
    · intro n
      cases n <;> rfl
    · intro p l hl
      cases hl
  | step h op hr hen ih =>
    exact size_inv_page_op oldish h op (page_reachable_inv oldish h hr) ih hen

/-- C25: in every reachable state of the cache, the `size_` of each eviction bag
is the sum of `ser_buf_size_` over the pages in the bag, in 64-bit arithmetic;
when that sum is representable in 64 bits, `size_` is the sum itself, and for
every page of the bag the assertion `value <= size_` of `eviction_bag_t::remove`
holds and the subtraction does not wrap around. -/
theorem bag_size_accounting (oldish : List Nat → Nat → Nat) (h : page_heap_t)
    (hr : PageReachable oldish h) (n : bag_name) :
    (h.evicter.bag n).size_ = bag_size_sum h.evicter n % UINT64 ∧
    (bag_size_sum h.evicter n < UINT64 →
      (h.evicter.bag n).size_ = bag_size_sum h.evicter n ∧
      ∀ p ∈ (h.evicter.bag n).bag_,
        eviction_bag_remove_assert h.evicter n p = true ∧
        ((h.evicter.bag n).remove p (ser_buf_size_of h.evicter.pages p)).size_ =
          (h.evicter.bag n).size_ - ser_buf_size_of h.evicter.pages p) := by
  have hs := (page_reachable_size_inv oldish h hr).1 n
  refine ⟨hs, fun hlt => ?_⟩
  have heq : (h.evicter.bag n).size_ = bag_size_sum h.evicter n := by
    rw [hs, Nat.mod_eq_of_lt hlt]
  refine ⟨heq, fun p hp => ?_⟩
  have herase := sum_sizes_erase h.evicter.pages _ p hp
  have hle : ser_buf_size_of h.evicter.pages p ≤ (h.evicter.bag n).size_ := by
    rw [heq]
    unfold bag_size_sum
    omega
  refine ⟨by simp [eviction_bag_remove_assert, hle], ?_⟩
  show ((h.evicter.bag n).size_ + (UINT64 - ser_buf_size_of h.evicter.pages p % UINT64))
    % UINT64 = _
  rw [heq] at hle ⊢
  unfold UINT64 at hlt ⊢
  omega

/-- The cache after all but the last event of `trace_pages_mixed`: the
evictable-unbacked bag holds pages 1 and 0 of 4096 bytes each and has size 8192;
removing page 0 from it passes the assertion and leaves size 4096. -/
theorem bag_size_accounting_witness :
    (page_run_from oldish_first (page_heap_t.init 100000)
        trace_pages_mixed.dropLast).evicter.bag bag_name.evictable_unbacked =
      { bag_ := [1, 0], size_ := 8192 } ∧
    bag_size_sum (page_run_from oldish_first (page_heap_t.init 100000)
        trace_pages_mixed.dropLast).evicter bag_name.evictable_unbacked = 8192 ∧
    eviction_bag_remove_assert (page_run_from oldish_first (page_heap_t.init 100000)
        trace_pages_mixed.dropLast).evicter bag_name.evictable_unbacked 0 = true ∧
    (((page_run_from oldish_first (page_heap_t.init 100000)
        trace_pages_mixed.dropLast).evicter.bag bag_name.evictable_unbacked).remove 0
      (ser_buf_size_of (page_run_from oldish_first (page_heap_t.init 100000)
        trace_pages_mixed.dropLast).evicter.pages 0)).size_ = 4096 := by
  obtain ⟨_, h2⟩ := bag_size_accounting oldish_first
    (page_run_from oldish_first (page_heap_t.init 100000) trace_pages_mixed.dropLast)
    (page_reachable_run oldish_first _ trace_pages_mixed.dropLast (PageReachable.init 100000) _
      (by decide))
    bag_name.evictable_unbacked
  obtain ⟨_, h4⟩ := h2 (by decide)
  obtain ⟨h5, h6⟩ := h4 0 (by decide)
  exact ⟨by decide, by decide, h5, h6⟩

/-! ## Snapshot references and page acquirers -/

theorem heap_frame_refl (h : page_heap_t) (nw : Option (Nat × Nat)) : heap_frame h h nw :=
  ⟨rfl, Nat.le_refl _, fun _ _ ha => Or.inl ha⟩

theorem heap_frame_trans (h h1 h2 : page_heap_t) (nw : Option (Nat × Nat))
    (a : heap_frame h h1 nw) (b : heap_frame h1 h2 nw) : heap_frame h h2 nw := by
  refine ⟨b.1.trans a.1, Nat.le_trans a.2.1 b.2.1, fun q x hx => ?_⟩
  rcases b.2.2 q x hx with h1x | hn
  · exact a.2.2 q x h1x
  · exact Or.inr hn

theorem heap_frame_weaken (h h1 : page_heap_t) (nw : Option (Nat × Nat))
    (a : heap_frame h h1 none) : heap_frame h h1 nw := by
  refine ⟨a.1, a.2.1, fun q x hx => ?_⟩
  rcases a.2.2 q x hx with h1x | hn
  · exact Or.inl h1x
  · cases hn

theorem heap_frame_congr (h h1 h2 : page_heap_t) (nw : Option (Nat × Nat))
    (a : heap_frame h h1 nw) (hev : h2.evicter.pages = h1.evicter.pages)
    (hdel : h2.deleted_ = h1.deleted_) : heap_frame h h2 nw := by
  refine ⟨hdel.trans a.1, by rw [hev]; exact a.2.1, fun q x hx => ?_⟩
  apply a.2.2 q x
  unfold waiters_of at hx ⊢
  rw [← hev]
  exact hx

theorem heap_frame_append (h h1 : page_heap_t) (pg : page_t)
    (hp : h1.evicter.pages = h.evicter.pages ++ [pg]) (hw : pg.waiters_ = [])
    (hdel : h1.deleted_ = h.deleted_) : heap_frame h h1 none := by
  refine ⟨hdel, by rw [hp, List.length_append]; exact Nat.le_add_right _ _, fun q a ha => ?_⟩
  left
  unfold waiters_of at ha ⊢
  rw [hp] at ha
  by_cases hlt : q < h.evicter.pages.length
  · rw [page_at_append_left _ _ _ hlt] at ha
    exact ha
  · by_cases he : q = h.evicter.pages.length
    · subst he
      rw [page_at_append_length, hw] at ha
      cases ha
    · have hgt : (h.evicter.pages ++ [pg]).length ≤ q := by
        rw [List.length_append, List.length_singleton]
        omega
      unfold page_at at ha
      rw [List.getD_eq_getElem?_getD, List.getElem?_eq_none hgt] at ha
      cases ha

theorem heap_frame_modify (h h1 : page_heap_t) (p : Nat) (f : page_t → page_t)
    (nw : Option (Nat × Nat))
    (hp : h1.evicter.pages = h.evicter.pages.modify f p) (hdel : h1.deleted_ = h.deleted_)
    (hf : ∀ x a, a ∈ (f x).waiters_ → a ∈ x.waiters_ ∨ nw = some (p, a)) :
    heap_frame h h1 nw := by
  refine ⟨hdel, by rw [hp, List.length_modify], fun q a ha => ?_⟩
  unfold waiters_of at ha ⊢
  rw [hp, page_at_modify] at ha
  split at ha
  · rename_i hq
    rw [hq.1]
    exact hf _ a ha
  · exact Or.inl ha

theorem heap_frame_add_waiter (h : page_heap_t) (page acq : Nat) :
    heap_frame h (add_waiter h page acq) (some (page, acq)) := by
  obtain ⟨hev, hdel, _⟩ := add_waiter_fields h page acq
  refine heap_frame_modify h _ page
    (fun pg : page_t => { pg with waiters_ := pg.waiters_ ++ [acq] }) _
    (by rw [hev, change_eviction_bag_pages]) hdel ?_
  intro x a ha
  rcases List.mem_append.1 ha with h1 | h1
  · exact Or.inl h1
  · rw [List.mem_singleton.1 h1]
    exact Or.inr rfl

theorem heap_frame_remove_waiter (h : page_heap_t) (page acq : Nat) :
    heap_frame h (page_acq_t_destroy h page acq) none := by
  refine heap_frame_modify h _ page
    (fun pg : page_t => { pg with waiters_ := pg.waiters_.erase acq }) _ ?_ rfl ?_
  · show (evicter_t.change_eviction_bag _ _ page).pages = _
    rw [change_eviction_bag_pages]
    rfl
  · intro x a ha
    exact Or.inl (List.mem_of_mem_erase ha)

theorem heap_frame_pulse_waiters (h : page_heap_t) (page : Nat) (g : page_t → page_t)
    (hg : ∀ x, (g x).waiters_ = x.waiters_) :
    heap_frame h (pulse_waiters_or_make_evictable (h.modify_page page g) page) none := by
  refine heap_frame_modify h _ page g _ ?_ ?_ ?_
  · rw [pulse_waiters_pages]
    rfl
  · unfold pulse_waiters_or_make_evictable
    simp only
    split <;> rfl
  · intro x a ha
    rw [hg] at ha
    exact Or.inl ha

theorem heap_frame_load_with_block_id_finish (h : page_heap_t) (page buf tok sz : Nat) :
    heap_frame h (load_with_block_id_finish h page buf tok sz) none := by
  unfold load_with_block_id_finish
  split
  · exact heap_frame_refl h none
  · exact heap_frame_pulse_waiters h page
      (fun pg : page_t =>
        { pg with ser_buf_size_ := sz, buf_ := some buf, block_token_ := some tok })
      (fun _ => rfl)

theorem heap_frame_load_from_copyee_finish (h : page_heap_t) (page copyee acq buf : Nat) :
    heap_frame h (load_from_copyee_finish h page copyee acq buf) none := by
  unfold load_from_copyee_finish
  simp only
  split
  · exact heap_frame_remove_waiter h copyee acq
  · exact heap_frame_trans _ _ _ none
      (heap_frame_pulse_waiters h page
        (fun pg : page_t =>
          { pg with ser_buf_size_ := (page_at h.evicter.pages copyee).ser_buf_size_,
                    buf_ := some buf, destroy_ptr_ := false })
        (fun _ => rfl))
      (heap_frame_remove_waiter _ copyee acq)

theorem heap_frame_new_page_not_yet_loaded (h : page_heap_t) :
    heap_frame h (new_page_not_yet_loaded h) none := by
  obtain ⟨hp, hd, _, _, _⟩ := new_page_not_yet_loaded_fields h
  exact heap_frame_append h _ _ hp rfl hd

theorem heap_frame_new_page_with_copyee (h : page_heap_t) (copyee acq buf : Nat) :
    heap_frame h (new_page_with_copyee h copyee acq buf) (some (copyee, acq)) := by
  have h1 : heap_frame h (add_waiter (new_page_not_yet_loaded h) copyee acq)
      (some (copyee, acq)) :=
    heap_frame_trans _ _ _ _ (heap_frame_weaken _ _ _ (heap_frame_new_page_not_yet_loaded h))
      (heap_frame_add_waiter _ copyee acq)
  unfold new_page_with_copyee
  simp only
  split
  · exact heap_frame_trans _ _ _ _ h1
      (heap_frame_weaken _ _ _ (heap_frame_load_from_copyee_finish _ _ copyee acq buf))
  · exact heap_frame_congr _ _ _ _ h1 rfl rfl

theorem heap_frame_evict_loop (oldish : List Nat → Nat → Nat) (fuel : Nat) (h : page_heap_t)
    (e2 : evicter_t) (he : evict_loop oldish fuel h.evicter = some e2) :
    heap_frame h { h with evicter := e2 } none := by
  induction fuel generalizing h with
  | zero =>
    cases hit : evict_iteration oldish h.evicter with
    | none =>
      simp only [evict_loop, hit, Option.some.injEq] at he
      subst he
      exact heap_frame_refl h none
    | some e1 => simp [evict_loop, hit] at he
  | succ n ih =>
    cases hit : evict_iteration oldish h.evicter with
    | none =>
      simp only [evict_loop, hit, Option.some.injEq] at he
      subst he
      exact heap_frame_refl h none
    | some e1 =>
      simp only [evict_loop, hit] at he
      obtain ⟨page, _, heq⟩ := evict_iteration_eq oldish _ _ hit
      have h1 : heap_frame h { h with evicter := e1 } none := by
        refine heap_frame_modify h _ page page_t.evict_self none ?_ rfl
          (fun x a ha => Or.inl ha)
        rw [heq]
      exact heap_frame_trans _ _ _ none h1 (ih { h with evicter := e1 } he)

theorem heap_frame_page_op (oldish : List Nat → Nat → Nat) (h : page_heap_t) (op : PageOp)
    (hnd : ∀ page, op ≠ PageOp.destroy page) :
    heap_frame h (op.apply oldish h) op.new_waiter := by
  cases op with
  | new_page_with_block_id b =>
    exact heap_frame_congr _ _ _ _ (heap_frame_new_page_not_yet_loaded h) rfl rfl
  | new_page_with_buf bs buf =>
    exact heap_frame_append h _
      { page_t.unloaded with ser_buf_size_ := bs, buf_ := some buf } rfl rfl rfl
  | new_page_with_copyee copyee acq buf => exact heap_frame_new_page_with_copyee h copyee acq buf
  | load_with_block_id_finish page buf tok sz =>
    exact heap_frame_trans h
      { h with loaders_ := h.loaders_.filter (fun l => !decide (l.1 = page)) } _ none
      (heap_frame_congr h h _ none (heap_frame_refl h none) rfl rfl)
      (heap_frame_load_with_block_id_finish _ page buf tok sz)
  | load_from_copyee_finish page buf =>
    show heap_frame h (match h.loaders_.lookup page with
      | some (page_loader_t.load_from_copyee copyee acq) => _
      | _ => h) none
    split
    · rename_i copyee acq _
      exact heap_frame_trans h
        { h with loaders_ := h.loaders_.filter (fun l => !decide (l.1 = page)) } _ none
        (heap_frame_congr h h _ none (heap_frame_refl h none) rfl rfl)
        (heap_frame_load_from_copyee_finish _ page copyee acq buf)
    · exact heap_frame_refl h none
  | add_waiter page acq => exact heap_frame_add_waiter h page acq
  | remove_waiter page acq => exact heap_frame_remove_waiter h page acq
  | get_buf_write page acq =>
    exact heap_frame_modify h _ page (fun pg : page_t => { pg with block_token_ := none }) none
      rfl rfl (fun x a ha => Or.inl ha)
  | destroy page => exact absurd rfl (hnd page)
  | evict_if_necessary =>
    show heap_frame h (match h.evicter.evict_if_necessary oldish with
      | some e1 => { h with evicter := e1 }
      | none => h) none
    cases he : h.evicter.evict_if_necessary oldish with
    | none => exact heap_frame_refl h none
    | some e1 => exact heap_frame_evict_loop oldish _ h e1 he

theorem heap_frame_live (h h1 : page_heap_t) (nw : Option (Nat × Nat))
    (hf : heap_frame h h1 nw) (q : Nat) (hl : h.live q = true) : h1.live q = true := by
  simp only [page_heap_t.live, Bool.and_eq_true, decide_eq_true_eq, Bool.not_eq_true',
    decide_eq_false_iff_not] at hl ⊢
  rw [hf.1]
  exact ⟨Nat.lt_of_lt_of_le hl.1 hf.2.1, hl.2⟩

theorem join_get?_eq_some (l : List (Option Nat)) (k p : Nat) :
    (l.get? k).join = some p ↔ l.get? k = some (some p) := by
  cases h : l.get? k with
  | none => simp
  | some x => cases x <;> simp

theorem count_set_eq (l : List (Option Nat)) (k : Nat) (x y a : Option Nat)
    (h : l.get? k = some x) :
    (l.set k y).count a + (if x = a then 1 else 0) =
      l.count a + (if y = a then 1 else 0) := by
  induction l generalizing k with
  | nil => cases h
  | cons z l ih =>
    cases k with
    | zero =>
      simp only [List.get?_cons_zero, Option.some.injEq] at h
      subst h
      simp only [List.set_cons_zero, List.count_cons]
      by_cases hz : z = a <;> by_cases hy : y = a <;> simp [hz, hy]
    | succ k =>
      simp only [List.get?_cons_succ] at h
      have := ih k h
      simp only [List.set_cons_succ, List.count_cons]
      omega

theorem get?_set_ne (l : List (Option Nat)) (k j : Nat) (y : Option Nat) (hne : j ≠ k) :
    (l.set k y).get? j = l.get? j := by
  rw [List.get?_eq_getElem?, List.get?_eq_getElem?, List.getElem?_set_ne (Ne.symm hne)]

theorem get?_set_self (l : List (Option Nat)) (k : Nat) (y : Option Nat) (hlt : k < l.length) :
    (l.set k y).get? k = some y := by
  rw [List.get?_eq_getElem?, List.getElem?_set_self hlt]

theorem get?_append_none (l : List (Option Nat)) (j : Nat) :
    ((l ++ [none]).get? j).join = (l.get? j).join := by
  rw [List.get?_eq_getElem?, List.get?_eq_getElem?]
  by_cases hlt : j < l.length
  · rw [List.getElem?_append_left hlt]
  · have hle : l.length ≤ j := Nat.le_of_not_lt hlt
    rw [List.getElem?_append_right hle, List.getElem?_eq_none hle]
    cases j - l.length <;> rfl

theorem heap_only_new_waiter (op : PageOp) (h : op.heap_only = true) :
    op.new_waiter = none ∧ ∀ page, op ≠ PageOp.destroy page := by
  cases op <;> simp [PageOp.heap_only] at h <;> exact ⟨rfl, fun _ hh => by cases hh⟩

theorem refs_inv_page_step (oldish : List Nat → Nat → Nat) (s : page_refs_t) (pop : PageOp)
    (extra : List (Nat × Nat)) (hinv : refs_inv oldish s) (hen : pop.enabled s.heap = true)
    (hnd : ∀ page, pop ≠ PageOp.destroy page)
    (hnew : ∀ q a, pop.new_waiter = some (q, a) →
      ∃ ptr, (a, ptr) ∈ extra ∧ s.page_of ptr = some q) :
    refs_inv oldish
      { s with heap := pop.apply oldish s.heap, acq_ptr_ := s.acq_ptr_ ++ extra } := by
  obtain ⟨h1, h2, h3, h4⟩ := hinv
  have hf := heap_frame_page_op oldish s.heap pop hnd
  refine ⟨PageReachable.step s.heap pop h1 hen, h2, ?_, ?_⟩
  · intro ptr p hp
    exact heap_frame_live _ _ _ hf p (h3 ptr p hp)
  · intro p a ha
    rcases hf.2.2 p a ha with hold | hn
    · obtain ⟨ptr, hm, hp⟩ := h4 p a hold
      exact ⟨ptr, List.mem_append_left _ hm, hp⟩
    · obtain ⟨ptr, hm, hp⟩ := hnew p a hn
      exact ⟨ptr, List.mem_append_right _ hm, hp⟩

theorem refs_inv_new_ptr (oldish : List Nat → Nat → Nat) (s : page_refs_t)
    (hinv : refs_inv oldish s) : refs_inv oldish { s with ptrs_ := s.ptrs_ ++ [none] } := by
  obtain ⟨h1, h2, h3, h4⟩ := hinv
  refine ⟨h1, ?_, ?_, ?_⟩
  · intro p
    show s.snapshot_refcount_ p = (s.ptrs_ ++ [none]).count (some p)
    rw [List.count_append, h2 p]
    simp
  · intro ptr p hp
    apply h3 ptr p
    unfold page_refs_t.page_of at hp ⊢
    rw [← get?_append_none]
    exact hp
  · intro p a ha
    obtain ⟨ptr, hm, hp⟩ := h4 p a ha
    refine ⟨ptr, hm, ?_⟩
    unfold page_refs_t.page_of at hp ⊢
    show ((s.ptrs_ ++ [none]).get? ptr).join = some p
    rw [get?_append_none]
    exact hp

theorem refs_inv_ptr_init (oldish : List Nat → Nat → Nat) (s : page_refs_t) (ptr page : Nat)
    (hinv : refs_inv oldish s) (hnull : s.ptrs_.get? ptr = some none)
    (hl : s.heap.live page = true) :
    refs_inv oldish (page_ptr_t.init s ptr (some page)) := by
  obtain ⟨h1, h2, h3, h4⟩ := hinv
  have hlt : ptr < s.ptrs_.length := by
    rw [List.get?_eq_getElem?] at hnull
    exact (List.getElem?_eq_some_iff.1 hnull).1
  have hother : ∀ j p, s.page_of j = some p →
      ((s.ptrs_.set ptr (some page)).get? j).join = some p := by
    intro j p hp
    have hne : j ≠ ptr := by
      intro he
      unfold page_refs_t.page_of at hp
      rw [he, hnull] at hp
      cases hp
    rw [get?_set_ne _ _ _ _ hne]
    exact hp
  refine ⟨h1, ?_, ?_, ?_⟩
  · intro p
    show (if p = page then s.snapshot_refcount_ page + 1 else s.snapshot_refcount_ p) =
      (s.ptrs_.set ptr (some page)).count (some p)
    have hc := count_set_eq s.ptrs_ ptr none (some page) (some p) hnull
    simp only [reduceCtorEq, if_false, Nat.add_zero, Option.some.injEq] at hc
    rw [hc, h2 p]
    by_cases hp : p = page
    · subst hp
      simp [h2]
    · have hp2 : ¬ page = p := fun hh => hp hh.symm
      simp [hp, hp2]
  · intro j p hp
    by_cases hj : j = ptr
    · subst hj
      have hp1 : ((s.ptrs_.set j (some page)).get? j).join = some p := hp
      rw [get?_set_self _ _ _ hlt] at hp1
      have hpp : page = p := by simpa using hp1
      show s.heap.live p = true
      rw [← hpp]
      exact hl
    · have hp1 : ((s.ptrs_.set ptr (some page)).get? j).join = some p := hp
      rw [get?_set_ne _ _ _ _ hj] at hp1
      exact h3 j p hp1
  · intro p a ha
    obtain ⟨j, hm, hp⟩ := h4 p a ha
    exact ⟨j, hm, hother j p hp⟩

theorem live_page_t_destroy (h : page_heap_t) (p q : Nat) :
    (page_t_destroy h p).live q = (h.live q && !decide (q = p)) := by
  unfold page_t_destroy evicter_t.remove_page
  simp only [page_heap_t.live, pages_set_bag, List.mem_append, List.mem_singleton]
  by_cases h1 : q < h.evicter.pages.length <;> by_cases h2 : q ∈ h.deleted_ <;>
    by_cases h3 : q = p <;> simp [h1, h2, h3]

theorem waiters_of_page_t_destroy (h : page_heap_t) (p q : Nat) :
    waiters_of (page_t_destroy h p) q = waiters_of h q := by
  unfold waiters_of page_t_destroy evicter_t.remove_page
  simp only [pages_set_bag]

theorem page_ptr_t_reset_eq (s : page_refs_t) (ptr p : Nat) (hp : s.page_of ptr = some p) :
    page_ptr_t.reset s ptr =
      { heap := if s.snapshot_refcount_ p - 1 = 0 then page_t_destroy s.heap p else s.heap,
        snapshot_refcount_ :=
          fun q => if q = p then s.snapshot_refcount_ p - 1 else s.snapshot_refcount_ q,
        ptrs_ := s.ptrs_.set ptr none,
        acq_ptr_ := s.acq_ptr_ } := by
  unfold page_ptr_t.reset page_t.remove_snapshotter
  rw [hp]
  simp only [if_true]
  split <;> rfl

theorem reset_discipline (s : page_refs_t) (ptr p a j : Nat)
    (hen : (RefOp.ptr_reset ptr).enabled s = true) (hp : s.page_of ptr = some p)
    (hm : (a, j) ∈ s.acq_ptr_) (ha : a ∈ waiters_of s.heap p) : j ≠ ptr := by
  simp only [RefOp.enabled, hp, List.all_eq_true] at hen
  have := hen (a, j) hm
  intro he
  simp [he, ha] at this

theorem page_of_lt (s : page_refs_t) (ptr p : Nat) (hp : s.page_of ptr = some p) :
    s.ptrs_.get? ptr = some (some p) ∧ ptr < s.ptrs_.length := by
  unfold page_refs_t.page_of at hp
  have h1 := (join_get?_eq_some _ _ _).1 hp
  refine ⟨h1, ?_⟩
  rw [List.get?_eq_getElem?] at h1
  exact (List.getElem?_eq_some_iff.1 h1).1

theorem count_after_reset (s : page_refs_t) (ptr p q : Nat) (hp : s.page_of ptr = some p) :
    (s.ptrs_.set ptr none).count (some q) + (if p = q then 1 else 0) =
      s.ptrs_.count (some q) := by
  have hc := count_set_eq s.ptrs_ ptr (some p) none (some q) (page_of_lt s ptr p hp).1
  simp only [reduceCtorEq, if_false, Nat.add_zero, Option.some.injEq] at hc
  exact hc

theorem no_waiters_at_zero (oldish : List Nat → Nat → Nat) (s : page_refs_t) (ptr p : Nat)
    (hinv : refs_inv oldish s) (hp : s.page_of ptr = some p)
    (hen : (RefOp.ptr_reset ptr).enabled s = true) (hz : s.snapshot_refcount_ p - 1 = 0) :
    waiters_of s.heap p = [] := by
  obtain ⟨_, h2, _, h4⟩ := hinv
  apply List.eq_nil_iff_forall_not_mem.2
  intro a ha
  obtain ⟨j, hm, hj⟩ := h4 p a ha
  have hne := reset_discipline s ptr p a j hen hp hm ha
  have hc := count_after_reset s ptr p p hp
  rw [if_pos rfl] at hc
  have hmem : some p ∈ s.ptrs_.set ptr none := by
    have hg : (s.ptrs_.set ptr none).get? j = some (some p) := by
      rw [get?_set_ne _ _ _ _ hne]
      exact (page_of_lt s j p hj).1
    exact List.get?_mem hg
  have hpos := List.count_pos_iff.2 hmem
  have := h2 p
  omega

theorem refs_inv_ptr_reset (oldish : List Nat → Nat → Nat) (s : page_refs_t) (ptr : Nat)
    (hinv : refs_inv oldish s) (hen : (RefOp.ptr_reset ptr).enabled s = true) :
    refs_inv oldish (page_ptr_t.reset s ptr) := by
  cases hp : s.page_of ptr with
  | none =>
    unfold page_ptr_t.reset
    rw [hp]
    exact hinv
  | some p =>
    rw [page_ptr_t_reset_eq s ptr p hp]
    have hinv0 := hinv
    obtain ⟨h1, h2, h3, h4⟩ := hinv
    have hother : ∀ j q, j ≠ ptr → ((s.ptrs_.set ptr none).get? j).join = some q →
        s.page_of j = some q := by
      intro j q hne hq
      rw [get?_set_ne _ _ _ _ hne] at hq
      exact hq
    have hnptr : ∀ q, ((s.ptrs_.set ptr none).get? ptr).join = some q → False := by
      intro q hq
      rw [get?_set_self _ _ _ (page_of_lt s ptr p hp).2] at hq
      cases hq
    have hrec : ∀ q a, a ∈ waiters_of s.heap q →
        ∃ j, (a, j) ∈ s.acq_ptr_ ∧ ((s.ptrs_.set ptr none).get? j).join = some q := by
      intro q a ha
      obtain ⟨j, hm, hj⟩ := h4 q a ha
      have hne : j ≠ ptr := by
        intro he
        rw [he, hp] at hj
        simp only [Option.some.injEq] at hj
        rw [← hj] at ha
        exact reset_discipline s ptr p a j hen hp hm ha he
      refine ⟨j, hm, ?_⟩
      rw [get?_set_ne _ _ _ _ hne]
      exact hj
    have hcount : ∀ q, (if q = p then s.snapshot_refcount_ p - 1 else s.snapshot_refcount_ q) =
        (s.ptrs_.set ptr none).count (some q) := by
      intro q
      have hc := count_after_reset s ptr p q hp
      have := h2 q
      by_cases hq : q = p
      · subst hq
        rw [if_pos rfl] at hc ⊢
        omega
      · have hq2 : ¬ p = q := fun hh => hq hh.symm
        rw [if_neg hq2] at hc
        rw [if_neg hq]
        omega
    by_cases hz : s.snapshot_refcount_ p - 1 = 0
    · have hw := no_waiters_at_zero oldish s ptr p hinv0 hp hen hz
      have hlp := h3 ptr p hp
      have hen2 : (PageOp.destroy p).enabled s.heap = true := by
        simp only [PageOp.enabled, Bool.and_eq_true]
        refine ⟨hlp, ?_⟩
        unfold waiters_of at hw
        rw [hw]
        rfl
      rw [if_pos hz]
      refine ⟨PageReachable.step s.heap (PageOp.destroy p) h1 hen2, hcount, ?_, ?_⟩
      · intro j q hq
        have hq1 : ((s.ptrs_.set ptr none).get? j).join = some q := hq
        have hne : j ≠ ptr := by
          intro he
          rw [he] at hq1
          exact hnptr q hq1
        have hq2 := hother j q hne hq1
        show (page_t_destroy s.heap p).live q = true
        rw [live_page_t_destroy, h3 j q hq2]
        have hqp : q ≠ p := by
          intro he
          have hmem : some p ∈ s.ptrs_.set ptr none := by
            rw [he] at hq1
            exact List.get?_mem ((join_get?_eq_some _ _ _).1 hq1)
          have hpos := List.count_pos_iff.2 hmem
          have := hcount p
          rw [if_pos rfl] at this
          omega
        simp [hqp]
      · intro q a ha
        have ha1 : a ∈ waiters_of (page_t_destroy s.heap p) q := ha
        rw [waiters_of_page_t_destroy] at ha1
        exact hrec q a ha1
    · rw [if_neg hz]
      refine ⟨h1, hcount, ?_, hrec⟩
      intro j q hq
      have hq1 : ((s.ptrs_.set ptr none).get? j).join = some q := hq
      have hne : j ≠ ptr := by
        intro he
        rw [he] at hq1
        exact hnptr q hq1
      exact h3 j q (hother j q hne hq1)

theorem refs_inv_step (oldish : List Nat → Nat → Nat) (s : page_refs_t) (op : RefOp)
    (hinv : refs_inv oldish s) (hen : op.enabled s = true) :
    refs_inv oldish (op.apply oldish s) := by
  cases op with
  | page pop =>
    simp only [RefOp.enabled, Bool.and_eq_true] at hen
    obtain ⟨hnw, hnd⟩ := heap_only_new_waiter pop hen.1
    have := refs_inv_page_step oldish s pop [] hinv hen.2 hnd (by
      intro q a hq
      rw [hnw] at hq
      cases hq)
    simpa [RefOp.apply, RefOp.page_op, RefOp.new_acq_ptr] using this
  | new_ptr => exact refs_inv_new_ptr oldish s hinv
  | ptr_init ptr p =>
    simp only [RefOp.enabled, Bool.and_eq_true, decide_eq_true_eq] at hen
    exact refs_inv_ptr_init oldish s ptr p hinv hen.1 hen.2
  | ptr_reset ptr => exact refs_inv_ptr_reset oldish s ptr hinv hen
  | acq_init acq ptr =>
    simp only [RefOp.enabled] at hen
    cases hp : s.page_of ptr with
    | none => rw [hp] at hen; cases hen
    | some p =>
      rw [hp] at hen
      simp only [Bool.and_eq_true] at hen
      have := refs_inv_page_step oldish s (PageOp.add_waiter p acq) [(acq, ptr)] hinv hen.1
        (fun _ hh => by cases hh) (by
          intro q a hq
          simp only [PageOp.new_waiter, Option.some.injEq, Prod.mk.injEq] at hq
          refine ⟨ptr, ?_, ?_⟩
          · rw [← hq.2]
            exact List.mem_singleton_self _
          · rw [← hq.1]
            exact hp)
      simpa [RefOp.apply, RefOp.page_op, RefOp.new_acq_ptr, hp] using this
  | acq_destroy acq =>
    simp only [RefOp.enabled] at hen
    cases hl : s.acq_ptr_.lookup acq with
    | none => rw [hl] at hen; cases hen
    | some ptr =>
      rw [hl] at hen
      simp only at hen
      cases hp : s.page_of ptr with
      | none => rw [hp] at hen; cases hen
      | some p =>
        rw [hp] at hen
        have := refs_inv_page_step oldish s (PageOp.remove_waiter p acq) [] hinv hen
          (fun _ hh => by cases hh) (by
            intro q a hq
            cases hq)
        simpa [RefOp.apply, RefOp.page_op, RefOp.new_acq_ptr, hl, hp] using this
  | copy ptr acq buf =>
    simp only [RefOp.enabled] at hen
    cases hp : s.page_of ptr with
    | none => rw [hp] at hen; cases hen
    | some p =>
      rw [hp] at hen
      simp only [Bool.and_eq_true] at hen
      have := refs_inv_page_step oldish s (PageOp.new_page_with_copyee p acq buf) [(acq, ptr)]
        hinv hen.1 (fun _ hh => by cases hh) (by
          intro q a hq
          simp only [PageOp.new_waiter, Option.some.injEq, Prod.mk.injEq] at hq
          refine ⟨ptr, ?_, ?_⟩
          · rw [← hq.2]
            exact List.mem_singleton_self _
          · rw [← hq.1]
            exact hp)
      simpa [RefOp.apply, RefOp.page_op, RefOp.new_acq_ptr, hp] using this
  | copy_finish p buf =>
    simp only [RefOp.enabled] at hen
    have := refs_inv_page_step oldish s (PageOp.load_from_copyee_finish p buf) [] hinv hen
      (fun _ hh => by cases hh) (by
        intro q a hq
        cases hq)
    simpa [RefOp.apply, RefOp.page_op, RefOp.new_acq_ptr] using this

theorem ref_reachable_inv (oldish : List Nat → Nat → Nat) (s : page_refs_t)
    (hr : RefReachable oldish s) : refs_inv oldish s := by
  induction hr with
  | init m =>
    refine ⟨PageReachable.init m, fun _ => rfl, ?_, ?_⟩
    · intro ptr p hp
      cases ptr <;> cases hp
    · intro p a ha
      have hl : waiters_of (page_heap_t.init m) p = [] := by
        unfold waiters_of page_at
        cases p <;> rfl
      rw [show (page_refs_t.init m).heap = page_heap_t.init m from rfl, hl] at ha
      cases ha
  | step s op _ hen ih => exact refs_inv_step oldish s op ih hen

theorem ref_reachable_run_from (oldish : List Nat → Nat → Nat) (ops : List RefOp)
    (s : page_refs_t) (hs : RefReachable oldish s) :
    RefReachable oldish (ref_run_from oldish s ops) := by
  have key : ∀ (ops : List RefOp) (s t : page_refs_t), RefReachable oldish s →
      ref_run oldish s ops = some t → RefReachable oldish t := by
    intro ops
    induction ops with
    | nil =>
      intro s t hs h
      simp only [ref_run, Option.some.injEq] at h
      subst h
      exact hs
    | cons op ops ih =>
      intro s t hs h
      simp only [ref_run] at h
      split at h
      · rename_i hen
        exact ih _ t (RefReachable.step s op hs hen) h
      · cases h
  unfold ref_run_from
  cases h : ref_run oldish s ops with
  | none => exact hs
  | some t => exact key ops s t hs h

theorem page_ptr_t_init_eq (s : page_refs_t) (ptr page : Nat) :
    page_ptr_t.init s ptr (some page) =
      { s with
        snapshot_refcount_ :=
          fun q => if q = page then s.snapshot_refcount_ page + 1 else s.snapshot_refcount_ q,
        ptrs_ := s.ptrs_.set ptr (some page) } := rfl

/-- C22: in every reachable state of pages, pointers and acquirers.
`page_ptr_t::init` with a page increments the snapshot count of that page by one
and changes no other count and no page. `page_ptr_t::reset` of a pointer that
holds `page`, for a caller who keeps every `page_acq_t` within the lifetime of a
pointer on the same page, decrements the count of `page` by one and changes no
other count. When the new count is not zero the pages are unchanged. When it is
zero the page has no waiters and the assertions of `remove_snapshotter` hold;
the page, which was live and in the bag of its eviction category, is destroyed
and is in no bag; and the `size_` of that bag is reduced by the `ser_buf_size_`
of the page (the sum of the sizes in the bag being representable in 64 bits). -/
theorem snapshot_reference_counting (oldish : List Nat → Nat → Nat) (s : page_refs_t)
    (hr : RefReachable oldish s) (ptr page : Nat) :
    (∀ q, (page_ptr_t.init s ptr (some page)).snapshot_refcount_ q =
      s.snapshot_refcount_ q + (if q = page then 1 else 0)) ∧
    (page_ptr_t.init s ptr (some page)).heap = s.heap ∧
    (s.page_of ptr = some page → (RefOp.ptr_reset ptr).enabled s = true →
      (page_ptr_t.reset s ptr).snapshot_refcount_ page + 1 = s.snapshot_refcount_ page ∧
      (∀ q, q ≠ page →
        (page_ptr_t.reset s ptr).snapshot_refcount_ q = s.snapshot_refcount_ q) ∧
      ((page_ptr_t.reset s ptr).snapshot_refcount_ page ≠ 0 →
        (page_ptr_t.reset s ptr).heap = s.heap) ∧
      ((page_ptr_t.reset s ptr).snapshot_refcount_ page = 0 →
        waiters_of s.heap page = [] ∧
        page_t.remove_snapshotter_asserts s page = true ∧
        (page_ptr_t.reset s ptr).heap = page_t_destroy s.heap page ∧
        s.heap.live page = true ∧
        (page_ptr_t.reset s ptr).heap.live page = false ∧
        page ∈ (s.heap.evicter.bag
          (correct_eviction_category (page_at s.heap.evicter.pages page))).bag_ ∧
        (∀ n, page ∉ ((page_ptr_t.reset s ptr).heap.evicter.bag n).bag_) ∧
        (bag_size_sum s.heap.evicter
            (correct_eviction_category (page_at s.heap.evicter.pages page)) < UINT64 →
          ((page_ptr_t.reset s ptr).heap.evicter.bag
            (correct_eviction_category (page_at s.heap.evicter.pages page))).size_ +
              ser_buf_size_of s.heap.evicter.pages page =
            (s.heap.evicter.bag
              (correct_eviction_category (page_at s.heap.evicter.pages page))).size_))) := by
  have hinv := ref_reachable_inv oldish s hr
  refine ⟨?_, rfl, ?_⟩
  · intro q
    rw [page_ptr_t_init_eq]
    by_cases hq : q = page
    · subst hq
      simp
    · simp [hq]
  · intro hp hen
    have hinv1 := refs_inv_ptr_reset oldish s ptr hinv hen
    rw [page_ptr_t_reset_eq s ptr page hp] at hinv1 ⊢
    obtain ⟨h1, h2, h3, h4⟩ := hinv
    have hge : 0 < s.snapshot_refcount_ page := by
      have hmem : some page ∈ s.ptrs_ := List.get?_mem (page_of_lt s ptr page hp).1
      have hpos := List.count_pos_iff.2 hmem
      rw [h2 page]
      exact hpos
    refine ⟨?_, ?_, ?_, ?_⟩
    · simp only [if_true]
      omega
    · intro q hq
      simp only [if_neg hq]
    · intro hnz
      simp only [if_true] at hnz
      simp only [if_neg hnz]
    · intro hz
      simp only [if_true] at hz
      simp only [if_pos hz] at hinv1 ⊢
      have hw := no_waiters_at_zero oldish s ptr page ⟨h1, h2, h3, h4⟩ hp hen hz
      have hlive := h3 ptr page hp
      have hbag := (page_reachable_inv oldish s.heap h1).1
      have hmem : page ∈ (s.heap.evicter.bag
          (correct_eviction_category (page_at s.heap.evicter.pages page))).bag_ :=
        (mem_bag_iff_of_inv s.heap hbag page hlive _).2 rfl
      have hdead : (page_t_destroy s.heap page).live page = false := by
        rw [live_page_t_destroy]
        simp
      refine ⟨hw, ?_, trivial, hlive, hdead, hmem, ?_, ?_⟩
      · simp [page_t.remove_snapshotter_asserts, hge, hz, hw]
      · intro n
        refine not_mem_bag_of_not_live _ (page_reachable_inv oldish _ hinv1.1).1 page ?_ n
        rw [hdead]
        exact Bool.false_ne_true
      · intro hlt
        have hs := (page_reachable_size_inv oldish s.heap h1).1
          (correct_eviction_category (page_at s.heap.evicter.pages page))
        have herase := sum_sizes_erase s.heap.evicter.pages _ page hmem
        have hbagset : (page_t_destroy s.heap page).evicter.bag
            (correct_eviction_category (page_at s.heap.evicter.pages page)) =
            (s.heap.evicter.bag
              (correct_eviction_category (page_at s.heap.evicter.pages page))).remove page
              (ser_buf_size_of s.heap.evicter.pages page) := by
          unfold page_t_destroy evicter_t.remove_page
          simp only [bag_set_bag, if_true]
        rw [hbagset]
        show ((s.heap.evicter.bag
            (correct_eviction_category (page_at s.heap.evicter.pages page))).size_ +
            (UINT64 - ser_buf_size_of s.heap.evicter.pages page % UINT64)) % UINT64 +
            ser_buf_size_of s.heap.evicter.pages page = _
        rw [hs]
        unfold bag_size_sum at hlt ⊢
        unfold UINT64 at hlt ⊢
        omega

/-- After `trace_ptr_acq` the pointer 0 holds page 0, whose snapshot count is
one and which has no waiters. Resetting the pointer brings the count to zero: the
page is destroyed and removed from the evictable-unbacked bag, whose size drops
from 4096 to zero. -/
theorem snapshot_reference_counting_witness :
    (ref_run oldish_first (page_refs_t.init 100000) trace_ptr_acq).isSome = true ∧
    (ref_run_from oldish_first (page_refs_t.init 100000) trace_ptr_acq).page_of 0 = some 0 ∧
    (ref_run_from oldish_first (page_refs_t.init 100000) trace_ptr_acq).snapshot_refcount_ 0
      = 1 ∧
    ((ref_run_from oldish_first (page_refs_t.init 100000) trace_ptr_acq).heap.evicter.bag
      bag_name.evictable_unbacked) = { bag_ := [0], size_ := 4096 } ∧
    (page_ptr_t.reset (ref_run_from oldish_first (page_refs_t.init 100000) trace_ptr_acq)
      0).snapshot_refcount_ 0 = 0 ∧
    waiters_of (ref_run_from oldish_first (page_refs_t.init 100000) trace_ptr_acq).heap 0
      = [] ∧
    (page_ptr_t.reset (ref_run_from oldish_first (page_refs_t.init 100000) trace_ptr_acq)
      0).heap.live 0 = false ∧
    ((page_ptr_t.reset (ref_run_from oldish_first (page_refs_t.init 100000) trace_ptr_acq)
      0).heap.evicter.bag bag_name.evictable_unbacked) = { bag_ := [], size_ := 0 } := by
  obtain ⟨_, _, h3⟩ := snapshot_reference_counting oldish_first
    (ref_run_from oldish_first (page_refs_t.init 100000) trace_ptr_acq)
    (ref_reachable_run_from oldish_first trace_ptr_acq _ (RefReachable.init 100000)) 0 0
  obtain ⟨_, _, _, h7⟩ := h3 (by decide) (by decide)
  obtain ⟨h8, _, _, _, h9, _⟩ := h7 (by decide)
  exact ⟨by decide, by decide, by decide, by decide, by decide, h8, h9, by decide⟩

end alt

namespace pseudo

/-- C29: `sanitize::tz` accepts the time zone `+99` and returns `+99:00`, which
`sanitize::tz` rejects: the branch for a time zone without minutes returns
before the hours are checked. It accepts `-0000` and returns `-00:00`, which it
rejects by its first check. So `sanitize_time` stores for `+99` a time zone that
`time_to_boost` cannot read back. -/
theorem sanitize_tz_result_rejected :
    sanitize.tz "+99".toList = some "+99:00".toList ∧
    sanitize.tz "+99:00".toList = none ∧
    sanitize.tz "-0000".toList = some "-00:00".toList ∧
    sanitize.tz "-00:00".toList = none ∧
    sanitize_time_timezone "+99".toList = some "+99:00".toList ∧
    time_to_boost_zone "+99:00".toList = none := by
  decide

end pseudo

namespace watchable_map

theorem lookup_erase_ne (m : std_map) (key k : Nat) (h : k ≠ key) :
    (std_map.erase m key).lookup k = m.lookup k := by
  induction m with
  | nil => rfl
  | cons e rest ih =>
    obtain ⟨a, b⟩ := e
    unfold std_map.erase at ih ⊢
    by_cases ha : a = key
    · subst ha
      rw [List.filter_cons_of_neg (by simp), ih, List.lookup_cons]
      have hb : (k == a) = false := by simpa using h
      simp only [hb]
    · rw [List.filter_cons_of_pos (by simpa using ha), List.lookup_cons, List.lookup_cons, ih]

theorem lookup_insert_of_some (m : std_map) (key value k v : Nat)
    (h : m.lookup k = some v) : (std_map.insert m key value).lookup k = some v := by
  unfold std_map.insert
  split
  · exact h
  · rename_i hnone
    have hne : k ≠ key := by
      intro he
      rw [he] at h
      rw [h] at hnone
      exact hnone rfl
    clear hnone
    induction m with
    | nil => cases h
    | cons e rest ih =>
      obtain ⟨a, b⟩ := e
      unfold std_map.insert_sorted
      have hb : (k == key) = false := by simpa using hne
      split
      · rw [List.lookup_cons]
        simp only [hb]
        exact h
      · rw [List.lookup_cons] at h ⊢
        by_cases hka : k = a
        · subst hka
          simp only [beq_self_eq_true] at h ⊢
          exact h
        · have hb2 : (k == a) = false := by simpa using hka
          simp only [hb2] at h ⊢
          exact ih h

theorem foldl_delete_keeps (new_value : std_map) (k v : Nat)
    (hk : std_map.count new_value k ≠ 0) (l : std_map) (w : watchable_map_var_t)
    (h : w.map.lookup k = some v) :
    (l.foldl (fun acc jt =>
      if std_map.count new_value jt.1 = 0 then acc.delete_key jt.1 else acc) w).map.lookup k =
      some v := by
  induction l generalizing w with
  | nil => exact h
  | cons e rest ih =>
    simp only [List.foldl_cons]
    apply ih
    split
    · rename_i hz
      have hne : k ≠ e.1 := by
        intro he
        rw [he] at hk
        exact hk hz
      show (std_map.erase w.map e.1).lookup k = some v
      rw [lookup_erase_ne _ _ _ hne]
      exact h
    · exact h

theorem foldl_set_keeps (k v : Nat) (l : std_map) (w : watchable_map_var_t)
    (h : w.map.lookup k = some v) :
    (l.foldl (fun acc it => acc.set_key_no_equals it.1 it.2) w).map.lookup k = some v := by
  induction l generalizing w with
  | nil => exact h
  | cons e rest ih =>
    simp only [List.foldl_cons]
    apply ih
    exact lookup_insert_of_some _ _ _ _ _ h

/-- C30: when the map holds the value `v` for a key that the argument of
`set_all` also has, `get_all` after `set_all` still holds `v` for that key,
whatever value the argument gives: `set_key_no_equals` calls
`std::map::insert`, which does not overwrite an entry. -/
theorem set_all_keeps_old_value (w : watchable_map_var_t) (new_value : std_map) (k v : Nat)
    (hold : std_map.find w.map k = some v) (hnew : std_map.count new_value k ≠ 0) :
    std_map.find (w.set_all new_value).get_all k = some v := by
  unfold watchable_map_var_t.set_all watchable_map_var_t.get_all std_map.find
  exact foldl_set_keeps k v new_value _ (foldl_delete_keeps new_value k v hnew w.map w hold)

/-- The map holds 10 for key 1 and 5 for key 2; `set_all` with the map that
gives 20 for key 1 and 30 for key 3 leaves 10 for key 1. -/
theorem set_all_keeps_old_value_witness :
    ((watchable_map_var_t.mk [(1, 10), (2, 5)]).set_all [(1, 20), (3, 30)]).get_all =
      [(1, 10), (3, 30)] ∧
    std_map.find ((watchable_map_var_t.mk [(1, 10), (2, 5)]).set_all
      [(1, 20), (3, 30)]).get_all 1 = some 10 :=
  ⟨by decide,
   set_all_keeps_old_value (watchable_map_var_t.mk [(1, 10), (2, 5)]) [(1, 20), (3, 30)] 1 10
     (by decide) (by decide)⟩

end watchable_map
